import Mathlib

/-!
# heystore `search` package: query mini-language parser and WHERE compiler

A shallow embedding of `src/search/search.go`, followed by the properties
proved of it.

* Go strings are lists of Unicode code points (`Str`).  Every index the code
  computes is the position of an ASCII space or single quote, so slicing by
  code point and slicing by byte cut at the same places.
* `regexp` is embedded as a small backtracking matcher (`Re`, `run`,
  `FindStringSubmatch`) that enumerates the matches of a pattern in Go's
  leftmost-first priority order; the eight patterns of `ParseSearchString2`
  are transcribed constructor by constructor.
* Library functions whose result is a float or a time, `fmt` on such values,
  and the Unicode `Han` table, are fields of `Lib`; every property is proved
  for all libraries.
* A Go map is an association list with distinct keys; `range` visits it in
  list order, so a property of one call proved for every list covers every
  visiting order. Go picks the order afresh at every `range`, so two calls on
  one map (`WhereString` and `SearchDB`, lines 438 and 367) need not visit it
  alike: a property relating two calls is stated over two lists, the second a
  reordering of the first.
* The two results `(SearchData, error)` are a pair whose second component is
  `none` for a nil error.  The `for` loop of `splitSearchString` and the
  recursions of `WhereString` and `SearchDB` run on a bound, and their results
  are wrapped in `Option`; `splitSearchString_total`, `WhereString_total` and
  `SearchDB_total` show the bound is never hit.
* The query builder `*gorm.DB` is the list of the `Where` calls it has
  received, each with its condition and its arguments.
* The paging blocks of the two list helpers of `src/gorm/utils.go` are
  embedded on unbounded integers, every arithmetic result wrapped to 64 bits
  (`wrapInt`).
-/

namespace Search

/-- A Go string, as its sequence of code points. -/
abbrev Str := List Char

/-! ## Characters -/

/-- The single quote character. -/
def quote : Char := Char.ofNat 39

/-- The double quote character. -/
def dquote : Char := Char.ofNat 34

/-- The line feed character. -/
def newline : Char := Char.ofNat 10

/-- Character range `lo-hi` of a class. -/
def inRange (lo hi : Nat) (c : Char) : Bool :=
  decide (lo ≤ c.toNat) && decide (c.toNat ≤ hi)

/-- Class `a-z`. -/
def isLower (c : Char) : Bool := inRange 97 122 c

/-- Class `A-Z`. -/
def isUpper (c : Char) : Bool := inRange 65 90 c

/-- Class `\d` (and `0-9`): ASCII digits only in Go's regexp. -/
def isDigit (c : Char) : Bool := inRange 48 57 c

/-- Class `["']`. -/
def isQuote (c : Char) : Bool := c == dquote || c == quote

/-- The operand of `.`: any character but a line feed. -/
def isAnyNoNL (c : Char) : Bool := c != newline

/-- Go `unicode.IsSpace`, the characters `strings.TrimSpace` removes. -/
def isSpace (c : Char) : Bool :=
  inRange 9 13 c || c.toNat == 32 || c.toNat == 133 || c.toNat == 160 ||
  c.toNat == 5760 || inRange 8192 8202 c || c.toNat == 8232 || c.toNat == 8233 ||
  c.toNat == 8239 || c.toNat == 8287 || c.toNat == 12288

/-! ## Regular expressions -/

/-- Abstract syntax of the regexp fragment the package uses. -/
inductive Re where
  | eps : Re
  | bot : Re
  | eot : Re
  | chr (p : Char → Bool) : Re
  | seq (a b : Re) : Re
  | alt (a b : Re) : Re
  | star (a : Re) : Re
  | group (i : Nat) (a : Re) : Re

/-- Capture registers: the text last captured by each group, newest first. -/
abbrev Caps := List (Nat × Str)

/-- A matcher state: the text not yet consumed and the captures so far. -/
abbrev St := Str × Caps

/-- Greedy iteration of `f`: the states reached by more iterations come before
the state reached by fewer.  An iteration that consumes nothing is dropped. -/
def starLoop (f : St → List St) : Nat → St → List St
  | 0, st => [st]
  | k + 1, st =>
    ((f st).filter (fun m => decide (m.1.length < st.1.length))).flatMap (starLoop f k) ++ [st]

/-- All ways `r` can match a prefix of the remaining text, in priority order
(the order a backtracking matcher tries them, which is the order Go's
leftmost-first semantics ranks them).  `n` is the length of the whole text. -/
def run (n : Nat) : Re → St → List St
  | .eps, st => [st]
  | .bot, st => if st.1.length = n then [st] else []
  | .eot, st => if st.1.length = 0 then [st] else []
  | .chr p, st =>
    match st.1 with
    | [] => []
    | c :: t => if p c then [(t, st.2)] else []
  | .seq a b, st => (run n a st).flatMap (run n b)
  | .alt a b, st => run n a st ++ run n b st
  | .star a, st => starLoop (run n a) st.1.length st
  | .group i a, st =>
    (run n a st).map (fun m => (m.1, (i, st.1.take (st.1.length - m.1.length)) :: m.2))

/-- Number of capture groups: the largest group index. -/
def Re.groups : Re → Nat
  | .seq a b => max a.groups b.groups
  | .alt a b => max a.groups b.groups
  | .star a => a.groups
  | .group i a => max i a.groups
  | _ => 0

/-- The submatch slice of a match that started at `s` and ended in state `e`:
the matched text, then each group's text (empty when the group took no part). -/
def submatches (r : Re) (s : Str) (e : St) : List Str :=
  s.take (s.length - e.1.length) ::
    (List.range r.groups).map (fun i => (e.2.lookup (i + 1)).getD [])

/-- Search for the leftmost match among the start positions of `s`, a suffix
of a text of length `n`. -/
def findFrom (r : Re) (n : Nat) : Str → List Str
  | [] =>
    match run n r ([], []) with
    | e :: _ => submatches r [] e
    | [] => []
  | c :: t =>
    match run n r (c :: t, []) with
    | e :: _ => submatches r (c :: t) e
    | [] => findFrom r n t

/-- Go `(*Regexp).FindStringSubmatch`: the leftmost match and its groups, or
the nil slice (`[]`) when there is no match. -/
def FindStringSubmatch (r : Re) (s : Str) : List Str := findFrom r s.length s

/-- Go `(*Regexp).MatchString`. -/
def MatchString (r : Re) (s : Str) : Bool := !(FindStringSubmatch r s).isEmpty

/-- Operator `{0,1}` (greedy). -/
def Re.opt (r : Re) : Re := .alt r .eps

/-- Operator `+` (greedy). -/
def Re.plus (r : Re) : Re := .seq r (.star r)

/-- A literal character. -/
def Re.lit (c : Char) : Re := .chr (fun x => x == c)

/-- Concatenation of a list of expressions. -/
def Re.cat : List Re → Re
  | [] => .eps
  | [r] => r
  | r :: rs => .seq r (Re.cat rs)

/-- Operator `{k}`. -/
def Re.rep : Nat → Re → Re
  | 0, _ => .eps
  | 1, r => r
  | k + 1, r => .seq r (Re.rep k r)

/-! ## Values, errors and library functions -/

/-- A Go `float64`, identified by its IEEE-754 bit pattern. -/
structure Float64 where
  bits : Nat
  deriving DecidableEq, Repr

/-- A Go `time.Time`: an instant and the zone offset it was written with. -/
structure Time where
  unixNano : Int
  offsetSec : Int
  deriving DecidableEq, Repr

/-- Go `error` values this package produces or passes on. -/
inductive GoError where
  /-- The package variable `ErrInvalidSearchSyntax`. -/
  | invalidSearchSyntax : GoError
  /-- A fresh `errors.New(msg)`. -/
  | new (msg : Str) : GoError
  /-- A `*strconv.NumError`; `range` tells `ErrRange` from `ErrSyntax`. -/
  | numError (func num : Str) (range : Bool) : GoError
  /-- An error of another library (`time.ParseError`). -/
  | lib (msg : Str) : GoError
  /-- The result of `errors.Wrap(cause, msg)` for a non-nil cause. -/
  | wrap (cause : GoError) (msg : Str) : GoError
  deriving DecidableEq, Repr

/-- Go `err.Error()`. -/
def GoError.Error : GoError → Str
  | .invalidSearchSyntax => "invalid search syntax".toList
  | .new msg => msg
  | .numError func num range =>
    "strconv.".toList ++ func ++ ": parsing ".toList ++ [dquote] ++ num ++ [dquote] ++
      (if range then ": value out of range".toList else ": invalid syntax".toList)
  | .lib msg => msg
  | .wrap cause msg => msg ++ ": ".toList ++ cause.Error

/-- Go `errors.Is(err, ErrInvalidSearchSyntax)`: the wrap chain of `err`
reaches the package variable. -/
def GoError.IsInvalidSearchSyntax : GoError → Bool
  | .invalidSearchSyntax => true
  | .wrap cause _ => cause.IsInvalidSearchSyntax
  | _ => false

/-- The package variable `ErrInvalidSearchSyntax`. -/
def ErrInvalidSearchSyntax : GoError := .invalidSearchSyntax

/-- `errors.Wrap` of `github.com/pkg/errors`: nil when `err` is nil. -/
def errors.Wrap (err : Option GoError) (message : Str) : Option GoError :=
  match err with
  | none => none
  | some e => some (.wrap e message)

/-- The digit loop of `strconv.ParseUint(s, 10, 64)`: `true` in the error is
`ErrRange`, `false` is `ErrSyntax`. -/
def parseUintLoop : Str → Nat → Except Bool Nat
  | [], n => .ok n
  | c :: t, n =>
    if !isDigit c then .error false
    else if n ≥ 2 ^ 64 / 10 + 1 then .error true
    else if n * 10 + (c.toNat - 48) ≥ 2 ^ 64 then .error true
    else parseUintLoop t (n * 10 + (c.toNat - 48))

/-- Go `strconv.ParseInt(s, 10, 64)`. -/
def ParseInt (s : Str) : Except GoError Int :=
  let err (range : Bool) : GoError := .numError "ParseInt".toList s range
  match s with
  | [] => .error (err false)
  | c :: t =>
    let neg := c == '-'
    let digits := if c == '+' || c == '-' then t else s
    match digits with
    | [] => .error (err false)
    | _ =>
      match parseUintLoop digits 0 with
      | .error range => .error (err range)
      | .ok un =>
        if !neg && un ≥ 2 ^ 63 then .error (err true)
        else if neg && un > 2 ^ 63 then .error (err true)
        else .ok (if neg then -(un : Int) else (un : Int))

/-- A predicate value with payload type `V`: Go `SearchValue`. -/
structure SearchValueOf (V : Type) where
  Symbol : Str
  Value : V
  Value2 : V
  deriving Repr

/-- Go `any`, restricted to the dynamic types the package stores in a
`SearchValue`: nil, `string`, `int64`, `float64`, `time.Time`, `SearchData`. -/
inductive Any where
  | nil : Any
  | str (s : Str) : Any
  | int64 (n : Int) : Any
  | float64 (f : Float64) : Any
  | time (t : Time) : Any
  | searchData (m : List (Str × List (SearchValueOf Any))) : Any

/-- Go `SearchValue`. -/
abbrev SearchValue := SearchValueOf Any

/-- Go `SearchData`, a `map[string][]SearchValue`: an association list with
distinct keys.  A nil slice and an empty slice are both `[]`. -/
abbrev SearchData := List (Str × List SearchValue)

/-- Library functions and tables used by the package and not defined in it. -/
structure Lib where
  /-- The Unicode table behind `\p{Han}`. -/
  isHan : Char → Bool
  /-- Every Han code point is at or above U+2E80. -/
  isHan_ge : ∀ c, isHan c = true → 11904 ≤ c.toNat
  /-- Go `strconv.ParseFloat(s, 64)`. -/
  ParseFloat : Str → Except GoError Float64
  /-- Go `time.Parse(time.RFC3339, s)`. -/
  ParseTime : Str → Except GoError Time
  /-- Go `fmt.Sprintf("%v", f)` for a float. -/
  fmtFloat : Float64 → Str
  /-- Go `fmt.Sprintf("%v", t)` for a time. -/
  fmtTime : Time → Str
  /-- Go `fmt.Sprintf("%v", m)` for a `SearchData`. -/
  fmtSearchData : SearchData → Str

/-! ## The symbols -/

def SearchSymbolNone : Str := "".toList
def SearchSymbolRange : Str := "..".toList
def SearchSymbolNot : Str := "!=".toList
def SearchSymbolEq : Str := "=".toList
def SearchSymbolGt : Str := ">".toList
def SearchSymbolGte : Str := ">=".toList
def SearchSymbolLt : Str := "<".toList
def SearchSymbolLte : Str := "<=".toList
def SearchSymbolSearch : Str := "search".toList

/-! ## Map operations -/

/-- Go `m[k]` with the comma-ok form. -/
def mapGet {α : Type} (m : List (Str × α)) (k : Str) : Option α := m.lookup k

/-- Go `m[k] = v`: replace the entry of `k`, or add one. -/
def mapSet {α : Type} : List (Str × α) → Str → α → List (Str × α)
  | [], k, v => [(k, v)]
  | (k0, v0) :: rest, k, v =>
    if k0 = k then (k, v) :: rest else (k0, v0) :: mapSet rest k v

/-! ## String functions -/

/-- Go `strings.Index(s, sep)` for a one-character `sep`; `none` is `-1`. -/
def Index : Str → Char → Option Nat
  | [], _ => none
  | a :: t, c => if a = c then some 0 else (Index t c).map (· + 1)

/-- Go `strings.Split(s, sep)` for a one-character `sep`. -/
def Split : Str → Char → List Str
  | [], _ => [[]]
  | a :: t, c =>
    if a = c then [] :: Split t c
    else
      match Split t c with
      | [] => [[a]]
      | h :: r => (a :: h) :: r

/-- Go `strings.TrimSpace`. -/
def TrimSpace (s : Str) : Str :=
  ((s.dropWhile isSpace).reverse.dropWhile isSpace).reverse

/-- The slice expression `s[lo:hi]`. -/
def slice (s : Str) (lo hi : Nat) : Str := (s.drop lo).take (hi - lo)

/-- Go `strings.Join`. -/
def Join : List Str → Str → Str
  | [], _ => []
  | [a], _ => a
  | a :: rest, sep => a ++ sep ++ Join rest sep

/-! ## `splitSearchString` -/

/-- The `for` loop of `splitSearchString` (lines 157-177), with the number of
passes bounded by `fuel`; `none` when the bound is hit before the loop ends.
The four cases are those of the two tests on `spaceIdx` and `quoteIdx`. -/
def splitLoop (text : Str) : Nat → Nat → List Str → Option (List Str)
  | 0, _, _ => none
  | fuel + 1, start, parts =>
    let onSpace (spaceIdx : Nat) : Option (List Str) :=
      splitLoop text fuel (start + spaceIdx + 1)
        (parts ++ [TrimSpace (slice text start (start + spaceIdx))])
    let onQuote (quoteIdx : Nat) : Option (List Str) :=
      match Index (text.drop (start + quoteIdx + 1)) quote with
      | none => some parts
      | some nextQuoteIdx =>
        splitLoop text fuel (start + (quoteIdx + nextQuoteIdx + 2))
          (parts ++ [TrimSpace (slice text start (start + quoteIdx + nextQuoteIdx + 2))])
    match Index (text.drop start) ' ', Index (text.drop start) quote with
    | none, none => some (parts ++ [TrimSpace (text.drop start)])
    | some spaceIdx, none => onSpace spaceIdx
    | some spaceIdx, some quoteIdx =>
      if spaceIdx < quoteIdx then onSpace spaceIdx else onQuote quoteIdx
    | none, some quoteIdx => onQuote quoteIdx

/-- Go `splitSearchString`.  Each pass moves `start` forward, so the length of
the trimmed text plus one bounds the number of passes. -/
def splitSearchString (text : Str) : Option (List Str) :=
  let text := TrimSpace text
  if text = [] then some []
  else splitLoop text (text.length + 1) 0 []

/-! ## The patterns of `ParseSearchString2` -/

/-- The alternation `>|>=|<|<=|!=`. -/
def opsRe : Re :=
  .alt (Re.lit '>') (.alt (Re.cat [Re.lit '>', Re.lit '=']) (.alt (Re.lit '<')
    (.alt (Re.cat [Re.lit '<', Re.lit '=']) (Re.cat [Re.lit '!', Re.lit '=']))))

/-- Class `[A-Za-z0-9_\-\p{Han}\.]` of `pattern1`. -/
def bareCls (L : Lib) (c : Char) : Bool :=
  isUpper c || isLower c || isDigit c || c == '_' || c == '-' || L.isHan c || c == '.'

/-- Class `[a-zA-Z0-9_\-\.]` of the field name in `pattern2` and `pattern4`. -/
def keyCls (c : Char) : Bool :=
  isLower c || isUpper c || isDigit c || c == '_' || c == '-' || c == '.'

/-- Class `[a-zA-Z0-9\p{Han}_\.\-:\+\*]` of the first value in `pattern2`. -/
def valCls (L : Lib) (c : Char) : Bool :=
  isLower c || isUpper c || isDigit c || L.isHan c || c == '_' || c == '.' || c == '-' ||
  c == ':' || c == '+' || c == '*'

/-- Class `[a-zA-Z0-9一-龥_\.\-:\+\*]` of the later values in `pattern2`. -/
def valCls2 (c : Char) : Bool :=
  isLower c || isUpper c || isDigit c || inRange 19968 40869 c || c == '_' || c == '.' ||
  c == '-' || c == ':' || c == '+' || c == '*'

/-- Class `[a-zA-Z0-9\p{Han}_\.\-:\+\*"']` of `pattern3`. -/
def rawCls (L : Lib) (c : Char) : Bool :=
  isLower c || isUpper c || isDigit c || L.isHan c || c == '_' || c == '.' || c == '-' ||
  c == ':' || c == '+' || c == '*' || c == dquote || c == quote

/-- The field name `(?:[$]{0,1})[a-zA-Z0-9_\-\.]+`. -/
def keyRe : Re := Re.cat [(Re.lit '$').opt, (Re.chr keyCls).plus]

/-- One value of `pattern2`:
`(?:>|>=|<|<=|!=){0,1}["']{0,1}(?:(?:[$]{0,1})[cls]*)["']{0,1}`. -/
def itemRe (cls : Char → Bool) : Re :=
  Re.cat [opsRe.opt, (Re.chr isQuote).opt, Re.cat [(Re.lit '$').opt, (Re.chr cls).star],
    (Re.chr isQuote).opt]

/-- Go `pattern1`: `^((?:[$]{0,1})[A-Za-z0-9_\-\p{Han}\.]+)$`. -/
def re1 (L : Lib) : Re :=
  Re.cat [.bot, .group 1 (Re.cat [(Re.lit '$').opt, (Re.chr (bareCls L)).plus]), .eot]

/-- The value list of `pattern2`: `(?:item)(?:,(?:item))*`. -/
def valuesRe (L : Lib) : Re :=
  Re.cat [itemRe (valCls L), (Re.cat [Re.lit ',', itemRe valCls2]).star]

/-- Go `pattern2`: `^(?:(key):((?:item)(?:,(?:item))*))$`. -/
def re2 (L : Lib) : Re :=
  Re.cat [.bot, Re.cat [.group 1 keyRe, Re.lit ':', .group 2 (valuesRe L)], .eot]

/-- Go `pattern3`:
`^(?:(>|>=|<|<=|!=){0,1}((?:[$]{0,1})[a-zA-Z0-9\p{Han}_\.\-:\+\*"']*))$`. -/
def re3 (L : Lib) : Re :=
  Re.cat [.bot,
    Re.cat [(Re.group 1 opsRe).opt, .group 2 (Re.cat [(Re.lit '$').opt, (Re.chr (rawCls L)).star])],
    .eot]

/-- Go `pattern4`: `^(?:(key):["'](.*)["'])$`. -/
def re4 : Re :=
  Re.cat [.bot,
    Re.cat [.group 1 keyRe, Re.lit ':', Re.chr isQuote, .group 2 (Re.chr isAnyNoNL).star,
      Re.chr isQuote],
    .eot]

/-- Go `strPattern`: `^(?:["'](.*)["'])$`. -/
def strRe : Re :=
  Re.cat [.bot, Re.cat [Re.chr isQuote, .group 1 (Re.chr isAnyNoNL).star, Re.chr isQuote], .eot]

/-- An endpoint of `intRangePattern`: `\d+|\*`. -/
def intEndRe : Re := .alt (Re.chr isDigit).plus (Re.lit '*')

/-- Go `intRangePattern`: `^(?:(?:(\d+|\*)\.\.(\d+|\*))|(\d+))$`. -/
def intRangeRe : Re :=
  Re.cat [.bot,
    .alt (Re.cat [.group 1 intEndRe, Re.lit '.', Re.lit '.', .group 2 intEndRe])
      (.group 3 (Re.chr isDigit).plus),
    .eot]

/-- A float literal of `floatRangePattern`: `[1-9]\d*\.\d*|0\.\d*[1-9]\d*|\d+`,
with `\*` as a last alternative when `star` is set. -/
def floatEndRe (star : Bool) : Re :=
  let digits := (Re.chr isDigit).star
  let nonzero := Re.chr (inRange 49 57)
  let lit : Re := (Re.chr isDigit).plus
  .alt (Re.cat [nonzero, digits, Re.lit '.', digits])
    (.alt (Re.cat [Re.lit '0', Re.lit '.', digits, nonzero, digits])
      (if star then .alt lit (Re.lit '*') else lit))

/-- Go `floatRangePattern`: `^(?:(?:(F|\*)\.\.(F|\*))|(F))$` with
`F = [1-9]\d*\.\d*|0\.\d*[1-9]\d*|\d+`. -/
def floatRangeRe : Re :=
  Re.cat [.bot,
    .alt (Re.cat [.group 1 (floatEndRe true), Re.lit '.', Re.lit '.', .group 2 (floatEndRe true)])
      (.group 3 (floatEndRe false)),
    .eot]

/-- A timestamp of `timeRangePattern`:
`\d{4}\-\d{2}\-\d{2}(?:T\d{2}:\d{2}:\d{2}(?:(?:[+-]{1}\d{2}:\d{2}){0,1}|Z){0,1})`. -/
def timeRe : Re :=
  let d := Re.chr isDigit
  Re.cat [Re.rep 4 d, Re.lit '-', Re.rep 2 d, Re.lit '-', Re.rep 2 d,
    Re.cat [Re.lit 'T', Re.rep 2 d, Re.lit ':', Re.rep 2 d, Re.lit ':', Re.rep 2 d,
      (Re.alt
        (Re.cat [Re.chr (fun c => c == '+' || c == '-'), Re.rep 2 d, Re.lit ':', Re.rep 2 d]).opt
        (Re.lit 'Z')).opt]]

/-- Go `timeRangePattern`: `^(?:(T|\*)\.\.(T|\*)|^(T))$`. -/
def timeRangeRe : Re :=
  Re.cat [.bot,
    .alt (Re.cat [.group 1 (.alt timeRe (Re.lit '*')), Re.lit '.', Re.lit '.',
        .group 2 (.alt timeRe (Re.lit '*'))])
      (Re.cat [.bot, .group 3 timeRe]),
    .eot]

/-! ## `ParseSearchString2` -/

/-- An early `return search, err` out of the loops (the error may be nil). -/
abbrev Ret := Except (Option GoError)

/-- The `switch subs2[1]` of lines 224-239; `none` is its `default` case. -/
def symbolOf (s : Str) : Option Str :=
  if s = "".toList then some SearchSymbolNone
  else if s = "!=".toList then some SearchSymbolNot
  else if s = ">".toList then some SearchSymbolGt
  else if s = ">=".toList then some SearchSymbolGte
  else if s = "<".toList then some SearchSymbolLt
  else if s = "<=".toList then some SearchSymbolLte
  else none

/-- The statement `if value.Symbol == SearchSymbolNone { value.Symbol = SearchSymbolEq }`. -/
def defaultEq (symbol : Str) : Str :=
  if symbol = SearchSymbolNone then SearchSymbolEq else symbol

/-- A range endpoint: `if s != "*" { v, err = parse(s); if err != nil { return
search, errors.Wrap(err, msg) } }`.  The result is the new `v` and `err`. -/
def endpoint (parse : Str → Except GoError Any) (s msg : Str) (v : Any) (err : Option GoError) :
    Ret (Any × Option GoError) :=
  if s ≠ "*".toList then
    match parse s with
    | .ok x => .ok (x, none)
    | .error e => .error (errors.Wrap (some e) msg)
  else .ok (v, err)

/-- The integer branch, lines 247-275. -/
def intBranch (rawValue : Str) (subs3 : List Str) (value : SearchValue) (err : Option GoError) :
    Ret (SearchValue × Option GoError) :=
  let parse (s : Str) : Except GoError Any := (ParseInt s).map Any.int64
  if subs3.getD 1 [] ≠ [] ∨ subs3.getD 2 [] ≠ [] then
    if value.Symbol ≠ SearchSymbolNone then
      .error (errors.Wrap err ("parse int range error, ".toList ++ rawValue))
    else
      match endpoint parse (subs3.getD 1 []) ("parse int error, ".toList ++ rawValue)
          value.Value err with
      | .error e => .error e
      | .ok (v, err) =>
        match endpoint parse (subs3.getD 2 []) ("parse int error, ".toList ++ rawValue)
            value.Value2 err with
        | .error e => .error e
        | .ok (v2, err) => .ok (⟨SearchSymbolRange, v, v2⟩, err)
  else if subs3.getD 3 [] ≠ [] then
    match parse (subs3.getD 3 []) with
    | .ok x => .ok (⟨defaultEq value.Symbol, x, value.Value2⟩, none)
    | .error _ =>
      .error (errors.Wrap (some ErrInvalidSearchSyntax) ("parse int error, ".toList ++ rawValue))
  else
    .error (errors.Wrap (some ErrInvalidSearchSyntax) ("parse int range error, ".toList ++ rawValue))

/-- The float branch, lines 277-305. -/
def floatBranch (L : Lib) (rawValue : Str) (subs3 : List Str) (value : SearchValue)
    (err : Option GoError) : Ret (SearchValue × Option GoError) :=
  let parse (s : Str) : Except GoError Any := (L.ParseFloat s).map Any.float64
  if subs3.getD 1 [] ≠ [] ∨ subs3.getD 2 [] ≠ [] then
    if value.Symbol ≠ SearchSymbolNone then
      .error (errors.Wrap (some ErrInvalidSearchSyntax)
        ("parse float range error, ".toList ++ rawValue))
    else
      match endpoint parse (subs3.getD 1 []) ("parse float error, ".toList ++ rawValue)
          value.Value err with
      | .error e => .error e
      | .ok (v, err) =>
        match endpoint parse (subs3.getD 2 []) ("parse float error, ".toList ++ rawValue)
            value.Value2 err with
        | .error e => .error e
        | .ok (v2, err) => .ok (⟨SearchSymbolRange, v, v2⟩, err)
  else if subs3.getD 3 [] ≠ [] then
    match parse (subs3.getD 3 []) with
    | .ok x => .ok (⟨defaultEq value.Symbol, x, value.Value2⟩, none)
    | .error e => .error (errors.Wrap (some e) ("parse float error, ".toList ++ rawValue))
  else
    .error (errors.Wrap (some ErrInvalidSearchSyntax)
      ("parse float range error, ".toList ++ rawValue))

/-- The timestamp branch, lines 307-335. -/
def timeBranch (L : Lib) (rawValue : Str) (subs3 : List Str) (value : SearchValue)
    (err : Option GoError) : Ret (SearchValue × Option GoError) :=
  let parse (s : Str) : Except GoError Any := (L.ParseTime s).map Any.time
  if subs3.getD 1 [] ≠ [] ∨ subs3.getD 2 [] ≠ [] then
    if value.Symbol ≠ SearchSymbolNone then
      .error (errors.Wrap (some ErrInvalidSearchSyntax)
        ("parse time range error, ".toList ++ rawValue))
    else
      match endpoint parse (subs3.getD 1 []) ("parse time error, ".toList ++ rawValue)
          value.Value err with
      | .error e => .error e
      | .ok (v, err) =>
        match endpoint parse (subs3.getD 2 []) ("parse time error, ".toList ++ rawValue)
            value.Value2 err with
        | .error e => .error e
        | .ok (v2, err) => .ok (⟨SearchSymbolRange, v, v2⟩, err)
  else if subs3.getD 3 [] ≠ [] then
    match parse (subs3.getD 3 []) with
    | .ok x => .ok (⟨defaultEq value.Symbol, x, value.Value2⟩, none)
    | .error e => .error (errors.Wrap (some e) ("parse time error, ".toList ++ rawValue))
  else
    .error (errors.Wrap (some ErrInvalidSearchSyntax)
      ("parse time range error, ".toList ++ rawValue))

/-- The cascade of lines 241-341 on the operand `subs2[2]`, for a value whose
symbol has been read. -/
def typeValue (L : Lib) (rawValue operand : Str) (value : SearchValue) (err : Option GoError) :
    Ret (SearchValue × Option GoError) :=
  let strSubs := FindStringSubmatch strRe operand
  if strSubs.length = 2 then
    .ok (⟨defaultEq value.Symbol, .str (strSubs.getD 1 []), value.Value2⟩, err)
  else
    let intSubs := FindStringSubmatch intRangeRe operand
    if intSubs.length = 4 then intBranch rawValue intSubs value err
    else
      let floatSubs := FindStringSubmatch floatRangeRe operand
      if floatSubs.length = 4 then floatBranch L rawValue floatSubs value err
      else
        let timeSubs := FindStringSubmatch timeRangeRe operand
        if timeSubs.length = 4 then timeBranch L rawValue timeSubs value err
        else .ok (⟨defaultEq value.Symbol, .str operand, value.Value2⟩, err)

/-- One pass of the loop over `rawValues`, lines 215-341: the value to append
and the new `err`, or an early return. -/
def parseRawValue (L : Lib) (rawValue : Str) (err : Option GoError) :
    Ret (SearchValue × Option GoError) :=
  let subs2 := FindStringSubmatch (re3 L) rawValue
  if subs2.length ≠ 3 then
    .error (errors.Wrap (some ErrInvalidSearchSyntax) ("unexpected format ".toList ++ rawValue))
  else
    match symbolOf (subs2.getD 1 []) with
    | none =>
      .error (errors.Wrap (some ErrInvalidSearchSyntax) ("unexpected symbol, ".toList ++ rawValue))
    | some symbol => typeValue L rawValue (subs2.getD 2 []) ⟨symbol, .nil, .nil⟩ err

/-- The loop over `rawValues`, lines 214-343. -/
def parseRawValues (L : Lib) : List Str → List SearchValue → Option GoError →
    Ret (List SearchValue)
  | [], values, _ => .ok values
  | rawValue :: rest, values, err =>
    match parseRawValue L rawValue err with
    | .error e => .error e
    | .ok (value, err) => parseRawValues L rest (values ++ [value]) err

/-- The body of the loop over `parts`, lines 208-360, for a non-empty part:
the updated map, or the error of an early return. -/
def parsePart (L : Lib) (part : Str) (search : SearchData) : Ret SearchData :=
  let subs := FindStringSubmatch (re2 L) part
  if subs.length = 3 then
    match parseRawValues L (Split (subs.getD 2 []) ',') [] none with
    | .error e => .error e
    | .ok values =>
      if values.length > 0 then .ok (mapSet search (subs.getD 1 []) values) else .ok search
  else if MatchString (re1 L) part then .ok (mapSet search part [])
  else
    let subs := FindStringSubmatch re4 part
    if subs.length = 3 then
      .ok (mapSet search (subs.getD 1 []) [⟨SearchSymbolEq, .str (subs.getD 2 []), .nil⟩])
    else .error (errors.Wrap (some ErrInvalidSearchSyntax) part)

/-- The loop over `parts`, lines 204-363: the two results of
`ParseSearchString2`. -/
def parseParts (L : Lib) : List Str → SearchData → SearchData × Option GoError
  | [], search => (search, none)
  | part :: rest, search =>
    if part = [] then parseParts L rest search
    else
      match parsePart L part search with
      | .error e => (search, e)
      | .ok search => parseParts L rest search

/-- Go `ParseSearchString2`: the map and the error it returns.  The outer
`Option` is that of `splitSearchString`, which is never `none`
(`ParseSearchString2_total`). -/
def ParseSearchString2 (L : Lib) (text : Str) : Option (SearchData × Option GoError) :=
  (splitSearchString text).map (fun parts => parseParts L parts [])

/-! ## `ParseSearchString` -/

/-- One pass of the first loop of `ParseSearchString`, lines 73-85, on the
pair `(search2, subSearchs)`. -/
def foldEntry (st : SearchData × List (Str × SearchData)) (e : Str × List SearchValue) :
    SearchData × List (Str × SearchData) :=
  let parts := Split e.1 '.'
  if parts.length = 2 ∧ (parts.getD 0 []).length > 0 ∧ (parts.getD 1 []).length > 0 then
    let sub := (mapGet st.2 (parts.getD 0 [])).getD []
    (st.1, mapSet st.2 (parts.getD 0 []) (mapSet sub (parts.getD 1 []) e.2))
  else (mapSet st.1 e.1 e.2, st.2)

/-- One pass of the second loop of `ParseSearchString`, lines 86-93. -/
def nestEntry (search2 : SearchData) (e : Str × SearchData) : SearchData :=
  mapSet search2 e.1 [⟨SearchSymbolSearch, .searchData e.2, .nil⟩]

/-- Lines 71-95 of `ParseSearchString`: regroup the flat map. -/
def foldSearch (search : SearchData) : SearchData :=
  let st := search.foldl foldEntry ([], [])
  st.2.foldl nestEntry st.1

/-- Go `ParseSearchString`. -/
def ParseSearchString (L : Lib) (text : Str) : Option (SearchData × Option GoError) :=
  (ParseSearchString2 L text).map (fun r =>
    match r.2 with
    | some err => (r.1, some err)
    | none => (foldSearch r.1, none))

/-! ## `SearchData.WhereString` -/

/-- Go `SearchDataHandleFunc`. -/
abbrev SearchDataHandleFunc := List SearchValue → Str × List Any

/-- Go `SearchDataHandleFuncMap`: `none` is the nil map, and an entry may hold
a nil function. -/
abbrev SearchDataHandleFuncMap := Option (List (Str × Option SearchDataHandleFunc))

/-- The test `handleFuncs != nil` followed by `f, ok := handleFuncs[k]; ok && f != nil`. -/
def lookupHandler (handleFuncs : SearchDataHandleFuncMap) (k : Str) :
    Option SearchDataHandleFunc :=
  match handleFuncs with
  | none => none
  | some hm =>
    match mapGet hm k with
    | some (some f) => some f
    | _ => none

/-- Go `fmt.Sprintf("%v", n)` for an `int64`. -/
def formatInt (n : Int) : Str :=
  if n < 0 then '-' :: Nat.toDigits 10 n.natAbs else Nat.toDigits 10 n.toNat

/-- Go `fmt.Sprintf("%v", v)`. -/
def Sprint (L : Lib) (v : Any) : Str :=
  match v with
  | .nil => "<nil>".toList
  | .str s => s
  | .int64 n => formatInt n
  | .float64 f => L.fmtFloat f
  | .time t => L.fmtTime t
  | .searchData m => L.fmtSearchData m

/-- The statement `if v != nil { new = fmt.Sprintf("%v", v) }` of lines 486-491. -/
def stringify (L : Lib) (v : Any) : Any :=
  match v with
  | .nil => .nil
  | v => .str (Sprint L v)

/-- The value `newSubValue` of lines 483-491. -/
def stringifyValue (L : Lib) (subValue : SearchValue) : SearchValue :=
  ⟨subValue.Symbol, stringify L subValue.Value, stringify L subValue.Value2⟩

/-- The key `fmt.Sprintf("%s->>'%s'", k, subName)` of line 494. -/
def jsonKey (k subName : Str) : Str := k ++ "->>'".toList ++ subName ++ "'".toList

/-- The map `sub2` of lines 479-496.  The code also stores the stringified
values back into the slices of `sub`; a value stringified twice is unchanged,
so one call of `WhereString` does not observe the store. -/
def rewriteSub (L : Lib) (k : Str) (sub : SearchData) : SearchData :=
  sub.foldl (fun sub2 e =>
    if e.2.length > 0 then mapSet sub2 (jsonKey k e.1) (e.2.map (stringifyValue L)) else sub2) []

/-- The three results of `WhereString`. -/
abbrev WhereResult := Str × List Any × Option GoError

/-- The variables the loop over `vals` updates. -/
structure WhereAcc where
  queries : List Str
  args : List Any
  subConditions : List Str
  subArgs : List Any

/-- A comparison case of the `switch`: append `k op ?` and the value. -/
def pushCondition (acc : WhereAcc) (k op : Str) (val : SearchValue) : WhereAcc :=
  { acc with subConditions := acc.subConditions ++ [k ++ op], subArgs := acc.subArgs ++ [val.Value] }

/-- One pass of the loop over `vals`, lines 453-504.  `self` is the recursive
call `sub2.WhereString(handleFuncs)`; `none` when its bound is hit, an
`error` for the early `return "", nil, err`. -/
def whereVal (L : Lib) (self : SearchData → Option WhereResult) (k : Str) (acc : WhereAcc)
    (val : SearchValue) : Option (Except GoError WhereAcc) :=
  if val.Symbol = SearchSymbolNone then some (.ok acc)
  else if val.Symbol = SearchSymbolRange then
    some (.ok { acc with
      subConditions := acc.subConditions ++ [k ++ " BETWEEN ? AND ?".toList],
      subArgs := acc.subArgs ++ [val.Value, val.Value2] })
  else if val.Symbol = SearchSymbolNot then some (.ok (pushCondition acc k " != ?".toList val))
  else if val.Symbol = SearchSymbolEq then some (.ok (pushCondition acc k " = ?".toList val))
  else if val.Symbol = SearchSymbolGt then some (.ok (pushCondition acc k " > ?".toList val))
  else if val.Symbol = SearchSymbolGte then some (.ok (pushCondition acc k " >= ?".toList val))
  else if val.Symbol = SearchSymbolLt then some (.ok (pushCondition acc k " < ?".toList val))
  else if val.Symbol = SearchSymbolLte then some (.ok (pushCondition acc k " <= ?".toList val))
  else if val.Symbol = SearchSymbolSearch then
    match val.Value with
    | .searchData sub =>
      match self (rewriteSub L k sub) with
      | none => none
      | some (_, _, some err) => some (.error err)
      | some (sub2Query, sub2Args, none) =>
        some (.ok { acc with queries := acc.queries ++ [sub2Query], args := acc.args ++ sub2Args })
    | _ => some (.ok acc)
  else some (.ok acc)

/-- The loop over `vals`, lines 452-505. -/
def whereVals (L : Lib) (self : SearchData → Option WhereResult) (k : Str) :
    List SearchValue → WhereAcc → Option (Except GoError WhereAcc)
  | [], acc => some (.ok acc)
  | val :: rest, acc =>
    match whereVal L self k acc val with
    | none => none
    | some (.error err) => some (.error err)
    | some (.ok acc) => whereVals L self k rest acc

/-- One pass of the loop over the map, lines 439-509, on `queries` and `args`. -/
def whereEntry (L : Lib) (self : SearchData → Option WhereResult)
    (handleFuncs : SearchDataHandleFuncMap) (k : Str) (vals : List SearchValue)
    (queries : List Str) (args : List Any) : Option (Except GoError (List Str × List Any)) :=
  match lookupHandler handleFuncs k with
  | some f =>
    let r := f vals
    if r.1 ≠ [] then some (.ok (queries ++ [r.1], args ++ r.2)) else some (.ok (queries, args))
  | none =>
    match whereVals L self k vals ⟨queries, args, [], []⟩ with
    | none => none
    | some (.error err) => some (.error err)
    | some (.ok acc) =>
      if acc.subConditions.length > 0 then
        some (.ok (acc.queries ++ ["(".toList ++ Join acc.subConditions " OR ".toList ++ ")".toList],
          acc.args ++ acc.subArgs))
      else some (.ok (acc.queries, acc.args))

/-- The loop over the map, lines 438-510. -/
def whereEntries (L : Lib) (self : SearchData → Option WhereResult)
    (handleFuncs : SearchDataHandleFuncMap) :
    SearchData → List Str → List Any → Option (Except GoError (List Str × List Any))
  | [], queries, args => some (.ok (queries, args))
  | (k, vals) :: rest, queries, args =>
    match whereEntry L self handleFuncs k vals queries args with
    | none => none
    | some (.error err) => some (.error err)
    | some (.ok (queries, args)) => whereEntries L self handleFuncs rest queries args

/-- Go `SearchData.WhereString` with the depth of recursive calls bounded by
`fuel`; `none` when the bound is hit. -/
def WhereStringN (L : Lib) : Nat → SearchData → SearchDataHandleFuncMap → Option WhereResult
  | 0, _, _ => none
  | fuel + 1, m, handleFuncs =>
    match whereEntries L (fun sub2 => WhereStringN L fuel sub2 handleFuncs) handleFuncs m [] [] with
    | none => none
    | some (.error err) => some ([], [], some err)
    | some (.ok (queries, args)) =>
      if queries.length = 0 then
        some ([], [], some (.new "no valid search conditions".toList))
      else some (Join queries " AND ".toList, args, none)

/-- Go `SearchData.WhereString`.  The recursive call runs on a map of
stringified values, which holds no nested map, so the calls are never more
than two deep. -/
def WhereString (L : Lib) (m : SearchData) (handleFuncs : SearchDataHandleFuncMap) :
    Option WhereResult :=
  WhereStringN L 2 m handleFuncs

/-! ## `SearchData.SearchDB` -/

/-- An argument of a `db.Where` call: one value, or a `[]any` slice passed
as a single argument. -/
inductive Arg where
  | val (v : Any) : Arg
  | slice (vs : List Any) : Arg

/-- One call `db.Where(query, args...)`. -/
structure WhereCall where
  query : Str
  args : List Arg

/-- The query builder `*gorm.DB`, as the calls of `Where` it has received, in
order. -/
abbrev DB := List WhereCall

/-- The call `db.Where(query, args...)`. -/
def DB.Where (db : DB) (query : Str) (args : List Arg) : DB := db ++ [⟨query, args⟩]

/-- The variables the loop over `vals` of `SearchDB` updates. -/
structure DBAcc where
  db : DB
  subConditions : List Str
  subArgs : List Any

/-- A comparison case of the `switch` of `SearchDB`. -/
def dbPush (acc : DBAcc) (k op : Str) (val : SearchValue) : DBAcc :=
  { acc with subConditions := acc.subConditions ++ [k ++ op], subArgs := acc.subArgs ++ [val.Value] }

/-- One pass of the loop over `vals`, lines 379-425.  `self` is the recursive
call `sub2.SearchDB(db, handleFuncs)`; `none` when its bound is hit. -/
def dbVal (L : Lib) (self : SearchData → DB → Option DB) (k : Str) (acc : DBAcc)
    (val : SearchValue) : Option DBAcc :=
  if val.Symbol = SearchSymbolNone then some acc
  else if val.Symbol = SearchSymbolRange then
    some { acc with
      subConditions := acc.subConditions ++ [k ++ " BETWEEN ? AND ?".toList],
      subArgs := acc.subArgs ++ [val.Value, val.Value2] }
  else if val.Symbol = SearchSymbolNot then some (dbPush acc k " != ?".toList val)
  else if val.Symbol = SearchSymbolEq then some (dbPush acc k " = ?".toList val)
  else if val.Symbol = SearchSymbolGt then some (dbPush acc k " > ?".toList val)
  else if val.Symbol = SearchSymbolGte then some (dbPush acc k " >= ?".toList val)
  else if val.Symbol = SearchSymbolLt then some (dbPush acc k " < ?".toList val)
  else if val.Symbol = SearchSymbolLte then some (dbPush acc k " <= ?".toList val)
  else if val.Symbol = SearchSymbolSearch then
    match val.Value with
    | .searchData sub =>
      match self (rewriteSub L k sub) acc.db with
      | none => none
      | some db => some { acc with db := db }
    | _ => some acc
  else some acc

/-- The loop over `vals`, lines 378-426. -/
def dbVals (L : Lib) (self : SearchData → DB → Option DB) (k : Str) :
    List SearchValue → DBAcc → Option DBAcc
  | [], acc => some acc
  | val :: rest, acc =>
    match dbVal L self k acc val with
    | none => none
    | some acc => dbVals L self k rest acc

/-- One pass of the loop over the map, lines 368-430.  The override's
arguments `args2` are passed to `Where` as one slice argument (line 371), the
default arguments are spread (line 429). -/
def dbEntry (L : Lib) (self : SearchData → DB → Option DB)
    (handleFuncs : SearchDataHandleFuncMap) (k : Str) (vals : List SearchValue) (db : DB) :
    Option DB :=
  match lookupHandler handleFuncs k with
  | some f =>
    let r := f vals
    if r.1 ≠ [] then some (db.Where r.1 [.slice r.2]) else some db
  | none =>
    match dbVals L self k vals ⟨db, [], []⟩ with
    | none => none
    | some acc =>
      if acc.subConditions.length > 0 then
        some (acc.db.Where (Join acc.subConditions " OR ".toList) (acc.subArgs.map Arg.val))
      else some acc.db

/-- The loop over the map, lines 367-431. -/
def dbEntries (L : Lib) (self : SearchData → DB → Option DB)
    (handleFuncs : SearchDataHandleFuncMap) : SearchData → DB → Option DB
  | [], db => some db
  | (k, vals) :: rest, db =>
    match dbEntry L self handleFuncs k vals db with
    | none => none
    | some db => dbEntries L self handleFuncs rest db

/-- Go `SearchData.SearchDB` with the depth of recursive calls bounded by
`fuel`; `none` when the bound is hit. -/
def SearchDBN (L : Lib) : Nat → SearchData → DB → SearchDataHandleFuncMap → Option DB
  | 0, _, _, _ => none
  | fuel + 1, m, db, handleFuncs =>
    dbEntries L (fun sub2 db => SearchDBN L fuel sub2 db handleFuncs) handleFuncs m db

/-- Go `SearchData.SearchDB`; as for `WhereString` the calls are never more
than two deep. The list `m` is the map in the order this call's `range` visits
it, which need not be the order another call visits it in. -/
def SearchDB (L : Lib) (m : SearchData) (db : DB) (handleFuncs : SearchDataHandleFuncMap) :
    Option DB :=
  SearchDBN L 2 m db handleFuncs

/-! ## `ParseOrderByString` -/

/-- Go `Order`. -/
structure Order where
  Name : Str
  Desc : Bool
  deriving DecidableEq, Repr

/-- Go `strings.HasSuffix`. -/
def HasSuffix (s suffix : Str) : Bool := suffix.isSuffixOf s

/-- One pass of the loop of `ParseOrderByString`, lines 50-61. -/
def orderStep (orders : List Order) (name : Str) : List Order :=
  let r : Bool × Str :=
    if HasSuffix name "-".toList then (true, slice name 0 (name.length - 1))
    else if HasSuffix name "+".toList then (false, slice name 0 (name.length - 1))
    else (false, name)
  if r.2 = [] then orders else orders ++ [⟨r.2, r.1⟩]

/-- Go `ParseOrderByString`. -/
def ParseOrderByString (text : Str) : List Order :=
  (Split text ',').foldl orderStep []

/-! ## `String` -/

/-- The `switch` of lines 102-116: the text written in front of the value. -/
def symbolText (symbol : Str) : Str :=
  if symbol = SearchSymbolNone then []
  else if symbol = SearchSymbolNot then "!=".toList
  else if symbol = SearchSymbolEq then []
  else if symbol = SearchSymbolGt then ">".toList
  else if symbol = SearchSymbolGte then ">=".toList
  else if symbol = SearchSymbolLt then "<".toList
  else if symbol = SearchSymbolLte then "<=".toList
  else []

/-- Go `SearchValue.String`. -/
def SearchValue.String (L : Lib) (v : SearchValue) : Str :=
  if v.Symbol = SearchSymbolRange then Sprint L v.Value ++ ":".toList ++ Sprint L v.Value2
  else
    match v.Value with
    | .str vv => symbolText v.Symbol ++ [quote] ++ vv ++ [quote]
    | value => symbolText v.Symbol ++ Sprint L value

/-- The variables the loop over `values` of `SearchData.String` updates. -/
structure StringAcc where
  parts : List Str
  vparts : List Str

/-- The loops of lines 132-136: one part `key.subKey:subValue` for each
predicate of the nested map. -/
def subParts (L : Lib) (key : Str) (vv : SearchData) : List Str :=
  vv.flatMap (fun e => e.2.map (fun subValue =>
    key ++ ".".toList ++ e.1 ++ ":".toList ++ SearchValue.String L subValue))

/-- One pass of the loop over `values`, lines 130-140. -/
def stringVal (L : Lib) (key : Str) (acc : StringAcc) (v : SearchValue) : StringAcc :=
  if v.Symbol = SearchSymbolSearch then
    match v.Value with
    | .searchData vv => { acc with parts := acc.parts ++ subParts L key vv }
    | _ => acc
  else { acc with vparts := acc.vparts ++ [SearchValue.String L v] }

/-- One pass of the loop over the map, lines 128-144. -/
def stringEntry (L : Lib) (parts : List Str) (e : Str × List SearchValue) : List Str :=
  let acc := e.2.foldl (stringVal L e.1) ⟨parts, []⟩
  if acc.vparts.length > 0 then
    acc.parts ++ [e.1 ++ ":".toList ++ Join acc.vparts ",".toList]
  else acc.parts

/-- Go `SearchData.String`. -/
def SearchData.String (L : Lib) (s : SearchData) : Str :=
  Join (s.foldl (stringEntry L) []) " ".toList

/-! ## Paging in the list helpers of `gorm/utils.go` -/

/-- The value a Go `int` holds after an arithmetic operation of exact result
`x`, on a 64-bit platform: two's-complement wrap-around. -/
def wrapInt (x : Int) : Int := (x + 2 ^ 63) % 2 ^ 64 - 2 ^ 63

/-- Go `a / b` on `int`: the quotient truncated toward zero (`b` not zero). -/
def quoInt (a b : Int) : Int := wrapInt (Int.tdiv a b)

/-- The calls `Offset(offset)` and `Limit(limit)` on the query builder. -/
structure Paging where
  offset : Int
  limit : Int
  deriving DecidableEq, Repr

/-- The block `if pageSize > 0 { … }` of `appendToListParamsToDBWithHandlers`,
lines 50-59: the calls `out.Offset(…).Limit(…)` it makes, none when the block
is skipped. -/
def appendToListParamsToDBWithHandlers_paging (total page pageSize : Int) : Option Paging :=
  if pageSize > 0 then
    let totalPage := quoInt (wrapInt (wrapInt (total + pageSize) - 1)) pageSize
    let page := if page > totalPage then totalPage else page
    let page := if page < 1 then 1 else page
    some ⟨wrapInt (wrapInt (page - 1) * pageSize), pageSize⟩
  else none

/-- The block `if pageSize > 0 { … }` of `getListParamsToStringWithHandlers`,
lines 95-104: the new value of `where`. -/
def getListParamsToStringWithHandlers_paging (where_ : Str) (total page pageSize : Int) : Str :=
  if pageSize > 0 then
    let totalPage := quoInt (wrapInt (wrapInt (total + pageSize) - 1)) pageSize
    let page := if page > totalPage then totalPage else page
    let page := if page < 1 then 1 else page
    where_ ++ " offset ".toList ++ formatInt (wrapInt (wrapInt (page - 1) * pageSize)) ++
      " limit ".toList ++ formatInt pageSize
  else where_

/-! ## Definitions used to state and prove the properties -/

/-- Characters `r` can consume. -/
def Re.admits : Re → Char → Bool
  | .chr p, c => p c
  | .seq a b, c => a.admits c || b.admits c
  | .alt a b, c => a.admits c || b.admits c
  | .star a, c => a.admits c
  | .group _ a, c => a.admits c
  | _, _ => false

/-- A lower bound on the number of characters a match of `r` consumes. -/
def Re.minLen : Re → Nat
  | .chr _ => 1
  | .seq a b => a.minLen + b.minLen
  | .alt a b => min a.minLen b.minLen
  | .group _ a => a.minLen
  | _ => 0

/-- Characters a non-empty match of `r` can start with. -/
def Re.first : Re → Char → Bool
  | .chr p, c => p c
  | .seq a b, c => a.first c || (a.minLen == 0 && b.first c)
  | .alt a b, c => a.first c || b.first c
  | .star a, c => a.first c
  | .group _ a, c => a.first c
  | _, _ => false

/-- The expression `r`, which has no group and no anchor, matches exactly the
text `w` in any context. -/
def Matches (r : Re) (w : Str) : Prop :=
  ∀ (n : Nat) (t : Str) (c : Caps), (t, c) ∈ run n r (w ++ t, c)

/-- No capture group occurs in `r`. -/
def Re.plain : Re → Bool
  | .seq a b => a.plain && b.plain
  | .alt a b => a.plain && b.plain
  | .star a => a.plain
  | .group _ _ => false
  | _ => true

/-- The ASCII part of the value classes of `pattern2`: `[a-zA-Z0-9_\.\-:\+\*]`. -/
def valAscii (c : Char) : Bool :=
  isLower c || isUpper c || isDigit c || c == '_' || c == '.' || c == '-' ||
  c == ':' || c == '+' || c == '*'

/-- The characters of the operator prefixes. -/
def isOpChar (c : Char) : Bool := c == '>' || c == '<' || c == '=' || c == '!'

/-- The operator prefixes `pattern3` reads, the empty one included. -/
def opPrefixes : List Str :=
  ["".toList, ">".toList, ">=".toList, "<".toList, "<=".toList, "!=".toList]

/-- An endpoint of an integer range: digits, or `*`. -/
def isIntEnd (a : Str) : Prop := (a ≠ [] ∧ ∀ c ∈ a, isDigit c = true) ∨ a = ['*']

/-- A field name as `pattern2` and `pattern4` read it: an optional `$`, then
one or more characters of `[a-zA-Z0-9_\-\.]`. -/
def isFieldName (k : Str) : Bool :=
  match k with
  | [] => false
  | c :: t => if c == '$' then !t.isEmpty && t.all keyCls else k.all keyCls

/-- A letter of `a-z` or `A-Z`. -/
def isLetter (c : Char) : Bool := isLower c || isUpper c

/-- The number a run of decimal digits denotes. -/
def decimal (s : Str) : Nat := s.foldl (fun n c => n * 10 + (c.toNat - 48)) 0

/-- A non-empty run of decimal digits. -/
def isDigits (s : Str) : Bool := !s.isEmpty && s.all isDigit

/-- The value an integer range endpoint is parsed to: absent for `*`. -/
def intEndValue (a : Str) : Any := if a = ['*'] then .nil else .int64 (decimal a)

/-- A word with an optional `!=` in front, as written in a value list. -/
def prefixedWord (v : Bool × Str) : Str := (if v.1 then "!=".toList else []) ++ v.2

/-- The predicate a word with an optional `!=` stands for. -/
def wordPredicate (v : Bool × Str) : SearchValue :=
  ⟨if v.1 then SearchSymbolNot else SearchSymbolEq, .str v.2, .nil⟩

/-- The comparison the specification lists for each operator, with its
placeholder: `equal` is ` = ?`, `range` is ` BETWEEN ? AND ?`, and so on. -/
def comparisonText (symbol : Str) : Str :=
  if symbol = SearchSymbolEq then " = ?".toList
  else if symbol = SearchSymbolNot then " != ?".toList
  else if symbol = SearchSymbolGt then " > ?".toList
  else if symbol = SearchSymbolGte then " >= ?".toList
  else if symbol = SearchSymbolLt then " < ?".toList
  else if symbol = SearchSymbolLte then " <= ?".toList
  else if symbol = SearchSymbolRange then " BETWEEN ? AND ?".toList
  else []

/-- The condition of predicate `p` on field `k`: `k = ?`, `k != ?`, `k > ?`,
`k >= ?`, `k < ?`, `k <= ?` or `k BETWEEN ? AND ?`. -/
def conditionOf (k : Str) (p : SearchValue) : Str := k ++ comparisonText p.Symbol

/-- The arguments of predicate `p`: value then value2 for a range, the value
alone otherwise. -/
def argsOf (p : SearchValue) : List Any :=
  if p.Symbol = SearchSymbolRange then [p.Value, p.Value2] else [p.Value]

/-- The operators that compare a field with a scalar. -/
def comparisonSymbols : List Str :=
  [SearchSymbolEq, SearchSymbolNot, SearchSymbolGt, SearchSymbolGte, SearchSymbolLt,
    SearchSymbolLte, SearchSymbolRange]

/-- A non-empty name of characters `[a-zA-Z0-9_\-]`: a field name without a
dot. -/
def isPlainName (s : Str) : Bool := !s.isEmpty && s.all (fun c => keyCls c && c != '.')

/-- The keys of a map. -/
def keys {α : Type} (m : List (Str × α)) : List Str := m.map Prod.fst

/-- The test of line 75 on a key: it splits at dots into two non-empty parts. -/
def foldable (name : Str) : Bool :=
  decide ((Split name '.').length = 2 ∧ ((Split name '.').getD 0 []).length > 0 ∧
    ((Split name '.').getD 1 []).length > 0)

/-- The predicate list stored under `inner` in the group of `outer`. -/
def nestedGet (subs : List (Str × SearchData)) (outer inner : Str) : Option (List SearchValue) :=
  (mapGet subs outer).bind (fun sub => mapGet sub inner)

/-- No predicate of the map carries a nested map. -/
def flatValues (m : SearchData) : Prop :=
  ∀ e ∈ m, ∀ v ∈ e.2, ∀ sub, v.Value ≠ .searchData sub

/-- The error `WhereString` returns when no condition was compiled. -/
def errNoConditions : GoError := .new "no valid search conditions".toList

/-- An override that declines every predicate list: the empty fragment. -/
def declineOverride : SearchDataHandleFunc := fun _ => ([], [.int64 1])

/-- Overrides for `name` and `age` that return the empty fragment. -/
def declineOverrides : List (Str × Option SearchDataHandleFunc) :=
  [("age".toList, some declineOverride), ("name".toList, some (fun _ => ([], [])))]

/-- The mapping `{name: [= "x"], age: [> 3]}`. -/
def nameAgeData : SearchData :=
  [("name".toList, [⟨SearchSymbolEq, .str "x".toList, .nil⟩]),
    ("age".toList, [⟨SearchSymbolGt, .int64 3, .nil⟩])]

/-- An override that answers a list of two predicates with `tags @> ?`. -/
def tagsOverride : SearchDataHandleFunc := fun vals =>
  (if vals.length = 2 then "tags @> ?".toList else [], [.str "x".toList])

/-- The predicate list `[search {color: [= red]}, = 3]`. -/
def tagsVals : List SearchValue :=
  [⟨SearchSymbolSearch,
      .searchData [("color".toList, [⟨SearchSymbolEq, .str "red".toList, .nil⟩])], .nil⟩,
    ⟨SearchSymbolEq, .int64 3, .nil⟩]

/-- The mapping `{tags: [search {color: [= red]}, = 3]}`. -/
def tagsData : SearchData := [("tags".toList, tagsVals)]

/-- An override that answers every predicate list with `color IS NOT NULL`. -/
def colorOverride : SearchDataHandleFunc := fun _ => ("color IS NOT NULL".toList, [])

/-- The fold of `tags.color:red`: `{tags: [search {color: [= red]}]}`. -/
def tagsColorRed : SearchData :=
  [("tags".toList, [⟨SearchSymbolSearch,
    .searchData [("color".toList, [⟨SearchSymbolEq, .str "red".toList, .nil⟩])], .nil⟩])]

/-- A name of a sort key: not empty, no comma, not ending in `+` or `-`. -/
def isOrderName (n : Str) : Bool :=
  decide (n ≠ [] ∧ ',' ∉ n ∧ n.getLast? ≠ some '+' ∧ n.getLast? ≠ some '-')

/-- A sort key as written: the name, then `-` for `some true`, `+` for
`some false`, nothing for `none`. -/
def writtenKey (x : Str × Option Bool) : Str :=
  x.1 ++ (match x.2 with
    | some true => "-".toList
    | some false => "+".toList
    | none => [])

/-- The order a written sort key stands for: descending only when written
with `-`. -/
def orderOfKey (x : Str × Option Bool) : Order := ⟨x.1, x.2 == some true⟩

/-- The condition suffix and the arguments of a comparison predicate, by
operator; `none` for the operators that add no comparison. -/
def comparisonOf (v : SearchValue) : Option (Str × List Any) :=
  if v.Symbol = SearchSymbolNone then none
  else if v.Symbol = SearchSymbolRange then some (" BETWEEN ? AND ?".toList, [v.Value, v.Value2])
  else if v.Symbol = SearchSymbolNot then some (" != ?".toList, [v.Value])
  else if v.Symbol = SearchSymbolEq then some (" = ?".toList, [v.Value])
  else if v.Symbol = SearchSymbolGt then some (" > ?".toList, [v.Value])
  else if v.Symbol = SearchSymbolGte then some (" >= ?".toList, [v.Value])
  else if v.Symbol = SearchSymbolLt then some (" < ?".toList, [v.Value])
  else if v.Symbol = SearchSymbolLte then some (" <= ?".toList, [v.Value])
  else none

/-- The nested map of a nested-search predicate. -/
def nestedOf (v : SearchValue) : Option SearchData :=
  if v.Symbol = SearchSymbolSearch then
    match v.Value with
    | .searchData sub => some sub
    | _ => none
  else none

/-- The number of `?` placeholders in a text. -/
def placeholders (s : Str) : Nat := s.count '?'

/-- The number of `?` placeholders in a list of texts. -/
def totalPlaceholders (l : List Str) : Nat := (l.map placeholders).sum

/-- No field name of the map holds a `?`: the keys of the map, and the keys of
the nested map of every nested-search predicate. -/
def plainFields (m : SearchData) : Prop :=
  ∀ e ∈ m, '?' ∉ e.1 ∧ ∀ v ∈ e.2, ∀ sub, nestedOf v = some sub → ∀ e' ∈ sub, '?' ∉ e'.1

/-- The conditions of a list of `Where` calls, each wrapped in parentheses. -/
def renderCalls (calls : List WhereCall) : List Str :=
  calls.map (fun c => "(".toList ++ c.query ++ ")".toList)

/-- The arguments of a list of `Where` calls, concatenated. -/
def callArgs (calls : List WhereCall) : List Arg := calls.flatMap (fun c => c.args)

/-- The queries and arguments collected by `WhereString` agree with the calls
received by the query builder. -/
def Agree (queries : List Str) (args : List Any) (calls : List WhereCall) : Prop :=
  Join queries " AND ".toList = Join (renderCalls calls) " AND ".toList ∧
    (queries = [] ↔ calls = []) ∧ args.map Arg.val = callArgs calls

/-- What the recursive call of `SearchDB` must do where that of `WhereString`
succeeds. -/
def SelfAgree (selfW : SearchData → Option WhereResult) (selfD : SearchData → DB → Option DB)
    (sub2 : SearchData) : Prop :=
  ∀ q a, selfW sub2 = some (q, a, none) → ∀ db, ∃ calls, selfD sub2 db = some (db ++ calls) ∧
    calls ≠ [] ∧ Join (renderCalls calls) " AND ".toList = q ∧ callArgs calls = a.map Arg.val

/-- The mapping `{tags: [search {color: [= red], n: [1..2]}, = 3], age: [> 3, < 9]}`. -/
def backendsData : SearchData :=
  [("tags".toList, [⟨SearchSymbolSearch, .searchData
      [("color".toList, [⟨SearchSymbolEq, .str "red".toList, .nil⟩]),
        ("n".toList, [⟨SearchSymbolRange, .int64 1, .int64 2⟩])], .nil⟩,
      ⟨SearchSymbolEq, .int64 3, .nil⟩]),
    ("age".toList, [⟨SearchSymbolGt, .int64 3, .nil⟩, ⟨SearchSymbolLt, .int64 9, .nil⟩])]

/-- The clause of `backendsData`. -/
def backendsClause : Str :=
  ("(tags->>'color' = ?) AND (tags->>'n' BETWEEN ? AND ?) AND (tags = ?) AND " ++
    "(age > ? OR age < ?)").toList

/-- The arguments of `backendsData`. -/
def backendsArgs : List Any :=
  [.str "red".toList, .str "1".toList, .str "2".toList, .int64 3, .int64 3, .int64 9]

/-- Characters the text captured by group `i` of `r` can hold. -/
def Re.capAdmits : Re → Nat → Char → Bool
  | .seq a b, i, c => a.capAdmits i c || b.capAdmits i c
  | .alt a b, i, c => a.capAdmits i c || b.capAdmits i c
  | .star a, i, c => a.capAdmits i c
  | .group j a, i, c => (decide (j = i) && a.admits c) || a.capAdmits i c
  | _, _, _ => false

/-- An entry as `ParseSearchString2` stores it: no `?` in the key, and every
predicate of the list has a comparison operator. -/
def parsedEntry (e : Str × List SearchValue) : Prop :=
  '?' ∉ e.1 ∧ ∀ v ∈ e.2, v.Symbol ∈ comparisonSymbols

/-- What the first loop of `ParseSearchString` keeps true of its two maps. -/
def FoldPlain (st : SearchData × List (Str × SearchData)) : Prop :=
  (∀ e ∈ st.1, parsedEntry e) ∧ ∀ g ∈ st.2, '?' ∉ g.1 ∧ ∀ e' ∈ g.2, '?' ∉ e'.1

/-- The loop of `splitSearchString` started at the head of `s` with no token. -/
def scan (s : Str) (fuel : Nat) : Option (List Str) := splitLoop s fuel 0 []

/-- The text without its trailing white space. -/
def trimRight (s : Str) : Str := (s.reverse.dropWhile isSpace).reverse

/-- A character no text matched by `pattern2` can hold: outside the field
name, the colon, the operators, the quote characters, `$`, the value characters
and the comma. -/
def noValueChar (c : Char) : Bool :=
  decide (c.toNat < 11904) && !(keyRe.admits c || c == ':' || opsRe.admits c || isQuote c ||
    c == '$' || valAscii c || c == ',')

/-- Reading a rendered map gives the map back. -/
def roundTrips (L : Lib) (m : SearchData) : Prop :=
  ParseSearchString2 L (SearchData.String L m) = some (m, none)

/-- The endpoint of an integer range whose digits do not fit a signed 64-bit
integer: the lower one if it does not fit, else the upper one. -/
def overflowEnd (a b : Str) : Str := if isDigits a && decide (2 ^ 63 ≤ decimal a) then a else b

/-- An override that answers every predicate list with a fragment of two
placeholders and two arguments. -/
def pairOverride : SearchDataHandleFunc := fun _ =>
  ("a = ? AND b = ?".toList, [.int64 1, .int64 2])

/-- The override map `{k: pairOverride}`. -/
def pairOverrides : List (Str × Option SearchDataHandleFunc) :=
  [("k".toList, some pairOverride)]

/-- The mapping `{k: [= 0]}`. -/
def pairData : SearchData := [("k".toList, [⟨SearchSymbolEq, .int64 0, .nil⟩])]

/-- The entry the recursive call receives for the nested field `e`: the
rewritten key and the stringified values, or none when the list is empty. -/
def rewriteEntry (L : Lib) (k : Str) (e : Str × List SearchValue) :
    Option (Str × List SearchValue) :=
  if e.2.length > 0 then some (jsonKey k e.1, e.2.map (stringifyValue L)) else none

/-- An override that answers a predicate list with `tags_n IN ?` and the
values of the predicates it was given. -/
def echoOverride : SearchDataHandleFunc := fun vals =>
  ("tags_n IN ?".toList, vals.map (fun v => v.Value))

/-- The mapping `{tags: [search {n: [= 5, = 7]}]}` with 64-bit integers. -/
def tagsNumbers : SearchData :=
  [("tags".toList, [⟨SearchSymbolSearch,
    .searchData [("n".toList, [⟨SearchSymbolEq, .int64 5, .nil⟩,
      ⟨SearchSymbolEq, .int64 7, .nil⟩])], .nil⟩])]

/-- A character neither the bare-key pattern nor the value-list pattern can
consume. -/
def unadmitted (L : Lib) (c : Char) : Bool := !((re1 L).admits c || (re2 L).admits c)

/-- What every entry of a result of `ParseSearchString2` satisfies: an empty
list is the nil list stored for a bare key (line 348); every predicate has a
comparison operator, and a value2 only under the operator range. -/
def resultEntry (L : Lib) (e : Str × List SearchValue) : Prop :=
  (e.2 = [] → MatchString (re1 L) e.1 = true) ∧
  ∀ v ∈ e.2, v.Symbol ∈ comparisonSymbols ∧ (v.Value2 ≠ .nil → v.Symbol = SearchSymbolRange)

/-- A key with a dot that the specification calls un-foldable: two or more
dots, or one dot with an empty side. -/
def dottedUnfoldable (k : Str) : Bool :=
  decide (2 ≤ k.count '.') ||
    (decide (k.count '.' = 1) && (k.head? == some '.' || k.getLast? == some '.'))

/-- The page the helpers use, on exact integers: `page` cut down to the number
of pages `(total + pageSize - 1) / pageSize`, then raised to 1. -/
def pageUsed (total page pageSize : Int) : Int :=
  max 1 (min page ((total + pageSize - 1) / pageSize))

/-- What one pass of the loop of `splitSearchString` does: the new scan
position (none when the loop breaks), the token it appends (none at an unmatched
quote), and the bounds `lo`, `hi` of every slice expression `text[lo:hi]` it
evaluates, `text[lo:]` being `text[lo:len(text)]`. -/
structure Pass where
  next : Option Nat
  token : Option Str
  slices : List (Nat × Nat)

/-- One pass of the loop of `splitSearchString`, lines 158-176, at the scan
position `start`. -/
def splitPass (text : Str) (start : Nat) : Pass :=
  let n := text.length
  let onSpace (spaceIdx : Nat) : Pass :=
    ⟨some (start + spaceIdx + 1), some (TrimSpace (slice text start (start + spaceIdx))),
      [(start, n), (start, n), (start, start + spaceIdx)]⟩
  let onQuote (quoteIdx : Nat) : Pass :=
    match Index (text.drop (start + quoteIdx + 1)) quote with
    | none => ⟨none, none, [(start, n), (start, n), (start + quoteIdx + 1, n)]⟩
    | some nextQuoteIdx =>
      ⟨some (start + (quoteIdx + nextQuoteIdx + 2)),
        some (TrimSpace (slice text start (start + quoteIdx + nextQuoteIdx + 2))),
        [(start, n), (start, n), (start + quoteIdx + 1, n),
          (start, start + quoteIdx + nextQuoteIdx + 2)]⟩
  match Index (text.drop start) ' ', Index (text.drop start) quote with
  | none, none => ⟨none, some (TrimSpace (text.drop start)), [(start, n), (start, n), (start, n)]⟩
  | some spaceIdx, none => onSpace spaceIdx
  | some spaceIdx, some quoteIdx =>
    if spaceIdx < quoteIdx then onSpace spaceIdx else onQuote quoteIdx
  | none, some quoteIdx => onQuote quoteIdx

/-- The scan positions of the passes the loop makes from `start`, at most
`fuel` of them. -/
def scanPositions (text : Str) : Nat → Nat → List Nat
  | 0, _ => []
  | fuel + 1, start =>
    start :: (match (splitPass text start).next with
      | none => []
      | some s => scanPositions text fuel s)

/-- A token as the tokenizer cuts it: not empty and free of white space and
single quotes, or such a text, possibly empty, followed by one span between two
single quotes that ends the token. -/
def isToken (s : Str) : Prop :=
  s ≠ [] ∧ ((∀ c ∈ s, isSpace c = false ∧ c ≠ quote) ∨
    ∃ a q, s = a ++ quote :: (q ++ [quote]) ∧ (∀ c ∈ a, isSpace c = false ∧ c ≠ quote) ∧
      quote ∉ q)

/-- Two runs of the query builder end with the same `Where` calls, in some
order; or neither returns. -/
def SameCalls (x y : Option DB) : Prop :=
  match x, y with
  | none, none => True
  | some a, some b => a.Perm b
  | _, _ => False

/-- Two runs of the loop over `vals` end with the same `Where` calls, in some
order, and the same conditions and arguments; or neither returns. -/
def SameAcc (x y : Option DBAcc) : Prop :=
  match x, y with
  | none, none => True
  | some a, some b =>
    a.db.Perm b.db ∧ a.subConditions = b.subConditions ∧ a.subArgs = b.subArgs
  | _, _ => False

/-- The recursive call adds its calls after those the builder holds. -/
def Appends (self : SearchData → DB → Option DB) : Prop :=
  ∀ sub db, self sub db = (self sub []).map (db ++ ·)

/-- The list `m'` is the Go map that `m` lists, in another visiting order: the
entries are permuted, and so are the entries of the nested maps of its
nested-search predicates. -/
inductive Reordered : SearchData → SearchData → Prop where
  | refl (m : SearchData) : Reordered m m
  | perm {m m' : SearchData} : m.Perm m' → Reordered m m'
  | nested (pre post : SearchData) (k : Str) (vs ws : List SearchValue)
      (sub sub' : SearchData) (v2 : Any) :
      sub.Perm sub' → (keys sub).Nodup →
      Reordered (pre ++ (k, vs ++ ⟨SearchSymbolSearch, .searchData sub, v2⟩ :: ws) :: post)
        (pre ++ (k, vs ++ ⟨SearchSymbolSearch, .searchData sub', v2⟩ :: ws) :: post)
  | trans {a b c : SearchData} : Reordered a b → Reordered b c → Reordered a c

/-- The mapping `{name: [= x], age: [> 3]}`, the field `age` first. -/
def ageNameData : SearchData :=
  [("age".toList, [⟨SearchSymbolGt, .int64 3, .nil⟩]),
    ("name".toList, [⟨SearchSymbolEq, .str "x".toList, .nil⟩])]

/-- The mapping `backendsData` as a second `range` may visit it: `age` before
`tags`, and inside the nested map `n` before `color`. -/
def backendsReordered : SearchData :=
  [("age".toList, [⟨SearchSymbolGt, .int64 3, .nil⟩, ⟨SearchSymbolLt, .int64 9, .nil⟩]),
    ("tags".toList, [⟨SearchSymbolSearch, .searchData
      [("n".toList, [⟨SearchSymbolRange, .int64 1, .int64 2⟩]),
        ("color".toList, [⟨SearchSymbolEq, .str "red".toList, .nil⟩])], .nil⟩,
      ⟨SearchSymbolEq, .int64 3, .nil⟩])]

/-! ## The matcher -/

theorem mem_run_eps {n : Nat} {x y : St} : y ∈ run n .eps x ↔ y = x := by
  simp [run]

theorem mem_run_bot {n : Nat} {x y : St} : y ∈ run n .bot x ↔ x.1.length = n ∧ y = x := by
  by_cases h : x.1.length = n <;> simp [run, h]

theorem mem_run_eot {n : Nat} {x y : St} : y ∈ run n .eot x ↔ x.1 = [] ∧ y = x := by
  by_cases h : x.1 = [] <;> simp [run, h]

theorem mem_run_chr {n : Nat} {p : Char → Bool} {x y : St} :
    y ∈ run n (.chr p) x ↔ ∃ c, p c = true ∧ x.1 = c :: y.1 ∧ y.2 = x.2 := by
  obtain ⟨s, cs⟩ := x
  obtain ⟨s', cs'⟩ := y
  cases s with
  | nil => simp [run]
  | cons a t =>
    by_cases h : p a = true
    · simp only [run, h, if_true, List.mem_singleton, Prod.mk.injEq, List.cons.injEq]
      constructor
      · rintro ⟨rfl, rfl⟩; exact ⟨a, h, ⟨rfl, rfl⟩, rfl⟩
      · rintro ⟨c, _, ⟨rfl, rfl⟩, rfl⟩; exact ⟨rfl, rfl⟩
    · simp only [run, h, List.cons.injEq]
      constructor
      · intro h'; simp at h'
      · rintro ⟨c, hc, ⟨rfl, _⟩, _⟩; exact absurd hc h

theorem mem_run_seq {n : Nat} {a b : Re} {x y : St} :
    y ∈ run n (.seq a b) x ↔ ∃ m, m ∈ run n a x ∧ y ∈ run n b m := by
  simp [run, List.mem_flatMap]

theorem mem_run_alt {n : Nat} {a b : Re} {x y : St} :
    y ∈ run n (.alt a b) x ↔ y ∈ run n a x ∨ y ∈ run n b x := by
  simp [run]

theorem mem_run_group {n i : Nat} {a : Re} {x y : St} :
    y ∈ run n (.group i a) x ↔
      ∃ m, m ∈ run n a x ∧ y = (m.1, (i, x.1.take (x.1.length - m.1.length)) :: m.2) := by
  simp only [run, List.mem_map]
  constructor
  · rintro ⟨m, hm, rfl⟩; exact ⟨m, hm, rfl⟩
  · rintro ⟨m, hm, rfl⟩; exact ⟨m, hm, rfl⟩

theorem mem_starLoop_succ {f : St → List St} {k : Nat} {x y : St} :
    y ∈ starLoop f (k + 1) x ↔
      (∃ m, m ∈ f x ∧ m.1.length < x.1.length ∧ y ∈ starLoop f k m) ∨ y = x := by
  simp only [starLoop, List.mem_append, List.mem_flatMap, List.mem_filter, decide_eq_true_eq,
    List.mem_singleton]
  constructor
  · rintro (⟨m, ⟨h1, h2⟩, h3⟩ | h)
    · exact Or.inl ⟨m, h1, h2, h3⟩
    · exact Or.inr h
  · rintro (⟨m, h1, h2, h3⟩ | h)
    · exact Or.inl ⟨m, ⟨h1, h2⟩, h3⟩
    · exact Or.inr h

theorem starLoop_self (f : St → List St) (k : Nat) (x : St) : x ∈ starLoop f k x := by
  cases k with
  | zero => simp [starLoop]
  | succ k => exact mem_starLoop_succ.2 (Or.inr rfl)

theorem starLoop_mono (f : St → List St) (k : Nat) :
    ∀ x y, y ∈ starLoop f k x → y ∈ starLoop f (k + 1) x := by
  induction k with
  | zero =>
    intro x y h
    simp only [starLoop, List.mem_singleton] at h
    exact h ▸ starLoop_self f 1 x
  | succ k ih =>
    intro x y h
    rcases mem_starLoop_succ.1 h with ⟨m, h1, h2, h3⟩ | h
    · exact mem_starLoop_succ.2 (Or.inl ⟨m, h1, h2, ih m y h3⟩)
    · exact mem_starLoop_succ.2 (Or.inr h)

theorem starLoop_mono_le (f : St → List St) {k k' : Nat} (hk : k ≤ k') (x y : St)
    (h : y ∈ starLoop f k x) : y ∈ starLoop f k' x := by
  induction hk with
  | refl => exact h
  | step _ ih => exact starLoop_mono f _ x y ih

/-- What a match consumes is a prefix of the remaining text made of characters
the expression admits. -/
theorem run_consumed (n : Nat) (r : Re) :
    ∀ x y, y ∈ run n r x → ∃ w, x.1 = w ++ y.1 ∧ ∀ c ∈ w, r.admits c = true := by
  induction r with
  | eps => intro x y h; rw [mem_run_eps] at h; exact ⟨[], by simp [h], by simp⟩
  | bot => intro x y h; rw [mem_run_bot] at h; exact ⟨[], by simp [h.2], by simp⟩
  | eot => intro x y h; rw [mem_run_eot] at h; exact ⟨[], by simp [h.2], by simp⟩
  | chr p =>
    intro x y h
    obtain ⟨c, hc, hx, _⟩ := mem_run_chr.1 h
    exact ⟨[c], by simp [hx], by simpa [Re.admits] using hc⟩
  | seq a b iha ihb =>
    intro x y h
    obtain ⟨m, h1, h2⟩ := mem_run_seq.1 h
    obtain ⟨w1, e1, a1⟩ := iha x m h1
    obtain ⟨w2, e2, a2⟩ := ihb m y h2
    refine ⟨w1 ++ w2, by simp [e1, e2], ?_⟩
    intro c hc
    rcases List.mem_append.1 hc with hc | hc
    · simp [Re.admits, a1 c hc]
    · simp [Re.admits, a2 c hc]
  | alt a b iha ihb =>
    intro x y h
    rcases mem_run_alt.1 h with h | h
    · obtain ⟨w, e, a1⟩ := iha x y h
      exact ⟨w, e, fun c hc => by simp [Re.admits, a1 c hc]⟩
    · obtain ⟨w, e, a1⟩ := ihb x y h
      exact ⟨w, e, fun c hc => by simp [Re.admits, a1 c hc]⟩
  | star a iha =>
    have key : ∀ k x y, y ∈ starLoop (run n a) k x →
        ∃ w, x.1 = w ++ y.1 ∧ ∀ c ∈ w, a.admits c = true := by
      intro k
      induction k with
      | zero =>
        intro x y h
        simp only [starLoop, List.mem_singleton] at h
        exact ⟨[], by simp [h], by simp⟩
      | succ k ih =>
        intro x y h
        rcases mem_starLoop_succ.1 h with ⟨m, h1, _, h3⟩ | h
        · obtain ⟨w1, e1, a1⟩ := iha x m h1
          obtain ⟨w2, e2, a2⟩ := ih m y h3
          refine ⟨w1 ++ w2, by simp [e1, e2], ?_⟩
          intro c hc
          rcases List.mem_append.1 hc with hc | hc
          · exact a1 c hc
          · exact a2 c hc
        · exact ⟨[], by simp [h], by simp⟩
    intro x y h
    simpa [Re.admits] using key _ x y h
  | group i a iha =>
    intro x y h
    obtain ⟨m, h1, rfl⟩ := mem_run_group.1 h
    obtain ⟨w, e, a1⟩ := iha x m h1
    exact ⟨w, e, fun c hc => by simpa [Re.admits] using a1 c hc⟩

theorem run_length_le {n : Nat} {r : Re} {x y : St} (h : y ∈ run n r x) :
    y.1.length ≤ x.1.length := by
  obtain ⟨w, e, _⟩ := run_consumed n r x y h
  simp [e]

/-- A match consumes at least `minLen` characters. -/
theorem run_minLen (n : Nat) (r : Re) :
    ∀ x y, y ∈ run n r x → y.1.length + r.minLen ≤ x.1.length := by
  induction r with
  | eps => intro x y h; rw [mem_run_eps] at h; simp [h, Re.minLen]
  | bot => intro x y h; rw [mem_run_bot] at h; simp [h.2, Re.minLen]
  | eot => intro x y h; rw [mem_run_eot] at h; simp [h.2, Re.minLen]
  | chr p =>
    intro x y h
    obtain ⟨c, _, hx, _⟩ := mem_run_chr.1 h
    simp [hx, Re.minLen]
  | seq a b iha ihb =>
    intro x y h
    obtain ⟨m, h1, h2⟩ := mem_run_seq.1 h
    have := iha x m h1
    have := ihb m y h2
    simp only [Re.minLen]; omega
  | alt a b iha ihb =>
    intro x y h
    rcases mem_run_alt.1 h with h | h
    · have := iha x y h
      simp only [Re.minLen]; omega
    · have := ihb x y h
      simp only [Re.minLen]; omega
  | star a _ =>
    intro x y h
    simpa [Re.minLen] using run_length_le h
  | group i a iha =>
    intro x y h
    obtain ⟨m, h1, rfl⟩ := mem_run_group.1 h
    simpa [Re.minLen] using iha x m h1

/-- A match that consumes something starts with a character of `first`. -/
theorem run_first (n : Nat) (r : Re) :
    ∀ x y, y ∈ run n r x → x.1 = y.1 ∨ ∃ c t, x.1 = c :: t ∧ r.first c = true := by
  induction r with
  | eps => intro x y h; rw [mem_run_eps] at h; simp [h]
  | bot => intro x y h; rw [mem_run_bot] at h; simp [h.2]
  | eot => intro x y h; rw [mem_run_eot] at h; simp [h.2]
  | chr p =>
    intro x y h
    obtain ⟨c, hc, hx, _⟩ := mem_run_chr.1 h
    exact Or.inr ⟨c, y.1, hx, by simpa [Re.first] using hc⟩
  | seq a b iha ihb =>
    intro x y h
    obtain ⟨m, h1, h2⟩ := mem_run_seq.1 h
    rcases iha x m h1 with e1 | ⟨c, t, e1, f1⟩
    · have hlen := run_minLen n a x m h1
      have h0 : a.minLen = 0 := by rw [e1] at hlen; omega
      rcases ihb m y h2 with e2 | ⟨c, t, e2, f2⟩
      · exact Or.inl (e1.trans e2)
      · exact Or.inr ⟨c, t, e1.trans e2, by simp [Re.first, h0, f2]⟩
    · exact Or.inr ⟨c, t, e1, by simp [Re.first, f1]⟩
  | alt a b iha ihb =>
    intro x y h
    rcases mem_run_alt.1 h with h | h
    · rcases iha x y h with e1 | ⟨c, t, e1, f1⟩
      · exact Or.inl e1
      · exact Or.inr ⟨c, t, e1, by simp [Re.first, f1]⟩
    · rcases ihb x y h with e1 | ⟨c, t, e1, f1⟩
      · exact Or.inl e1
      · exact Or.inr ⟨c, t, e1, by simp [Re.first, f1]⟩
  | star a iha =>
    have key : ∀ k x y, y ∈ starLoop (run n a) k x →
        x.1 = y.1 ∨ ∃ c t, x.1 = c :: t ∧ a.first c = true := by
      intro k
      induction k with
      | zero =>
        intro x y h
        simp only [starLoop, List.mem_singleton] at h
        simp [h]
      | succ k ih =>
        intro x y h
        rcases mem_starLoop_succ.1 h with ⟨m, h1, h2, _⟩ | h
        · rcases iha x m h1 with e1 | hf
          · rw [e1] at h2; omega
          · exact Or.inr hf
        · simp [h]
    intro x y h
    simpa [Re.first] using key _ x y h
  | group i a iha =>
    intro x y h
    obtain ⟨m, h1, rfl⟩ := mem_run_group.1 h
    simpa [Re.first] using iha x m h1

theorem Matches.eps : Matches .eps [] := by
  intro n t c; simp [run]

theorem Matches.chr {p : Char → Bool} {a : Char} (h : p a = true) : Matches (.chr p) [a] := by
  intro n t c; simp [run, h]

theorem Matches.lit (a : Char) : Matches (Re.lit a) [a] :=
  Matches.chr (by simp)

theorem Matches.seq {a b : Re} {u v : Str} (ha : Matches a u) (hb : Matches b v) :
    Matches (.seq a b) (u ++ v) := by
  intro n t c
  refine mem_run_seq.2 ⟨(v ++ t, c), ?_, hb n t c⟩
  simpa using ha n (v ++ t) c

theorem Matches.alt_left {a : Re} (b : Re) {u : Str} (ha : Matches a u) :
    Matches (.alt a b) u := fun n t c => mem_run_alt.2 (Or.inl (ha n t c))

theorem Matches.alt_right (a : Re) {b : Re} {u : Str} (hb : Matches b u) :
    Matches (.alt a b) u := fun n t c => mem_run_alt.2 (Or.inr (hb n t c))

theorem Matches.opt_none (r : Re) : Matches r.opt [] :=
  Matches.alt_right r Matches.eps

theorem Matches.opt_some {r : Re} {u : Str} (h : Matches r u) : Matches r.opt u :=
  Matches.alt_left .eps h

theorem Matches.star_nil (a : Re) : Matches (.star a) [] := by
  intro n t c
  simpa [run] using starLoop_self (run n a) t.length (t, c)

theorem Matches.star_cons {a : Re} {u v : Str} (ha : Matches a u) (hu : u ≠ [])
    (hv : Matches (.star a) v) : Matches (.star a) (u ++ v) := by
  intro n t c
  have hlen : 0 < u.length := List.length_pos.2 hu
  have h1 : (v ++ t, c) ∈ run n a (u ++ v ++ t, c) := by simpa using ha n (v ++ t) c
  have h2 : (t, c) ∈ starLoop (run n a) (v ++ t).length (v ++ t, c) := by
    simpa [run] using hv n t c
  obtain ⟨k, hk⟩ : ∃ k, (u ++ v ++ t).length = k + 1 :=
    ⟨(u ++ v ++ t).length - 1, by simp only [List.length_append]; omega⟩
  have hle : (v ++ t).length ≤ k := by
    simp only [List.length_append] at hk ⊢; omega
  simp only [run, hk]
  refine mem_starLoop_succ.2 (Or.inl ⟨(v ++ t, c), h1, ?_, starLoop_mono_le _ hle _ _ h2⟩)
  simp only [List.length_append]; omega

theorem Matches.star_all {p : Char → Bool} :
    ∀ (w : Str), (∀ c ∈ w, p c = true) → Matches (.star (.chr p)) w
  | [], _ => Matches.star_nil _
  | a :: t, h =>
    Matches.star_cons (u := [a]) (Matches.chr (h a (by simp))) (by simp)
      (Matches.star_all t (fun c hc => h c (by simp [hc])))

theorem Matches.plus_all {p : Char → Bool} {w : Str} (hne : w ≠ [])
    (h : ∀ c ∈ w, p c = true) : Matches (Re.chr p).plus w := by
  cases w with
  | nil => exact absurd rfl hne
  | cons a t =>
    exact Matches.seq (u := [a]) (Matches.chr (h a (by simp)))
      (Matches.star_all t (fun c hc => h c (by simp [hc])))

/-- A group around a context-free match records the matched text. -/
theorem run_group_of_matches {r : Re} {w : Str} (h : Matches r w) (n i : Nat) (t : Str)
    (c : Caps) : (t, (i, w) :: c) ∈ run n (.group i r) (w ++ t, c) := by
  refine mem_run_group.2 ⟨(t, c), h n t c, ?_⟩
  simp

/-! ### `FindStringSubmatch` on an anchored pattern -/

theorem findFrom_short (r : Re) (n : Nat) :
    ∀ t : Str, t.length < n → findFrom (.seq .bot r) n t = [] := by
  intro t
  induction t with
  | nil =>
    intro h
    have : run n (.seq .bot r) (([] : Str), ([] : Caps)) = [] := by
      simp only [run]
      have : ¬ (0 = n) := by simp at h; omega
      simp [this]
    simp [findFrom, this]
  | cons a t ih =>
    intro h
    have hr : run n (.seq .bot r) (a :: t, ([] : Caps)) = [] := by
      have : ¬ (t.length + 1 = n) := by simp at h; omega
      simp [run, this]
    have ht : t.length < n := by simp at h; omega
    simp [findFrom, hr, ih ht]

/-- No match of an anchored pattern: the nil slice. -/
theorem find_none {r : Re} {s : Str}
    (h : ∀ e, e ∉ run s.length (.seq .bot r) (s, [])) : FindStringSubmatch (.seq .bot r) s = [] := by
  have hr : run s.length (.seq .bot r) (s, []) = [] := List.eq_nil_iff_forall_not_mem.2 h
  cases s with
  | nil => simp [FindStringSubmatch, findFrom] at hr ⊢; simp [hr]
  | cons a t =>
    simp only [FindStringSubmatch, findFrom, hr]
    exact findFrom_short r _ t (by simp)

/-- Some match of an anchored pattern, all matches with the same submatches:
those are returned. -/
theorem find_unique {r : Re} {s : Str} {gs : List Str}
    (hex : ∃ e, e ∈ run s.length (.seq .bot r) (s, []))
    (huniq : ∀ e, e ∈ run s.length (.seq .bot r) (s, []) → submatches (.seq .bot r) s e = gs) :
    FindStringSubmatch (.seq .bot r) s = gs := by
  obtain ⟨e0, he0⟩ := hex
  cases hrun : run s.length (.seq .bot r) (s, []) with
  | nil => rw [hrun] at he0; simp at he0
  | cons e rest =>
    have he : submatches (.seq .bot r) s e = gs := huniq e (by rw [hrun]; simp)
    cases s with
    | nil => simp only [FindStringSubmatch, findFrom]; rw [hrun]; exact he
    | cons a t => simp only [FindStringSubmatch, findFrom]; rw [hrun]; exact he

/-- Matches of `^r$`: `r` consumed the whole text. -/
theorem mem_run_anchored {r : Re} {s : Str} {e : St} :
    e ∈ run s.length (.seq .bot (.seq r .eot)) (s, []) ↔ e ∈ run s.length r (s, []) ∧ e.1 = [] := by
  simp only [mem_run_seq, mem_run_bot, mem_run_eot]
  constructor
  · rintro ⟨m, ⟨_, rfl⟩, m', h1, h2, rfl⟩
    exact ⟨h1, h2⟩
  · rintro ⟨h1, h2⟩
    exact ⟨(s, []), ⟨trivial, rfl⟩, e, h1, h2, rfl⟩

theorem mem_run_lit {n : Nat} {a : Char} {x y : St} :
    y ∈ run n (Re.lit a) x ↔ x.1 = a :: y.1 ∧ y.2 = x.2 := by
  simp only [Re.lit, mem_run_chr, beq_iff_eq]
  constructor
  · rintro ⟨c, rfl, h1, h2⟩; exact ⟨h1, h2⟩
  · rintro ⟨h1, h2⟩; exact ⟨a, rfl, h1, h2⟩

/-- An expression without groups leaves the captures alone. -/
theorem run_plain_caps (n : Nat) (r : Re) (hr : r.plain = true) :
    ∀ x y, y ∈ run n r x → y.2 = x.2 := by
  induction r with
  | eps => intro x y h; rw [mem_run_eps] at h; simp [h]
  | bot => intro x y h; rw [mem_run_bot] at h; simp [h.2]
  | eot => intro x y h; rw [mem_run_eot] at h; simp [h.2]
  | chr p => intro x y h; obtain ⟨c, _, _, h2⟩ := mem_run_chr.1 h; exact h2
  | seq a b iha ihb =>
    simp only [Re.plain, Bool.and_eq_true] at hr
    intro x y h
    obtain ⟨m, h1, h2⟩ := mem_run_seq.1 h
    exact (ihb hr.2 m y h2).trans (iha hr.1 x m h1)
  | alt a b iha ihb =>
    simp only [Re.plain, Bool.and_eq_true] at hr
    intro x y h
    rcases mem_run_alt.1 h with h | h
    · exact iha hr.1 x y h
    · exact ihb hr.2 x y h
  | star a iha =>
    simp only [Re.plain] at hr
    have key : ∀ k x y, y ∈ starLoop (run n a) k x → y.2 = x.2 := by
      intro k
      induction k with
      | zero => intro x y h; simp only [starLoop, List.mem_singleton] at h; simp [h]
      | succ k ih =>
        intro x y h
        rcases mem_starLoop_succ.1 h with ⟨m, h1, _, h3⟩ | h
        · exact (ih m y h3).trans (iha hr x m h1)
        · simp [h]
    intro x y h
    exact key _ x y h
  | group i a _ => simp [Re.plain] at hr

/-- Inversion of a group around an expression without groups. -/
theorem run_group_plain {n i : Nat} {r : Re} (hr : r.plain = true) {x y : St}
    (h : y ∈ run n (.group i r) x) :
    ∃ w, x.1 = w ++ y.1 ∧ (∀ c ∈ w, r.admits c = true) ∧ y.2 = (i, w) :: x.2 ∧
      (y.1, x.2) ∈ run n r x := by
  obtain ⟨m, h1, rfl⟩ := mem_run_group.1 h
  obtain ⟨w, e, a1⟩ := run_consumed n r x m h1
  have hc := run_plain_caps n r hr x m h1
  refine ⟨w, e, a1, ?_, ?_⟩
  · simp [e, hc]
  · rw [← hc]; exact h1

/-- Two ways of cutting a text into a run of characters with property `P`
followed by a text that does not start with one are the same. -/
theorem split_pred {P : Char → Prop} :
    ∀ (a a' b b' : Str), (∀ c ∈ a, P c) → (∀ c ∈ a', P c) →
      (∀ c ∈ b.head?, ¬ P c) → (∀ c ∈ b'.head?, ¬ P c) →
      a ++ b = a' ++ b' → a = a' ∧ b = b'
  | [], [], _, _, _, _, _, _, h => ⟨rfl, by simpa using h⟩
  | [], x :: a', b, b', _, h2, h3, _, h => by
    exfalso
    have hb : b = x :: (a' ++ b') := by simpa using h
    exact h3 x (by simp [hb]) (h2 x (by simp))
  | x :: a, [], b, b', h1, _, _, h4, h => by
    exfalso
    have hb : b' = x :: (a ++ b) := by simpa using h.symm
    exact h4 x (by simp [hb]) (h1 x (by simp))
  | x :: a, y :: a', b, b', h1, h2, h3, h4, h => by
    simp only [List.cons_append, List.cons.injEq] at h
    obtain ⟨hxy, h⟩ := h
    obtain ⟨e1, e2⟩ := split_pred a a' b b' (fun c hc => h1 c (by simp [hc]))
      (fun c hc => h2 c (by simp [hc])) h3 h4 h
    exact ⟨by rw [hxy, e1], e2⟩

/-- Cutting a text at the first occurrence of `x` is unambiguous. -/
theorem split_first {x : Char} {a a' b b' : Str} (ha : x ∉ a) (ha' : x ∉ a')
    (h : a ++ x :: b = a' ++ x :: b') : a = a' ∧ b = b' := by
  have := split_pred (P := fun c => c ≠ x) a a' (x :: b) (x :: b')
    (fun c hc e => ha (e ▸ hc)) (fun c hc e => ha' (e ▸ hc)) (by simp) (by simp) h
  exact ⟨this.1, by simpa using this.2⟩

theorem not_han_of_lt (L : Lib) (c : Char) (h : c.toNat < 11904) : L.isHan c = false := by
  cases hh : L.isHan c with
  | false => rfl
  | true => have := L.isHan_ge c hh; omega

theorem valCls_iff (L : Lib) (c : Char) :
    valCls L c = true ↔ valAscii c = true ∨ L.isHan c = true := by
  simp only [valCls, valAscii, Bool.or_eq_true]; tauto

theorem rawCls_iff (L : Lib) (c : Char) :
    rawCls L c = true ↔ valAscii c = true ∨ isQuote c = true ∨ L.isHan c = true := by
  simp only [rawCls, valAscii, isQuote, Bool.or_eq_true]; tauto

theorem bareCls_iff (L : Lib) (c : Char) :
    bareCls L c = true ↔ keyCls c = true ∨ L.isHan c = true := by
  simp only [bareCls, keyCls, Bool.or_eq_true]; tauto

theorem isOpChar_lt {c : Char} (h : isOpChar c = true) : c.toNat < 64 := by
  simp only [isOpChar, Bool.or_eq_true, beq_iff_eq] at h
  rcases h with ((rfl | rfl) | rfl) | rfl <;> decide

theorem isOpChar_not_valAscii {c : Char} (h : isOpChar c = true) : valAscii c = false := by
  simp only [isOpChar, Bool.or_eq_true, beq_iff_eq] at h
  rcases h with ((rfl | rfl) | rfl) | rfl <;> decide

theorem isOpChar_not_quote {c : Char} (h : isOpChar c = true) : isQuote c = false := by
  simp only [isOpChar, Bool.or_eq_true, beq_iff_eq] at h
  rcases h with ((rfl | rfl) | rfl) | rfl <;> decide

theorem rawCls_not_op (L : Lib) {c : Char} (h : rawCls L c = true) : isOpChar c = false := by
  cases hop : isOpChar c with
  | false => rfl
  | true =>
    rcases (rawCls_iff L c).1 h with h | h | h
    · rw [isOpChar_not_valAscii hop] at h; cases h
    · rw [isOpChar_not_quote hop] at h; cases h
    · rw [not_han_of_lt L c (by have := isOpChar_lt hop; omega)] at h; cases h

theorem opsRe_admits {c : Char} (h : opsRe.admits c = true) : isOpChar c = true := by
  simp only [opsRe, Re.cat, Re.lit, Re.admits, Bool.or_eq_true, beq_iff_eq] at h
  simp only [isOpChar, Bool.or_eq_true, beq_iff_eq]
  tauto

theorem opsRe_matches {op : Str} (hop : op ∈ opPrefixes) (hne : op ≠ []) : Matches opsRe op := by
  simp only [opPrefixes, List.mem_cons, List.mem_singleton, List.not_mem_nil, or_false] at hop
  rcases hop with rfl | rfl | rfl | rfl | rfl | rfl
  · exact absurd rfl hne
  · exact Matches.alt_left _ (Matches.lit '>')
  · exact Matches.alt_right _ (Matches.alt_left _
      (Matches.seq (u := ['>']) (Matches.lit '>') (Matches.lit '=')))
  · exact Matches.alt_right _ (Matches.alt_right _ (Matches.alt_left _ (Matches.lit '<')))
  · exact Matches.alt_right _ (Matches.alt_right _ (Matches.alt_right _ (Matches.alt_left _
      (Matches.seq (u := ['<']) (Matches.lit '<') (Matches.lit '=')))))
  · exact Matches.alt_right _ (Matches.alt_right _ (Matches.alt_right _ (Matches.alt_right _
      (Matches.seq (u := ['!']) (Matches.lit '!') (Matches.lit '=')))))

theorem opPrefixes_opChar {op : Str} (hop : op ∈ opPrefixes) : ∀ c ∈ op, isOpChar c = true := by
  simp only [opPrefixes, List.mem_cons, List.mem_singleton, List.not_mem_nil, or_false] at hop
  rcases hop with rfl | rfl | rfl | rfl | rfl | rfl <;> decide

/-- What `pattern3` returns on an operator prefix followed by an operand made
of characters of its class. -/
theorem re3_find (L : Lib) (op v : Str) (hop : op ∈ opPrefixes)
    (hv : ∀ c ∈ v, rawCls L c = true) :
    FindStringSubmatch (re3 L) (op ++ v) = [op ++ v, op, v] := by
  have hplainOps : opsRe.plain = true := by decide
  have hX : Matches (Re.seq (Re.lit '$').opt (Re.chr (rawCls L)).star) v := by
    simpa using Matches.seq (Matches.opt_none (Re.lit '$')) (Matches.star_all v hv)
  have hre : re3 L = Re.seq Re.bot (Re.seq (Re.seq (Re.group 1 opsRe).opt
      (Re.group 2 (Re.seq (Re.lit '$').opt (Re.chr (rawCls L)).star))) Re.eot) := rfl
  have hgroups : (Re.seq Re.bot (Re.seq (Re.seq (Re.group 1 opsRe).opt
      (Re.group 2 (Re.seq (Re.lit '$').opt (Re.chr (rawCls L)).star))) Re.eot)).groups = 2 := rfl
  rw [hre]
  refine find_unique ?_ ?_
  · -- a match exists
    refine ⟨([], (2, v) :: (if op = [] then [] else [(1, op)])), ?_⟩
    refine mem_run_anchored.2 ⟨?_, rfl⟩
    by_cases hne : op = []
    · subst hne
      refine mem_run_seq.2 ⟨(v, []), mem_run_alt.2 (Or.inr (by simp [run])), ?_⟩
      simpa using run_group_of_matches hX ([] ++ v).length 2 [] []
    · refine mem_run_seq.2 ⟨(v, [(1, op)]), mem_run_alt.2 (Or.inl ?_), ?_⟩
      · exact run_group_of_matches (opsRe_matches hop hne) _ 1 v []
      · simpa [hne] using run_group_of_matches hX (op ++ v).length 2 [] [(1, op)]
  · -- every match has these submatches
    intro e he
    obtain ⟨he, hnil⟩ := mem_run_anchored.1 he
    obtain ⟨m, hm, he⟩ := mem_run_seq.1 he
    obtain ⟨w2, e2, a2, c2, _⟩ := run_group_plain (by rfl) he
    have hw2 : ∀ c ∈ w2, ¬ isOpChar c = true := by
      intro c hc
      have := a2 c hc
      simp only [Re.admits, Re.opt, Re.lit, Bool.or_false, Bool.or_eq_true, beq_iff_eq] at this
      rcases this with rfl | h
      · decide
      · simp [rawCls_not_op L h]
    have hvop : ∀ c ∈ v, ¬ isOpChar c = true := fun c hc => by simp [rawCls_not_op L (hv c hc)]
    rw [hnil, List.append_nil] at e2
    rcases mem_run_alt.1 hm with hm | hm
    · obtain ⟨w1, e1, a1, c1, _⟩ := run_group_plain hplainOps hm
      simp only at e1 c1
      rw [e2] at e1
      obtain ⟨h1, h2⟩ := split_pred (P := fun c => isOpChar c = true) op w1 v w2
        (opPrefixes_opChar hop) (fun c hc => opsRe_admits (a1 c hc))
        (fun c hc => hvop c (List.mem_of_mem_head? hc))
        (fun c hc => hw2 c (List.mem_of_mem_head? hc)) e1
      subst h1 h2
      simp [submatches, hgroups, hnil, c2, c1, List.range, List.range.loop, List.lookup]
    · rw [mem_run_eps] at hm
      subst hm
      simp only at e2 c2
      obtain ⟨h1, h2⟩ := split_pred (P := fun c => isOpChar c = true) op [] v w2
        (opPrefixes_opChar hop) (by simp)
        (fun c hc => hvop c (List.mem_of_mem_head? hc))
        (fun c hc => hw2 c (List.mem_of_mem_head? hc)) (by simpa using e2)
      subst h1 h2
      simp [submatches, hgroups, hnil, c2, List.range, List.range.loop, List.lookup]

theorem intEndRe_matches {a : Str} (h : isIntEnd a) : Matches intEndRe a := by
  rcases h with ⟨hne, hd⟩ | rfl
  · exact Matches.alt_left _ (Matches.plus_all hne hd)
  · exact Matches.alt_right _ (Matches.lit '*')

theorem intEnd_no_dot {a : Str} (h : isIntEnd a) : '.' ∉ a := by
  rcases h with ⟨_, hd⟩ | rfl
  · intro hmem
    have := hd _ hmem
    revert this; decide
  · decide

theorem intEndRe_admits_no_dot {w : Str} (h : ∀ c ∈ w, intEndRe.admits c = true) : '.' ∉ w := by
  intro hmem
  have := h _ hmem
  revert this; decide

/-- What `intRangePattern` returns on `a..b`. -/
theorem intRangeRe_find_range (a b : Str) (ha : isIntEnd a) (hb : isIntEnd b) :
    FindStringSubmatch intRangeRe (a ++ '.' :: '.' :: b) = [a ++ '.' :: '.' :: b, a, b, []] := by
  have hre : intRangeRe = Re.seq Re.bot (Re.seq
      (Re.alt (Re.seq (Re.group 1 intEndRe) (Re.seq (Re.lit '.') (Re.seq (Re.lit '.')
        (Re.group 2 intEndRe)))) (Re.group 3 (Re.chr isDigit).plus)) Re.eot) := rfl
  have hgroups : intRangeRe.groups = 3 := by decide
  rw [hre] at hgroups ⊢
  refine find_unique ?_ ?_
  · refine ⟨([], [(2, b), (1, a)]), mem_run_anchored.2 ⟨mem_run_alt.2 (Or.inl ?_), rfl⟩⟩
    refine mem_run_seq.2 ⟨('.' :: '.' :: b, [(1, a)]),
      run_group_of_matches (intEndRe_matches ha) _ 1 _ [], ?_⟩
    refine mem_run_seq.2 ⟨('.' :: b, [(1, a)]), mem_run_lit.2 ⟨rfl, rfl⟩, ?_⟩
    refine mem_run_seq.2 ⟨(b, [(1, a)]), mem_run_lit.2 ⟨rfl, rfl⟩, ?_⟩
    simpa using run_group_of_matches (intEndRe_matches hb) (a ++ '.' :: '.' :: b).length 2 []
      [(1, a)]
  · intro e he
    obtain ⟨he, hnil⟩ := mem_run_anchored.1 he
    rcases mem_run_alt.1 he with he | he
    · obtain ⟨m1, h1, he⟩ := mem_run_seq.1 he
      obtain ⟨m2, h2, he⟩ := mem_run_seq.1 he
      obtain ⟨m3, h3, he⟩ := mem_run_seq.1 he
      obtain ⟨w1, e1, a1, c1, _⟩ := run_group_plain (by decide) h1
      obtain ⟨w2, e2, _, c2, _⟩ := run_group_plain (by decide) he
      obtain ⟨e3, c3⟩ := mem_run_lit.1 h2
      obtain ⟨e4, c4⟩ := mem_run_lit.1 h3
      rw [hnil, List.append_nil] at e2
      simp only at e1 c1
      rw [e3, e4, e2] at e1
      obtain ⟨h1, h2⟩ := split_first (intEnd_no_dot ha) (intEndRe_admits_no_dot a1) e1
      simp only [List.cons.injEq, true_and] at h2
      subst h1 h2
      simp [submatches, hgroups, hnil, c2, c4, c3, c1, List.range, List.range.loop, List.lookup]
    · obtain ⟨w3, e3, a3, _, _⟩ := run_group_plain (by decide) he
      exfalso
      rw [hnil, List.append_nil] at e3
      simp only at e3
      have : '.' ∈ w3 := by rw [← e3]; simp
      have := a3 _ this
      revert this; decide

/-- What `intRangePattern` returns on a run of digits. -/
theorem intRangeRe_find_single (a : Str) (hne : a ≠ []) (ha : ∀ c ∈ a, isDigit c = true) :
    FindStringSubmatch intRangeRe a = [a, [], [], a] := by
  have hre : intRangeRe = Re.seq Re.bot (Re.seq
      (Re.alt (Re.seq (Re.group 1 intEndRe) (Re.seq (Re.lit '.') (Re.seq (Re.lit '.')
        (Re.group 2 intEndRe)))) (Re.group 3 (Re.chr isDigit).plus)) Re.eot) := rfl
  have hgroups : intRangeRe.groups = 3 := by decide
  rw [hre] at hgroups ⊢
  refine find_unique ?_ ?_
  · refine ⟨([], [(3, a)]), mem_run_anchored.2 ⟨mem_run_alt.2 (Or.inr ?_), rfl⟩⟩
    simpa using run_group_of_matches (Matches.plus_all hne ha) a.length 3 [] []
  · intro e he
    obtain ⟨he, hnil⟩ := mem_run_anchored.1 he
    rcases mem_run_alt.1 he with he | he
    · exfalso
      obtain ⟨m1, h1, he⟩ := mem_run_seq.1 he
      obtain ⟨m2, h2, he⟩ := mem_run_seq.1 he
      obtain ⟨w1, e1, _, _, _⟩ := run_group_plain (by decide) h1
      obtain ⟨e3, _⟩ := mem_run_lit.1 h2
      simp only at e1
      have : '.' ∈ a := by rw [e1, e3]; simp
      have := ha _ this
      revert this; decide
    · obtain ⟨w3, e3, _, c3, _⟩ := run_group_plain (by decide) he
      rw [hnil, List.append_nil] at e3
      simp only at e3 c3
      subst e3
      simp [submatches, hgroups, hnil, c3, List.range, List.range.loop, List.lookup]

theorem no_match_of_first {r : Re} {c : Char} {t : Str} (hf : r.first c = false) :
    FindStringSubmatch (.seq .bot (.seq r .eot)) (c :: t) = [] := by
  refine find_none ?_
  intro e he
  obtain ⟨he, hnil⟩ := mem_run_anchored.1 he
  rcases run_first _ r _ _ he with h | ⟨c', t', h, hc⟩
  · rw [hnil] at h; simp at h
  · simp only [List.cons.injEq] at h
    rw [← h.1, hf] at hc; cases hc

theorem no_match_of_empty {r : Re} (hmin : 0 < r.minLen) :
    FindStringSubmatch (.seq .bot (.seq r .eot)) [] = [] := by
  refine find_none ?_
  intro e he
  obtain ⟨he, _⟩ := mem_run_anchored.1 he
  have := run_minLen _ r _ _ he
  simp at this; omega

theorem no_match_of_admits {r : Re} {s : Str} {c : Char} (hc : c ∈ s)
    (ha : r.admits c = false) : FindStringSubmatch (.seq .bot (.seq r .eot)) s = [] := by
  refine find_none ?_
  intro e he
  obtain ⟨he, hnil⟩ := mem_run_anchored.1 he
  obtain ⟨w, e1, a1⟩ := run_consumed _ r _ _ he
  rw [hnil, List.append_nil] at e1
  simp only at e1
  rw [← e1] at a1
  rw [a1 c hc] at ha; cases ha

theorem keyCls_ne {c x : Char} (h : keyCls c = true) (hx : keyCls x = false) : c ≠ x := by
  rintro rfl; rw [h] at hx; cases hx

theorem isFieldName_chars {k : Str} (hk : isFieldName k = true) :
    ∀ c ∈ k, c = '$' ∨ keyCls c = true := by
  cases k with
  | nil => simp [isFieldName] at hk
  | cons a t =>
    simp only [isFieldName] at hk
    by_cases ha : a = '$'
    · subst ha
      simp only [beq_self_eq_true, if_true, Bool.and_eq_true, List.all_eq_true] at hk
      intro c hc
      rcases List.mem_cons.1 hc with rfl | hc
      · exact Or.inl rfl
      · exact Or.inr (hk.2 c hc)
    · have : (a == '$') = false := by simpa using ha
      simp only [this, Bool.false_eq_true, if_false, List.all_eq_true] at hk
      intro c hc
      exact Or.inr (hk c hc)

theorem isFieldName_not_mem {k : Str} (hk : isFieldName k = true) {x : Char}
    (hx : keyCls x = false) (hd : x ≠ '$') : x ∉ k := by
  intro hmem
  rcases isFieldName_chars hk x hmem with h | h
  · exact hd h
  · rw [h] at hx; cases hx

theorem isFieldName_ne_nil {k : Str} (hk : isFieldName k = true) : k ≠ [] := by
  rintro rfl; simp [isFieldName] at hk

theorem keyRe_matches {k : Str} (hk : isFieldName k = true) : Matches keyRe k := by
  have hre : keyRe = Re.seq (Re.lit '$').opt (Re.chr keyCls).plus := rfl
  rw [hre]
  cases k with
  | nil => simp [isFieldName] at hk
  | cons a t =>
    simp only [isFieldName] at hk
    by_cases ha : a = '$'
    · subst ha
      simp only [beq_self_eq_true, if_true, Bool.and_eq_true, List.all_eq_true,
        Bool.not_eq_true', List.isEmpty_eq_false] at hk
      exact Matches.seq (u := ['$']) (Matches.opt_some (Matches.lit '$'))
        (Matches.plus_all (by simpa using hk.1) hk.2)
    · have : (a == '$') = false := by simpa using ha
      simp only [this, Bool.false_eq_true, if_false, List.all_eq_true] at hk
      simpa using Matches.seq (Matches.opt_none (Re.lit '$'))
        (Matches.plus_all (w := a :: t) (by simp) hk)

theorem keyRe_admits {c : Char} (h : keyRe.admits c = true) : c = '$' ∨ keyCls c = true := by
  simpa [keyRe, Re.cat, Re.admits, Re.opt, Re.plus, Re.lit] using h

/-- What `pattern2` returns on `key:values`. -/
theorem re2_find (L : Lib) (k v : Str) (hk : isFieldName k = true)
    (hv : Matches (valuesRe L) v) :
    FindStringSubmatch (re2 L) (k ++ ':' :: v) = [k ++ ':' :: v, k, v] := by
  have hre : re2 L = Re.seq Re.bot (Re.seq (Re.seq (Re.group 1 keyRe) (Re.seq (Re.lit ':')
      (Re.group 2 (valuesRe L)))) Re.eot) := rfl
  have hgroups : (Re.seq Re.bot (Re.seq (Re.seq (Re.group 1 keyRe) (Re.seq (Re.lit ':')
      (Re.group 2 (valuesRe L)))) Re.eot)).groups = 2 := rfl
  rw [hre]
  refine find_unique ?_ ?_
  · refine ⟨([], [(2, v), (1, k)]), mem_run_anchored.2 ⟨?_, rfl⟩⟩
    refine mem_run_seq.2 ⟨(':' :: v, [(1, k)]),
      run_group_of_matches (keyRe_matches hk) _ 1 _ [], ?_⟩
    refine mem_run_seq.2 ⟨(v, [(1, k)]), mem_run_lit.2 ⟨rfl, rfl⟩, ?_⟩
    simpa using run_group_of_matches hv (k ++ ':' :: v).length 2 [] [(1, k)]
  · intro e he
    obtain ⟨he, hnil⟩ := mem_run_anchored.1 he
    obtain ⟨m1, h1, he⟩ := mem_run_seq.1 he
    obtain ⟨m2, h2, he⟩ := mem_run_seq.1 he
    obtain ⟨w1, e1, a1, c1, _⟩ := run_group_plain (by decide) h1
    obtain ⟨e2, c2⟩ := mem_run_lit.1 h2
    obtain ⟨w2, e3, _, c3, _⟩ := run_group_plain (r := valuesRe L) rfl he
    simp only at e1 c1
    rw [hnil, List.append_nil] at e3
    rw [e2, e3] at e1
    have hw1 : ':' ∉ w1 := by
      intro hmem
      rcases keyRe_admits (a1 _ hmem) with h | h
      · revert h; decide
      · revert h; decide
    obtain ⟨h1, h2⟩ := split_first (isFieldName_not_mem hk (by decide) (by decide)) hw1 e1
    subst h1 h2
    simp [submatches, hgroups, hnil, c3, c2, c1, List.range, List.range.loop, List.lookup]

/-- What `pattern4` returns on `key:` followed by a quoted text. -/
theorem re4_find (k q : Str) (a b : Char) (hk : isFieldName k = true)
    (ha : isQuote a = true) (hb : isQuote b = true) (hq : ∀ c ∈ q, c ≠ newline) :
    FindStringSubmatch re4 (k ++ ':' :: a :: (q ++ [b])) = [k ++ ':' :: a :: (q ++ [b]), k, q] := by
  have hre : re4 = Re.seq Re.bot (Re.seq (Re.seq (Re.group 1 keyRe) (Re.seq (Re.lit ':')
      (Re.seq (Re.chr isQuote) (Re.seq (Re.group 2 (Re.chr isAnyNoNL).star) (Re.chr isQuote)))))
      Re.eot) := rfl
  have hgroups : re4.groups = 2 := by decide
  have hq' : ∀ c ∈ q, isAnyNoNL c = true := fun c hc => by simpa [isAnyNoNL] using hq c hc
  rw [hre] at hgroups ⊢
  refine find_unique ?_ ?_
  · refine ⟨([], [(2, q), (1, k)]), mem_run_anchored.2 ⟨?_, rfl⟩⟩
    refine mem_run_seq.2 ⟨(':' :: a :: (q ++ [b]), [(1, k)]),
      run_group_of_matches (keyRe_matches hk) _ 1 _ [], ?_⟩
    refine mem_run_seq.2 ⟨(a :: (q ++ [b]), [(1, k)]), mem_run_lit.2 ⟨rfl, rfl⟩, ?_⟩
    refine mem_run_seq.2 ⟨(q ++ [b], [(1, k)]), mem_run_chr.2 ⟨a, ha, rfl, rfl⟩, ?_⟩
    refine mem_run_seq.2 ⟨([b], [(2, q), (1, k)]),
      run_group_of_matches (Matches.star_all q hq') _ 2 _ _, ?_⟩
    exact mem_run_chr.2 ⟨b, hb, rfl, rfl⟩
  · intro e he
    obtain ⟨he, hnil⟩ := mem_run_anchored.1 he
    obtain ⟨m1, h1, he⟩ := mem_run_seq.1 he
    obtain ⟨m2, h2, he⟩ := mem_run_seq.1 he
    obtain ⟨m3, h3, he⟩ := mem_run_seq.1 he
    obtain ⟨m4, h4, he⟩ := mem_run_seq.1 he
    obtain ⟨w1, e1, a1, c1, _⟩ := run_group_plain (by decide) h1
    obtain ⟨e2, c2⟩ := mem_run_lit.1 h2
    obtain ⟨a', _, e3, c3⟩ := mem_run_chr.1 h3
    obtain ⟨w2, e4, _, c4, _⟩ := run_group_plain (by decide) h4
    obtain ⟨b', _, e5, c5⟩ := mem_run_chr.1 he
    simp only at e1 c1
    rw [hnil] at e5
    rw [e2, e3, e4, e5] at e1
    have hw1 : ':' ∉ w1 := by
      intro hmem
      rcases keyRe_admits (a1 _ hmem) with h | h
      · revert h; decide
      · revert h; decide
    obtain ⟨h1, h2⟩ := split_first (isFieldName_not_mem hk (by decide) (by decide)) hw1 e1
    simp only [List.cons.injEq] at h2
    obtain ⟨h2, h3⟩ := List.append_inj' h2.2 rfl
    subst h1 h2
    simp [submatches, hgroups, hnil, c5, c4, c3, c2, c1, List.range, List.range.loop,
      List.lookup]

theorem beq_toNat {c d : Char} (h : (c == d) = true) : c.toNat = d.toNat := by
  rw [beq_iff_eq] at h; rw [h]

theorem strRe_first {c : Char} (h : isQuote c = false) (t : Str) :
    FindStringSubmatch strRe (c :: t) = [] := by
  have hre : strRe = Re.seq Re.bot (Re.seq (Re.seq (Re.chr isQuote)
      (Re.seq (Re.group 1 (Re.chr isAnyNoNL).star) (Re.chr isQuote))) Re.eot) := rfl
  rw [hre]
  exact no_match_of_first (by simp [Re.first, Re.minLen, h])

theorem strRe_nil : FindStringSubmatch strRe [] = [] := by decide

theorem intRangeRe_nil : FindStringSubmatch intRangeRe [] = [] := by decide

theorem floatRangeRe_nil : FindStringSubmatch floatRangeRe [] = [] := by decide

theorem timeRangeRe_nil : FindStringSubmatch timeRangeRe [] = [] := by decide

theorem intRangeRe_first {c : Char} (h : isDigit c = false) (h' : c ≠ '*') (t : Str) :
    FindStringSubmatch intRangeRe (c :: t) = [] := by
  have hre : intRangeRe = Re.seq Re.bot (Re.seq
      (Re.alt (Re.seq (Re.group 1 intEndRe) (Re.seq (Re.lit '.') (Re.seq (Re.lit '.')
        (Re.group 2 intEndRe)))) (Re.group 3 (Re.chr isDigit).plus)) Re.eot) := rfl
  rw [hre]
  refine no_match_of_first ?_
  simp [Re.first, Re.minLen, intEndRe, Re.plus, Re.lit, h, h']

theorem floatRangeRe_first {c : Char} (h : isDigit c = false) (h' : c ≠ '*') (t : Str) :
    FindStringSubmatch floatRangeRe (c :: t) = [] := by
  have hre : floatRangeRe = Re.seq Re.bot (Re.seq
      (Re.alt (Re.seq (Re.group 1 (floatEndRe true)) (Re.seq (Re.lit '.') (Re.seq (Re.lit '.')
        (Re.group 2 (floatEndRe true))))) (Re.group 3 (floatEndRe false))) Re.eot) := rfl
  rw [hre]
  refine no_match_of_first ?_
  have h0 : c ≠ '0' := by rintro rfl; revert h; decide
  have h19 : inRange 49 57 c = false := by
    simp only [isDigit, inRange, Bool.and_eq_false_iff, decide_eq_false_iff_not] at h ⊢
    omega
  simp [Re.first, Re.minLen, floatEndRe, Re.cat, Re.plus, Re.lit, h, h', h0, h19]

theorem timeRangeRe_first {c : Char} (h : isDigit c = false) (h' : c ≠ '*') (t : Str) :
    FindStringSubmatch timeRangeRe (c :: t) = [] := by
  have hre : timeRangeRe = Re.seq Re.bot (Re.seq
      (Re.alt (Re.seq (Re.group 1 (Re.alt timeRe (Re.lit '*'))) (Re.seq (Re.lit '.')
        (Re.seq (Re.lit '.') (Re.group 2 (Re.alt timeRe (Re.lit '*'))))))
        (Re.seq Re.bot (Re.group 3 timeRe))) Re.eot) := rfl
  rw [hre]
  refine no_match_of_first ?_
  simp [Re.first, Re.minLen, timeRe, Re.cat, Re.rep, Re.lit, h, h']

theorem isLetter_not_digit {c : Char} (h : isLetter c = true) : isDigit c = false := by
  simp only [isLetter, isLower, isUpper, isDigit, inRange, Bool.or_eq_true, Bool.and_eq_true,
    decide_eq_true_eq, Bool.and_eq_false_iff, decide_eq_false_iff_not] at h ⊢
  omega

theorem isLetter_not_quote {c : Char} (h : isLetter c = true) : isQuote c = false := by
  cases hq : isQuote c with
  | false => rfl
  | true =>
    simp only [isQuote, Bool.or_eq_true, beq_iff_eq] at hq
    rcases hq with rfl | rfl <;> revert h <;> decide

theorem isLetter_ne_star {c : Char} (h : isLetter c = true) : c ≠ '*' := by
  rintro rfl; revert h; decide

/-- A word of letters matches none of the typed patterns. -/
theorem word_untyped {w : Str} (hw : ∀ c ∈ w, isLetter c = true) :
    FindStringSubmatch strRe w = [] ∧ FindStringSubmatch intRangeRe w = [] ∧
    FindStringSubmatch floatRangeRe w = [] ∧ FindStringSubmatch timeRangeRe w = [] := by
  cases w with
  | nil => exact ⟨strRe_nil, intRangeRe_nil, floatRangeRe_nil, timeRangeRe_nil⟩
  | cons c t =>
    have hc := hw c (by simp)
    exact ⟨strRe_first (isLetter_not_quote hc) t,
      intRangeRe_first (isLetter_not_digit hc) (isLetter_ne_star hc) t,
      floatRangeRe_first (isLetter_not_digit hc) (isLetter_ne_star hc) t,
      timeRangeRe_first (isLetter_not_digit hc) (isLetter_ne_star hc) t⟩

theorem foldl_decimal_ge (t : Str) (n : Nat) :
    n ≤ t.foldl (fun n c => n * 10 + (c.toNat - 48)) n := by
  induction t generalizing n with
  | nil => simp
  | cons c t ih =>
    simp only [List.foldl_cons]
    exact le_trans (by omega) (ih _)

theorem parseUintLoop_ok (t : Str) (n : Nat) (ht : ∀ c ∈ t, isDigit c = true)
    (hb : t.foldl (fun n c => n * 10 + (c.toNat - 48)) n < 2 ^ 64) :
    parseUintLoop t n = .ok (t.foldl (fun n c => n * 10 + (c.toNat - 48)) n) := by
  induction t generalizing n with
  | nil => simp [parseUintLoop]
  | cons c t ih =>
    simp only [List.foldl_cons] at hb ⊢
    have hge := foldl_decimal_ge t (n * 10 + (c.toNat - 48))
    have h1 : ¬ (n ≥ 2 ^ 64 / 10 + 1) := by
      norm_num at hb hge ⊢; omega
    have h2 : ¬ (n * 10 + (c.toNat - 48) ≥ 2 ^ 64) := by omega
    simp only [parseUintLoop, ht c (by simp), Bool.not_true, Bool.false_eq_true, if_false, h1, h2]
    exact ih _ (fun c hc => ht c (by simp [hc])) hb

theorem isDigits_iff {s : Str} : isDigits s = true ↔ s ≠ [] ∧ ∀ c ∈ s, isDigit c = true := by
  cases s <;> simp [isDigits]

/-- `strconv.ParseInt` on a run of digits below `2^63` gives its value. -/
theorem ParseInt_digits {s : Str} (hs : isDigits s = true) (hb : decimal s < 2 ^ 63) :
    ParseInt s = .ok (decimal s : Int) := by
  obtain ⟨hne, hd⟩ := isDigits_iff.1 hs
  cases s with
  | nil => exact absurd rfl hne
  | cons c t =>
    have hc := hd c (by simp)
    have hplus : (c == '+') = false := by
      cases h : c == '+' with
      | false => rfl
      | true => rw [beq_iff_eq] at h; subst h; revert hc; decide
    have hminus : (c == '-') = false := by
      cases h : c == '-' with
      | false => rfl
      | true => rw [beq_iff_eq] at h; subst h; revert hc; decide
    have hloop := parseUintLoop_ok (c :: t) 0 hd (by unfold decimal at hb; omega)
    have h63 : ¬ ((c :: t).foldl (fun n c => n * 10 + (c.toNat - 48)) 0 ≥ 2 ^ 63) := by
      unfold decimal at hb; omega
    simp only [ParseInt, hplus, hminus, Bool.or_self, Bool.false_eq_true, if_false, hloop,
      Bool.not_false, Bool.true_and, decide_eq_true_eq, h63, Bool.false_and, decimal]

/-! ### String helpers -/

theorem Index_not_mem {s : Str} {x : Char} (h : x ∉ s) : Index s x = none := by
  induction s with
  | nil => rfl
  | cons a t ih =>
    have ha : ¬ a = x := fun e => h (by simp [e])
    have ht : x ∉ t := fun e => h (by simp [e])
    simp [Index, ha, ih ht]

theorem Index_append {a : Str} (b : Str) {x : Char} (h : x ∉ a) :
    Index (a ++ b) x = (Index b x).map (· + a.length) := by
  induction a with
  | nil => simp
  | cons c t ih =>
    have hc : ¬ c = x := fun e => h (by simp [e])
    have ht : x ∉ t := fun e => h (by simp [e])
    have e : Index (c :: (t ++ b)) x = (Index (t ++ b) x).map (· + 1) := by
      simp [Index, hc]
    rw [List.cons_append, e, ih ht]
    cases Index b x with
    | none => rfl
    | some i => simp only [Option.map_some', List.length_cons, Option.some.injEq]; omega

theorem Index_mem {s : Str} {x : Char} (h : x ∈ s) : ∃ i, Index s x = some i := by
  induction s with
  | nil => simp at h
  | cons a t ih =>
    by_cases ha : a = x
    · exact ⟨0, by simp [Index, ha]⟩
    · have ht : x ∈ t := by
        rcases List.mem_cons.1 h with e | e
        · exact absurd e.symm ha
        · exact e
      obtain ⟨i, hi⟩ := ih ht
      exact ⟨i + 1, by simp [Index, ha, hi]⟩

theorem TrimSpace_eq {s : Str} (h1 : ∀ c ∈ s.head?, isSpace c = false)
    (h2 : ∀ c ∈ s.getLast?, isSpace c = false) : TrimSpace s = s := by
  have hd : ∀ t : Str, (∀ c ∈ t.head?, isSpace c = false) → t.dropWhile isSpace = t := by
    intro t ht
    cases t with
    | nil => rfl
    | cons a t => simp [List.dropWhile, ht a (by simp)]
  unfold TrimSpace
  rw [hd s h1, hd s.reverse (by simpa using h2), List.reverse_reverse]

theorem TrimSpace_nil : TrimSpace [] = [] := rfl

/-- A text without white space and single quotes is one token. -/
theorem splitSearchString_token {s : Str} (hne : s ≠ [])
    (hs : ∀ c ∈ s, isSpace c = false ∧ c ≠ quote) : splitSearchString s = some [s] := by
  have htrim : TrimSpace s = s :=
    TrimSpace_eq (fun c hc => (hs c (List.mem_of_mem_head? hc)).1)
      (fun c hc => (hs c (List.mem_of_mem_getLast? hc)).1)
  have hsp : Index s ' ' = none :=
    Index_not_mem (fun h => by have := (hs _ h).1; revert this; decide)
  have hq : Index s quote = none := Index_not_mem (fun h => (hs _ h).2 rfl)
  simp [splitSearchString, htrim, hne, splitLoop, hsp, hq]

theorem Split_not_mem {s : Str} {x : Char} (h : x ∉ s) : Split s x = [s] := by
  induction s with
  | nil => rfl
  | cons a t ih =>
    have ha : ¬ a = x := fun e => h (by simp [e])
    have ht : x ∉ t := fun e => h (by simp [e])
    simp [Split, ha, ih ht]

theorem Split_cons_eq (t : Str) (c : Char) : Split (c :: t) c = [] :: Split t c := by
  simp [Split]

theorem Split_cons_ne {a c : Char} (t : Str) (h : a ≠ c) {x : Str} {r : List Str}
    (ht : Split t c = x :: r) : Split (a :: t) c = (a :: x) :: r := by
  simp [Split, h, ht]

theorem Split_joined (x : Str) (ys : List Str) (c : Char) (hx : c ∉ x)
    (hys : ∀ y ∈ ys, c ∉ y) : Split (x ++ ys.flatMap (fun y => c :: y)) c = x :: ys := by
  induction ys generalizing x with
  | nil => simpa using Split_not_mem hx
  | cons y ys ih =>
    induction x with
    | nil =>
      have := ih y (hys y (by simp)) (fun z hz => hys z (by simp [hz]))
      have e : ([] : Str) ++ (y :: ys).flatMap (fun y => c :: y) =
          c :: (y ++ ys.flatMap (fun y => c :: y)) := by simp
      rw [e, Split_cons_eq, this]
    | cons a t iht =>
      have ha : a ≠ c := fun e => hx (by simp [e])
      have ht : c ∉ t := fun e => hx (by simp [e])
      rw [List.cons_append]
      exact Split_cons_ne _ ha (iht ht)

theorem Join_cons (x : Str) (ys : List Str) (c : Char) :
    Join (x :: ys) [c] = x ++ ys.flatMap (fun y => c :: y) := by
  induction ys generalizing x with
  | nil => simp [Join]
  | cons y ys ih => simp [Join, ih y]

theorem itemRe_matches (cls : Char → Bool) (op v : Str) (hop : op ∈ opPrefixes)
    (hv : ∀ c ∈ v, cls c = true) : Matches (itemRe cls) (op ++ v) := by
  have hre : itemRe cls = Re.seq opsRe.opt (Re.seq (Re.chr isQuote).opt
      (Re.seq (Re.seq (Re.lit '$').opt (Re.chr cls).star) (Re.chr isQuote).opt)) := rfl
  rw [hre]
  have hop' : Matches opsRe.opt op := by
    by_cases hne : op = []
    · subst hne; exact Matches.opt_none _
    · exact Matches.opt_some (opsRe_matches hop hne)
  have hrest : Matches (Re.seq (Re.chr isQuote).opt
      (Re.seq (Re.seq (Re.lit '$').opt (Re.chr cls).star) (Re.chr isQuote).opt)) v := by
    have := Matches.seq (Matches.opt_none (Re.chr isQuote))
      (Matches.seq (Matches.seq (Matches.opt_none (Re.lit '$')) (Matches.star_all v hv))
        (Matches.opt_none (Re.chr isQuote)))
    simpa using this
  exact Matches.seq hop' hrest

theorem valuesRe_matches (L : Lib) (x : Str) (ys : List Str)
    (hx : Matches (itemRe (valCls L)) x) (hys : ∀ y ∈ ys, Matches (itemRe valCls2) y) :
    Matches (valuesRe L) (x ++ ys.flatMap (fun y => ',' :: y)) := by
  have hre : valuesRe L = Re.seq (itemRe (valCls L))
      (Re.star (Re.seq (Re.lit ',') (itemRe valCls2))) := rfl
  rw [hre]
  refine Matches.seq hx ?_
  induction ys with
  | nil => exact Matches.star_nil _
  | cons y ys ih =>
    have h1 : Matches (Re.seq (Re.lit ',') (itemRe valCls2)) (',' :: y) :=
      Matches.seq (u := [',']) (Matches.lit ',') (hys y (by simp))
    simpa using Matches.star_cons h1 (by simp) (ih (fun z hz => hys z (by simp [hz])))

theorem valuesRe_matches_one (L : Lib) (op v : Str) (hop : op ∈ opPrefixes)
    (hv : ∀ c ∈ v, valCls L c = true) : Matches (valuesRe L) (op ++ v) := by
  simpa using valuesRe_matches L (op ++ v) [] (itemRe_matches _ op v hop hv) (by simp)

theorem symbolOf_op {op : Str} (hop : op ∈ opPrefixes) : symbolOf op = some op := by
  simp only [opPrefixes, List.mem_cons, List.mem_singleton, List.not_mem_nil, or_false] at hop
  rcases hop with rfl | rfl | rfl | rfl | rfl | rfl <;> decide

/-- Reading a raw value made of an operator prefix and an operand of the class
of `pattern3`: the cascade runs on the operand with the prefix as symbol. -/
theorem parseRawValue_eq (L : Lib) (op v : Str) (hop : op ∈ opPrefixes)
    (hv : ∀ c ∈ v, rawCls L c = true) (err : Option GoError) :
    parseRawValue L (op ++ v) err = typeValue L (op ++ v) v ⟨op, .nil, .nil⟩ err := by
  simp [parseRawValue, re3_find L op v hop hv, symbolOf_op hop]

theorem isIntEnd_head {a : Str} (ha : isIntEnd a) (t : Str) :
    ∃ c r, a ++ t = c :: r ∧ isQuote c = false := by
  rcases ha with ⟨hne, hd⟩ | rfl
  · cases a with
    | nil => exact absurd rfl hne
    | cons c r =>
      refine ⟨c, r ++ t, rfl, ?_⟩
      have hc := hd c (by simp)
      cases hq : isQuote c with
      | false => rfl
      | true =>
        simp only [isQuote, Bool.or_eq_true, beq_iff_eq] at hq
        rcases hq with rfl | rfl <;> revert hc <;> decide
  · exact ⟨'*', t, rfl, by decide⟩

theorem endpoint_int {a : Str} (ha : isIntEnd a) (hb : a ≠ ['*'] → decimal a < 2 ^ 63)
    (msg : Str) (err : Option GoError) :
    endpoint (fun s => (ParseInt s).map Any.int64) a msg .nil err =
      .ok (intEndValue a, if a = ['*'] then err else none) := by
  by_cases hs : a = ['*']
  · subst hs; rfl
  · rcases ha with ⟨hne, hd⟩ | h
    · have : ParseInt a = .ok (decimal a : Int) :=
        ParseInt_digits (isDigits_iff.2 ⟨hne, hd⟩) (hb hs)
      have hs' : ¬ a = "*".toList := hs
      simp [endpoint, hs', hs, this, intEndValue, Except.map]
    · exact absurd h hs

/-- The cascade on an integer range without operator prefix. -/
theorem typeValue_int_range (L : Lib) (raw a b : Str) (ha : isIntEnd a) (hb : isIntEnd b)
    (ha' : a ≠ ['*'] → decimal a < 2 ^ 63) (hb' : b ≠ ['*'] → decimal b < 2 ^ 63) :
    typeValue L raw (a ++ '.' :: '.' :: b) ⟨SearchSymbolNone, .nil, .nil⟩ none =
      .ok (⟨SearchSymbolRange, intEndValue a, intEndValue b⟩, none) := by
  obtain ⟨c, r, hcr, hq⟩ := isIntEnd_head ha ('.' :: '.' :: b)
  have hstr : FindStringSubmatch strRe (a ++ '.' :: '.' :: b) = [] := by
    rw [hcr]; exact strRe_first hq r
  have hane : a ≠ [] := by
    rcases ha with ⟨h, _⟩ | rfl
    · exact h
    · simp
  simp [typeValue, hstr, intRangeRe_find_range a b ha hb, intBranch, hane,
    endpoint_int ha ha', endpoint_int hb hb']

/-- The cascade on an integer range with an operator prefix: an early return
that wraps the nil `err`. -/
theorem typeValue_int_range_op (L : Lib) (raw a b sym : Str) (ha : isIntEnd a) (hb : isIntEnd b)
    (hsym : sym ≠ SearchSymbolNone) (err : Option GoError) :
    typeValue L raw (a ++ '.' :: '.' :: b) ⟨sym, .nil, .nil⟩ err =
      .error (errors.Wrap err ("parse int range error, ".toList ++ raw)) := by
  obtain ⟨c, r, hcr, hq⟩ := isIntEnd_head ha ('.' :: '.' :: b)
  have hstr : FindStringSubmatch strRe (a ++ '.' :: '.' :: b) = [] := by
    rw [hcr]; exact strRe_first hq r
  have hane : a ≠ [] := by
    rcases ha with ⟨h, _⟩ | rfl
    · exact h
    · simp
  simp [typeValue, hstr, intRangeRe_find_range a b ha hb, intBranch, hane, hsym]

/-- The cascade on a run of digits. -/
theorem typeValue_int (L : Lib) (raw a sym : Str) (ha : isDigits a = true)
    (hb : decimal a < 2 ^ 63) (err : Option GoError) :
    typeValue L raw a ⟨sym, .nil, .nil⟩ err =
      .ok (⟨defaultEq sym, .int64 (decimal a), .nil⟩, none) := by
  obtain ⟨hne, hd⟩ := isDigits_iff.1 ha
  obtain ⟨c, r, hcr, hq⟩ := isIntEnd_head (Or.inl ⟨hne, hd⟩) []
  have hstr : FindStringSubmatch strRe a = [] := by
    rw [List.append_nil] at hcr
    rw [hcr]; exact strRe_first hq r
  simp [typeValue, hstr, intRangeRe_find_single a hne hd, intBranch, hne,
    ParseInt_digits ha hb, Except.map]

/-- The cascade on a word of letters: the raw-string fallback. -/
theorem typeValue_word (L : Lib) (raw w sym : Str) (hw : ∀ c ∈ w, isLetter c = true)
    (err : Option GoError) :
    typeValue L raw w ⟨sym, .nil, .nil⟩ err = .ok (⟨defaultEq sym, .str w, .nil⟩, err) := by
  obtain ⟨h1, h2, h3, h4⟩ := word_untyped hw
  simp [typeValue, h1, h2, h3, h4]

theorem char_eq_of_toNat {c d : Char} (h : c.toNat = d.toNat) : c = d := by
  rw [← Char.ofNat_toNat c, ← Char.ofNat_toNat d, h]

theorem valAscii_range {c : Char} (h : valAscii c = true) :
    42 ≤ c.toNat ∧ c.toNat ≤ 122 := by
  simp only [valAscii, isLower, isUpper, isDigit, inRange, Bool.or_eq_true, Bool.and_eq_true,
    decide_eq_true_eq, beq_iff_eq] at h
  rcases h with ((((((((h | h) | h) | rfl) | rfl) | rfl) | rfl) | rfl) | rfl)
  all_goals first | omega | decide

theorem keyCls_valAscii {c : Char} (h : keyCls c = true) : valAscii c = true := by
  simp only [keyCls, valAscii, Bool.or_eq_true] at h ⊢
  tauto

theorem isDigit_keyCls {c : Char} (h : isDigit c = true) : keyCls c = true := by
  simp [keyCls, h]

theorem isLetter_keyCls {c : Char} (h : isLetter c = true) : keyCls c = true := by
  simp only [isLetter, Bool.or_eq_true] at h
  rcases h with h | h <;> simp [keyCls, h]

theorem isLetter_valAscii {c : Char} (h : isLetter c = true) : valAscii c = true :=
  keyCls_valAscii (isLetter_keyCls h)

theorem isDigit_valAscii {c : Char} (h : isDigit c = true) : valAscii c = true :=
  keyCls_valAscii (isDigit_keyCls h)

theorem valAscii_valCls (L : Lib) {c : Char} (h : valAscii c = true) : valCls L c = true :=
  (valCls_iff L c).2 (Or.inl h)

theorem valAscii_valCls2 {c : Char} (h : valAscii c = true) : valCls2 c = true := by
  simp only [valCls2, valAscii, Bool.or_eq_true] at h ⊢
  tauto

theorem valAscii_rawCls (L : Lib) {c : Char} (h : valAscii c = true) : rawCls L c = true :=
  (rawCls_iff L c).2 (Or.inl h)

/-- A printable ASCII character other than the single quote is neither white
space nor a quote. -/
theorem token_char_of_range {c : Char} (h1 : 33 ≤ c.toNat) (h2 : c.toNat ≤ 126)
    (h3 : c.toNat ≠ 39) : isSpace c = false ∧ c ≠ quote := by
  constructor
  · simp only [isSpace, inRange, Bool.or_eq_false_iff, Bool.and_eq_false_iff,
      decide_eq_false_iff_not, beq_eq_false_iff_ne, ne_eq]
    omega
  · rintro rfl; exact h3 (by decide)

theorem valAscii_token {c : Char} (h : valAscii c = true) : isSpace c = false ∧ c ≠ quote := by
  have := valAscii_range h
  exact token_char_of_range (by omega) (by omega) (by omega)

theorem isOpChar_token {c : Char} (h : isOpChar c = true) : isSpace c = false ∧ c ≠ quote := by
  simp only [isOpChar, Bool.or_eq_true, beq_iff_eq] at h
  rcases h with ((rfl | rfl) | rfl) | rfl <;> decide

theorem isFieldName_token {k : Str} (hk : isFieldName k = true) :
    ∀ c ∈ k, isSpace c = false ∧ c ≠ quote := by
  intro c hc
  rcases isFieldName_chars hk c hc with rfl | h
  · decide
  · exact valAscii_token (keyCls_valAscii h)

/-- `ParseSearchString2` on one token without white space and quotes: the loop
body runs once, on the whole text. -/
theorem ParseSearchString2_token (L : Lib) {s : Str} (hne : s ≠ [])
    (hs : ∀ c ∈ s, isSpace c = false ∧ c ≠ quote) :
    ParseSearchString2 L s = some (match parsePart L s [] with
      | .error e => ([], e)
      | .ok search => (search, none)) := by
  simp only [ParseSearchString2, splitSearchString_token hne hs, Option.map_some', parseParts,
    hne, if_false]

/-- The loop body on `key:values`, once `pattern2` has matched. -/
theorem parsePart_values (L : Lib) (k v : Str) (hk : isFieldName k = true)
    (hv : Matches (valuesRe L) v) (search : SearchData) :
    parsePart L (k ++ ':' :: v) search =
      (match parseRawValues L (Split v ',') [] none with
      | .error e => .error e
      | .ok values =>
        if values.length > 0 then .ok (mapSet search k values) else .ok search) := by
  simp [parsePart, re2_find L k v hk hv]

/-- `ParseSearchString2` on `key:value` for a single value made of an operator
prefix and an operand of ASCII value characters. -/
theorem ParseSearchString2_single (L : Lib) (k op v : Str) (hk : isFieldName k = true)
    (hop : op ∈ opPrefixes) (hv : ∀ c ∈ v, valAscii c = true) (hcomma : ',' ∉ v) :
    ParseSearchString2 L (k ++ ':' :: (op ++ v)) =
      some (match typeValue L (op ++ v) v ⟨op, .nil, .nil⟩ none with
        | .error e => ([], e)
        | .ok r => ([(k, [r.1])], none)) := by
  have hs : ∀ c ∈ k ++ ':' :: (op ++ v), isSpace c = false ∧ c ≠ quote := by
    intro c hc
    simp only [List.mem_append, List.mem_cons] at hc
    rcases hc with hc | rfl | hc | hc
    · exact isFieldName_token hk c hc
    · decide
    · exact isOpChar_token (opPrefixes_opChar hop c hc)
    · exact valAscii_token (hv c hc)
  have hm : Matches (valuesRe L) (op ++ v) :=
    valuesRe_matches_one L op v hop (fun c hc => valAscii_valCls L (hv c hc))
  have hsplit : Split (op ++ v) ',' = [op ++ v] := by
    refine Split_not_mem ?_
    intro h
    rcases List.mem_append.1 h with h | h
    · have := opPrefixes_opChar hop _ h; revert this; decide
    · exact hcomma h
  rw [ParseSearchString2_token L (by simp) hs, parsePart_values L k _ hk hm, hsplit]
  simp only [parseRawValues, parseRawValue_eq L op v hop (fun c hc => valAscii_rawCls L (hv c hc))]
  cases typeValue L (op ++ v) v ⟨op, .nil, .nil⟩ none with
  | error e => rfl
  | ok r => obtain ⟨value, err⟩ := r; simp [parseRawValues, mapSet]

theorem isDigits_not_star {a : Str} (ha : isDigits a = true) : a ≠ ['*'] := by
  rintro rfl; revert ha; decide

theorem isDigits_intEnd {a : Str} (ha : isDigits a = true) : isIntEnd a :=
  Or.inl (isDigits_iff.1 ha)

theorem intEndValue_digits {a : Str} (ha : isDigits a = true) :
    intEndValue a = .int64 (decimal a) := by
  simp [intEndValue, isDigits_not_star ha]

theorem isDigits_valAscii {a : Str} (ha : isDigits a = true) : ∀ c ∈ a, valAscii c = true :=
  fun c hc => isDigit_valAscii ((isDigits_iff.1 ha).2 c hc)

theorem isDigits_no_comma {a : Str} (ha : isDigits a = true) : ',' ∉ a := by
  intro h
  have := (isDigits_iff.1 ha).2 _ h
  revert this; decide

/-- C1: for every field name `k` and all digit strings `a`, `b` whose values
fit in a signed 64-bit integer, `ParseSearchString2("k:a..b")` succeeds and maps
`k` to exactly one predicate with operator range, value the integer `a` and
value2 the integer `b`, both 64-bit integers and not floats. -/
theorem C1_int_range (L : Lib) (k a b : Str) (hk : isFieldName k = true)
    (ha : isDigits a = true) (hb : isDigits b = true)
    (ha' : decimal a < 2 ^ 63) (hb' : decimal b < 2 ^ 63) :
    ParseSearchString2 L (k ++ ":".toList ++ a ++ "..".toList ++ b) =
      some ([(k, [⟨SearchSymbolRange, .int64 (decimal a), .int64 (decimal b)⟩])], none) := by
  have e : k ++ ":".toList ++ a ++ "..".toList ++ b = k ++ ':' :: ([] ++ (a ++ '.' :: '.' :: b)) := by
    simp
  have hv : ∀ c ∈ a ++ '.' :: '.' :: b, valAscii c = true := by
    intro c hc
    simp only [List.mem_append, List.mem_cons] at hc
    rcases hc with hc | rfl | rfl | hc
    · exact isDigits_valAscii ha c hc
    · decide
    · decide
    · exact isDigits_valAscii hb c hc
  have hcomma : ',' ∉ a ++ '.' :: '.' :: b := by
    intro hc
    simp only [List.mem_append, List.mem_cons] at hc
    rcases hc with hc | hc | hc | hc
    · exact isDigits_no_comma ha hc
    · revert hc; decide
    · revert hc; decide
    · exact isDigits_no_comma hb hc
  rw [e, ParseSearchString2_single L k [] _ hk (by decide) hv hcomma]
  have ht := typeValue_int_range L ([] ++ (a ++ '.' :: '.' :: b)) a b (isDigits_intEnd ha)
    (isDigits_intEnd hb) (fun _ => ha') (fun _ => hb')
  have hnone : SearchSymbolNone = ([] : Str) := rfl
  rw [hnone] at ht
  rw [ht, intEndValue_digits ha, intEndValue_digits hb]

/-- C1 at `age:18..30`: one range predicate with the integers 18 and 30. -/
theorem C1_int_range_witness :
    (isFieldName "age".toList = true ∧ isDigits "18".toList = true ∧
      isDigits "30".toList = true) ∧
    ∀ L : Lib, ParseSearchString2 L "age:18..30".toList =
      some ([("age".toList, [⟨SearchSymbolRange, .int64 18, .int64 30⟩])], none) := by
  refine ⟨by decide, fun L => ?_⟩
  have h := C1_int_range L "age".toList "18".toList "30".toList (by decide) (by decide)
    (by decide) (by decide) (by decide)
  have e1 : decimal "18".toList = 18 := by decide
  have e2 : decimal "30".toList = 30 := by decide
  rw [e1, e2] at h
  exact h

/-- A single value made of an operator prefix and a run of digits. -/
theorem ParseSearchString2_op_int (L : Lib) (k op n : Str) (hk : isFieldName k = true)
    (hop : op ∈ opPrefixes) (hn : isDigits n = true) (hn' : decimal n < 2 ^ 63) :
    ParseSearchString2 L (k ++ ':' :: (op ++ n)) =
      some ([(k, [⟨defaultEq op, .int64 (decimal n), .nil⟩])], none) := by
  rw [ParseSearchString2_single L k op n hk hop (isDigits_valAscii hn) (isDigits_no_comma hn),
    typeValue_int L (op ++ n) n op hn hn' none]

/-- C4: for every field name `k` and decimal literal `n` fitting a signed 64-bit
integer, `ParseSearchString2("k:" + prefix + n)` maps `k` to exactly one
predicate with value the 64-bit integer `n` and operator greater, greater-or-equal,
less, less-or-equal, not-equal for the prefixes `>`, `>=`, `<`, `<=`, `!=`, and
equal for no prefix. -/
theorem C4_operator_prefixes (L : Lib) (k n : Str) (hk : isFieldName k = true)
    (hn : isDigits n = true) (hn' : decimal n < 2 ^ 63) :
    ParseSearchString2 L (k ++ ":>".toList ++ n) =
      some ([(k, [⟨SearchSymbolGt, .int64 (decimal n), .nil⟩])], none) ∧
    ParseSearchString2 L (k ++ ":>=".toList ++ n) =
      some ([(k, [⟨SearchSymbolGte, .int64 (decimal n), .nil⟩])], none) ∧
    ParseSearchString2 L (k ++ ":<".toList ++ n) =
      some ([(k, [⟨SearchSymbolLt, .int64 (decimal n), .nil⟩])], none) ∧
    ParseSearchString2 L (k ++ ":<=".toList ++ n) =
      some ([(k, [⟨SearchSymbolLte, .int64 (decimal n), .nil⟩])], none) ∧
    ParseSearchString2 L (k ++ ":!=".toList ++ n) =
      some ([(k, [⟨SearchSymbolNot, .int64 (decimal n), .nil⟩])], none) ∧
    ParseSearchString2 L (k ++ ":".toList ++ n) =
      some ([(k, [⟨SearchSymbolEq, .int64 (decimal n), .nil⟩])], none) := by
  refine ⟨?_, ?_, ?_, ?_, ?_, ?_⟩
  · simpa using ParseSearchString2_op_int L k ">".toList n hk (by decide) hn hn'
  · simpa using ParseSearchString2_op_int L k ">=".toList n hk (by decide) hn hn'
  · simpa using ParseSearchString2_op_int L k "<".toList n hk (by decide) hn hn'
  · simpa using ParseSearchString2_op_int L k "<=".toList n hk (by decide) hn hn'
  · simpa using ParseSearchString2_op_int L k "!=".toList n hk (by decide) hn hn'
  · simpa using ParseSearchString2_op_int L k [] n hk (by decide) hn hn'

/-- C4 at `age:>=18` and its five siblings. -/
theorem C4_operator_prefixes_witness :
    (isFieldName "age".toList = true ∧ isDigits "18".toList = true) ∧
    ∀ L : Lib,
      ParseSearchString2 L "age:>18".toList =
        some ([("age".toList, [⟨SearchSymbolGt, .int64 18, .nil⟩])], none) ∧
      ParseSearchString2 L "age:>=18".toList =
        some ([("age".toList, [⟨SearchSymbolGte, .int64 18, .nil⟩])], none) ∧
      ParseSearchString2 L "age:<18".toList =
        some ([("age".toList, [⟨SearchSymbolLt, .int64 18, .nil⟩])], none) ∧
      ParseSearchString2 L "age:<=18".toList =
        some ([("age".toList, [⟨SearchSymbolLte, .int64 18, .nil⟩])], none) ∧
      ParseSearchString2 L "age:!=18".toList =
        some ([("age".toList, [⟨SearchSymbolNot, .int64 18, .nil⟩])], none) ∧
      ParseSearchString2 L "age:18".toList =
        some ([("age".toList, [⟨SearchSymbolEq, .int64 18, .nil⟩])], none) := by
  refine ⟨by decide, fun L => ?_⟩
  have h := C4_operator_prefixes L "age".toList "18".toList (by decide) (by decide) (by decide)
  have e1 : decimal "18".toList = 18 := by decide
  rw [e1] at h
  exact h

theorem prefixedWord_op (v : Bool × Str) :
    (if v.1 then "!=".toList else ([] : Str)) ∈ opPrefixes := by
  cases v.1 <;> decide

theorem prefixedWord_chars {v : Bool × Str} (hw : ∀ c ∈ v.2, isLetter c = true) :
    ∀ c ∈ prefixedWord v, isOpChar c = true ∨ isLetter c = true := by
  intro c hc
  rcases List.mem_append.1 hc with h | h
  · exact Or.inl (opPrefixes_opChar (prefixedWord_op v) c h)
  · exact Or.inr (hw c h)

theorem prefixedWord_no_comma {v : Bool × Str} (hw : ∀ c ∈ v.2, isLetter c = true) :
    ',' ∉ prefixedWord v := by
  intro h
  rcases prefixedWord_chars hw _ h with h | h <;> revert h <;> decide

theorem parseRawValue_word (L : Lib) (v : Bool × Str) (hw : ∀ c ∈ v.2, isLetter c = true) :
    parseRawValue L (prefixedWord v) none = .ok (wordPredicate v, none) := by
  unfold prefixedWord
  rw [parseRawValue_eq L _ v.2 (prefixedWord_op v)
    (fun c hc => valAscii_rawCls L (isLetter_valAscii (hw c hc))),
    typeValue_word L _ v.2 _ hw none]
  have h1 : defaultEq [] = SearchSymbolEq := by decide
  have h2 : defaultEq "!=".toList = SearchSymbolNot := by decide
  obtain ⟨b, w⟩ := v
  cases b
  · simp [wordPredicate, h1]
  · simp only [wordPredicate, if_true]; rw [h2]

theorem parseRawValues_words (L : Lib) (vs : List (Bool × Str))
    (hw : ∀ x ∈ vs, ∀ c ∈ x.2, isLetter c = true) (acc : List SearchValue) :
    parseRawValues L (vs.map prefixedWord) acc none = .ok (acc ++ vs.map wordPredicate) := by
  induction vs generalizing acc with
  | nil => simp [parseRawValues]
  | cons v vs ih =>
    simp only [List.map_cons, parseRawValues, parseRawValue_word L v (hw v (by simp))]
    rw [ih (fun x hx => hw x (by simp [hx]))]
    simp

/-- C3: for every field name `k` and every non-empty list of alphabetic words,
each optionally prefixed by `!=`, `ParseSearchString2` applied to `k:` followed
by the comma-joined values succeeds and maps `k` to exactly one predicate per
value, in the written order: not-equal when prefixed, equal otherwise, with the
word as string value. -/
theorem C3_value_list (L : Lib) (k : Str) (v : Bool × Str) (vs : List (Bool × Str))
    (hk : isFieldName k = true) (hw : ∀ x ∈ v :: vs, ∀ c ∈ x.2, isLetter c = true) :
    ParseSearchString2 L (k ++ ":".toList ++ Join ((v :: vs).map prefixedWord) ",".toList) =
      some ([(k, (v :: vs).map wordPredicate)], none) := by
  have hv := hw v (by simp)
  have hvs : ∀ x ∈ vs, ∀ c ∈ x.2, isLetter c = true := fun x hx => hw x (by simp [hx])
  have hjoin : Join ((v :: vs).map prefixedWord) ",".toList =
      prefixedWord v ++ (vs.map prefixedWord).flatMap (fun y => ',' :: y) :=
    Join_cons _ _ ','
  have e : k ++ ":".toList ++ Join ((v :: vs).map prefixedWord) ",".toList =
      k ++ ':' :: (prefixedWord v ++ (vs.map prefixedWord).flatMap (fun y => ',' :: y)) := by
    rw [hjoin]; simp
  have hm : Matches (valuesRe L)
      (prefixedWord v ++ (vs.map prefixedWord).flatMap (fun y => ',' :: y)) := by
    refine valuesRe_matches L _ _ ?_ ?_
    · exact itemRe_matches _ _ v.2 (prefixedWord_op v)
        (fun c hc => valAscii_valCls L (isLetter_valAscii (hv c hc)))
    · intro y hy
      obtain ⟨x, hx, rfl⟩ := List.mem_map.1 hy
      exact itemRe_matches _ _ x.2 (prefixedWord_op x)
        (fun c hc => valAscii_valCls2 (isLetter_valAscii (hvs x hx c hc)))
  have hsplit : Split (prefixedWord v ++ (vs.map prefixedWord).flatMap (fun y => ',' :: y)) ',' =
      (v :: vs).map prefixedWord := by
    refine Split_joined _ _ ',' (prefixedWord_no_comma hv) ?_
    intro y hy
    obtain ⟨x, hx, rfl⟩ := List.mem_map.1 hy
    exact prefixedWord_no_comma (hvs x hx)
  have hs : ∀ c ∈ k ++ ':' :: (prefixedWord v ++
      (vs.map prefixedWord).flatMap (fun y => ',' :: y)), isSpace c = false ∧ c ≠ quote := by
    have hword : ∀ x ∈ v :: vs, ∀ c ∈ prefixedWord x, isSpace c = false ∧ c ≠ quote := by
      intro x hx c hc
      rcases prefixedWord_chars (hw x hx) c hc with h | h
      · exact isOpChar_token h
      · exact valAscii_token (isLetter_valAscii h)
    intro c hc
    simp only [List.mem_append, List.mem_cons, List.mem_flatMap, List.mem_map] at hc
    rcases hc with hc | rfl | hc | ⟨y, ⟨x, hx, rfl⟩, rfl | hc⟩
    · exact isFieldName_token hk c hc
    · decide
    · exact hword v (by simp) c hc
    · decide
    · exact hword x (by simp [hx]) c hc
  rw [e, ParseSearchString2_token L (by simp) hs, parsePart_values L k _ hk hm, hsplit,
    parseRawValues_words L (v :: vs) hw []]
  simp [mapSet]

/-- C3 at `status:!=active,!=pending`. -/
theorem C3_value_list_witness :
    isFieldName "status".toList = true ∧
    ∀ L : Lib, ParseSearchString2 L "status:!=active,!=pending".toList =
      some ([("status".toList, [⟨SearchSymbolNot, .str "active".toList, .nil⟩,
        ⟨SearchSymbolNot, .str "pending".toList, .nil⟩])], none) := by
  refine ⟨by decide, fun L => ?_⟩
  exact C3_value_list L "status".toList (true, "active".toList) [(true, "pending".toList)]
    (by decide) (by decide)

/-- The loop ends when neither a space nor a quote is left. -/
theorem splitLoop_end (text : Str) (fuel start : Nat) (parts : List Str)
    (hs : Index (text.drop start) ' ' = none) (hq : Index (text.drop start) quote = none) :
    splitLoop text (fuel + 1) start parts = some (parts ++ [TrimSpace (text.drop start)]) := by
  simp [splitLoop, hs, hq]

/-- One pass of the loop at a space that comes before any quote. -/
theorem splitLoop_space (text : Str) (fuel start : Nat) (parts : List Str) (si : Nat)
    (hs : Index (text.drop start) ' ' = some si)
    (hq : ∀ qi, Index (text.drop start) quote = some qi → si < qi) :
    splitLoop text (fuel + 1) start parts =
      splitLoop text fuel (start + si + 1)
        (parts ++ [TrimSpace (slice text start (start + si))]) := by
  cases hq' : Index (text.drop start) quote with
  | none => simp [splitLoop, hs, hq']
  | some qi => simp [splitLoop, hs, hq', hq qi hq']

/-- One pass of the loop at a quote that comes before any space and has a
closing quote. -/
theorem splitLoop_quote (text : Str) (fuel start : Nat) (parts : List Str) (qi nq : Nat)
    (hq : Index (text.drop start) quote = some qi)
    (hs : ∀ si, Index (text.drop start) ' ' = some si → ¬ si < qi)
    (hn : Index (text.drop (start + qi + 1)) quote = some nq) :
    splitLoop text (fuel + 1) start parts =
      splitLoop text fuel (start + (qi + nq + 2))
        (parts ++ [TrimSpace (slice text start (start + qi + nq + 2))]) := by
  cases hs' : Index (text.drop start) ' ' with
  | none => simp [splitLoop, hs', hq, hn]
  | some si => simp [splitLoop, hs', hq, hn, hs si hs']

/-- The tokens of `key:'text'`: the whole text, then an empty one. -/
theorem splitSearchString_quoted {k q : Str} (hk : isFieldName k = true) (hq : quote ∉ q) :
    splitSearchString (k ++ ':' :: quote :: (q ++ [quote])) =
      some [k ++ ':' :: quote :: (q ++ [quote]), []] := by
  have hkne := isFieldName_ne_nil hk
  have htrim : TrimSpace (k ++ ':' :: quote :: (q ++ [quote])) =
      k ++ ':' :: quote :: (q ++ [quote]) := by
    refine TrimSpace_eq ?_ ?_
    · intro c hc
      cases k with
      | nil => exact absurd rfl hkne
      | cons a t =>
        simp only [List.cons_append, List.head?_cons, Option.mem_def, Option.some.injEq] at hc
        subst hc
        exact (isFieldName_token hk a (by simp)).1
    · intro c hc
      have e : k ++ ':' :: quote :: (q ++ [quote]) = (k ++ ':' :: quote :: q) ++ [quote] := by simp
      rw [e, List.getLast?_append] at hc
      simp only [List.getLast?_singleton, Option.or, Option.mem_def, Option.some.injEq] at hc
      subst hc
      decide
  set s := k ++ ':' :: quote :: (q ++ [quote]) with hs
  have hsne : s ≠ [] := by simp [hs]
  have hlen : s.length = k.length + q.length + 3 := by simp [hs]; omega
  have hkq : quote ∉ k := isFieldName_not_mem hk (by decide) (by decide)
  have hksp : ' ' ∉ k := isFieldName_not_mem hk (by decide) (by decide)
  have hp : s = (k ++ [':']) ++ quote :: (q ++ [quote]) := by simp [hs]
  have hpq : quote ∉ k ++ [':'] := by
    simp only [List.mem_append, List.mem_singleton, not_or]
    exact ⟨hkq, by decide⟩
  have hpsp : ' ' ∉ k ++ [':'] := by
    simp only [List.mem_append, List.mem_singleton, not_or]
    exact ⟨hksp, by decide⟩
  have hiq : Index s quote = some (k.length + 1) := by
    rw [hp, Index_append _ hpq]
    simp [Index]
  have his : ∀ si, Index s ' ' = some si → ¬ si < k.length + 1 := by
    intro si h
    rw [hp, Index_append _ hpsp] at h
    cases h' : Index (quote :: (q ++ [quote])) ' ' with
    | none => rw [h'] at h; simp at h
    | some i =>
      rw [h'] at h
      simp only [Option.map_some', List.length_append, List.length_singleton,
        Option.some.injEq] at h
      omega
  have hdrop : s.drop (0 + (k.length + 1) + 1) = q ++ [quote] := by
    have : s = (k ++ [':', quote]) ++ (q ++ [quote]) := by simp [hs]
    rw [this]
    have hl : 0 + (k.length + 1) + 1 = (k ++ [':', quote]).length := by simp
    rw [hl, List.drop_left]
  have hnq : Index (s.drop (0 + (k.length + 1) + 1)) quote = some q.length := by
    rw [hdrop, Index_append _ hq]
    simp [Index]
  have hslice : slice s 0 (0 + (k.length + 1) + q.length + 2) = s := by
    have : 0 + (k.length + 1) + q.length + 2 = s.length := by omega
    rw [this]
    simp [slice]
  have hend : s.drop (0 + (k.length + 1 + q.length + 2)) = [] := by
    have : 0 + (k.length + 1 + q.length + 2) = s.length := by omega
    rw [this, List.drop_length]
  obtain ⟨f, hf⟩ : ∃ f, s.length = f + 1 := ⟨s.length - 1, by omega⟩
  simp only [splitSearchString, htrim, hsne, if_false, hf]
  rw [splitLoop_quote s (f + 1) 0 [] (k.length + 1) q.length (by simpa using hiq)
    (by simpa using his) hnq, hslice]
  rw [splitLoop_end s f _ _ (by rw [hend]; rfl) (by rw [hend]; rfl), hend]
  simp [htrim, TrimSpace_nil]

theorem re2_no_space (L : Lib) {s : Str} (h : ' ' ∈ s) : FindStringSubmatch (re2 L) s = [] := by
  have hre : re2 L = Re.seq Re.bot (Re.seq (Re.seq (Re.group 1 keyRe) (Re.seq (Re.lit ':')
      (Re.group 2 (valuesRe L)))) Re.eot) := rfl
  rw [hre]
  refine no_match_of_admits h ?_
  have hh := not_han_of_lt L ' ' (by decide)
  have h1 : keyRe.admits ' ' = false := by decide
  have h2 : opsRe.admits ' ' = false := by decide
  simp [Re.admits, valuesRe, itemRe, Re.cat, Re.opt, Re.lit, valCls, valCls2, h1, h2, hh]
  decide

theorem re1_no_colon (L : Lib) {s : Str} (h : ':' ∈ s) : MatchString (re1 L) s = false := by
  have hre : re1 L = Re.seq Re.bot (Re.seq (Re.group 1 (Re.seq (Re.lit '$').opt
      (Re.chr (bareCls L)).plus)) Re.eot) := rfl
  have : FindStringSubmatch (re1 L) s = [] := by
    rw [hre]
    refine no_match_of_admits h ?_
    have hh := not_han_of_lt L ':' (by decide)
    simp [Re.admits, Re.opt, Re.plus, Re.lit, bareCls, hh]
    decide
  simp [MatchString, this]

/-- C2: for every field name `k` and every text `q` with at least one space, no
single quote and no line break, `ParseSearchString2("k:'q'")` succeeds and maps
`k` to exactly one predicate: operator equal, value the string `q` without the
quotes and with its spaces kept. -/
theorem C2_quoted_value (L : Lib) (k q : Str) (hk : isFieldName k = true) (hsp : ' ' ∈ q)
    (hq : quote ∉ q) (hnl : newline ∉ q) :
    ParseSearchString2 L (k ++ ":".toList ++ [quote] ++ q ++ [quote]) =
      some ([(k, [⟨SearchSymbolEq, .str q, .nil⟩])], none) := by
  have e : k ++ ":".toList ++ [quote] ++ q ++ [quote] = k ++ ':' :: quote :: (q ++ [quote]) := by
    simp
  have hne : k ++ ':' :: quote :: (q ++ [quote]) ≠ [] := by simp
  have h2 : FindStringSubmatch (re2 L) (k ++ ':' :: quote :: (q ++ [quote])) = [] :=
    re2_no_space L (by simp [hsp])
  have h1 : MatchString (re1 L) (k ++ ':' :: quote :: (q ++ [quote])) = false :=
    re1_no_colon L (by simp)
  have h4 := re4_find k q quote quote hk (by decide) (by decide)
    (fun c hc e => hnl (e ▸ hc))
  rw [e]
  simp [ParseSearchString2, splitSearchString_quoted hk hq, parseParts, hne, parsePart, h2, h1,
    h4, mapSet]

/-- C2 at `name:'John Doe'`. -/
theorem C2_quoted_value_witness :
    (isFieldName "name".toList = true ∧ ' ' ∈ "John Doe".toList ∧
      quote ∉ "John Doe".toList ∧ newline ∉ "John Doe".toList) ∧
    ∀ L : Lib, ParseSearchString2 L "name:'John Doe'".toList =
      some ([("name".toList, [⟨SearchSymbolEq, .str "John Doe".toList, .nil⟩])], none) := by
  refine ⟨by decide, fun L => ?_⟩
  exact C2_quoted_value L "name".toList "John Doe".toList (by decide) (by decide) (by decide)
    (by decide)

/-- The library record has instances, so statements over all libraries are not
vacuous. -/
theorem Lib_nonempty : Nonempty Lib :=
  ⟨{ isHan := fun c => decide (11904 ≤ c.toNat)
     isHan_ge := fun c h => by simpa using h
     ParseFloat := fun s => .error (.numError "ParseFloat".toList s false)
     ParseTime := fun s => .error (.lib s)
     fmtFloat := fun _ => []
     fmtTime := fun _ => []
     fmtSearchData := fun _ => [] }⟩

/-- A single raw-string value: an operand of ASCII value characters that none
of the typed patterns matches. -/
theorem ParseSearchString2_raw (L : Lib) (k v : Str) (hk : isFieldName k = true)
    (hv : ∀ c ∈ v, valAscii c = true) (hcomma : ',' ∉ v)
    (h1 : FindStringSubmatch strRe v = []) (h2 : FindStringSubmatch intRangeRe v = [])
    (h3 : FindStringSubmatch floatRangeRe v = []) (h4 : FindStringSubmatch timeRangeRe v = []) :
    ParseSearchString2 L (k ++ ':' :: v) =
      some ([(k, [⟨SearchSymbolEq, .str v, .nil⟩])], none) := by
  have h := ParseSearchString2_single L k [] v hk (by decide) hv hcomma
  simp only [List.nil_append] at h
  rw [h]
  have hd : defaultEq [] = SearchSymbolEq := by decide
  simp [typeValue, h1, h2, h3, h4, hd]

theorem parse_age_open_range (L : Lib) :
    ParseSearchString2 L "age:..30".toList =
      some ([("age".toList, [⟨SearchSymbolEq, .str "..30".toList, .nil⟩])], none) ∧
    ParseSearchString2 L "age:18..".toList =
      some ([("age".toList, [⟨SearchSymbolEq, .str "18..".toList, .nil⟩])], none) :=
  ⟨ParseSearchString2_raw L "age".toList "..30".toList (by decide) (by decide) (by decide)
      (by decide) (by decide) (by decide) (by decide),
    ParseSearchString2_raw L "age".toList "18..".toList (by decide) (by decide) (by decide)
      (by decide) (by decide) (by decide) (by decide)⟩

/-- C6, as the code has it: `age:..30` and `age:18..` each succeed and map `age`
to exactly one predicate with operator equal, the raw text `..30`, respectively
`18..`, as string value, and value2 absent. -/
theorem C6_open_range_is_raw_string (L : Lib) :
    ParseSearchString2 L "age:..30".toList =
      some ([("age".toList, [⟨SearchSymbolEq, .str "..30".toList, .nil⟩])], none) ∧
    ParseSearchString2 L "age:18..".toList =
      some ([("age".toList, [⟨SearchSymbolEq, .str "18..".toList, .nil⟩])], none) :=
  parse_age_open_range L

/-- C6 fails as stated: for no library does `age:..30` parse to a predicate
with operator range. -/
theorem C6_counterexample :
    ¬ ∃ (L : Lib) (m : SearchData) (p : SearchValue),
      ParseSearchString2 L "age:..30".toList = some (m, none) ∧
      mapGet m "age".toList = some [p] ∧ p.Symbol = SearchSymbolRange := by
  rintro ⟨L, m, p, h1, h2, h3⟩
  rw [(parse_age_open_range L).1] at h1
  simp only [Option.some.injEq, Prod.mk.injEq, and_true] at h1
  subst h1
  simp only [mapGet, List.lookup, beq_self_eq_true, Option.some.injEq, List.cons.injEq,
    and_true] at h2
  subst h2
  revert h3
  decide

theorem seq_admits {a b : Re} {c : Char} (h : (Re.seq a b).admits c = true) :
    a.admits c = true ∨ b.admits c = true := by
  simpa only [Re.admits, Bool.or_eq_true] using h

theorem opt_admits {a : Re} {c : Char} (h : a.opt.admits c = true) : a.admits c = true := by
  simpa only [Re.opt, Re.admits, Bool.or_false] using h

theorem lit_admits {a c : Char} (h : (Re.lit a).admits c = true) : c = a := by
  simpa only [Re.lit, Re.admits, beq_iff_eq] using h

theorem itemRe_admits {cls : Char → Bool} {c : Char} (h : (itemRe cls).admits c = true) :
    opsRe.admits c = true ∨ isQuote c = true ∨ c = '$' ∨ cls c = true := by
  have e : itemRe cls = Re.seq opsRe.opt (Re.seq (Re.chr isQuote).opt
      (Re.seq (Re.seq (Re.lit '$').opt (Re.chr cls).star) (Re.chr isQuote).opt)) := rfl
  rw [e] at h
  rcases seq_admits h with h | h
  · exact Or.inl (opt_admits h)
  · rcases seq_admits h with h | h
    · exact Or.inr (Or.inl (opt_admits h))
    · rcases seq_admits h with h | h
      · rcases seq_admits h with h | h
        · exact Or.inr (Or.inr (Or.inl (lit_admits (opt_admits h))))
        · exact Or.inr (Or.inr (Or.inr h))
      · exact Or.inr (Or.inl (opt_admits h))

theorem valuesRe_admits (L : Lib) {c : Char} (h : (valuesRe L).admits c = true) :
    (itemRe (valCls L)).admits c = true ∨ c = ',' ∨ (itemRe valCls2).admits c = true := by
  have e : valuesRe L = Re.seq (itemRe (valCls L))
      (Re.star (Re.seq (Re.lit ',') (itemRe valCls2))) := rfl
  rw [e] at h
  rcases seq_admits h with h | h
  · exact Or.inl h
  · have h' : (Re.seq (Re.lit ',') (itemRe valCls2)).admits c = true := h
    rcases seq_admits h' with h' | h'
    · exact Or.inr (Or.inl (lit_admits h'))
    · exact Or.inr (Or.inr h')

/-- The characters `pattern2` can consume that lie below the Han range. -/
theorem re2_admits_ascii (L : Lib) {c : Char} (hlt : c.toNat < 11904)
    (h : (Re.seq (Re.group 1 keyRe) (Re.seq (Re.lit ':') (Re.group 2 (valuesRe L)))).admits c =
      true) :
    keyRe.admits c = true ∨ c = ':' ∨ opsRe.admits c = true ∨ isQuote c = true ∨ c = '$' ∨
      valAscii c = true ∨ c = ',' := by
  have hh := not_han_of_lt L c hlt
  have h1 : valCls L c = true → valAscii c = true := by
    intro hv
    rcases (valCls_iff L c).1 hv with hv | hv
    · exact hv
    · rw [hh] at hv; cases hv
  have h2 : valCls2 c = true → valAscii c = true := by
    intro hv
    have hr : inRange 19968 40869 c = false := by
      simp only [inRange, Bool.and_eq_false_iff, decide_eq_false_iff_not]; omega
    simp only [valCls2, hr, Bool.or_false, Bool.or_eq_true] at hv
    simp only [valAscii, Bool.or_eq_true]
    exact hv
  have h' : keyRe.admits c = true ∨ c = ':' ∨ (valuesRe L).admits c = true := by
    rcases seq_admits h with h | h
    · exact Or.inl h
    · rcases seq_admits h with h | h
      · exact Or.inr (Or.inl (lit_admits h))
      · exact Or.inr (Or.inr h)
  rcases h' with h' | h' | h'
  · exact Or.inl h'
  · exact Or.inr (Or.inl h')
  · rcases valuesRe_admits L h' with hv | hv | hv
    · rcases itemRe_admits hv with a | a | a | a
      · exact Or.inr (Or.inr (Or.inl a))
      · exact Or.inr (Or.inr (Or.inr (Or.inl a)))
      · exact Or.inr (Or.inr (Or.inr (Or.inr (Or.inl a))))
      · exact Or.inr (Or.inr (Or.inr (Or.inr (Or.inr (Or.inl (h1 a))))))
    · exact Or.inr (Or.inr (Or.inr (Or.inr (Or.inr (Or.inr hv)))))
    · rcases itemRe_admits hv with a | a | a | a
      · exact Or.inr (Or.inr (Or.inl a))
      · exact Or.inr (Or.inr (Or.inr (Or.inl a)))
      · exact Or.inr (Or.inr (Or.inr (Or.inr (Or.inl a))))
      · exact Or.inr (Or.inr (Or.inr (Or.inr (Or.inr (Or.inl (h2 a))))))

/-- A token with a character below the Han range that `pattern2` cannot
consume does not match `pattern2`. -/
theorem re2_no_match (L : Lib) {s : Str} {c : Char} (hc : c ∈ s) (hlt : c.toNat < 11904)
    (h : (keyRe.admits c || c == ':' || opsRe.admits c || isQuote c || c == '$' ||
      valAscii c || c == ',') = false) : FindStringSubmatch (re2 L) s = [] := by
  have hre : re2 L = Re.seq Re.bot (Re.seq (Re.seq (Re.group 1 keyRe) (Re.seq (Re.lit ':')
      (Re.group 2 (valuesRe L)))) Re.eot) := rfl
  rw [hre]
  refine no_match_of_admits hc ?_
  cases ha : (Re.seq (Re.group 1 keyRe) (Re.seq (Re.lit ':')
      (Re.group 2 (valuesRe L)))).admits c with
  | false => rfl
  | true =>
    have := re2_admits_ascii L hlt ha
    simp only [Bool.or_eq_false_iff, beq_eq_false_iff_ne, ne_eq] at h
    obtain ⟨⟨⟨⟨⟨⟨a1, a2⟩, a3⟩, a4⟩, a5⟩, a6⟩, a7⟩ := h
    rcases this with h | h | h | h | h | h | h
    · rw [a1] at h; cases h
    · exact absurd h a2
    · rw [a3] at h; cases h
    · rw [a4] at h; cases h
    · exact absurd h a5
    · rw [a6] at h; cases h
    · exact absurd h a7

/-- A part no pattern matches: the error of line 359. -/
theorem parsePart_no_rule (L : Lib) (part : Str) (search : SearchData)
    (h2 : FindStringSubmatch (re2 L) part = []) (h1 : MatchString (re1 L) part = false)
    (h4 : FindStringSubmatch re4 part = []) :
    parsePart L part search = .error (some (.wrap ErrInvalidSearchSyntax part)) := by
  simp [parsePart, h2, h1, h4, errors.Wrap]

theorem parse_bad_tokens (L : Lib) :
    ParseSearchString2 L "bad::value".toList =
      some ([("bad".toList, [⟨SearchSymbolEq, .str ":value".toList, .nil⟩])], none) ∧
    ParseSearchString2 L "bad:@value".toList =
      some ([], some (.wrap ErrInvalidSearchSyntax "bad:@value".toList)) := by
  constructor
  · exact ParseSearchString2_raw L "bad".toList ":value".toList (by decide) (by decide)
      (by decide) (by decide) (by decide) (by decide) (by decide)
  · have hs : ∀ c ∈ "bad:@value".toList, isSpace c = false ∧ c ≠ quote := by decide
    have h2 : FindStringSubmatch (re2 L) "bad:@value".toList = [] :=
      re2_no_match L (c := '@') (by decide) (by decide) (by decide)
    have h1 : MatchString (re1 L) "bad:@value".toList = false := re1_no_colon L (by decide)
    have h4 : FindStringSubmatch re4 "bad:@value".toList = [] := by decide
    rw [ParseSearchString2_token L (by decide) hs, parsePart_no_rule L _ _ h2 h1 h4]

/-- C7, as the code has it: `ParseSearchString2("bad::value")` returns no error;
the token matches the key:value-list rule, whose value class holds `:`, and
`bad` is mapped to one equal predicate with the string value `:value`.  A token
no rule matches, such as `bad:@value`, returns an error that wraps
`ErrInvalidSearchSyntax` and whose message starts with that token. -/
theorem C7_bad_token (L : Lib) :
    ParseSearchString2 L "bad::value".toList =
      some ([("bad".toList, [⟨SearchSymbolEq, .str ":value".toList, .nil⟩])], none) ∧
    (∃ e : GoError, ParseSearchString2 L "bad:@value".toList = some ([], some e) ∧
      e.IsInvalidSearchSyntax = true ∧
      e.Error = "bad:@value: invalid search syntax".toList) := by
  refine ⟨(parse_bad_tokens L).1, _, (parse_bad_tokens L).2, by decide, by decide⟩

/-- C7 fails as stated: for no library does `bad::value` return an error. -/
theorem C7_counterexample :
    ¬ ∃ (L : Lib) (m : SearchData) (e : GoError),
      ParseSearchString2 L "bad::value".toList = some (m, some e) := by
  rintro ⟨L, m, e, h⟩
  rw [(parse_bad_tokens L).1] at h
  simp at h

theorem isIntEnd_valAscii {a : Str} (ha : isIntEnd a) : ∀ c ∈ a, valAscii c = true := by
  rcases ha with ⟨_, hd⟩ | rfl
  · exact fun c hc => isDigit_valAscii (hd c hc)
  · decide

theorem isIntEnd_no_comma {a : Str} (ha : isIntEnd a) : ',' ∉ a := by
  rcases ha with ⟨_, hd⟩ | rfl
  · intro h
    have := hd _ h
    revert this; decide
  · decide

/-- An integer range with an operator prefix: `ParseSearchString2` returns the
map built so far and a nil error. -/
theorem parse_op_int_range (L : Lib) (k op a b : Str) (hk : isFieldName k = true)
    (hop : op ∈ opPrefixes) (hne : op ≠ []) (ha : isIntEnd a) (hb : isIntEnd b) :
    ParseSearchString2 L (k ++ ':' :: (op ++ (a ++ '.' :: '.' :: b))) = some ([], none) := by
  have hv : ∀ c ∈ a ++ '.' :: '.' :: b, valAscii c = true := by
    intro c hc
    simp only [List.mem_append, List.mem_cons] at hc
    rcases hc with hc | rfl | rfl | hc
    · exact isIntEnd_valAscii ha c hc
    · decide
    · decide
    · exact isIntEnd_valAscii hb c hc
  have hcomma : ',' ∉ a ++ '.' :: '.' :: b := by
    intro hc
    simp only [List.mem_append, List.mem_cons] at hc
    rcases hc with hc | hc | hc | hc
    · exact isIntEnd_no_comma ha hc
    · revert hc; decide
    · revert hc; decide
    · exact isIntEnd_no_comma hb hc
  rw [ParseSearchString2_single L k op _ hk hop hv hcomma,
    typeValue_int_range_op L _ a b op ha hb hne none]
  rfl

/-- A float or time range with an operator prefix: the error of line 279. -/
theorem typeValue_float_range_op (L : Lib) (raw v sym : Str) (subs : List Str)
    (h1 : FindStringSubmatch strRe v = []) (h2 : FindStringSubmatch intRangeRe v = [])
    (h3 : FindStringSubmatch floatRangeRe v = subs) (hlen : subs.length = 4)
    (hg : subs.getD 1 [] ≠ [] ∨ subs.getD 2 [] ≠ []) (hsym : sym ≠ SearchSymbolNone)
    (err : Option GoError) :
    typeValue L raw v ⟨sym, .nil, .nil⟩ err =
      .error (some (.wrap ErrInvalidSearchSyntax ("parse float range error, ".toList ++ raw))) := by
  have hsym' : (⟨sym, .nil, .nil⟩ : SearchValue).Symbol ≠ SearchSymbolNone := hsym
  simp only [typeValue, h1, h2, h3, hlen, List.length_nil, floatBranch, if_pos hg, if_pos hsym',
    errors.Wrap]
  simp

theorem parse_op_float_range_example (L : Lib) :
    ParseSearchString2 L "age:>1.5..30".toList =
      some ([], some (.wrap ErrInvalidSearchSyntax "parse float range error, >1.5..30".toList)) := by
  have h := ParseSearchString2_single L "age".toList ">".toList "1.5..30".toList (by decide)
    (by decide) (by decide) (by decide)
  have ht := typeValue_float_range_op L (">".toList ++ "1.5..30".toList) "1.5..30".toList
    ">".toList ["1.5..30".toList, "1.5".toList, "30".toList, []] (by decide) (by decide)
    (by decide) (by decide) (by decide) (by decide) none
  rw [ht] at h
  exact h

/-- C5 fails in the code for integer ranges: `age:>18..30` returns the empty
map with a nil error (line 249 wraps the nil `err`), while the float branch
rejects `age:>1.5..30` with an error that wraps `ErrInvalidSearchSyntax`. -/
theorem C5_operator_with_int_range (L : Lib) :
    ParseSearchString2 L "age:>18..30".toList = some ([], none) ∧
    ∃ e : GoError, ParseSearchString2 L "age:>1.5..30".toList = some ([], some e) ∧
      e.IsInvalidSearchSyntax = true := by
  refine ⟨?_, _, parse_op_float_range_example L, by decide⟩
  exact parse_op_int_range L "age".toList ">".toList "18".toList "30".toList (by decide)
    (by decide) (by decide) (Or.inl (by decide)) (Or.inl (by decide))

theorem whereVal_comparison (L : Lib) (self : SearchData → Option WhereResult) (k : Str)
    (acc : WhereAcc) (p : SearchValue) (hp : p.Symbol ∈ comparisonSymbols) :
    whereVal L self k acc p = some (.ok { acc with
      subConditions := acc.subConditions ++ [conditionOf k p],
      subArgs := acc.subArgs ++ argsOf p }) := by
  obtain ⟨sym, v, v2⟩ := p
  simp only [comparisonSymbols, List.mem_cons, List.mem_singleton, List.not_mem_nil,
    or_false] at hp
  rcases hp with rfl | rfl | rfl | rfl | rfl | rfl | rfl <;> rfl

theorem whereVals_comparison (L : Lib) (self : SearchData → Option WhereResult) (k : Str)
    (ps : List SearchValue) (hp : ∀ p ∈ ps, p.Symbol ∈ comparisonSymbols) (acc : WhereAcc) :
    whereVals L self k ps acc = some (.ok { acc with
      subConditions := acc.subConditions ++ ps.map (conditionOf k),
      subArgs := acc.subArgs ++ ps.flatMap argsOf }) := by
  induction ps generalizing acc with
  | nil => simp [whereVals]
  | cons p ps ih =>
    simp only [whereVals, whereVal_comparison L self k acc p (hp p (by simp))]
    rw [ih (fun q hq => hp q (by simp [hq]))]
    simp

/-- The string backend on one field with comparison predicates, at any depth
bound. -/
theorem WhereStringN_single (L : Lib) (n : Nat) (k : Str) (p : SearchValue)
    (ps : List SearchValue) (hp : ∀ x ∈ p :: ps, x.Symbol ∈ comparisonSymbols) :
    WhereStringN L (n + 1) [(k, p :: ps)] none =
      some ("(".toList ++ Join ((p :: ps).map (conditionOf k)) " OR ".toList ++ ")".toList,
        (p :: ps).flatMap argsOf, none) := by
  simp [WhereStringN, whereEntries, whereEntry, lookupHandler,
    whereVals_comparison L _ k (p :: ps) hp, Join]

/-- C10: for every field name `k` and non-empty list of predicates whose
operators are among equal, not-equal, greater, greater-or-equal, less,
less-or-equal and range, `WhereString({k: [p1..pn]}, nil)` succeeds and returns
the parenthesised conditions joined by ` OR `, with the predicates' values in
order as arguments (value then value2 for a range). -/
theorem C10_single_field (L : Lib) (k : Str) (p : SearchValue) (ps : List SearchValue)
    (hp : ∀ x ∈ p :: ps, x.Symbol ∈ comparisonSymbols) :
    WhereString L [(k, p :: ps)] none =
      some ("(".toList ++ Join ((p :: ps).map (conditionOf k)) " OR ".toList ++ ")".toList,
        (p :: ps).flatMap argsOf, none) :=
  WhereStringN_single L 1 k p ps hp

/-- C10 at `{age: [>= 18, != 30, 40..50]}`. -/
theorem C10_single_field_witness :
    (∀ x ∈ [(⟨SearchSymbolGte, .int64 18, .nil⟩ : SearchValue),
        ⟨SearchSymbolNot, .int64 30, .nil⟩, ⟨SearchSymbolRange, .int64 40, .int64 50⟩],
      x.Symbol ∈ comparisonSymbols) ∧
    ∀ L : Lib, WhereString L [("age".toList, [⟨SearchSymbolGte, .int64 18, .nil⟩,
        ⟨SearchSymbolNot, .int64 30, .nil⟩, ⟨SearchSymbolRange, .int64 40, .int64 50⟩])] none =
      some ("(age >= ? OR age != ? OR age BETWEEN ? AND ?)".toList,
        [.int64 18, .int64 30, .int64 40, .int64 50], none) := by
  refine ⟨by decide, fun L => ?_⟩
  exact C10_single_field L "age".toList _ _ (by decide)

theorem isPlainName_iff {s : Str} :
    isPlainName s = true ↔ s ≠ [] ∧ ∀ c ∈ s, keyCls c = true ∧ c ≠ '.' := by
  cases s <;> simp [isPlainName]

theorem isPlainName_no_dot {s : Str} (h : isPlainName s = true) : '.' ∉ s :=
  fun hm => ((isPlainName_iff.1 h).2 _ hm).2 rfl

theorem all_keyCls_fieldName {s : Str} (hne : s ≠ []) (h : ∀ c ∈ s, keyCls c = true) :
    isFieldName s = true := by
  cases s with
  | nil => exact absurd rfl hne
  | cons a t =>
    have ha : (a == '$') = false := by
      cases hd : a == '$' with
      | false => rfl
      | true =>
        rw [beq_iff_eq] at hd; subst hd
        have := h '$' (by simp)
        revert this; decide
    simp only [isFieldName, ha, Bool.false_eq_true, if_false, List.all_eq_true]
    exact h

/-- A dotted name `o.i` is a field name. -/
theorem dotted_fieldName {o i : Str} (ho : isPlainName o = true) (hi : isPlainName i = true) :
    isFieldName (o ++ '.' :: i) = true := by
  refine all_keyCls_fieldName (by simp) ?_
  intro c hc
  simp only [List.mem_append, List.mem_cons] at hc
  rcases hc with hc | rfl | hc
  · exact ((isPlainName_iff.1 ho).2 c hc).1
  · decide
  · exact ((isPlainName_iff.1 hi).2 c hc).1

/-- Folding a map with the single key `o.i`. -/
theorem foldSearch_single {o i : Str} (ho : isPlainName o = true) (hi : isPlainName i = true)
    (vals : List SearchValue) :
    foldSearch [(o ++ '.' :: i, vals)] =
      [(o, [⟨SearchSymbolSearch, .searchData [(i, vals)], .nil⟩])] := by
  have hsplit : Split (o ++ '.' :: i) '.' = [o, i] := by
    simpa using Split_joined o [i] '.' (isPlainName_no_dot ho)
      (by simpa using isPlainName_no_dot hi)
  have ho' : 0 < o.length := List.length_pos.2 (isPlainName_iff.1 ho).1
  have hi' : 0 < i.length := List.length_pos.2 (isPlainName_iff.1 hi).1
  simp [foldSearch, foldEntry, hsplit, ho', hi', mapGet, mapSet, nestEntry]

theorem WhereStringN_succ (L : Lib) (n : Nat) (m : SearchData) (h : SearchDataHandleFuncMap) :
    WhereStringN L (n + 1) m h =
      (match whereEntries L (fun sub2 => WhereStringN L n sub2 h) h m [] [] with
      | none => none
      | some (.error err) => some ([], [], some err)
      | some (.ok (queries, args)) =>
        if queries.length = 0 then
          some ([], [], some (.new "no valid search conditions".toList))
        else some (Join queries " AND ".toList, args, none)) := rfl

/-- The nested-search case of the loop body when the recursive call succeeds. -/
theorem whereVal_nested (L : Lib) (self : SearchData → Option WhereResult) (k : Str)
    (acc : WhereAcc) (sub : SearchData) (v2 : Any) (q : Str) (a : List Any)
    (hself : self (rewriteSub L k sub) = some (q, a, none)) :
    whereVal L self k acc ⟨SearchSymbolSearch, .searchData sub, v2⟩ =
      some (.ok { acc with queries := acc.queries ++ [q], args := acc.args ++ a }) := by
  have e : whereVal L self k acc ⟨SearchSymbolSearch, .searchData sub, v2⟩ =
      (match self (rewriteSub L k sub) with
      | none => none
      | some (_, _, some err) => some (.error err)
      | some (sub2Query, sub2Args, none) =>
        some (.ok { acc with queries := acc.queries ++ [sub2Query],
                             args := acc.args ++ sub2Args })) := rfl
  rw [e, hself]

/-- The string backend on a nested group with one equal predicate. -/
theorem WhereString_nested_eq (L : Lib) (o i : Str) (x : Any) :
    WhereString L [(o, [⟨SearchSymbolSearch, .searchData [(i, [⟨SearchSymbolEq, x, .nil⟩])],
        .nil⟩])] none =
      some ("(".toList ++ o ++ "->>'".toList ++ i ++ "' = ?)".toList, [stringify L x], none) := by
  have hsub : rewriteSub L o [(i, [⟨SearchSymbolEq, x, .nil⟩])] =
      [(jsonKey o i, [⟨SearchSymbolEq, stringify L x, .nil⟩])] := by
    simp [rewriteSub, mapSet, stringifyValue, stringify]
  have hsym : ∀ p ∈ [(⟨SearchSymbolEq, stringify L x, .nil⟩ : SearchValue)],
      p.Symbol ∈ comparisonSymbols := by
    intro p hp
    rw [List.mem_singleton] at hp
    subst hp
    show SearchSymbolEq ∈ comparisonSymbols
    decide
  have hin := WhereStringN_single L 0 (jsonKey o i) ⟨SearchSymbolEq, stringify L x, .nil⟩ [] hsym
  have hval := whereVal_nested L (fun sub2 => WhereStringN L 1 sub2 none) o ⟨[], [], [], []⟩
    [(i, [⟨SearchSymbolEq, x, .nil⟩])] .nil _ _ (by rw [hsub]; exact hin)
  rw [WhereString, WhereStringN_succ]
  simp only [whereEntries, whereEntry, lookupHandler, whereVals, hval]
  simp [Join, conditionOf, comparisonText, argsOf, jsonKey, SearchSymbolEq, SearchSymbolRange]

theorem stringify_str (L : Lib) (s : Str) : stringify L (.str s) = .str s := rfl

theorem stringify_int (L : Lib) (n : Int) : stringify L (.int64 n) = .str (formatInt n) := rfl

/-- C9: for all dot-free, non-empty names `o` and `i` of key characters, and
every value that is a word of letters or a decimal literal fitting a signed
64-bit integer, `ParseSearchString("o.i:v")` succeeds and `WhereString` of its
result, without overrides, returns the clause `(o->>'i' = ?)` with one argument:
the word itself, respectively the decimal text of the integer. -/
theorem C9_nested_compile (L : Lib) (o i : Str) (ho : isPlainName o = true)
    (hi : isPlainName i = true) :
    (∀ w : Str, (∀ c ∈ w, isLetter c = true) →
      ∃ g, ParseSearchString L (o ++ ".".toList ++ i ++ ":".toList ++ w) = some (g, none) ∧
        WhereString L g none =
          some ("(".toList ++ o ++ "->>'".toList ++ i ++ "' = ?)".toList, [.str w], none)) ∧
    (∀ n : Str, isDigits n = true → decimal n < 2 ^ 63 →
      ∃ g, ParseSearchString L (o ++ ".".toList ++ i ++ ":".toList ++ n) = some (g, none) ∧
        WhereString L g none =
          some ("(".toList ++ o ++ "->>'".toList ++ i ++ "' = ?)".toList,
            [.str (formatInt (decimal n))], none)) := by
  have hk := dotted_fieldName ho hi
  constructor
  · intro w hw
    obtain ⟨h1, h2, h3, h4⟩ := word_untyped hw
    have hcomma : ',' ∉ w := fun h => by
      have := hw _ h; revert this; decide
    have hp := ParseSearchString2_raw L (o ++ '.' :: i) w hk
      (fun c hc => isLetter_valAscii (hw c hc)) hcomma h1 h2 h3 h4
    have e : o ++ ".".toList ++ i ++ ":".toList ++ w = (o ++ '.' :: i) ++ ':' :: w := by simp
    refine ⟨_, ?_, WhereString_nested_eq L o i (.str w)⟩
    rw [e]
    simp only [ParseSearchString, hp, Option.map_some', foldSearch_single ho hi]
  · intro n hn hb
    have hp := ParseSearchString2_op_int L (o ++ '.' :: i) [] n hk (by decide) hn hb
    have hd : defaultEq [] = SearchSymbolEq := by decide
    rw [hd] at hp
    have e : o ++ ".".toList ++ i ++ ":".toList ++ n = (o ++ '.' :: i) ++ ':' :: ([] ++ n) := by
      simp
    refine ⟨_, ?_, WhereString_nested_eq L o i (.int64 (decimal n))⟩
    rw [e]
    simp only [ParseSearchString, hp, Option.map_some', foldSearch_single ho hi]

/-- C9 at `tags.color:red` and `tags.count:18`. -/
theorem C9_nested_compile_witness :
    (isPlainName "tags".toList = true ∧ isPlainName "color".toList = true) ∧
    ∀ L : Lib,
      (∃ g, ParseSearchString L "tags.color:red".toList = some (g, none) ∧
        WhereString L g none =
          some ("(tags->>'color' = ?)".toList, [.str "red".toList], none)) ∧
      (∃ g, ParseSearchString L "tags.color:18".toList = some (g, none) ∧
        WhereString L g none =
          some ("(tags->>'color' = ?)".toList, [.str "18".toList], none)) := by
  refine ⟨by decide, fun L => ?_⟩
  have h := C9_nested_compile L "tags".toList "color".toList (by decide) (by decide)
  exact ⟨h.1 "red".toList (by decide), h.2 "18".toList (by decide) (by decide)⟩

/-! ### Map laws -/

theorem mapGet_mapSet_self {α : Type} (m : List (Str × α)) (k : Str) (v : α) :
    mapGet (mapSet m k v) k = some v := by
  induction m with
  | nil => simp [mapSet, mapGet, List.lookup]
  | cons e m ih =>
    obtain ⟨k0, v0⟩ := e
    by_cases h : k0 = k
    · simp [mapSet, h, mapGet, List.lookup]
    · have h' : (k == k0) = false := by simpa using fun e => h e.symm
      simp only [mapSet, h, if_false, mapGet, List.lookup, h']
      exact ih

theorem mapGet_mapSet_ne {α : Type} (m : List (Str × α)) {k k' : Str} (v : α) (hne : k' ≠ k) :
    mapGet (mapSet m k v) k' = mapGet m k' := by
  induction m with
  | nil =>
    have h' : (k' == k) = false := by simpa using hne
    simp [mapSet, mapGet, List.lookup, h']
  | cons e m ih =>
    obtain ⟨k0, v0⟩ := e
    by_cases h : k0 = k
    · subst h
      have h' : (k' == k0) = false := by simpa using hne
      simp [mapSet, mapGet, List.lookup, h']
    · simp only [mapSet, h, if_false, mapGet, List.lookup]
      cases hk : k' == k0 with
      | true => rfl
      | false => exact ih

theorem mem_keys_mapSet {α : Type} (m : List (Str × α)) (k k' : Str) (v : α) :
    k' ∈ keys (mapSet m k v) ↔ k' = k ∨ k' ∈ keys m := by
  induction m with
  | nil => simp [mapSet, keys]
  | cons e m ih =>
    obtain ⟨k0, v0⟩ := e
    by_cases h : k0 = k
    · subst h
      simp only [mapSet, if_true, keys, List.map_cons, List.mem_cons]
      tauto
    · simp only [mapSet, h, if_false, keys, List.map_cons, List.mem_cons] at ih ⊢
      rw [ih]
      tauto

theorem nodup_keys_mapSet {α : Type} (m : List (Str × α)) (k : Str) (v : α)
    (h : (keys m).Nodup) : (keys (mapSet m k v)).Nodup := by
  induction m with
  | nil => simp [mapSet, keys]
  | cons e m ih =>
    obtain ⟨k0, v0⟩ := e
    simp only [keys, List.map_cons, List.nodup_cons] at h
    by_cases hk : k0 = k
    · subst hk
      simp only [mapSet, if_true, keys, List.map_cons, List.nodup_cons]
      exact h
    · simp only [mapSet, hk, if_false, keys, List.map_cons, List.nodup_cons]
      refine ⟨?_, ih h.2⟩
      intro hm
      rcases (mem_keys_mapSet m k k0 v).1 hm with e | e
      · exact hk e
      · exact h.1 e

theorem mapGet_eq_none {α : Type} (m : List (Str × α)) (k : Str) (h : k ∉ keys m) :
    mapGet m k = none := by
  induction m with
  | nil => rfl
  | cons e m ih =>
    obtain ⟨k0, v0⟩ := e
    simp only [keys, List.map_cons, List.mem_cons, not_or] at h
    have h' : (k == k0) = false := by simpa using h.1
    simp only [mapGet, List.lookup, h']
    exact ih h.2

theorem mem_keys_of_mapGet {α : Type} (m : List (Str × α)) (k : Str) (v : α)
    (h : mapGet m k = some v) : k ∈ keys m := by
  by_contra hk
  rw [mapGet_eq_none m k hk] at h
  cases h

theorem mapGet_cons {α : Type} (k0 : Str) (v0 : α) (m : List (Str × α)) (k : Str) :
    mapGet ((k0, v0) :: m) k = if k = k0 then some v0 else mapGet m k := by
  by_cases h : k = k0
  · simp [mapGet, List.lookup, h]
  · have h' : (k == k0) = false := by simpa using h
    simp [mapGet, List.lookup, h', h]

/-! ### `strings.Split` at dots -/

theorem Split_spec (c : Char) : ∀ s : Str, ∃ x ys, Split s c = x :: ys ∧
    s = x ++ ys.flatMap (fun y => c :: y) ∧ c ∉ x ∧ ∀ y ∈ ys, c ∉ y := by
  intro s
  induction s with
  | nil => exact ⟨[], [], rfl, by simp, by simp, by simp⟩
  | cons a t ih =>
    obtain ⟨x, ys, h1, h2, h3, h4⟩ := ih
    by_cases ha : a = c
    · subst ha
      refine ⟨[], x :: ys, by rw [Split_cons_eq, h1], ?_, by simp, ?_⟩
      · rw [h2]; simp
      · intro y hy
        rcases List.mem_cons.1 hy with rfl | hy
        · exact h3
        · exact h4 y hy
    · refine ⟨a :: x, ys, Split_cons_ne t ha h1, by rw [h2]; simp, ?_, h4⟩
      intro hm
      rcases List.mem_cons.1 hm with e | e
      · exact ha e.symm
      · exact h3 e

/-- A key passes the test of line 75 exactly when it is `o.i` with both parts
non-empty and free of dots. -/
theorem foldable_iff (name : Str) :
    foldable name = true ↔ ∃ o i, name = o ++ '.' :: i ∧ Split name '.' = [o, i] ∧
      o ≠ [] ∧ i ≠ [] ∧ '.' ∉ o ∧ '.' ∉ i := by
  constructor
  · intro h
    simp only [foldable, decide_eq_true_eq] at h
    obtain ⟨x, ys, h1, h2, h3, h4⟩ := Split_spec '.' name
    rw [h1] at h
    obtain ⟨hlen, hx, hy⟩ := h
    match ys, hlen, h1, h2, h4, hy with
    | [y], _, h1, h2, h4, hy =>
      refine ⟨x, y, by simpa using h2, h1, ?_, ?_, h3, h4 y (by simp)⟩
      · exact List.length_pos.1 (by simpa using hx)
      · exact List.length_pos.1 (by simpa using hy)
  · rintro ⟨o, i, _, h, ho, hi, _, _⟩
    simp only [foldable, h, decide_eq_true_eq]
    exact ⟨rfl, by simpa using List.length_pos.2 ho, by simpa using List.length_pos.2 hi⟩

theorem foldable_dotted {o i : Str} (ho : o ≠ []) (hi : i ≠ []) (hod : '.' ∉ o) (hid : '.' ∉ i) :
    foldable (o ++ '.' :: i) = true ∧ Split (o ++ '.' :: i) '.' = [o, i] := by
  have hs : Split (o ++ '.' :: i) '.' = [o, i] := by
    simpa using Split_joined o [i] '.' hod (by simpa using hid)
  exact ⟨(foldable_iff _).2 ⟨o, i, rfl, hs, ho, hi, hod, hid⟩, hs⟩

theorem dotted_inj {o i o' i' : Str} (hod : '.' ∉ o) (hod' : '.' ∉ o')
    (h : o ++ '.' :: i = o' ++ '.' :: i') : o = o' ∧ i = i' :=
  split_first hod hod' h

/-! ### The first loop of `ParseSearchString` -/

theorem foldEntry_foldable (st : SearchData × List (Str × SearchData)) (o i : Str)
    (vals : List SearchValue) (ho : o ≠ []) (hi : i ≠ []) (hod : '.' ∉ o) (hid : '.' ∉ i) :
    foldEntry st (o ++ '.' :: i, vals) =
      (st.1, mapSet st.2 o (mapSet ((mapGet st.2 o).getD []) i vals)) := by
  obtain ⟨hf, hs⟩ := foldable_dotted ho hi hod hid
  have ho' : 0 < o.length := List.length_pos.2 ho
  have hi' : 0 < i.length := List.length_pos.2 hi
  simp [foldEntry, hs, ho', hi']

theorem foldEntry_not_foldable (st : SearchData × List (Str × SearchData))
    (e : Str × List SearchValue) (h : foldable e.1 = false) :
    foldEntry st e = (mapSet st.1 e.1 e.2, st.2) := by
  simp only [foldable, decide_eq_false_iff_not] at h
  simp only [foldEntry, h, if_false]

theorem nestedGet_step_self (subs : List (Str × SearchData)) (o i : Str)
    (vals : List SearchValue) :
    nestedGet (mapSet subs o (mapSet ((mapGet subs o).getD []) i vals)) o i = some vals := by
  simp [nestedGet, mapGet_mapSet_self]

theorem nestedGet_step_other (subs : List (Str × SearchData)) (o i o' i' : Str)
    (vals : List SearchValue) (hne : ¬ (o = o' ∧ i = i')) :
    nestedGet (mapSet subs o' (mapSet ((mapGet subs o').getD []) i' vals)) o i =
      nestedGet subs o i := by
  by_cases ho : o = o'
  · subst ho
    have hi : i ≠ i' := fun e => hne ⟨rfl, e⟩
    simp only [nestedGet, mapGet_mapSet_self, Option.some_bind, mapGet_mapSet_ne _ _ hi]
    cases mapGet subs o with
    | none => rfl
    | some sub => rfl
  · simp only [nestedGet, mapGet_mapSet_ne _ _ ho]

/-- An entry with another key leaves the list stored for `o.i` alone. -/
theorem foldEntry_frame (st : SearchData × List (Str × SearchData))
    (e : Str × List SearchValue) (o i : Str)
    (hne : e.1 ≠ o ++ '.' :: i) : nestedGet (foldEntry st e).2 o i = nestedGet st.2 o i := by
  cases hf : foldable e.1 with
  | false => rw [foldEntry_not_foldable st e hf]
  | true =>
    obtain ⟨o', i', he, _, ho', hi', hod', hid'⟩ := (foldable_iff _).1 hf
    obtain ⟨k, vals⟩ := e
    simp only at he hne
    subst he
    rw [foldEntry_foldable st o' i' vals ho' hi' hod' hid']
    exact nestedGet_step_other _ _ _ _ _ _ (fun h => hne (by rw [h.1, h.2]))

theorem foldl_foldEntry_frame (f : SearchData) (st : SearchData × List (Str × SearchData))
    (o i : Str) (hne : o ++ '.' :: i ∉ keys f) :
    nestedGet (f.foldl foldEntry st).2 o i = nestedGet st.2 o i := by
  induction f generalizing st with
  | nil => rfl
  | cons e f ih =>
    simp only [keys, List.map_cons, List.mem_cons, not_or] at hne
    rw [List.foldl_cons, ih _ hne.2]
    exact foldEntry_frame st e o i (fun h => hne.1 h.symm)

/-- After the first loop the group of `o` holds under `i` the list the flat map
had under `o.i`. -/
theorem foldl_foldEntry_get (f : SearchData) (st : SearchData × List (Str × SearchData))
    (o i : Str) (vals : List SearchValue) (ho : o ≠ []) (hi : i ≠ []) (hod : '.' ∉ o)
    (hid : '.' ∉ i) (hnd : (keys f).Nodup) (hget : mapGet f (o ++ '.' :: i) = some vals) :
    nestedGet (f.foldl foldEntry st).2 o i = some vals := by
  induction f generalizing st with
  | nil => simp [mapGet, List.lookup] at hget
  | cons e f ih =>
    obtain ⟨k0, v0⟩ := e
    simp only [keys, List.map_cons, List.nodup_cons] at hnd
    rw [mapGet_cons] at hget
    rw [List.foldl_cons]
    by_cases hk : o ++ '.' :: i = k0
    · subst hk
      simp only [if_true, Option.some.injEq] at hget
      subst hget
      rw [foldl_foldEntry_frame f _ o i hnd.1, foldEntry_foldable st o i v0 ho hi hod hid]
      exact nestedGet_step_self _ _ _ _
    · simp only [hk, if_false] at hget
      exact ih _ hnd.2 hget

theorem foldl_foldEntry_flat_keys (f : SearchData) (st : SearchData × List (Str × SearchData))
    (h : ∀ k ∈ keys st.1, foldable k = false) :
    ∀ k ∈ keys (f.foldl foldEntry st).1, foldable k = false := by
  induction f generalizing st with
  | nil => exact h
  | cons e f ih =>
    rw [List.foldl_cons]
    refine ih _ ?_
    cases hf : foldable e.1 with
    | false =>
      rw [foldEntry_not_foldable st e hf]
      intro k hk
      rcases (mem_keys_mapSet _ _ _ _).1 hk with rfl | hk
      · exact hf
      · exact h k hk
    | true =>
      obtain ⟨o', i', he, _, ho', hi', hod', hid'⟩ := (foldable_iff _).1 hf
      obtain ⟨k, vals⟩ := e
      simp only at he
      subst he
      rw [foldEntry_foldable st o' i' vals ho' hi' hod' hid']
      exact h

theorem foldl_foldEntry_group_keys (f : SearchData) (st : SearchData × List (Str × SearchData))
    (h : (keys st.2).Nodup ∧ ∀ k ∈ keys st.2, '.' ∉ k) :
    (keys (f.foldl foldEntry st).2).Nodup ∧ ∀ k ∈ keys (f.foldl foldEntry st).2, '.' ∉ k := by
  induction f generalizing st with
  | nil => exact h
  | cons e f ih =>
    rw [List.foldl_cons]
    refine ih _ ?_
    cases hf : foldable e.1 with
    | false => rw [foldEntry_not_foldable st e hf]; exact h
    | true =>
      obtain ⟨o', i', he, _, ho', hi', hod', hid'⟩ := (foldable_iff _).1 hf
      obtain ⟨k, vals⟩ := e
      simp only at he
      subst he
      rw [foldEntry_foldable st o' i' vals ho' hi' hod' hid']
      refine ⟨nodup_keys_mapSet _ _ _ h.1, ?_⟩
      intro k hk
      rcases (mem_keys_mapSet _ _ _ _).1 hk with rfl | hk
      · exact hod'
      · exact h.2 k hk

/-! ### The second loop of `ParseSearchString` -/

theorem foldl_nestEntry_frame (subs : List (Str × SearchData)) (s2 : SearchData) (k : Str)
    (h : k ∉ keys subs) : mapGet (subs.foldl nestEntry s2) k = mapGet s2 k := by
  induction subs generalizing s2 with
  | nil => rfl
  | cons e subs ih =>
    simp only [keys, List.map_cons, List.mem_cons, not_or] at h
    rw [List.foldl_cons, ih _ h.2]
    exact mapGet_mapSet_ne _ _ h.1

theorem foldl_nestEntry_get (subs : List (Str × SearchData)) (s2 : SearchData) (o : Str)
    (sub : SearchData) (hnd : (keys subs).Nodup) (hget : mapGet subs o = some sub) :
    mapGet (subs.foldl nestEntry s2) o =
      some [⟨SearchSymbolSearch, .searchData sub, .nil⟩] := by
  induction subs generalizing s2 with
  | nil => simp [mapGet, List.lookup] at hget
  | cons e subs ih =>
    obtain ⟨k0, v0⟩ := e
    simp only [keys, List.map_cons, List.nodup_cons] at hnd
    rw [mapGet_cons] at hget
    rw [List.foldl_cons]
    by_cases hk : o = k0
    · subst hk
      simp only [if_true, Option.some.injEq] at hget
      subst hget
      rw [foldl_nestEntry_frame subs _ o hnd.1]
      exact mapGet_mapSet_self _ _ _
    · simp only [hk, if_false] at hget
      exact ih _ hnd.2 hget

/-- The folder on a flat map with distinct keys: every key `o.i` moves into the
one group of `o`. -/
theorem foldSearch_spec (f : SearchData) (hnd : (keys f).Nodup) (o : Str) (ho : o ≠ [])
    (hod : '.' ∉ o) (hex : ∃ i vals, i ≠ [] ∧ '.' ∉ i ∧ mapGet f (o ++ '.' :: i) = some vals) :
    ∃ sub, mapGet (foldSearch f) o = some [⟨SearchSymbolSearch, .searchData sub, .nil⟩] ∧
      ∀ i vals, i ≠ [] → '.' ∉ i → mapGet f (o ++ '.' :: i) = some vals →
        mapGet sub i = some vals ∧ mapGet (foldSearch f) (o ++ '.' :: i) = none := by
  obtain ⟨i0, vals0, hi0, hid0, hget0⟩ := hex
  have hgk := foldl_foldEntry_group_keys f ([], []) ⟨by simp [keys], by simp [keys]⟩
  have hfk := foldl_foldEntry_flat_keys f ([], []) (by simp [keys])
  have h0 := foldl_foldEntry_get f ([], []) o i0 vals0 ho hi0 hod hid0 hnd hget0
  cases hsub : mapGet (f.foldl foldEntry ([], [])).2 o with
  | none => simp [nestedGet, hsub] at h0
  | some sub =>
    refine ⟨sub, foldl_nestEntry_get _ _ o sub hgk.1 hsub, ?_⟩
    intro i vals hi hid hget
    have h1 := foldl_foldEntry_get f ([], []) o i vals ho hi hod hid hnd hget
    refine ⟨by simpa [nestedGet, hsub] using h1, ?_⟩
    have hnot : o ++ '.' :: i ∉ keys (f.foldl foldEntry ([], [])).2 :=
      fun hm => hgk.2 _ hm (by simp)
    unfold foldSearch
    rw [foldl_nestEntry_frame _ _ _ hnot]
    refine mapGet_eq_none _ _ ?_
    intro hm
    have := hfk _ hm
    rw [(foldable_dotted ho hi hod hid).1] at this
    cases this

theorem parsePart_shape (L : Lib) (part : Str) (search search' : SearchData)
    (h : parsePart L part search = .ok search') :
    search' = search ∨ ∃ k v, search' = mapSet search k v := by
  unfold parsePart at h
  simp only at h
  split_ifs at h with h1 h2 h3
  · cases hv : parseRawValues L (Split ((FindStringSubmatch (re2 L) part).getD 2 []) ',') [] none
        with
    | error e => rw [hv] at h; cases h
    | ok values =>
      rw [hv] at h
      simp only at h
      split_ifs at h with h5
      · exact Or.inr ⟨_, _, (Except.ok.inj h).symm⟩
      · exact Or.inl (Except.ok.inj h).symm
  · exact Or.inr ⟨_, _, (Except.ok.inj h).symm⟩
  · exact Or.inr ⟨_, _, (Except.ok.inj h).symm⟩

theorem parsePart_nodup (L : Lib) (part : Str) (search search' : SearchData)
    (h : parsePart L part search = .ok search') (hnd : (keys search).Nodup) :
    (keys search').Nodup := by
  rcases parsePart_shape L part search search' h with rfl | ⟨k, v, rfl⟩
  · exact hnd
  · exact nodup_keys_mapSet _ _ _ hnd

theorem parseParts_nodup (L : Lib) (parts : List Str) (search : SearchData)
    (hnd : (keys search).Nodup) : (keys (parseParts L parts search).1).Nodup := by
  induction parts generalizing search with
  | nil => exact hnd
  | cons part parts ih =>
    simp only [parseParts]
    split_ifs with h
    · exact ih _ hnd
    · cases hp : parsePart L part search with
      | error e => exact hnd
      | ok search' => exact ih _ (parsePart_nodup L part search search' hp hnd)

/-- The keys of the map `ParseSearchString2` returns are distinct. -/
theorem ParseSearchString2_nodup (L : Lib) (text : Str) (f : SearchData) (err : Option GoError)
    (h : ParseSearchString2 L text = some (f, err)) : (keys f).Nodup := by
  unfold ParseSearchString2 at h
  cases hs : splitSearchString text with
  | none => rw [hs] at h; cases h
  | some parts =>
    rw [hs] at h
    simp only [Option.map_some', Option.some.injEq] at h
    have := parseParts_nodup L parts [] (by simp [keys])
    rw [h] at this
    exact this

/-- C8: for every query that `ParseSearchString2` parses to a flat mapping `f`,
and every outer name `o` (non-empty, without dot) under which `f` has a key
`o.i` with `i` non-empty and without dot: `ParseSearchString` succeeds with a
mapping that maps `o` to exactly one predicate, whose operator is nested-search
and whose value is one nested mapping holding, for every such key `o.i` of `f`,
under `i` the predicate list `f` had under `o.i`; and the result has no key
`o.i`. -/
theorem C8_fold_nested (L : Lib) (text : Str) (f : SearchData)
    (hf : ParseSearchString2 L text = some (f, none)) :
    ∃ g, ParseSearchString L text = some (g, none) ∧
      ∀ o, o ≠ [] → '.' ∉ o →
        (∃ i vals, i ≠ [] ∧ '.' ∉ i ∧ mapGet f (o ++ '.' :: i) = some vals) →
        ∃ sub, mapGet g o = some [⟨SearchSymbolSearch, .searchData sub, .nil⟩] ∧
          ∀ i vals, i ≠ [] → '.' ∉ i → mapGet f (o ++ '.' :: i) = some vals →
            mapGet sub i = some vals ∧ mapGet g (o ++ '.' :: i) = none := by
  refine ⟨foldSearch f, by simp [ParseSearchString, hf], ?_⟩
  intro o ho hod hex
  exact foldSearch_spec f (ParseSearchString2_nodup L text f none hf) o ho hod hex

/-- C8 at `tags.color:red`: the flat key `tags.color` becomes the group
`{tags: [nested-search {color: [equal "red"]}]}`. -/
theorem C8_fold_nested_witness :
    (∀ L : Lib, ParseSearchString2 L "tags.color:red".toList =
      some ([("tags.color".toList, [⟨SearchSymbolEq, .str "red".toList, .nil⟩])], none)) ∧
    ∀ L : Lib, ∃ g, ParseSearchString L "tags.color:red".toList = some (g, none) ∧
      ∃ sub, mapGet g "tags".toList = some [⟨SearchSymbolSearch, .searchData sub, .nil⟩] ∧
        mapGet sub "color".toList = some [⟨SearchSymbolEq, .str "red".toList, .nil⟩] ∧
        mapGet g "tags.color".toList = none := by
  have hw : ∀ c ∈ "red".toList, isLetter c = true := by decide
  obtain ⟨h1, h2, h3, h4⟩ := word_untyped hw
  have hp : ∀ L : Lib, ParseSearchString2 L "tags.color:red".toList =
      some ([("tags.color".toList, [⟨SearchSymbolEq, .str "red".toList, .nil⟩])], none) :=
    fun L => ParseSearchString2_raw L "tags.color".toList "red".toList (by decide)
      (by decide) (by decide) h1 h2 h3 h4
  refine ⟨hp, fun L => ?_⟩
  obtain ⟨g, hg, hspec⟩ := C8_fold_nested L "tags.color:red".toList _ (hp L)
  obtain ⟨sub, hsub, hall⟩ := hspec "tags".toList (by decide) (by decide)
    ⟨"color".toList, _, by decide, by decide, rfl⟩
  obtain ⟨ha, hb⟩ := hall "color".toList _ (by decide) (by decide) rfl
  exact ⟨g, hg, sub, hsub, ha, hb⟩

/-! ### The depth bound of `WhereString` -/

theorem whereVal_congr (L : Lib) (self self' : SearchData → Option WhereResult) (k : Str)
    (acc : WhereAcc) (v : SearchValue)
    (h : ∀ sub, v.Value = .searchData sub → self (rewriteSub L k sub) = self' (rewriteSub L k sub)) :
    whereVal L self k acc v = whereVal L self' k acc v := by
  obtain ⟨sym, val, val2⟩ := v
  cases val with
  | searchData sub =>
    have e := h sub rfl
    unfold whereVal
    simp only [e]
  | _ => rfl

theorem whereVal_ne_none (L : Lib) (self : SearchData → Option WhereResult) (k : Str)
    (acc : WhereAcc) (v : SearchValue)
    (h : ∀ sub, v.Value = .searchData sub → self (rewriteSub L k sub) ≠ none) :
    whereVal L self k acc v ≠ none := by
  obtain ⟨sym, val, val2⟩ := v
  have hx : ∀ (x : Option (Except GoError WhereAcc)), x ≠ none →
      (if sym = SearchSymbolNone then some (.ok acc)
      else if sym = SearchSymbolRange then
        some (.ok { acc with
          subConditions := acc.subConditions ++ [k ++ " BETWEEN ? AND ?".toList],
          subArgs := acc.subArgs ++ [val, val2] })
      else if sym = SearchSymbolNot then
        some (.ok (pushCondition acc k " != ?".toList ⟨sym, val, val2⟩))
      else if sym = SearchSymbolEq then
        some (.ok (pushCondition acc k " = ?".toList ⟨sym, val, val2⟩))
      else if sym = SearchSymbolGt then
        some (.ok (pushCondition acc k " > ?".toList ⟨sym, val, val2⟩))
      else if sym = SearchSymbolGte then
        some (.ok (pushCondition acc k " >= ?".toList ⟨sym, val, val2⟩))
      else if sym = SearchSymbolLt then
        some (.ok (pushCondition acc k " < ?".toList ⟨sym, val, val2⟩))
      else if sym = SearchSymbolLte then
        some (.ok (pushCondition acc k " <= ?".toList ⟨sym, val, val2⟩))
      else if sym = SearchSymbolSearch then x
      else some (.ok acc)) ≠ none := by
    intro x hx
    repeat' split
    all_goals first | exact hx | exact Option.some_ne_none _
  cases val with
  | searchData sub =>
    refine hx _ ?_
    dsimp only
    cases hs : self (rewriteSub L k sub) with
    | none => exact absurd hs (h sub rfl)
    | some r =>
      obtain ⟨q, a, e⟩ := r
      cases e <;> exact Option.some_ne_none _
  | _ => exact hx _ (Option.some_ne_none _)

theorem whereVals_congr (L : Lib) (self self' : SearchData → Option WhereResult) (k : Str)
    (vals : List SearchValue) (acc : WhereAcc)
    (h : ∀ v ∈ vals, ∀ sub, v.Value = .searchData sub →
      self (rewriteSub L k sub) = self' (rewriteSub L k sub)) :
    whereVals L self k vals acc = whereVals L self' k vals acc := by
  induction vals generalizing acc with
  | nil => rfl
  | cons v vals ih =>
    simp only [whereVals, whereVal_congr L self self' k acc v (h v (by simp))]
    cases whereVal L self' k acc v with
    | none => rfl
    | some r =>
      cases r with
      | error e => rfl
      | ok acc' => exact ih acc' (fun w hw => h w (by simp [hw]))

theorem whereVals_ne_none (L : Lib) (self : SearchData → Option WhereResult) (k : Str)
    (vals : List SearchValue) (acc : WhereAcc)
    (h : ∀ v ∈ vals, ∀ sub, v.Value = .searchData sub → self (rewriteSub L k sub) ≠ none) :
    whereVals L self k vals acc ≠ none := by
  induction vals generalizing acc with
  | nil => simp [whereVals]
  | cons v vals ih =>
    simp only [whereVals]
    cases hv : whereVal L self k acc v with
    | none => exact absurd hv (whereVal_ne_none L self k acc v (h v (by simp)))
    | some r =>
      cases r with
      | error e => simp
      | ok acc' => exact ih acc' (fun w hw => h w (by simp [hw]))

theorem whereEntries_congr (L : Lib) (self self' : SearchData → Option WhereResult)
    (hf : SearchDataHandleFuncMap) (m : SearchData) (queries : List Str) (args : List Any)
    (h : ∀ e ∈ m, ∀ v ∈ e.2, ∀ sub, v.Value = .searchData sub →
      self (rewriteSub L e.1 sub) = self' (rewriteSub L e.1 sub)) :
    whereEntries L self hf m queries args = whereEntries L self' hf m queries args := by
  induction m generalizing queries args with
  | nil => rfl
  | cons e m ih =>
    obtain ⟨k, vals⟩ := e
    have he : whereEntry L self hf k vals queries args =
        whereEntry L self' hf k vals queries args := by
      simp only [whereEntry, whereVals_congr L self self' k vals _ (h (k, vals) (by simp))]
    simp only [whereEntries, he]
    cases whereEntry L self' hf k vals queries args with
    | none => rfl
    | some r =>
      cases r with
      | error e => rfl
      | ok qa => exact ih _ _ (fun e he => h e (by simp [he]))

theorem whereEntries_ne_none (L : Lib) (self : SearchData → Option WhereResult)
    (hf : SearchDataHandleFuncMap) (m : SearchData) (queries : List Str) (args : List Any)
    (h : ∀ e ∈ m, ∀ v ∈ e.2, ∀ sub, v.Value = .searchData sub →
      self (rewriteSub L e.1 sub) ≠ none) :
    whereEntries L self hf m queries args ≠ none := by
  induction m generalizing queries args with
  | nil => simp [whereEntries]
  | cons e m ih =>
    obtain ⟨k, vals⟩ := e
    have hv := whereVals_ne_none L self k vals ⟨queries, args, [], []⟩ (h (k, vals) (by simp))
    have he : whereEntry L self hf k vals queries args ≠ none := by
      unfold whereEntry
      cases lookupHandler hf k with
      | some f => simp only; split_ifs <;> simp
      | none =>
        simp only
        cases hw : whereVals L self k vals ⟨queries, args, [], []⟩ with
        | none => exact absurd hw hv
        | some r =>
          cases r with
          | error e => simp
          | ok acc => simp only; split_ifs <;> simp
    simp only [whereEntries]
    cases hw : whereEntry L self hf k vals queries args with
    | none => exact absurd hw he
    | some r =>
      cases r with
      | error e => simp
      | ok qa => exact ih _ _ (fun e he => h e (by simp [he]))

theorem mem_mapSet {α : Type} (m : List (Str × α)) (k : Str) (v : α) (e : Str × α)
    (h : e ∈ mapSet m k v) : e ∈ m ∨ e = (k, v) := by
  induction m with
  | nil => simpa [mapSet] using h
  | cons e0 m ih =>
    obtain ⟨k0, v0⟩ := e0
    by_cases hk : k0 = k
    · simp only [mapSet, hk, if_true, List.mem_cons] at h
      rcases h with h | h
      · exact Or.inr h
      · exact Or.inl (by simp [h])
    · simp only [mapSet, hk, if_false, List.mem_cons] at h
      rcases h with h | h
      · exact Or.inl (by simp [h])
      · rcases ih h with h | h
        · exact Or.inl (by simp [h])
        · exact Or.inr h

theorem stringify_flat (L : Lib) (x : Any) (sub : SearchData) :
    stringify L x ≠ .searchData sub := by
  cases x <;> simp [stringify]

/-- The map of the recursive call holds no nested map. -/
theorem rewriteSub_flat (L : Lib) (k : Str) (sub : SearchData) :
    flatValues (rewriteSub L k sub) := by
  unfold rewriteSub
  have key : ∀ (l : SearchData) (acc : SearchData), flatValues acc →
      flatValues (l.foldl (fun sub2 e =>
        if e.2.length > 0 then mapSet sub2 (jsonKey k e.1) (e.2.map (stringifyValue L))
        else sub2) acc) := by
    intro l
    induction l with
    | nil => intro acc h; exact h
    | cons e l ih =>
      intro acc h
      rw [List.foldl_cons]
      refine ih _ ?_
      split_ifs
      · intro e' he' v hv s
        rcases mem_mapSet _ _ _ _ he' with he' | he'
        · exact h e' he' v hv s
        · subst he'
          obtain ⟨w, _, rfl⟩ := List.mem_map.1 hv
          exact stringify_flat L _ s
      · exact h
  exact key sub [] (fun e he => by simp at he)

/-- On a map without nested maps one call suffices and returns. -/
theorem WhereStringN_flat (L : Lib) (n : Nat) (m : SearchData) (hf : SearchDataHandleFuncMap)
    (hm : flatValues m) :
    WhereStringN L (n + 1) m hf = WhereStringN L 1 m hf ∧ WhereStringN L 1 m hf ≠ none := by
  have hc : ∀ self self' : SearchData → Option WhereResult,
      whereEntries L self hf m [] [] = whereEntries L self' hf m [] [] :=
    fun self self' => whereEntries_congr L self self' hf m [] []
      (fun e he v hv sub h => absurd h (hm e he v hv sub))
  constructor
  · rw [WhereStringN_succ, WhereStringN_succ, hc]
  · rw [WhereStringN_succ]
    have := whereEntries_ne_none L (fun sub2 => WhereStringN L 0 sub2 hf) hf m [] []
      (fun e he v hv sub h => absurd h (hm e he v hv sub))
    cases hw : whereEntries L (fun sub2 => WhereStringN L 0 sub2 hf) hf m [] [] with
    | none => exact absurd hw this
    | some r =>
      cases r with
      | error e => simp
      | ok qa => simp only; split_ifs <;> simp

/-- More than two levels of calls change nothing. -/
theorem WhereStringN_fuel (L : Lib) (n : Nat) (m : SearchData) (hf : SearchDataHandleFuncMap) :
    WhereStringN L (n + 2) m hf = WhereString L m hf := by
  rw [WhereString, WhereStringN_succ, WhereStringN_succ L 1]
  rw [whereEntries_congr L (fun sub2 => WhereStringN L (n + 1) sub2 hf)
    (fun sub2 => WhereStringN L 1 sub2 hf) hf m [] []
    (fun e _ v _ sub _ => (WhereStringN_flat L n _ hf (rewriteSub_flat L e.1 sub)).1)]

/-- `WhereString` returns on every map and every override map: the bound on the
depth of calls is never hit. -/
theorem WhereString_total (L : Lib) (m : SearchData) (hf : SearchDataHandleFuncMap) :
    ∃ r, WhereString L m hf = some r := by
  rw [WhereString, WhereStringN_succ]
  have := whereEntries_ne_none L (fun sub2 => WhereStringN L 1 sub2 hf) hf m [] []
    (fun e _ v _ sub _ => (WhereStringN_flat L 0 _ hf (rewriteSub_flat L e.1 sub)).2)
  cases hw : whereEntries L (fun sub2 => WhereStringN L 1 sub2 hf) hf m [] [] with
  | none => exact absurd hw this
  | some r =>
    cases r with
    | error e => exact ⟨_, rfl⟩
    | ok qa =>
      simp only
      split_ifs
      · exact ⟨_, rfl⟩
      · exact ⟨_, rfl⟩

theorem Index_lt {s : Str} {c : Char} {i : Nat} (h : Index s c = some i) : i < s.length := by
  induction s generalizing i with
  | nil => simp [Index] at h
  | cons a t ih =>
    by_cases ha : a = c
    · simp only [Index, ha, if_true, Option.some.injEq] at h
      subst h; simp
    · simp only [Index, ha, if_false] at h
      cases ht : Index t c with
      | none => rw [ht] at h; simp at h
      | some j =>
        rw [ht] at h
        simp only [Option.map_some', Option.some.injEq] at h
        have := ih ht
        subst h
        simp; omega

/-- The loop of `splitSearchString` ends within `fuel` passes when `fuel`
exceeds the length of the text still to scan. -/
theorem splitLoop_some (text : Str) :
    ∀ (fuel start : Nat) (parts : List Str), start ≤ text.length →
      text.length - start < fuel → ∃ r, splitLoop text fuel start parts = some r := by
  intro fuel
  induction fuel with
  | zero => intro start parts _ h; omega
  | succ fuel ih =>
    intro start parts hle hlt
    have hlen : (text.drop start).length = text.length - start := by simp
    have hspace : ∀ si, Index (text.drop start) ' ' = some si →
        ∃ r, splitLoop text fuel (start + si + 1)
          (parts ++ [TrimSpace (slice text start (start + si))]) = some r := by
      intro si hsi
      have := Index_lt hsi
      exact ih _ _ (by omega) (by omega)
    have hquote : ∀ qi, Index (text.drop start) quote = some qi →
        ∃ r, (match Index (text.drop (start + qi + 1)) quote with
          | none => some parts
          | some nextQuoteIdx =>
            splitLoop text fuel (start + (qi + nextQuoteIdx + 2))
              (parts ++ [TrimSpace (slice text start (start + qi + nextQuoteIdx + 2))])) =
          some r := by
      intro qi hqi
      have h1 := Index_lt hqi
      cases hn : Index (text.drop (start + qi + 1)) quote with
      | none => exact ⟨_, rfl⟩
      | some nq =>
        have h2 := Index_lt hn
        have hlen2 : (text.drop (start + qi + 1)).length = text.length - (start + qi + 1) := by
          simp
        exact ih _ _ (by omega) (by omega)
    cases hs : Index (text.drop start) ' ' with
    | none =>
      cases hq : Index (text.drop start) quote with
      | none => exact ⟨_, splitLoop_end text fuel start parts hs hq⟩
      | some qi =>
        obtain ⟨r, hr⟩ := hquote qi hq
        exact ⟨r, by simp only [splitLoop, hs, hq]; exact hr⟩
    | some si =>
      cases hq : Index (text.drop start) quote with
      | none =>
        obtain ⟨r, hr⟩ := hspace si hs
        exact ⟨r, by simp only [splitLoop, hs, hq]; exact hr⟩
      | some qi =>
        by_cases hlt' : si < qi
        · obtain ⟨r, hr⟩ := hspace si hs
          exact ⟨r, by simp only [splitLoop, hs, hq, hlt', if_true]; exact hr⟩
        · obtain ⟨r, hr⟩ := hquote qi hq
          exact ⟨r, by simp only [splitLoop, hs, hq, hlt', if_false]; exact hr⟩

/-- `splitSearchString` returns on every text: its loop bound is never hit. -/
theorem splitSearchString_total (text : Str) : ∃ parts, splitSearchString text = some parts := by
  unfold splitSearchString
  simp only
  split_ifs
  · exact ⟨_, rfl⟩
  · exact splitLoop_some _ _ 0 [] (by omega) (by omega)

/-- `ParseSearchString2` returns on every text. -/
theorem ParseSearchString2_total (L : Lib) (text : Str) :
    ∃ r, ParseSearchString2 L text = some r := by
  obtain ⟨parts, h⟩ := splitSearchString_total text
  exact ⟨parseParts L parts [], by simp [ParseSearchString2, h]⟩

/-- `ParseSearchString` returns on every text. -/
theorem ParseSearchString_total (L : Lib) (text : Str) :
    ∃ r, ParseSearchString L text = some r := by
  obtain ⟨r, h⟩ := ParseSearchString2_total L text
  rw [ParseSearchString, h]
  exact ⟨_, rfl⟩

/-! ### Overrides in `WhereString` -/

theorem whereEntry_handler (L : Lib) (self : SearchData → Option WhereResult)
    (hf : SearchDataHandleFuncMap) (k : Str) (vals : List SearchValue) (queries : List Str)
    (args : List Any) (f : SearchDataHandleFunc) (h : lookupHandler hf k = some f) :
    whereEntry L self hf k vals queries args =
      if (f vals).1 ≠ [] then some (.ok (queries ++ [(f vals).1], args ++ (f vals).2))
      else some (.ok (queries, args)) := by
  simp only [whereEntry, h]

theorem lookupHandler_some (h : List (Str × Option SearchDataHandleFunc)) (k : Str)
    (f : SearchDataHandleFunc) (hk : mapGet h k = some (some f)) :
    lookupHandler (some h) k = some f := by
  simp only [lookupHandler, hk]

theorem whereEntries_empty_fragments (L : Lib) (self : SearchData → Option WhereResult)
    (h : List (Str × Option SearchDataHandleFunc)) (m : SearchData)
    (hm : ∀ e ∈ m, ∃ f, mapGet h e.1 = some (some f) ∧ (f e.2).1 = [])
    (queries : List Str) (args : List Any) :
    whereEntries L self (some h) m queries args = some (.ok (queries, args)) := by
  induction m with
  | nil => rfl
  | cons e m ih =>
    obtain ⟨k, vals⟩ := e
    obtain ⟨f, hf, he⟩ := hm (k, vals) (by simp)
    simp only [whereEntries, whereEntry_handler L self (some h) k vals queries args f
      (lookupHandler_some h k f hf)]
    simp only [he, ne_eq, not_true_eq_false, if_false]
    exact ih (fun e he => hm e (by simp [he]))

/-- C12: for every predicate mapping `m` and override map `h` in which every
key of `m` has a non-nil override that returns an empty fragment on the key's
predicates, `WhereString(m, h)` returns the error `no valid search conditions`
with an empty clause and no arguments. -/
theorem C12_all_overrides_empty (L : Lib) (m : SearchData)
    (h : List (Str × Option SearchDataHandleFunc))
    (hm : ∀ e ∈ m, ∃ f, mapGet h e.1 = some (some f) ∧ (f e.2).1 = []) :
    WhereString L m (some h) = some ([], [], some errNoConditions) := by
  rw [WhereString, WhereStringN_succ, whereEntries_empty_fragments L _ h m hm]
  rfl

/-- C12 at `{name: [= "x"], age: [> 3]}` with overrides for both keys that
return the empty fragment. -/
theorem C12_all_overrides_empty_witness :
    (∀ e ∈ nameAgeData,
      ∃ f, mapGet declineOverrides e.1 = some (some f) ∧ (f e.2).1 = []) ∧
    ∀ L : Lib, WhereString L nameAgeData (some declineOverrides) =
      some ([], [], some errNoConditions) := by
  have hm : ∀ e ∈ nameAgeData,
      ∃ f, mapGet declineOverrides e.1 = some (some f) ∧ (f e.2).1 = [] := by
    intro e he
    simp only [nameAgeData, List.mem_cons, List.mem_singleton, List.not_mem_nil, or_false] at he
    rcases he with rfl | rfl
    · exact ⟨_, rfl, rfl⟩
    · exact ⟨_, rfl, rfl⟩
  exact ⟨hm, fun L => C12_all_overrides_empty L _ _ hm⟩

/-- C19: for every field `k`, predicate list `vals` and override map holding
the non-nil override `f` under `k`, `WhereString({k: vals}, h)` returns exactly
the fragment and the arguments of `f(vals)` with no error when the fragment is
not empty, and the error `no valid search conditions` when it is empty. -/
theorem C19_override_replaces_default (L : Lib) (k : Str) (vals : List SearchValue)
    (h : List (Str × Option SearchDataHandleFunc)) (f : SearchDataHandleFunc)
    (hk : mapGet h k = some (some f)) :
    ((f vals).1 ≠ [] →
      WhereString L [(k, vals)] (some h) = some ((f vals).1, (f vals).2, none)) ∧
    ((f vals).1 = [] →
      WhereString L [(k, vals)] (some h) = some ([], [], some errNoConditions)) := by
  have e := whereEntry_handler L (fun sub2 => WhereStringN L 1 sub2 (some h)) (some h) k vals
    [] [] f (lookupHandler_some h k f hk)
  constructor
  · intro hne
    rw [WhereString, WhereStringN_succ]
    simp only [whereEntries, e, if_pos hne]
    simp [Join]
  · intro hempty
    rw [WhereString, WhereStringN_succ]
    simp only [whereEntries, e, hempty, ne_eq, not_true_eq_false, if_false]
    rfl

/-- C19 at `{tags: [search {color: [= red]}, = 3]}` with an override for
`tags`. -/
theorem C19_override_replaces_default_witness :
    mapGet [("tags".toList, some tagsOverride)] "tags".toList = some (some tagsOverride) ∧
    ∀ L : Lib, WhereString L tagsData (some [("tags".toList, some tagsOverride)]) =
      some ("tags @> ?".toList, [.str "x".toList], none) := by
  refine ⟨rfl, fun L => ?_⟩
  have h := C19_override_replaces_default L "tags".toList tagsVals
    [("tags".toList, some tagsOverride)] tagsOverride rfl
  exact h.1 (by decide)

/-! ### Overrides and nested groups -/

theorem whereEntries_lookup_congr (L : Lib) (self : SearchData → Option WhereResult)
    (hf hf' : SearchDataHandleFuncMap) (m : SearchData) (queries : List Str) (args : List Any)
    (h : ∀ e ∈ m, lookupHandler hf e.1 = lookupHandler hf' e.1) :
    whereEntries L self hf m queries args = whereEntries L self hf' m queries args := by
  induction m generalizing queries args with
  | nil => rfl
  | cons e m ih =>
    obtain ⟨k, vals⟩ := e
    have he : whereEntry L self hf k vals queries args =
        whereEntry L self hf' k vals queries args := by
      have := h (k, vals) (by simp)
      simp only [whereEntry, this]
    simp only [whereEntries, he]
    cases whereEntry L self hf' k vals queries args with
    | none => rfl
    | some r =>
      cases r with
      | error e => rfl
      | ok qa => exact ih _ _ (fun e he => h e (by simp [he]))

/-- Every key of the map of the recursive call is a rewritten key. -/
theorem rewriteSub_keys (L : Lib) (k : Str) (sub : SearchData) :
    ∀ e ∈ rewriteSub L k sub, ∃ e0 ∈ sub, e.1 = jsonKey k e0.1 := by
  unfold rewriteSub
  have key : ∀ (l : SearchData) (acc : SearchData),
      (∀ e ∈ acc, ∃ e0 ∈ sub, e.1 = jsonKey k e0.1) → (∀ e0 ∈ l, e0 ∈ sub) →
      ∀ e ∈ l.foldl (fun sub2 e =>
        if e.2.length > 0 then mapSet sub2 (jsonKey k e.1) (e.2.map (stringifyValue L))
        else sub2) acc, ∃ e0 ∈ sub, e.1 = jsonKey k e0.1 := by
    intro l
    induction l with
    | nil => intro acc h _; exact h
    | cons e l ih =>
      intro acc h hl
      rw [List.foldl_cons]
      refine ih _ ?_ (fun e0 he0 => hl e0 (by simp [he0]))
      split_ifs
      · intro e' he'
        rcases mem_mapSet _ _ _ _ he' with he' | he'
        · exact h e' he'
        · subst he'
          exact ⟨e, hl e (by simp), rfl⟩
      · exact h
  exact key sub [] (fun e he => by simp at he) (fun e0 he0 => he0)

/-- The string backend on a nested group consults the override map at the
group's key and at the rewritten keys only. -/
theorem WhereString_group_lookups (L : Lib) (outer : Str) (sub : SearchData) (v2 : Any)
    (h : SearchDataHandleFuncMap) (ho : lookupHandler h outer = none)
    (hi : ∀ e ∈ sub, lookupHandler h (jsonKey outer e.1) = none) :
    WhereString L [(outer, [⟨SearchSymbolSearch, .searchData sub, v2⟩])] h =
      WhereString L [(outer, [⟨SearchSymbolSearch, .searchData sub, v2⟩])] none := by
  have hin : WhereStringN L 1 (rewriteSub L outer sub) h =
      WhereStringN L 1 (rewriteSub L outer sub) none := by
    rw [WhereStringN_succ, WhereStringN_succ]
    rw [whereEntries_lookup_congr L _ h none (rewriteSub L outer sub) [] []
      (fun e he => by
        obtain ⟨e0, he0, hk⟩ := rewriteSub_keys L outer sub e he
        rw [hk, hi e0 he0]; rfl)]
    rfl
  rw [WhereString, WhereString, WhereStringN_succ, WhereStringN_succ]
  rw [whereEntries_lookup_congr L _ h none _ [] []
    (fun e he => by
      rw [List.mem_singleton] at he
      subst he
      rw [ho]; rfl)]
  rw [whereEntries_congr L (fun sub2 => WhereStringN L 1 sub2 h)
    (fun sub2 => WhereStringN L 1 sub2 none) none _ [] []
    (fun e he v hv s hs => by
      rw [List.mem_singleton] at he
      subst he
      rw [List.mem_singleton] at hv
      subst hv
      cases hs
      exact hin)]

theorem parse_tags_color_red (L : Lib) :
    ParseSearchString L "tags.color:red".toList = some (tagsColorRed, none) := by
  obtain ⟨h1, h2, h3, h4⟩ := word_untyped (w := "red".toList) (by decide)
  have hp := ParseSearchString2_raw L "tags.color".toList "red".toList (by decide) (by decide)
    (by decide) h1 h2 h3 h4
  have e : "tags.color:red".toList = "tags.color".toList ++ ':' :: "red".toList := by decide
  have hf := foldSearch_single (o := "tags".toList) (i := "color".toList) (by decide) (by decide)
    [⟨SearchSymbolEq, .str "red".toList, .nil⟩]
  have e2 : "tags.color".toList = "tags".toList ++ '.' :: "color".toList := by decide
  rw [e, ParseSearchString, hp, e2]
  simp only [Option.map_some', hf]
  rfl

theorem tags_color_red_overridden (L : Lib) :
    WhereString L tagsColorRed (some [("color".toList, some colorOverride)]) =
      some ("(tags->>'color' = ?)".toList, [.str "red".toList], none) := by
  have h := WhereString_group_lookups L "tags".toList
    [("color".toList, [⟨SearchSymbolEq, .str "red".toList, .nil⟩])] .nil
    (some [("color".toList, some colorOverride)]) rfl
    (fun e he => by
      rw [List.mem_singleton] at he
      subst he
      rfl)
  have h2 := WhereString_nested_eq L "tags".toList "color".toList (.str "red".toList)
  rw [tagsColorRed, h, h2]
  rfl

/-- C18, as amended: for every nested group stored under `outer`, when the
override map holds no non-nil override under `outer` and none under the
rewritten keys `outer->>'inner'`, the string backend returns what it returns
without overrides, whatever is registered under the original nested names. -/
theorem C18_nested_override_unused (L : Lib) (outer : Str) (sub : SearchData)
    (h : SearchDataHandleFuncMap) (ho : lookupHandler h outer = none)
    (hi : ∀ e ∈ sub, lookupHandler h (jsonKey outer e.1) = none) :
    WhereString L [(outer, [⟨SearchSymbolSearch, .searchData sub, .nil⟩])] h =
      WhereString L [(outer, [⟨SearchSymbolSearch, .searchData sub, .nil⟩])] none :=
  WhereString_group_lookups L outer sub .nil h ho hi

/-- C18, as amended, at the fold of `tags.color:red` with the overrides
`{color: f}`: the result is the default compilation. -/
theorem C18_nested_override_unused_witness :
    (lookupHandler (some [("color".toList, some colorOverride)]) "tags".toList = none ∧
      ∀ e ∈ [("color".toList, [(⟨SearchSymbolEq, .str "red".toList, .nil⟩ : SearchValue)])],
        lookupHandler (some [("color".toList, some colorOverride)])
          (jsonKey "tags".toList e.1) = none) ∧
    ∀ L : Lib, WhereString L tagsColorRed (some [("color".toList, some colorOverride)]) =
      WhereString L tagsColorRed none := by
  have hi : ∀ e ∈ [("color".toList, [(⟨SearchSymbolEq, .str "red".toList, .nil⟩ : SearchValue)])],
      lookupHandler (some [("color".toList, some colorOverride)])
        (jsonKey "tags".toList e.1) = none := by
    intro e he
    rw [List.mem_singleton] at he
    subst he
    rfl
  exact ⟨⟨rfl, hi⟩, fun L => C18_nested_override_unused L "tags".toList _ _ rfl hi⟩

/-- C18 as stated fails: with the overrides `{color: f}`, compiling the fold
of `tags.color:red` does not return the fragment of `f`. -/
theorem C18_counterexample :
    ¬ ∀ L : Lib, ∃ g, ParseSearchString L "tags.color:red".toList = some (g, none) ∧
      WhereString L g (some [("color".toList, some colorOverride)]) =
        some ((colorOverride [⟨SearchSymbolEq, .str "red".toList, .nil⟩]).1,
          (colorOverride [⟨SearchSymbolEq, .str "red".toList, .nil⟩]).2, none) := by
  intro h
  obtain ⟨L⟩ := Lib_nonempty
  obtain ⟨g, hg, hw⟩ := h L
  rw [parse_tags_color_red L] at hg
  cases hg
  rw [tags_color_red_overridden L] at hw
  have hq := congrArg (fun r => r.map (fun x => x.1.length)) hw
  revert hq
  decide

/-! ### `ParseOrderByString` -/

theorem HasSuffix_concat (n : Str) (c d : Char) :
    HasSuffix (n ++ [c]) [d] = decide (c = d) := by
  simp only [HasSuffix, List.isSuffixOf, List.reverse_append, List.reverse_cons,
    List.reverse_nil, List.nil_append, List.singleton_append, List.isPrefixOf, Bool.and_true]
  by_cases h : c = d
  · subst h; simp
  · have h' : ¬ d = c := fun e => h e.symm
    simp [h, h']

theorem HasSuffix_last (n : Str) (d : Char) (h : n.getLast? ≠ some d) :
    HasSuffix n [d] = false := by
  rcases List.eq_nil_or_concat n with rfl | ⟨n', b, rfl⟩
  · rfl
  · rw [List.concat_eq_append] at h ⊢
    rw [HasSuffix_concat]
    have hb : b ≠ d := fun e => h (by simp [e])
    simpa using hb

theorem slice_concat (n : Str) (c : Char) : slice (n ++ [c]) 0 ((n ++ [c]).length - 1) = n := by
  simp [slice]

theorem orderStep_written (orders : List Order) (x : Str × Option Bool)
    (hx : isOrderName x.1 = true) :
    orderStep orders (writtenKey x) = orders ++ [orderOfKey x] := by
  obtain ⟨n, mark⟩ := x
  simp only [isOrderName, decide_eq_true_eq] at hx
  obtain ⟨hne, -, hplus, hminus⟩ := hx
  rcases mark with _ | _ | _
  · have hn : writtenKey (n, none) = n := by simp [writtenKey]
    rw [hn]
    simp only [orderStep, HasSuffix_last n '-' hminus, HasSuffix_last n '+' hplus,
      String.toList, orderOfKey]
    simp [hne]
  · have hn : writtenKey (n, some false) = n ++ ['+'] := rfl
    rw [hn]
    have h1 : HasSuffix (n ++ ['+']) "-".toList = false := by
      rw [show "-".toList = ['-'] from rfl, HasSuffix_concat]; decide
    have h2 : HasSuffix (n ++ ['+']) "+".toList = true := by
      rw [show "+".toList = ['+'] from rfl, HasSuffix_concat]; decide
    simp only [orderStep, h1, h2, slice_concat, orderOfKey]
    simp [hne]
  · have hn : writtenKey (n, some true) = n ++ ['-'] := rfl
    rw [hn]
    have h1 : HasSuffix (n ++ ['-']) "-".toList = true := by
      rw [show "-".toList = ['-'] from rfl, HasSuffix_concat]; decide
    simp only [orderStep, h1, slice_concat, orderOfKey]
    simp [hne]

theorem foldl_orderStep_written (xs : List (Str × Option Bool))
    (hx : ∀ x ∈ xs, isOrderName x.1 = true) (orders : List Order) :
    (xs.map writtenKey).foldl orderStep orders = orders ++ xs.map orderOfKey := by
  induction xs generalizing orders with
  | nil => simp
  | cons x xs ih =>
    rw [List.map_cons, List.foldl_cons, orderStep_written orders x (hx x (by simp)),
      ih (fun y hy => hx y (by simp [hy]))]
    simp

theorem writtenKey_no_comma (x : Str × Option Bool) (hx : isOrderName x.1 = true) :
    ',' ∉ writtenKey x := by
  obtain ⟨n, mark⟩ := x
  simp only [isOrderName, decide_eq_true_eq] at hx
  obtain ⟨-, hc, -, -⟩ := hx
  rcases mark with _ | _ | _ <;> simp [writtenKey, hc]

/-- C16: for every sequence of sort keys whose names are non-empty, hold no
comma and do not end in `+` or `-`, each written `name-` (descending), `name+`
or plain `name` (ascending), `ParseOrderByString` of the comma-joined list
returns exactly the orders `{name, desc}` of the keys, in the input order. -/
theorem C16_order_by (xs : List (Str × Option Bool))
    (hx : ∀ x ∈ xs, isOrderName x.1 = true) :
    ParseOrderByString (Join (xs.map writtenKey) ",".toList) = xs.map orderOfKey := by
  cases xs with
  | nil => rfl
  | cons x xs =>
    have hs : Split (Join ((x :: xs).map writtenKey) ",".toList) ',' =
        (x :: xs).map writtenKey := by
      rw [List.map_cons, show ",".toList = [','] from rfl, Join_cons]
      exact Split_joined _ _ ',' (writtenKey_no_comma x (hx x (by simp)))
        (fun y hy => by
          obtain ⟨z, hz, rfl⟩ := List.mem_map.1 hy
          exact writtenKey_no_comma z (hx z (by simp [hz])))
    rw [ParseOrderByString, hs, foldl_orderStep_written _ hx]
    simp

/-- C16 at `name-,age+,id`. -/
theorem C16_order_by_witness :
    (∀ x ∈ [("name".toList, some true), ("age".toList, some false), ("id".toList, none)],
      isOrderName x.1 = true) ∧
    ParseOrderByString "name-,age+,id".toList =
      [⟨"name".toList, true⟩, ⟨"age".toList, false⟩, ⟨"id".toList, false⟩] := by
  have hx : ∀ x ∈ [("name".toList, some true), ("age".toList, some false), ("id".toList, none)],
      isOrderName x.1 = true := by decide
  exact ⟨hx, C16_order_by _ hx⟩

/-! ### The cases of the loop body of the two backends -/

theorem whereVal_eq (L : Lib) (self : SearchData → Option WhereResult) (k : Str)
    (acc : WhereAcc) (v : SearchValue) :
    whereVal L self k acc v =
      match comparisonOf v with
      | some (op, as) => some (.ok { acc with
          subConditions := acc.subConditions ++ [k ++ op], subArgs := acc.subArgs ++ as })
      | none =>
        match nestedOf v with
        | none => some (.ok acc)
        | some sub =>
          match self (rewriteSub L k sub) with
          | none => none
          | some (_, _, some err) => some (.error err)
          | some (sub2Query, sub2Args, none) =>
            some (.ok { acc with queries := acc.queries ++ [sub2Query],
                                 args := acc.args ++ sub2Args }) := by
  obtain ⟨sym, val, val2⟩ := v
  by_cases h1 : sym = SearchSymbolNone
  · subst h1; rfl
  by_cases h2 : sym = SearchSymbolRange
  · subst h2; rfl
  by_cases h3 : sym = SearchSymbolNot
  · subst h3; rfl
  by_cases h4 : sym = SearchSymbolEq
  · subst h4; rfl
  by_cases h5 : sym = SearchSymbolGt
  · subst h5; rfl
  by_cases h6 : sym = SearchSymbolGte
  · subst h6; rfl
  by_cases h7 : sym = SearchSymbolLt
  · subst h7; rfl
  by_cases h8 : sym = SearchSymbolLte
  · subst h8; rfl
  by_cases h9 : sym = SearchSymbolSearch
  · subst h9
    cases val <;> rfl
  · have hc : comparisonOf ⟨sym, val, val2⟩ = none := by
      simp only [comparisonOf, if_neg h1, if_neg h2, if_neg h3, if_neg h4, if_neg h5, if_neg h6,
        if_neg h7, if_neg h8]
    have hn : nestedOf ⟨sym, val, val2⟩ = none := by
      simp only [nestedOf, if_neg h9]
    rw [hc, hn]
    simp only [whereVal, if_neg h1, if_neg h2, if_neg h3, if_neg h4, if_neg h5, if_neg h6,
      if_neg h7, if_neg h8, if_neg h9]

theorem dbVal_eq (L : Lib) (self : SearchData → DB → Option DB) (k : Str)
    (acc : DBAcc) (v : SearchValue) :
    dbVal L self k acc v =
      match comparisonOf v with
      | some (op, as) => some { acc with
          subConditions := acc.subConditions ++ [k ++ op], subArgs := acc.subArgs ++ as }
      | none =>
        match nestedOf v with
        | none => some acc
        | some sub =>
          match self (rewriteSub L k sub) acc.db with
          | none => none
          | some db => some { acc with db := db } := by
  obtain ⟨sym, val, val2⟩ := v
  by_cases h1 : sym = SearchSymbolNone
  · subst h1; rfl
  by_cases h2 : sym = SearchSymbolRange
  · subst h2; rfl
  by_cases h3 : sym = SearchSymbolNot
  · subst h3; rfl
  by_cases h4 : sym = SearchSymbolEq
  · subst h4; rfl
  by_cases h5 : sym = SearchSymbolGt
  · subst h5; rfl
  by_cases h6 : sym = SearchSymbolGte
  · subst h6; rfl
  by_cases h7 : sym = SearchSymbolLt
  · subst h7; rfl
  by_cases h8 : sym = SearchSymbolLte
  · subst h8; rfl
  by_cases h9 : sym = SearchSymbolSearch
  · subst h9
    cases val <;> rfl
  · have hc : comparisonOf ⟨sym, val, val2⟩ = none := by
      simp only [comparisonOf, if_neg h1, if_neg h2, if_neg h3, if_neg h4, if_neg h5, if_neg h6,
        if_neg h7, if_neg h8]
    have hn : nestedOf ⟨sym, val, val2⟩ = none := by
      simp only [nestedOf, if_neg h9]
    rw [hc, hn]
    simp only [dbVal, if_neg h1, if_neg h2, if_neg h3, if_neg h4, if_neg h5, if_neg h6,
      if_neg h7, if_neg h8, if_neg h9]

/-! ### Placeholders and arguments -/

theorem placeholders_append (a b : Str) :
    placeholders (a ++ b) = placeholders a + placeholders b := by
  simp [placeholders]

theorem placeholders_not_mem {k : Str} (h : '?' ∉ k) : placeholders k = 0 := by
  exact List.count_eq_zero.2 h

theorem totalPlaceholders_append (a b : List Str) :
    totalPlaceholders (a ++ b) = totalPlaceholders a + totalPlaceholders b := by
  simp [totalPlaceholders]

theorem placeholders_Join (l : List Str) (sep : Str) (hsep : placeholders sep = 0) :
    placeholders (Join l sep) = totalPlaceholders l := by
  induction l with
  | nil => rfl
  | cons a l ih =>
    cases l with
    | nil => simp [Join, totalPlaceholders]
    | cons b l =>
      have e : Join (a :: b :: l) sep = a ++ sep ++ Join (b :: l) sep := rfl
      rw [e, placeholders_append, placeholders_append, ih, hsep]
      simp [totalPlaceholders]

theorem placeholders_group (l : List Str) :
    placeholders ("(".toList ++ Join l " OR ".toList ++ ")".toList) = totalPlaceholders l := by
  rw [placeholders_append, placeholders_append,
    placeholders_Join _ _ (show placeholders " OR ".toList = 0 from rfl)]
  show 0 + totalPlaceholders l + 0 = totalPlaceholders l
  omega

theorem comparisonOf_placeholders (v : SearchValue) (op : Str) (as : List Any)
    (h : comparisonOf v = some (op, as)) : placeholders op = as.length := by
  unfold comparisonOf at h
  split_ifs at h
  all_goals (cases h; rfl)

theorem jsonKey_plain {k i : Str} (hk : '?' ∉ k) (hi : '?' ∉ i) : '?' ∉ jsonKey k i := by
  simp [jsonKey, hk, hi]

theorem whereVals_placeholders (L : Lib) (self : SearchData → Option WhereResult) (k : Str)
    (hk : '?' ∉ k) (vals : List SearchValue)
    (hself : ∀ v ∈ vals, ∀ sub, nestedOf v = some sub → ∀ q a,
      self (rewriteSub L k sub) = some (q, a, none) → placeholders q = a.length)
    (acc acc' : WhereAcc) (h : whereVals L self k vals acc = some (.ok acc'))
    (hq : totalPlaceholders acc.queries = acc.args.length)
    (hs : totalPlaceholders acc.subConditions = acc.subArgs.length) :
    totalPlaceholders acc'.queries = acc'.args.length ∧
      totalPlaceholders acc'.subConditions = acc'.subArgs.length := by
  induction vals generalizing acc with
  | nil =>
    simp only [whereVals, Option.some.injEq, Except.ok.injEq] at h
    subst h
    exact ⟨hq, hs⟩
  | cons v vals ih =>
    simp only [whereVals] at h
    have hrest := fun w hw => hself w (List.mem_cons_of_mem _ hw)
    rw [whereVal_eq] at h
    cases hc : comparisonOf v with
    | some oa =>
      obtain ⟨op, as⟩ := oa
      simp only [hc] at h
      refine ih hrest _ h hq ?_
      simp only [totalPlaceholders_append, hs, List.length_append]
      simp [totalPlaceholders, placeholders_append, placeholders_not_mem hk,
        comparisonOf_placeholders v op as hc]
    | none =>
      cases hn : nestedOf v with
      | none =>
        simp only [hc, hn] at h
        exact ih hrest _ h hq hs
      | some sub =>
        cases hr : self (rewriteSub L k sub) with
        | none => simp only [hc, hn, hr] at h; cases h
        | some r =>
          obtain ⟨q, a, err⟩ := r
          cases err with
          | some e => simp only [hc, hn, hr] at h; cases h
          | none =>
            simp only [hc, hn, hr] at h
            refine ih hrest _ h ?_ hs
            have := hself v (by simp) sub hn q a hr
            simp only [totalPlaceholders_append, hq, List.length_append]
            simp [totalPlaceholders, this]

theorem whereEntries_placeholders (L : Lib) (self : SearchData → Option WhereResult)
    (m : SearchData) (hm : ∀ e ∈ m, '?' ∉ e.1)
    (hself : ∀ e ∈ m, ∀ v ∈ e.2, ∀ sub, nestedOf v = some sub → ∀ q a,
      self (rewriteSub L e.1 sub) = some (q, a, none) → placeholders q = a.length)
    (queries : List Str) (args : List Any) (r : List Str × List Any)
    (h : whereEntries L self none m queries args = some (.ok r))
    (hq : totalPlaceholders queries = args.length) :
    totalPlaceholders r.1 = r.2.length := by
  induction m generalizing queries args with
  | nil =>
    simp only [whereEntries, Option.some.injEq, Except.ok.injEq] at h
    subst h
    exact hq
  | cons e m ih =>
    obtain ⟨k, vals⟩ := e
    simp only [whereEntries, whereEntry, lookupHandler] at h
    have hrest := fun e he => hself e (List.mem_cons_of_mem _ he)
    have hmrest := fun e he => hm e (List.mem_cons_of_mem _ he)
    cases hv : whereVals L self k vals ⟨queries, args, [], []⟩ with
    | none => rw [hv] at h; cases h
    | some x =>
      cases x with
      | error err => rw [hv] at h; cases h
      | ok acc =>
        rw [hv] at h
        obtain ⟨h1, h2⟩ := whereVals_placeholders L self k (hm (k, vals) (by simp)) vals
          (hself (k, vals) (by simp)) _ acc hv hq rfl
        simp only at h
        split_ifs at h
        · refine ih hmrest hrest _ _ h ?_
          rw [totalPlaceholders_append, h1, List.length_append, ← h2]
          have := placeholders_group acc.subConditions
          simp only [totalPlaceholders, List.map_cons, List.map_nil, List.sum_cons,
            List.sum_nil, Nat.add_zero] at this ⊢
          rw [this]
        · exact ih hmrest hrest _ _ h h1

theorem WhereStringN_placeholders (L : Lib) (n : Nat) (m : SearchData)
    (hm : ∀ e ∈ m, '?' ∉ e.1)
    (hself : ∀ e ∈ m, ∀ v ∈ e.2, ∀ sub, nestedOf v = some sub → ∀ q a,
      WhereStringN L n (rewriteSub L e.1 sub) none = some (q, a, none) →
        placeholders q = a.length)
    (clause : Str) (args : List Any)
    (h : WhereStringN L (n + 1) m none = some (clause, args, none)) :
    placeholders clause = args.length := by
  rw [WhereStringN_succ] at h
  cases hw : whereEntries L (fun sub2 => WhereStringN L n sub2 none) none m [] [] with
  | none => rw [hw] at h; cases h
  | some x =>
    cases x with
    | error err => rw [hw] at h; cases h
    | ok r =>
      obtain ⟨queries, args'⟩ := r
      rw [hw] at h
      have := whereEntries_placeholders L _ m hm hself [] [] _ hw rfl
      simp only at h this
      split_ifs at h
      · cases h
      simp only [Option.some.injEq, Prod.mk.injEq, and_true] at h
      obtain ⟨rfl, rfl⟩ := h
      rw [placeholders_Join _ _ (show placeholders " AND ".toList = 0 from rfl), this]

/-- The placeholders of a clause `WhereString` returns without overrides are
as many as its arguments, when no field name holds a `?`. -/
theorem WhereString_placeholders (L : Lib) (m : SearchData) (hm : plainFields m)
    (clause : Str) (args : List Any)
    (h : WhereString L m none = some (clause, args, none)) :
    placeholders clause = args.length := by
  refine WhereStringN_placeholders L 1 m (fun e he => (hm e he).1) ?_ clause args h
  intro e he v hv sub hn q a hq
  refine WhereStringN_placeholders L 0 _ ?_ ?_ q a hq
  · intro e' he'
    obtain ⟨e0, he0, hk⟩ := rewriteSub_keys L e.1 sub e' he'
    rw [hk]
    exact jsonKey_plain (hm e he).1 ((hm e he).2 v hv sub hn e0 he0)
  · intro e' _ v' _ sub' _ q' a' hq'
    cases hq'

/-! ### The two backends -/

theorem Join_append (l1 l2 : List Str) (sep : Str) (h1 : l1 ≠ []) (h2 : l2 ≠ []) :
    Join (l1 ++ l2) sep = Join l1 sep ++ sep ++ Join l2 sep := by
  induction l1 with
  | nil => exact absurd rfl h1
  | cons a l1 ih =>
    cases l1 with
    | nil =>
      cases l2 with
      | nil => exact absurd rfl h2
      | cons b l2 => rfl
    | cons b l1 =>
      have e : Join (a :: b :: l1 ++ l2) sep = a ++ sep ++ Join (b :: l1 ++ l2) sep := rfl
      have e2 : Join (a :: b :: l1) sep = a ++ sep ++ Join (b :: l1) sep := rfl
      rw [e, e2, ih (by simp)]
      simp

theorem Join_append_congr (q q' x : List Str) (sep : Str) (h : Join q sep = Join q' sep)
    (hn : q = [] ↔ q' = []) : Join (q ++ x) sep = Join (q' ++ x) sep := by
  by_cases hx : x = []
  · subst hx; simpa using h
  by_cases hq : q = []
  · have hq' := hn.1 hq
    subst hq hq'
    rfl
  · have hq' : q' ≠ [] := fun e => hq (hn.2 e)
    rw [Join_append q x sep hq hx, Join_append q' x sep hq' hx, h]

theorem Join_append_Join (q y : List Str) (sep : Str) (hy : y ≠ []) :
    Join (q ++ [Join y sep]) sep = Join (q ++ y) sep := by
  by_cases hq : q = []
  · subst hq; rfl
  · rw [Join_append q _ sep hq (by simp), Join_append q y sep hq hy]
    rfl

theorem Agree.nil : Agree [] [] [] := ⟨rfl, ⟨fun _ => rfl, fun _ => rfl⟩, rfl⟩

theorem Agree.push {queries : List Str} {args : List Any} {calls : List WhereCall}
    (h : Agree queries args calls) (x : Str) (as : List Any) :
    Agree (queries ++ ["(".toList ++ x ++ ")".toList]) (args ++ as)
      (calls ++ [⟨x, as.map Arg.val⟩]) := by
  obtain ⟨h1, h2, h3⟩ := h
  refine ⟨?_, by simp, ?_⟩
  · rw [Join_append_congr _ _ _ _ h1 (by simpa [renderCalls] using h2)]
    simp [renderCalls]
  · simp [callArgs, List.flatMap_append] at h3 ⊢
    rw [h3]

theorem Agree.nested {queries : List Str} {args : List Any} {calls : List WhereCall}
    (h : Agree queries args calls) (calls2 : List WhereCall) (a2 : List Any)
    (hne : calls2 ≠ []) (ha : callArgs calls2 = a2.map Arg.val) :
    Agree (queries ++ [Join (renderCalls calls2) " AND ".toList]) (args ++ a2)
      (calls ++ calls2) := by
  obtain ⟨h1, h2, h3⟩ := h
  refine ⟨?_, by simp [hne], ?_⟩
  · rw [Join_append_congr _ _ _ _ h1 (by simpa [renderCalls] using h2),
      Join_append_Join _ _ _ (by simpa [renderCalls] using hne)]
    simp [renderCalls]
  · simp [callArgs, List.flatMap_append] at h3 ha ⊢
    rw [h3, ha]

theorem vals_agree (L : Lib) (selfW : SearchData → Option WhereResult)
    (selfD : SearchData → DB → Option DB) (k : Str) (vals : List SearchValue)
    (hself : ∀ v ∈ vals, ∀ sub, nestedOf v = some sub → SelfAgree selfW selfD (rewriteSub L k sub))
    (accW accW' : WhereAcc) (h : whereVals L selfW k vals accW = some (.ok accW'))
    (db0 : DB) (calls : List WhereCall) (hag : Agree accW.queries accW.args calls) :
    ∃ calls', dbVals L selfD k vals ⟨db0 ++ calls, accW.subConditions, accW.subArgs⟩ =
        some ⟨db0 ++ calls', accW'.subConditions, accW'.subArgs⟩ ∧
      Agree accW'.queries accW'.args calls' := by
  induction vals generalizing accW calls with
  | nil =>
    simp only [whereVals, Option.some.injEq, Except.ok.injEq] at h
    subst h
    exact ⟨calls, rfl, hag⟩
  | cons v vals ih =>
    simp only [whereVals] at h
    have hrest := fun w hw => hself w (List.mem_cons_of_mem _ hw)
    rw [whereVal_eq] at h
    simp only [dbVals]
    rw [dbVal_eq]
    cases hc : comparisonOf v with
    | some oa =>
      obtain ⟨op, as⟩ := oa
      simp only [hc] at h ⊢
      exact ih hrest _ h calls hag
    | none =>
      cases hn : nestedOf v with
      | none =>
        simp only [hc, hn] at h ⊢
        exact ih hrest _ h calls hag
      | some sub =>
        cases hr : selfW (rewriteSub L k sub) with
        | none => simp only [hc, hn, hr] at h; cases h
        | some r =>
          obtain ⟨q, a, err⟩ := r
          cases err with
          | some e => simp only [hc, hn, hr] at h; cases h
          | none =>
            simp only [hc, hn, hr] at h
            obtain ⟨calls2, hd, hne, hq, ha⟩ := hself v (by simp) sub hn q a hr (db0 ++ calls)
            simp only [hc, hn, hd]
            have hag' := hag.nested calls2 a hne ha
            rw [hq] at hag'
            have := ih hrest _ h (calls ++ calls2) hag'
            simpa [List.append_assoc] using this

theorem entries_agree (L : Lib) (selfW : SearchData → Option WhereResult)
    (selfD : SearchData → DB → Option DB) (m : SearchData)
    (hself : ∀ e ∈ m, ∀ v ∈ e.2, ∀ sub, nestedOf v = some sub →
      SelfAgree selfW selfD (rewriteSub L e.1 sub))
    (queries : List Str) (args : List Any) (r : List Str × List Any)
    (h : whereEntries L selfW none m queries args = some (.ok r))
    (db0 : DB) (calls : List WhereCall) (hag : Agree queries args calls) :
    ∃ calls', dbEntries L selfD none m (db0 ++ calls) = some (db0 ++ calls') ∧
      Agree r.1 r.2 calls' := by
  induction m generalizing queries args calls with
  | nil =>
    simp only [whereEntries, Option.some.injEq, Except.ok.injEq] at h
    subst h
    exact ⟨calls, rfl, hag⟩
  | cons e m ih =>
    obtain ⟨k, vals⟩ := e
    simp only [whereEntries, whereEntry, lookupHandler] at h
    have hrest := fun e he => hself e (List.mem_cons_of_mem _ he)
    cases hv : whereVals L selfW k vals ⟨queries, args, [], []⟩ with
    | none => rw [hv] at h; cases h
    | some x =>
      cases x with
      | error err => rw [hv] at h; cases h
      | ok acc =>
        rw [hv] at h
        obtain ⟨calls1, hd, hag1⟩ := vals_agree L selfW selfD k vals (hself (k, vals) (by simp))
          _ acc hv db0 calls hag
        simp only [dbEntries, dbEntry, lookupHandler, hd]
        simp only at h
        by_cases hs : acc.subConditions.length > 0
        · simp only [if_pos hs] at h ⊢
          have := ih hrest _ _ h (calls1 ++ [⟨Join acc.subConditions " OR ".toList,
            acc.subArgs.map Arg.val⟩]) (hag1.push _ _)
          simpa [DB.Where, List.append_assoc] using this
        · simp only [if_neg hs] at h ⊢
          exact ih hrest _ _ h calls1 hag1

theorem SearchDBN_agree (L : Lib) (n : Nat) (m : SearchData) :
    SelfAgree (fun sub2 => WhereStringN L n sub2 none)
      (fun sub2 db => SearchDBN L n sub2 db none) m := by
  induction n generalizing m with
  | zero => intro q a h; cases h
  | succ n ih =>
    intro q a h db
    simp only at h ⊢
    rw [WhereStringN_succ] at h
    cases hw : whereEntries L (fun sub2 => WhereStringN L n sub2 none) none m [] [] with
    | none => rw [hw] at h; cases h
    | some x =>
      cases x with
      | error err => rw [hw] at h; cases h
      | ok r =>
        obtain ⟨queries, args⟩ := r
        rw [hw] at h
        simp only at h
        split_ifs at h with hl
        · cases h
        simp only [Option.some.injEq, Prod.mk.injEq, and_true] at h
        obtain ⟨rfl, rfl⟩ := h
        obtain ⟨calls, hd, hag⟩ := entries_agree L _ (fun sub2 db => SearchDBN L n sub2 db none) m
          (fun e _ v _ sub _ => ih (rewriteSub L e.1 sub)) [] [] _ hw db [] Agree.nil
        refine ⟨calls, ?_, ?_, hag.1.symm, hag.2.2.symm⟩
        · simpa [SearchDBN] using hd
        · intro hc
          have hq : queries = [] := hag.2.1.2 hc
          exact hl (by simp [hq])

theorem backends_example (L : Lib) :
    WhereString L backendsData none = some (backendsClause, backendsArgs, none) := by
  rfl

/-! ### What a capture group can hold -/

/-- A register of group `i` after a match is the one before it, or a text of
characters the group admits. -/
theorem run_caps (n : Nat) (r : Re) (i : Nat) (w : Str) :
    ∀ x y, y ∈ run n r x → y.2.lookup i = some w →
      x.2.lookup i = some w ∨ ∀ c ∈ w, r.capAdmits i c = true := by
  induction r with
  | eps => intro x y h hl; rw [mem_run_eps] at h; subst h; exact Or.inl hl
  | bot => intro x y h hl; rw [mem_run_bot] at h; rw [h.2] at hl; exact Or.inl hl
  | eot => intro x y h hl; rw [mem_run_eot] at h; rw [h.2] at hl; exact Or.inl hl
  | chr p =>
    intro x y h hl
    obtain ⟨c, _, _, h2⟩ := mem_run_chr.1 h
    rw [h2] at hl
    exact Or.inl hl
  | seq a b iha ihb =>
    intro x y h hl
    obtain ⟨m, h1, h2⟩ := mem_run_seq.1 h
    rcases ihb m y h2 hl with hm | hb
    · rcases iha x m h1 hm with hx | ha
      · exact Or.inl hx
      · exact Or.inr (fun c hc => by simp [Re.capAdmits, ha c hc])
    · exact Or.inr (fun c hc => by simp [Re.capAdmits, hb c hc])
  | alt a b iha ihb =>
    intro x y h hl
    rcases mem_run_alt.1 h with h | h
    · rcases iha x y h hl with hx | ha
      · exact Or.inl hx
      · exact Or.inr (fun c hc => by simp [Re.capAdmits, ha c hc])
    · rcases ihb x y h hl with hx | hb
      · exact Or.inl hx
      · exact Or.inr (fun c hc => by simp [Re.capAdmits, hb c hc])
  | star a iha =>
    have key : ∀ k x y, y ∈ starLoop (run n a) k x → y.2.lookup i = some w →
        x.2.lookup i = some w ∨ ∀ c ∈ w, a.capAdmits i c = true := by
      intro k
      induction k with
      | zero =>
        intro x y h hl
        simp only [starLoop, List.mem_singleton] at h
        subst h
        exact Or.inl hl
      | succ k ih =>
        intro x y h hl
        rcases mem_starLoop_succ.1 h with ⟨m, h1, _, h3⟩ | h
        · rcases ih m y h3 hl with hm | ha
          · exact iha x m h1 hm
          · exact Or.inr ha
        · subst h
          exact Or.inl hl
    intro x y h hl
    simpa [Re.capAdmits] using key _ x y h hl
  | group j a iha =>
    intro x y h hl
    obtain ⟨m, h1, rfl⟩ := mem_run_group.1 h
    obtain ⟨u, e, a1⟩ := run_consumed n a x m h1
    by_cases hj : j = i
    · subst hj
      simp only [List.lookup, beq_self_eq_true, Option.some.injEq] at hl
      subst hl
      refine Or.inr (fun c hc => ?_)
      have ht : x.1.take (x.1.length - m.1.length) = u := by
        rw [e]; simp
      rw [ht] at hc
      simp [Re.capAdmits, a1 c hc]
    · have hji : (i == j) = false := by simpa using fun e => hj e.symm
      simp only [List.lookup, hji] at hl
      rcases iha x m h1 hl with hx | ha
      · exact Or.inl hx
      · exact Or.inr (fun c hc => by simp [Re.capAdmits, ha c hc])

/-- The result of a search: no match, or the submatches of a match started
with empty registers. -/
theorem findFrom_cases (r : Re) (n : Nat) (s : Str) :
    findFrom r n s = [] ∨ ∃ s' e, e ∈ run n r (s', []) ∧ findFrom r n s = submatches r s' e := by
  induction s with
  | nil =>
    cases hr : run n r ([], []) with
    | nil => left; simp [findFrom, hr]
    | cons e rest =>
      right
      exact ⟨[], e, by simp [hr], by simp [findFrom, hr]⟩
  | cons a t ih =>
    cases hr : run n r (a :: t, []) with
    | nil =>
      rcases ih with h | ⟨s', e, he, h⟩
      · left; simp [findFrom, hr, h]
      · right; exact ⟨s', e, he, by simp [findFrom, hr, h]⟩
    | cons e rest =>
      right
      exact ⟨a :: t, e, by simp [hr], by simp [findFrom, hr]⟩

/-- Every submatch a search returns for group `i + 1` is made of characters
the group admits. -/
theorem find_group_admits (r : Re) (s : Str) (i : Nat) :
    ∀ c ∈ (FindStringSubmatch r s).getD (i + 1) [], r.capAdmits (i + 1) c = true := by
  intro c hc
  rcases findFrom_cases r s.length s with h | ⟨s', e, he, h⟩
  · rw [FindStringSubmatch, h] at hc
    simp at hc
  · rw [FindStringSubmatch, h] at hc
    simp only [submatches, List.getD_cons_succ] at hc
    by_cases hi : i < r.groups
    · rw [List.getD_eq_getElem _ _ (by simpa using hi)] at hc
      simp only [List.getElem_map, List.getElem_range] at hc
      cases hl : e.2.lookup (i + 1) with
      | none => rw [hl] at hc; simp at hc
      | some w =>
        rw [hl] at hc
        rcases run_caps s.length r (i + 1) w _ e he hl with h0 | ha
        · simp at h0
        · exact ha c (by simpa using hc)
    · rw [List.getD_eq_default _ _ (by simpa using hi)] at hc
      simp at hc

/-! ### The keys and operators `ParseSearchString2` stores -/

theorem re2_key_plain (L : Lib) (part : Str) :
    '?' ∉ (FindStringSubmatch (re2 L) part).getD 1 [] := by
  intro h
  have := find_group_admits (re2 L) part 0 '?' h
  have e : (re2 L).capAdmits 1 '?' = false := rfl
  rw [e] at this
  cases this

theorem re4_key_plain (part : Str) : '?' ∉ (FindStringSubmatch re4 part).getD 1 [] := by
  intro h
  have := find_group_admits re4 part 0 '?' h
  have e : re4.capAdmits 1 '?' = false := by decide
  rw [e] at this
  cases this

theorem re1_key_plain (L : Lib) {s : Str} (h : MatchString (re1 L) s = true) : '?' ∉ s := by
  intro hq
  have hre : re1 L = Re.seq Re.bot (Re.seq (Re.group 1 (Re.seq (Re.lit '$').opt
      (Re.chr (bareCls L)).plus)) Re.eot) := rfl
  have : FindStringSubmatch (re1 L) s = [] := by
    rw [hre]
    refine no_match_of_admits hq ?_
    have hh := not_han_of_lt L '?' (by decide)
    simp [Re.admits, Re.opt, Re.plus, Re.lit, bareCls, hh]
    decide
  simp [MatchString, this] at h

theorem symbolOf_mem {s sym : Str} (h : symbolOf s = some sym) :
    defaultEq sym ∈ comparisonSymbols := by
  unfold symbolOf at h
  split_ifs at h
  all_goals (cases h; decide)

theorem intBranch_symbol {rawValue : Str} {subs3 : List Str} {value v : SearchValue}
    {err e : Option GoError} (h : intBranch rawValue subs3 value err = .ok (v, e)) :
    v.Symbol = SearchSymbolRange ∨ v.Symbol = defaultEq value.Symbol := by
  unfold intBranch at h
  simp only at h
  split_ifs at h
  · split at h
    · cases h
    · split at h
      · cases h
      · cases h; exact Or.inl rfl
  · split at h
    · cases h; exact Or.inr rfl
    · cases h

theorem floatBranch_symbol {L : Lib} {rawValue : Str} {subs3 : List Str} {value v : SearchValue}
    {err e : Option GoError} (h : floatBranch L rawValue subs3 value err = .ok (v, e)) :
    v.Symbol = SearchSymbolRange ∨ v.Symbol = defaultEq value.Symbol := by
  unfold floatBranch at h
  simp only at h
  split_ifs at h
  · split at h
    · cases h
    · split at h
      · cases h
      · cases h; exact Or.inl rfl
  · split at h
    · cases h; exact Or.inr rfl
    · cases h

theorem timeBranch_symbol {L : Lib} {rawValue : Str} {subs3 : List Str} {value v : SearchValue}
    {err e : Option GoError} (h : timeBranch L rawValue subs3 value err = .ok (v, e)) :
    v.Symbol = SearchSymbolRange ∨ v.Symbol = defaultEq value.Symbol := by
  unfold timeBranch at h
  simp only at h
  split_ifs at h
  · split at h
    · cases h
    · split at h
      · cases h
      · cases h; exact Or.inl rfl
  · split at h
    · cases h; exact Or.inr rfl
    · cases h

theorem typeValue_symbol {L : Lib} {rawValue operand : Str} {value v : SearchValue}
    {err e : Option GoError} (h : typeValue L rawValue operand value err = .ok (v, e)) :
    v.Symbol = SearchSymbolRange ∨ v.Symbol = defaultEq value.Symbol := by
  unfold typeValue at h
  simp only at h
  split_ifs at h
  · cases h; exact Or.inr rfl
  · exact intBranch_symbol h
  · exact floatBranch_symbol h
  · exact timeBranch_symbol h
  · cases h; exact Or.inr rfl

theorem parseRawValue_symbol {L : Lib} {rawValue : Str} {v : SearchValue}
    {err e : Option GoError} (h : parseRawValue L rawValue err = .ok (v, e)) :
    v.Symbol ∈ comparisonSymbols := by
  unfold parseRawValue at h
  simp only at h
  split_ifs at h
  cases hs : symbolOf ((FindStringSubmatch (re3 L) rawValue).getD 1 []) with
  | none => rw [hs] at h; cases h
  | some sym =>
    rw [hs] at h
    rcases typeValue_symbol h with h1 | h1
    · rw [h1]; decide
    · rw [h1]; exact symbolOf_mem hs

theorem parseRawValues_symbol (L : Lib) (raws : List Str) (values vs : List SearchValue)
    (err : Option GoError) (h : parseRawValues L raws values err = .ok vs)
    (hv : ∀ v ∈ values, v.Symbol ∈ comparisonSymbols) :
    ∀ v ∈ vs, v.Symbol ∈ comparisonSymbols := by
  induction raws generalizing values err with
  | nil =>
    simp only [parseRawValues, Except.ok.injEq] at h
    subst h
    exact hv
  | cons raw raws ih =>
    simp only [parseRawValues] at h
    cases hp : parseRawValue L raw err with
    | error e => rw [hp] at h; cases h
    | ok r =>
      obtain ⟨v, e⟩ := r
      rw [hp] at h
      refine ih _ _ h ?_
      intro w hw
      rcases List.mem_append.1 hw with hw | hw
      · exact hv w hw
      · rw [List.mem_singleton] at hw
        subst hw
        exact parseRawValue_symbol hp

theorem parsedEntry_mapSet (search : SearchData) (k : Str) (vals : List SearchValue)
    (hs : ∀ e ∈ search, parsedEntry e) (hk : parsedEntry (k, vals)) :
    ∀ e ∈ mapSet search k vals, parsedEntry e := by
  intro e he
  rcases mem_mapSet _ _ _ _ he with he | he
  · exact hs e he
  · subst he; exact hk

theorem parsePart_parsed (L : Lib) (part : Str) (search search' : SearchData)
    (h : parsePart L part search = .ok search') (hs : ∀ e ∈ search, parsedEntry e) :
    ∀ e ∈ search', parsedEntry e := by
  unfold parsePart at h
  simp only at h
  split_ifs at h with h1 h2 h3
  · cases hv : parseRawValues L (Split ((FindStringSubmatch (re2 L) part).getD 2 []) ',') [] none
        with
    | error e => rw [hv] at h; cases h
    | ok values =>
      rw [hv] at h
      simp only at h
      split_ifs at h with h5
      · cases h
        exact parsedEntry_mapSet _ _ _ hs ⟨re2_key_plain L part,
          parseRawValues_symbol L _ [] values none hv (by simp)⟩
      · cases h; exact hs
  · cases h
    exact parsedEntry_mapSet _ _ _ hs ⟨re1_key_plain L h2, by simp⟩
  · cases h
    refine parsedEntry_mapSet _ _ _ hs ⟨re4_key_plain part, ?_⟩
    intro v hv
    rw [List.mem_singleton] at hv
    subst hv
    show SearchSymbolEq ∈ comparisonSymbols
    decide

theorem parseParts_parsed (L : Lib) (parts : List Str) (search : SearchData)
    (hs : ∀ e ∈ search, parsedEntry e) : ∀ e ∈ (parseParts L parts search).1, parsedEntry e := by
  induction parts generalizing search with
  | nil => exact hs
  | cons part parts ih =>
    simp only [parseParts]
    split_ifs with h
    · exact ih _ hs
    · cases hp : parsePart L part search with
      | error e => exact hs
      | ok search' => exact ih _ (parsePart_parsed L part search search' hp hs)

/-- Every entry of a map `ParseSearchString2` returns has a key without `?`
and predicates with comparison operators. -/
theorem ParseSearchString2_parsed (L : Lib) (text : Str) (f : SearchData)
    (err : Option GoError) (h : ParseSearchString2 L text = some (f, err)) :
    ∀ e ∈ f, parsedEntry e := by
  unfold ParseSearchString2 at h
  cases hs : splitSearchString text with
  | none => rw [hs] at h; cases h
  | some parts =>
    rw [hs] at h
    simp only [Option.map_some', Option.some.injEq] at h
    have := parseParts_parsed L parts [] (by simp)
    rw [h] at this
    exact this

/-! ### The field names `ParseSearchString` stores -/

theorem mapGet_mem {α : Type} (m : List (Str × α)) (k : Str) (v : α)
    (h : mapGet m k = some v) : (k, v) ∈ m := by
  induction m with
  | nil => simp [mapGet, List.lookup] at h
  | cons e m ih =>
    obtain ⟨k0, v0⟩ := e
    rw [mapGet_cons] at h
    split_ifs at h with hk
    · cases h; subst hk; simp
    · exact List.mem_cons_of_mem _ (ih h)

theorem Split_parts_plain (c x : Char) (s : Str) (h : x ∉ s) : ∀ p ∈ Split s c, x ∉ p := by
  obtain ⟨a, ys, h1, h2, -, -⟩ := Split_spec c s
  rw [h1]
  rw [h2] at h
  intro p hp hx
  rcases List.mem_cons.1 hp with rfl | hp
  · exact h (by simp [hx])
  · exact h (List.mem_append_right _ (List.mem_flatMap.2 ⟨p, hp, by simp [hx]⟩))

theorem getD_plain (x : Char) (l : List Str) (i : Nat) (h : ∀ p ∈ l, x ∉ p) :
    x ∉ l.getD i [] := by
  by_cases hi : i < l.length
  · rw [List.getD_eq_getElem _ _ hi]
    exact h _ (List.getElem_mem hi)
  · rw [List.getD_eq_default _ _ (by omega)]
    simp

theorem nestedOf_comparison {v : SearchValue} (h : v.Symbol ∈ comparisonSymbols) :
    nestedOf v = none := by
  unfold nestedOf
  split_ifs with hs
  · rw [hs] at h
    exact absurd h (by decide)
  · rfl

theorem foldEntry_plain (st : SearchData × List (Str × SearchData))
    (e : Str × List SearchValue) (hst : FoldPlain st) (he : parsedEntry e) :
    FoldPlain (foldEntry st e) := by
  have hparts := Split_parts_plain '.' '?' e.1 he.1
  unfold foldEntry
  simp only
  split_ifs with hf
  · refine ⟨hst.1, ?_⟩
    intro g hg
    rcases mem_mapSet _ _ _ _ hg with hg | hg
    · exact hst.2 g hg
    · subst hg
      refine ⟨getD_plain _ _ _ hparts, ?_⟩
      intro e' he'
      rcases mem_mapSet _ _ _ _ he' with he' | he'
      · cases hm : mapGet st.2 ((Split e.1 '.').getD 0 []) with
        | none => rw [hm] at he'; simp at he'
        | some sub =>
          rw [hm] at he'
          exact (hst.2 _ (mapGet_mem _ _ _ hm)).2 e' he'
      · subst he'
        exact getD_plain _ _ _ hparts
  · exact ⟨parsedEntry_mapSet _ _ _ hst.1 he, hst.2⟩

theorem foldl_foldEntry_plain (f : SearchData) (st : SearchData × List (Str × SearchData))
    (hst : FoldPlain st) (hf : ∀ e ∈ f, parsedEntry e) : FoldPlain (f.foldl foldEntry st) := by
  induction f generalizing st with
  | nil => exact hst
  | cons e f ih =>
    rw [List.foldl_cons]
    exact ih _ (foldEntry_plain st e hst (hf e (by simp))) (fun e' he' => hf e' (by simp [he']))

theorem foldl_nestEntry_plain (subs : List (Str × SearchData)) (s2 : SearchData)
    (hs : ∀ g ∈ subs, '?' ∉ g.1 ∧ ∀ e' ∈ g.2, '?' ∉ e'.1) (h2 : plainFields s2) :
    plainFields (subs.foldl nestEntry s2) := by
  induction subs generalizing s2 with
  | nil => exact h2
  | cons g subs ih =>
    rw [List.foldl_cons]
    refine ih _ (fun g' hg' => hs g' (by simp [hg'])) ?_
    intro e he
    rcases mem_mapSet _ _ _ _ he with he | he
    · exact h2 e he
    · subst he
      refine ⟨(hs g (by simp)).1, ?_⟩
      intro v hv sub hn
      rw [List.mem_singleton] at hv
      subst hv
      have : nestedOf ⟨SearchSymbolSearch, .searchData g.2, .nil⟩ = some g.2 := rfl
      rw [this] at hn
      cases hn
      exact (hs g (by simp)).2

theorem foldSearch_plain (f : SearchData) (hf : ∀ e ∈ f, parsedEntry e) :
    plainFields (foldSearch f) := by
  have h := foldl_foldEntry_plain f ([], []) ⟨by simp, by simp⟩ hf
  unfold foldSearch
  refine foldl_nestEntry_plain _ _ h.2 ?_
  intro e he
  refine ⟨(h.1 e he).1, ?_⟩
  intro v hv sub hn
  rw [nestedOf_comparison ((h.1 e he).2 v hv)] at hn
  cases hn

/-- No field name of a map `ParseSearchString` returns holds a `?`. -/
theorem ParseSearchString_plain (L : Lib) (text : Str) (g : SearchData)
    (h : ParseSearchString L text = some (g, none)) : plainFields g := by
  unfold ParseSearchString at h
  cases hp : ParseSearchString2 L text with
  | none => rw [hp] at h; cases h
  | some r =>
    obtain ⟨f, err⟩ := r
    rw [hp] at h
    cases err with
    | some e => simp at h
    | none =>
      simp only [Option.map_some', Option.some.injEq, Prod.mk.injEq, and_true] at h
      subst h
      exact foldSearch_plain f (ParseSearchString2_parsed L text f none hp)

/-- C13: for every predicate mapping whose field names, top-level and nested,
hold no `?`, and no overrides, whenever `WhereString` succeeds the number of `?`
placeholders in the clause is the length of the argument sequence; every
mapping `ParseSearchString` returns is such a mapping. -/
theorem C13_placeholders_match_args (L : Lib) :
    (∀ (m : SearchData) (clause : Str) (args : List Any), plainFields m →
      WhereString L m none = some (clause, args, none) → placeholders clause = args.length) ∧
    (∀ (text : Str) (g : SearchData), ParseSearchString L text = some (g, none) →
      plainFields g ∧ ∀ (clause : Str) (args : List Any),
        WhereString L g none = some (clause, args, none) → placeholders clause = args.length) :=
  ⟨fun m clause args hm h => WhereString_placeholders L m hm clause args h,
    fun text g hg => ⟨ParseSearchString_plain L text g hg, fun clause args h =>
      WhereString_placeholders L g (ParseSearchString_plain L text g hg) clause args h⟩⟩

/-- C13 at the mapping `backendsData`, whose clause holds six placeholders for
six arguments, and at the mapping parsed from `tags.color:red`. -/
theorem C13_placeholders_match_args_witness :
    (plainFields backendsData ∧
      ∀ L : Lib, WhereString L backendsData none = some (backendsClause, backendsArgs, none)) ∧
    placeholders backendsClause = backendsArgs.length ∧
    ∀ L : Lib, ∃ g, ParseSearchString L "tags.color:red".toList = some (g, none) ∧
      ∀ (clause : Str) (args : List Any),
        WhereString L g none = some (clause, args, none) → placeholders clause = args.length := by
  have hp : plainFields backendsData := by
    intro e he
    simp only [backendsData, List.mem_cons, List.mem_singleton, List.not_mem_nil, or_false] at he
    rcases he with rfl | rfl
    · refine ⟨by decide, ?_⟩
      intro v hv sub hn
      simp only [List.mem_cons, List.mem_singleton, List.not_mem_nil, or_false] at hv
      rcases hv with rfl | rfl
      · cases hn
        decide
      · cases hn
    · refine ⟨by decide, ?_⟩
      intro v hv sub hn
      simp only [List.mem_cons, List.mem_singleton, List.not_mem_nil, or_false] at hv
      rcases hv with rfl | rfl <;> cases hn
  obtain ⟨L0⟩ := Lib_nonempty
  refine ⟨⟨hp, backends_example⟩,
    (C13_placeholders_match_args L0).1 _ _ _ hp (backends_example L0), fun L => ?_⟩
  exact ⟨_, parse_tags_color_red L,
    ((C13_placeholders_match_args L).2 _ _ (parse_tags_color_red L)).2⟩

/-! ### The loop of `splitSearchString` on the text still to scan -/

theorem splitLoop_unmatched (text : Str) (fuel start : Nat) (parts : List Str) (qi : Nat)
    (hq : Index (text.drop start) quote = some qi)
    (hs : ∀ si, Index (text.drop start) ' ' = some si → ¬ si < qi)
    (hn : Index (text.drop (start + qi + 1)) quote = none) :
    splitLoop text (fuel + 1) start parts = some parts := by
  cases hs' : Index (text.drop start) ' ' with
  | none => simp [splitLoop, hs', hq, hn]
  | some si => simp [splitLoop, hs', hq, hn, hs si hs']

/-- The loop depends on the text from `start` on only, and adds its tokens to
`parts`. -/
theorem splitLoop_shift :
    ∀ (fuel : Nat) (text : Str) (start : Nat) (parts : List Str),
      splitLoop text fuel start parts = (scan (text.drop start) fuel).map (parts ++ ·) := by
  intro fuel
  induction fuel with
  | zero => intro text start parts; rfl
  | succ fuel ih =>
    intro text start parts
    have h0 : (text.drop start).drop 0 = text.drop start := rfl
    unfold scan
    cases hs : Index (text.drop start) ' ' with
    | none =>
      cases hq : Index (text.drop start) quote with
      | none =>
        rw [splitLoop_end text fuel start parts hs hq,
          splitLoop_end (text.drop start) fuel 0 [] (by rw [h0]; exact hs) (by rw [h0]; exact hq)]
        simp
      | some qi =>
        cases hn : Index (text.drop (start + qi + 1)) quote with
        | none =>
          rw [splitLoop_unmatched text fuel start parts qi hq (by simp [hs]) hn,
            splitLoop_unmatched (text.drop start) fuel 0 [] qi (by rw [h0]; exact hq)
              (by simp [hs]) (by simpa [Nat.add_comm, Nat.add_assoc] using hn)]
          simp
        | some nq =>
          rw [splitLoop_quote text fuel start parts qi nq hq (by simp [hs]) hn,
            splitLoop_quote (text.drop start) fuel 0 [] qi nq (by rw [h0]; exact hq)
              (by simp [hs]) (by simpa [Nat.add_comm, Nat.add_assoc] using hn)]
          rw [ih text, ih (text.drop start) (0 + (qi + nq + 2))]
          unfold scan
          have e1 : (text.drop start).drop (0 + (qi + nq + 2)) =
              text.drop (start + (qi + nq + 2)) := by
            rw [List.drop_drop]; congr 1; omega
          have e2 : slice (text.drop start) 0 (0 + qi + nq + 2) =
              slice text start (start + qi + nq + 2) := by
            simp only [slice, List.drop_zero]
            congr 1; omega
          rw [e1, e2]
          cases splitLoop (text.drop (start + (qi + nq + 2))) fuel 0 [] with
          | none => rfl
          | some r => simp
    | some si =>
      have hsp : (∀ qi, Index (text.drop start) quote = some qi → si < qi) →
          splitLoop text (fuel + 1) start parts =
            Option.map (parts ++ ·) (splitLoop (text.drop start) (fuel + 1) 0 []) := by
        intro hlt
        rw [splitLoop_space text fuel start parts si hs hlt,
          splitLoop_space (text.drop start) fuel 0 [] si (by rw [h0]; exact hs)
            (by rw [h0]; exact hlt)]
        rw [ih text, ih (text.drop start) (0 + si + 1)]
        unfold scan
        have e1 : (text.drop start).drop (0 + si + 1) = text.drop (start + si + 1) := by
          rw [List.drop_drop]; congr 1; omega
        have e2 : slice (text.drop start) 0 (0 + si) = slice text start (start + si) := by
          simp only [slice, List.drop_zero]
          congr 1; omega
        rw [e1, e2]
        cases splitLoop (text.drop (start + si + 1)) fuel 0 [] with
        | none => rfl
        | some r => simp
      cases hq : Index (text.drop start) quote with
      | none => exact hsp (by simp [hq])
      | some qi =>
        by_cases hlt : si < qi
        · exact hsp (fun qi' h' => by rw [hq] at h'; cases h'; exact hlt)
        · have hs' : ∀ si', Index (text.drop start) ' ' = some si' → ¬ si' < qi := by
            intro si' h'; rw [hs] at h'; cases h'; exact hlt
          cases hn : Index (text.drop (start + qi + 1)) quote with
          | none =>
            rw [splitLoop_unmatched text fuel start parts qi hq hs' hn,
              splitLoop_unmatched (text.drop start) fuel 0 [] qi (by rw [h0]; exact hq)
                (by rw [h0]; exact hs') (by simpa [Nat.add_comm, Nat.add_assoc] using hn)]
            simp
          | some nq =>
            rw [splitLoop_quote text fuel start parts qi nq hq hs' hn,
              splitLoop_quote (text.drop start) fuel 0 [] qi nq (by rw [h0]; exact hq)
                (by rw [h0]; exact hs') (by simpa [Nat.add_comm, Nat.add_assoc] using hn)]
            rw [ih text, ih (text.drop start) (0 + (qi + nq + 2))]
            unfold scan
            have e1 : (text.drop start).drop (0 + (qi + nq + 2)) =
                text.drop (start + (qi + nq + 2)) := by
              rw [List.drop_drop]; congr 1; omega
            have e2 : slice (text.drop start) 0 (0 + qi + nq + 2) =
                slice text start (start + qi + nq + 2) := by
              simp only [slice, List.drop_zero]
              congr 1; omega
            rw [e1, e2]
            cases splitLoop (text.drop (start + (qi + nq + 2))) fuel 0 [] with
            | none => rfl
            | some r => simp

theorem Index_head (c : Char) (t : Str) : Index (c :: t) c = some 0 := by
  simp [Index]

theorem Index_first {a : Str} {x : Char} (b : Str) (h : x ∉ a) :
    Index (a ++ x :: b) x = some a.length := by
  rw [Index_append _ h, Index_head]
  simp

theorem Index_ge {a : Str} {x : Char} (b : Str) (h : x ∉ a) {i : Nat}
    (hi : Index (a ++ b) x = some i) : a.length ≤ i := by
  rw [Index_append _ h] at hi
  cases hb : Index b x with
  | none => rw [hb] at hi; cases hi
  | some j =>
    rw [hb] at hi
    simp only [Option.map_some', Option.some.injEq] at hi
    omega

theorem Index_cons_ne {c x : Char} (t : Str) (h : c ≠ x) {i : Nat}
    (hi : Index (c :: t) x = some i) : 0 < i := by
  simp only [Index, h, if_false] at hi
  cases ht : Index t x with
  | none => rw [ht] at hi; cases hi
  | some j =>
    rw [ht] at hi
    simp only [Option.map_some', Option.some.injEq] at hi
    omega

theorem scan_some (s : Str) (fuel : Nat) (h : s.length < fuel) : ∃ r, scan s fuel = some r :=
  splitLoop_some s fuel 0 [] (by omega) (by omega)

/-- The last pass: no space and no quote is left. -/
theorem scan_end (s : Str) (fuel : Nat) (hs : ' ' ∉ s) (hq : quote ∉ s) :
    scan s (fuel + 1) = some [TrimSpace s] := by
  have := splitLoop_end s fuel 0 [] (Index_not_mem hs) (Index_not_mem hq)
  simpa [scan] using this

/-- A pass that ends a token at a space. -/
theorem scan_space (a s' : Str) (fuel : Nat) (ha : ' ' ∉ a) (hq : quote ∉ a) :
    scan (a ++ ' ' :: s') (fuel + 1) = (scan s' fuel).map (TrimSpace a :: ·) := by
  have hs : Index ((a ++ ' ' :: s').drop 0) ' ' = some a.length := Index_first s' ha
  have hlt : ∀ qi, Index ((a ++ ' ' :: s').drop 0) quote = some qi → a.length < qi := by
    intro qi h
    rw [List.drop_zero, Index_append _ hq] at h
    cases hb : Index (' ' :: s') quote with
    | none => rw [hb] at h; cases h
    | some j =>
      have := Index_cons_ne s' (show ' ' ≠ quote by decide) hb
      rw [hb] at h
      simp only [Option.map_some', Option.some.injEq] at h
      omega
  rw [scan, splitLoop_space _ fuel 0 [] a.length hs hlt, splitLoop_shift]
  have e1 : (a ++ ' ' :: s').drop (0 + a.length + 1) = s' := by
    rw [show 0 + a.length + 1 = a.length + 1 by omega, ← List.drop_drop]
    simp
  have e2 : slice (a ++ ' ' :: s') 0 (0 + a.length) = a := by
    simp [slice]
  rw [e1, e2]
  cases scan s' fuel with
  | none => rfl
  | some r => simp

theorem quote_pass (a rest : Str) (ha : ' ' ∉ a) (haq : quote ∉ a) :
    Index ((a ++ quote :: rest).drop 0) quote = some a.length ∧
      ∀ si, Index ((a ++ quote :: rest).drop 0) ' ' = some si → ¬ si < a.length := by
  refine ⟨Index_first rest haq, ?_⟩
  intro si h
  have := Index_ge _ ha h
  omega

/-- A pass that ends a token at the closing quote of a quoted span. -/
theorem scan_quote (a q s' : Str) (fuel : Nat) (ha : ' ' ∉ a) (haq : quote ∉ a)
    (hq : quote ∉ q) :
    scan (a ++ quote :: (q ++ quote :: s')) (fuel + 1) =
      (scan s' fuel).map (TrimSpace (a ++ quote :: (q ++ [quote])) :: ·) := by
  obtain ⟨h1, h2⟩ := quote_pass a (q ++ quote :: s') ha haq
  have hn : Index ((a ++ quote :: (q ++ quote :: s')).drop (0 + a.length + 1)) quote =
      some q.length := by
    rw [show 0 + a.length + 1 = a.length + 1 by omega, ← List.drop_drop]
    simp only [List.drop_left, List.drop_succ_cons, List.drop_zero]
    exact Index_first s' hq
  rw [scan, splitLoop_quote _ fuel 0 [] a.length q.length h1 h2 hn, splitLoop_shift]
  have e1 : (a ++ quote :: (q ++ quote :: s')).drop (0 + (a.length + q.length + 2)) = s' := by
    have : a ++ quote :: (q ++ quote :: s') = (a ++ quote :: (q ++ [quote])) ++ s' := by simp
    rw [this, show 0 + (a.length + q.length + 2) = (a ++ quote :: (q ++ [quote])).length by
      simp; omega]
    simp
  have e2 : slice (a ++ quote :: (q ++ quote :: s')) 0 (0 + a.length + q.length + 2) =
      a ++ quote :: (q ++ [quote]) := by
    have : a ++ quote :: (q ++ quote :: s') = (a ++ quote :: (q ++ [quote])) ++ s' := by simp
    rw [this, show 0 + a.length + q.length + 2 = (a ++ quote :: (q ++ [quote])).length by
      simp; omega]
    unfold slice
    rw [List.drop_zero, Nat.sub_zero, List.take_left]
  rw [e1, e2]
  cases scan s' fuel with
  | none => rfl
  | some r => simp

/-- The pass at a quote without a closing quote: the loop stops with no new
token. -/
theorem scan_unmatched (a q : Str) (fuel : Nat) (ha : ' ' ∉ a) (haq : quote ∉ a)
    (hq : quote ∉ q) : scan (a ++ quote :: q) (fuel + 1) = some [] := by
  obtain ⟨h1, h2⟩ := quote_pass a q ha haq
  have hn : Index ((a ++ quote :: q).drop (0 + a.length + 1)) quote = none := by
    rw [show 0 + a.length + 1 = a.length + 1 by omega, ← List.drop_drop]
    simp only [List.drop_left, List.drop_succ_cons, List.drop_zero]
    exact Index_not_mem hq
  exact splitLoop_unmatched _ fuel 0 [] a.length h1 h2 hn

/-! ### `strings.TrimSpace` around a quote -/

theorem dropWhile_stop (p : Char → Bool) (x r : Str) (c : Char) (hc : p c = false) :
    (x ++ c :: r).dropWhile p = x.dropWhile p ++ c :: r := by
  induction x with
  | nil => simp [List.dropWhile, hc]
  | cons a x ih =>
    by_cases ha : p a = true
    · simp [List.dropWhile, ha, ih]
    · simp [List.dropWhile, ha]

theorem trimRight_stop (x r : Str) (c : Char) (hc : isSpace c = false) :
    trimRight (x ++ c :: r) = x ++ c :: trimRight r := by
  unfold trimRight
  rw [List.reverse_append, List.reverse_cons, List.append_assoc, List.singleton_append,
    dropWhile_stop isSpace _ _ c hc]
  simp

theorem trimRight_concat (x : Str) (c : Char) (hc : isSpace c = false) :
    trimRight (x ++ [c]) = x ++ [c] := by
  rw [trimRight_stop x [] c hc]
  rfl

theorem TrimSpace_stop (x r : Str) (c : Char) (hc : isSpace c = false) :
    TrimSpace (x ++ c :: r) = x.dropWhile isSpace ++ c :: trimRight r := by
  have e : TrimSpace (x ++ c :: r) = trimRight ((x ++ c :: r).dropWhile isSpace) := rfl
  rw [e, dropWhile_stop isSpace x r c hc, trimRight_stop _ _ c hc]

theorem dropWhile_self (p : Char → Bool) (w : Str) (h : ∀ c ∈ w.head?, p c = false) :
    w.dropWhile p = w := by
  cases w with
  | nil => rfl
  | cons a t => simp [List.dropWhile, h a (by simp)]

theorem not_mem_dropWhile {x : Char} {s : Str} (p : Char → Bool) (h : x ∉ s) :
    x ∉ s.dropWhile p :=
  fun hm => h ((List.dropWhile_sublist p).subset hm)

theorem not_mem_trimRight {x : Char} {s : Str} (h : x ∉ s) : x ∉ trimRight s := by
  intro hm
  unfold trimRight at hm
  rw [List.mem_reverse] at hm
  exact h (List.mem_reverse.1 ((List.dropWhile_sublist isSpace).subset hm))

theorem not_mem_TrimSpace {x : Char} {s : Str} (h : x ∉ s) : x ∉ TrimSpace s :=
  not_mem_trimRight (not_mem_dropWhile isSpace h)

theorem first_split (x : Char) (s : Str) (h : x ∈ s) : ∃ a b, s = a ++ x :: b ∧ x ∉ a := by
  induction s with
  | nil => simp at h
  | cons c t ih =>
    by_cases hc : c = x
    · exact ⟨[], t, by simp [hc], by simp⟩
    · have ht : x ∈ t := by
        rcases List.mem_cons.1 h with e | e
        · exact absurd e.symm hc
        · exact e
      obtain ⟨a, b, e, ha⟩ := ih ht
      refine ⟨c :: a, b, by simp [e], ?_⟩
      intro hm
      rcases List.mem_cons.1 hm with e' | e'
      · exact hc e'.symm
      · exact ha e'

/-! ### An unmatched quote -/

/-- The tokens before a token with an unmatched quote are those of the text
before it. -/
theorem scan_before_unmatched (w r : Str) (hw : ' ' ∉ w) (hwq : quote ∉ w) (hr : quote ∉ r) :
    ∀ (n : Nat) (a : Str), a.length ≤ n → quote ∉ a → ∀ fuel1 fuel2 : Nat,
      (a ++ ' ' :: (w ++ quote :: r)).length < fuel1 → a.length < fuel2 →
      scan (a ++ ' ' :: (w ++ quote :: r)) fuel1 = scan a fuel2 := by
  intro n
  induction n with
  | zero =>
    intro a hn _ fuel1 fuel2 h1 h2
    have ha : a = [] := List.length_eq_zero.1 (by omega)
    subst ha
    obtain ⟨f1, rfl⟩ : ∃ f, fuel1 = f + 1 := ⟨fuel1 - 1, by omega⟩
    obtain ⟨f2, rfl⟩ : ∃ f, fuel2 = f + 1 := ⟨fuel2 - 1, by omega⟩
    obtain ⟨f1', rfl⟩ : ∃ f, f1 = f + 1 := ⟨f1 - 1, by simp at h1; omega⟩
    rw [scan_space [] _ _ (by simp) (by simp), scan_unmatched w r f1' hw hwq hr,
      scan_end [] f2 (by simp) (by simp)]
    rfl
  | succ n ih =>
    intro a hn haq fuel1 fuel2 h1 h2
    obtain ⟨f1, rfl⟩ : ∃ f, fuel1 = f + 1 := ⟨fuel1 - 1, by omega⟩
    obtain ⟨f2, rfl⟩ : ∃ f, fuel2 = f + 1 := ⟨fuel2 - 1, by omega⟩
    by_cases hsp : ' ' ∈ a
    · obtain ⟨a1, a2, e, ha1⟩ := first_split ' ' a hsp
      subst e
      have ha1q : quote ∉ a1 := fun hm => haq (by simp [hm])
      have ha2q : quote ∉ a2 := fun hm => haq (by simp [hm])
      have e2 : a1 ++ ' ' :: a2 ++ ' ' :: (w ++ quote :: r) =
          a1 ++ ' ' :: (a2 ++ ' ' :: (w ++ quote :: r)) := by simp
      rw [e2, scan_space a1 _ f1 ha1 ha1q, scan_space a1 a2 f2 ha1 ha1q]
      rw [ih a2 (by simp at hn; omega) ha2q f1 f2 (by simp at h1 ⊢; omega)
        (by simp at h2; omega)]
    · obtain ⟨f1', rfl⟩ : ∃ f, f1 = f + 1 := ⟨f1 - 1, by simp at h1; omega⟩
      rw [scan_space a _ _ hsp haq, scan_unmatched w r f1' hw hwq hr, scan_end a f2 hsp haq]
      rfl

theorem splitSearchString_scan (text : Str) (h : TrimSpace text ≠ []) :
    splitSearchString text = scan (TrimSpace text) ((TrimSpace text).length + 1) := by
  simp [splitSearchString, h, scan]

/-- C15: for every text `a` without a single quote and without leading or
trailing white space (possibly empty), every `w` without white space and
without a single quote, and every `r` without a single quote,
`splitSearchString(a + " " + w + "'" + r)` returns exactly the tokens
`splitSearchString(a)` returns: the token with the unmatched quote and all
that follows it yield no token. -/
theorem C15_unmatched_quote (a w r : Str) (haq : quote ∉ a)
    (hhead : ∀ c ∈ a.head?, isSpace c = false) (hlast : ∀ c ∈ a.getLast?, isSpace c = false)
    (hw : ∀ c ∈ w, isSpace c = false ∧ c ≠ quote) (hr : quote ∉ r) :
    ∃ ts, splitSearchString a = some ts ∧
      splitSearchString (a ++ " ".toList ++ (w ++ [quote] ++ r)) = some ts := by
  have hwsp : ' ' ∉ w := fun hm => by have := (hw _ hm).1; revert this; decide
  have hwq : quote ∉ w := fun hm => (hw _ hm).2 rfl
  have hrq : quote ∉ trimRight r := not_mem_trimRight hr
  have hqs : isSpace quote = false := by decide
  by_cases ha : a = []
  · subst ha
    refine ⟨[], rfl, ?_⟩
    have e : ([] : Str) ++ " ".toList ++ (w ++ [quote] ++ r) = (' ' :: w) ++ quote :: r := by
      simp
    have ht : TrimSpace ((' ' :: w) ++ quote :: r) = w ++ quote :: trimRight r := by
      rw [TrimSpace_stop _ _ _ hqs]
      have : (' ' :: w).dropWhile isSpace = w.dropWhile isSpace := by
        simp [List.dropWhile, show isSpace ' ' = true by decide]
      rw [this, dropWhile_self isSpace w
        (fun c hc => (hw c (List.mem_of_mem_head? hc)).1)]
    rw [e, splitSearchString_scan _ (by rw [ht]; simp), ht]
    exact scan_unmatched w _ _ hwsp hwq hrq
  · have e : a ++ " ".toList ++ (w ++ [quote] ++ r) = (a ++ ' ' :: w) ++ quote :: r := by simp
    have ht : TrimSpace ((a ++ ' ' :: w) ++ quote :: r) =
        a ++ ' ' :: (w ++ quote :: trimRight r) := by
      rw [TrimSpace_stop _ _ _ hqs, dropWhile_self isSpace (a ++ ' ' :: w)
        (fun c hc => hhead c (by
          cases a with
          | nil => exact absurd rfl ha
          | cons x t => simpa using hc))]
      simp
    have hta : TrimSpace a = a := TrimSpace_eq hhead hlast
    obtain ⟨ts, hts⟩ := scan_some a (a.length + 1) (by omega)
    refine ⟨ts, ?_, ?_⟩
    · rw [splitSearchString_scan a (by rw [hta]; exact ha), hta]
      exact hts
    · rw [e, splitSearchString_scan _ (by rw [ht]; simp), ht,
        scan_before_unmatched w _ hwsp hwq hrq a.length a (Nat.le_refl _) haq _
          (a.length + 1) (by omega) (by omega)]
      exact hts

/-- C15 at `a = "x  y"` and the token `w'r s`, and at the empty `a`. -/
theorem C15_unmatched_quote_witness :
    (quote ∉ "x  y".toList ∧ (∀ c ∈ "x  y".toList.head?, isSpace c = false) ∧
      (∀ c ∈ "x  y".toList.getLast?, isSpace c = false) ∧
      (∀ c ∈ "w".toList, isSpace c = false ∧ c ≠ quote) ∧ quote ∉ "r s".toList) ∧
    splitSearchString "x  y".toList = some ["x".toList, [], "y".toList] ∧
    splitSearchString "x  y w'r s".toList = some ["x".toList, [], "y".toList] ∧
    splitSearchString " w'r s".toList = some [] := by
  have h1 : quote ∉ "x  y".toList := by decide
  have h2 : ∀ c ∈ "x  y".toList.head?, isSpace c = false := by decide
  have h3 : ∀ c ∈ "x  y".toList.getLast?, isSpace c = false := by decide
  have h4 : ∀ c ∈ "w".toList, isSpace c = false ∧ c ≠ quote := by decide
  have h5 : quote ∉ "r s".toList := by decide
  obtain ⟨ts, ha, hb⟩ := C15_unmatched_quote "x  y".toList "w".toList "r s".toList h1 h2 h3 h4 h5
  have hx : splitSearchString "x  y".toList = some ["x".toList, [], "y".toList] := by decide
  rw [hx] at ha
  cases ha
  obtain ⟨ts', ha', hb'⟩ := C15_unmatched_quote [] "w".toList "r s".toList (by decide)
    (by decide) (by decide) h4 h5
  have hx' : splitSearchString [] = some [] := rfl
  rw [hx'] at ha'
  cases ha'
  exact ⟨⟨h1, h2, h3, h4, h5⟩, hx, hb, hb'⟩

/-! ### Quoted spans -/

theorem count_dropWhile_isSpace (s : Str) :
    (s.dropWhile isSpace).count quote = s.count quote := by
  induction s with
  | nil => rfl
  | cons c t ih =>
    by_cases hc : isSpace c = true
    · have hne : c ≠ quote := fun e => by rw [e] at hc; revert hc; decide
      rw [List.dropWhile_cons_of_pos hc, ih, List.count_cons_of_ne hne.symm]
    · rw [List.dropWhile_cons_of_neg hc]

theorem count_not_mem {x : Char} {s : Str} (h : x ∉ s) : s.count x = 0 :=
  List.count_eq_zero.2 h

/-- A text holds no space and no quote, or it is cut at the first of them. -/
theorem first_stop (s : Str) :
    (' ' ∉ s ∧ quote ∉ s) ∨
      ∃ a c b, s = a ++ c :: b ∧ ' ' ∉ a ∧ quote ∉ a ∧ (c = ' ' ∨ c = quote) := by
  induction s with
  | nil => left; simp
  | cons x t ih =>
    by_cases hx : x = ' ' ∨ x = quote
    · right; exact ⟨[], x, t, rfl, by simp, by simp, hx⟩
    · have hx1 : ¬ x = ' ' := fun e => hx (Or.inl e)
      have hx2 : ¬ x = quote := fun e => hx (Or.inr e)
      rcases ih with ⟨h1, h2⟩ | ⟨a, c, b, e, h1, h2, hc⟩
      · left
        exact ⟨by simp [h1, Ne.symm hx1], by simp [h2, Ne.symm hx2]⟩
      · right
        exact ⟨x :: a, c, b, by simp [e], by simp [h1, Ne.symm hx1],
          by simp [h2, Ne.symm hx2], hc⟩

/-- The loop on a text whose quotes pair up to a quoted span: the span lies in
one token, after a quote-free text, and the tokens before it hold the quotes
before it. -/
theorem scan_span (q post : Str) (hq : quote ∉ q) :
    ∀ (n : Nat) (pre : Str), pre.length ≤ n → pre.count quote % 2 = 0 → ∀ fuel : Nat,
      (pre ++ quote :: (q ++ quote :: post)).length < fuel →
      ∃ ts1 a ts2, scan (pre ++ quote :: (q ++ quote :: post)) fuel =
          some (ts1 ++ [a ++ quote :: (q ++ [quote])] ++ ts2) ∧
        a <:+ pre ∧ quote ∉ a ∧ ts1.flatten.count quote = pre.count quote := by
  have hqs : isSpace quote = false := by decide
  have base : ∀ (pre : Str), ' ' ∉ pre → quote ∉ pre → ∀ fuel : Nat,
      (pre ++ quote :: (q ++ quote :: post)).length < fuel →
      ∃ ts1 a ts2, scan (pre ++ quote :: (q ++ quote :: post)) fuel =
          some (ts1 ++ [a ++ quote :: (q ++ [quote])] ++ ts2) ∧
        a <:+ pre ∧ quote ∉ a ∧ ts1.flatten.count quote = pre.count quote := by
    intro pre h1 h2 fuel hf
    obtain ⟨f, rfl⟩ : ∃ f, fuel = f + 1 := ⟨fuel - 1, by omega⟩
    obtain ⟨ts2, h2'⟩ := scan_some post f (by simp at hf; omega)
    refine ⟨[], pre.dropWhile isSpace, ts2, ?_, List.dropWhile_suffix _,
      not_mem_dropWhile _ h2, by simp [count_not_mem h2]⟩
    rw [scan_quote pre q post f h1 h2 hq, h2', TrimSpace_stop _ _ _ hqs,
      trimRight_concat q quote hqs]
    rfl
  intro n
  induction n with
  | zero =>
    intro pre hn _ fuel hf
    have hp : pre = [] := List.length_eq_zero.1 (by omega)
    subst hp
    exact base [] (by simp) (by simp) fuel hf
  | succ n ih =>
    intro pre hn hev fuel hf
    rcases first_stop pre with ⟨h1, h2⟩ | ⟨a0, c, b, e, h1, h2, hc⟩
    · exact base pre h1 h2 fuel hf
    · subst e
      obtain ⟨f, rfl⟩ : ∃ f, fuel = f + 1 := ⟨fuel - 1, by omega⟩
      have hca0 : a0.count quote = 0 := count_not_mem h2
      rcases hc with rfl | rfl
      · have hb : b.count quote % 2 = 0 := by
          rw [List.count_append, hca0, List.count_cons_of_ne (by decide)] at hev
          simpa using hev
        obtain ⟨ts1, a, ts2, hs, hsuf, haq, hcnt⟩ := ih b (by simp at hn; omega) hb f
          (by simp at hf ⊢; omega)
        refine ⟨TrimSpace a0 :: ts1, a, ts2, ?_, ?_, haq, ?_⟩
        · have e : a0 ++ ' ' :: b ++ quote :: (q ++ quote :: post) =
              a0 ++ ' ' :: (b ++ quote :: (q ++ quote :: post)) := by simp
          rw [e, scan_space a0 _ f h1 h2, hs]
          rfl
        · exact hsuf.trans ⟨a0 ++ [' '], by simp⟩
        · rw [List.flatten_cons, List.count_append, hcnt, count_not_mem (not_mem_TrimSpace h2),
            List.count_append, hca0, List.count_cons_of_ne (by decide)]
      · have hbodd : b.count quote % 2 = 1 := by
          rw [List.count_append, hca0, List.count_cons_self] at hev
          omega
        have hbm : quote ∈ b := by
          by_contra hnm
          rw [count_not_mem hnm] at hbodd
          omega
        obtain ⟨q0, b2, e, hq0⟩ := first_split quote b hbm
        subst e
        have hb2 : b2.count quote % 2 = 0 := by
          rw [List.count_append, count_not_mem hq0, List.count_cons_self] at hbodd
          omega
        obtain ⟨ts1, a, ts2, hs, hsuf, haq, hcnt⟩ := ih b2 (by simp at hn; omega) hb2 f
          (by simp at hf ⊢; omega)
        refine ⟨TrimSpace (a0 ++ quote :: (q0 ++ [quote])) :: ts1, a, ts2, ?_, ?_, haq, ?_⟩
        · have e : a0 ++ quote :: (q0 ++ quote :: b2) ++ quote :: (q ++ quote :: post) =
              a0 ++ quote :: (q0 ++ quote :: (b2 ++ quote :: (q ++ quote :: post))) := by simp
          rw [e, scan_quote a0 q0 _ f h1 h2 hq0, hs]
          rfl
        · exact hsuf.trans ⟨a0 ++ quote :: (q0 ++ [quote]), by simp⟩
        · rw [List.flatten_cons, List.count_append, hcnt, TrimSpace_stop _ _ _ hqs,
            trimRight_concat q0 quote hqs]
          simp only [List.count_append, List.count_cons_self, count_dropWhile_isSpace,
            hca0, count_not_mem hq0, List.count_nil]
          omega

/-- C14: for every text `pre + "'" + q + "'" + post` in which `q` holds no
single quote and the single quotes of `pre` pair up (their number is even), so
that `'q'` is a quoted span of the left-to-right pairing, `splitSearchString`
returns tokens `ts1 ++ [a + "'" + q + "'"] ++ ts2`: the span, with its two
quotes and the spaces inside it, lies in one token, after a quote-free end `a`
of `pre`, and the tokens before it hold exactly the quotes of `pre`.  The
quotes after the span need not be matched for this. -/
theorem C14_quoted_span_in_one_token (pre q post : Str) (hpre : pre.count quote % 2 = 0)
    (hq : quote ∉ q) :
    ∃ ts1 a ts2, splitSearchString (pre ++ [quote] ++ q ++ [quote] ++ post) =
        some (ts1 ++ [a ++ [quote] ++ q ++ [quote]] ++ ts2) ∧
      (∃ b, b ++ a = pre) ∧ quote ∉ a ∧ ts1.flatten.count quote = pre.count quote := by
  have hqs : isSpace quote = false := by decide
  have e : pre ++ [quote] ++ q ++ [quote] ++ post = pre ++ quote :: (q ++ quote :: post) := by
    simp
  have ht : TrimSpace (pre ++ quote :: (q ++ quote :: post)) =
      pre.dropWhile isSpace ++ quote :: (q ++ quote :: trimRight post) := by
    rw [TrimSpace_stop _ _ _ hqs, trimRight_stop _ _ _ hqs]
  obtain ⟨ts1, a, ts2, hs, hsuf, haq, hcnt⟩ := scan_span q (trimRight post) hq _
    (pre.dropWhile isSpace) (Nat.le_refl _) (by rw [count_dropWhile_isSpace]; exact hpre) _
    (Nat.lt_succ_self _)
  refine ⟨ts1, a, ts2, ?_, hsuf.trans (List.dropWhile_suffix _), haq, ?_⟩
  · rw [e, splitSearchString_scan _ (by rw [ht]; simp), ht, hs]
    simp
  · rw [hcnt, count_dropWhile_isSpace]

/-- C14 at `name:'John Doe' age:18`: the tokens are `name:'John Doe'`, an
empty token and `age:18`. -/
theorem C14_quoted_span_in_one_token_witness :
    ("name:".toList.count quote % 2 = 0 ∧ quote ∉ "John Doe".toList) ∧
    (∃ ts1 a ts2, splitSearchString "name:'John Doe' age:18".toList =
        some (ts1 ++ [a ++ [quote] ++ "John Doe".toList ++ [quote]] ++ ts2) ∧
      (∃ b, b ++ a = "name:".toList) ∧ quote ∉ a ∧
      ts1.flatten.count quote = "name:".toList.count quote) ∧
    splitSearchString "name:'John Doe' age:18".toList =
      some ["name:'John Doe'".toList, [], "age:18".toList] ∧
    (splitSearchString "name:'John Doe' age:18".toList).map (List.filter (fun t => t ≠ [])) =
      some ["name:'John Doe'".toList, "age:18".toList] := by
  have h1 : "name:".toList.count quote % 2 = 0 := by decide
  have h2 : quote ∉ "John Doe".toList := by decide
  have hx : splitSearchString "name:'John Doe' age:18".toList =
      some ["name:'John Doe'".toList, [], "age:18".toList] := by decide
  refine ⟨⟨h1, h2⟩,
    C14_quoted_span_in_one_token "name:".toList "John Doe".toList " age:18".toList h1 h2,
    hx, ?_⟩
  rw [hx]
  decide

/-! ### Quoted values and the order of the rules -/

/-- What `strPattern` returns on a text between two quote characters. -/
theorem strRe_find (q : Str) (a b : Char) (ha : isQuote a = true) (hb : isQuote b = true)
    (hq : ∀ c ∈ q, c ≠ newline) :
    FindStringSubmatch strRe (a :: (q ++ [b])) = [a :: (q ++ [b]), q] := by
  have hre : strRe = Re.seq Re.bot (Re.seq (Re.seq (Re.chr isQuote)
      (Re.seq (Re.group 1 (Re.chr isAnyNoNL).star) (Re.chr isQuote))) Re.eot) := rfl
  have hgroups : strRe.groups = 1 := by decide
  have hq' : ∀ c ∈ q, isAnyNoNL c = true := fun c hc => by simpa [isAnyNoNL] using hq c hc
  rw [hre] at hgroups ⊢
  refine find_unique ?_ ?_
  · refine ⟨([], [(1, q)]), mem_run_anchored.2 ⟨?_, rfl⟩⟩
    refine mem_run_seq.2 ⟨(q ++ [b], []), mem_run_chr.2 ⟨a, ha, rfl, rfl⟩, ?_⟩
    refine mem_run_seq.2 ⟨([b], [(1, q)]),
      run_group_of_matches (Matches.star_all q hq') _ 1 _ _, ?_⟩
    exact mem_run_chr.2 ⟨b, hb, rfl, rfl⟩
  · intro e he
    obtain ⟨he, hnil⟩ := mem_run_anchored.1 he
    obtain ⟨m1, h1, he⟩ := mem_run_seq.1 he
    obtain ⟨m2, h2, he⟩ := mem_run_seq.1 he
    obtain ⟨a', _, e1, c1⟩ := mem_run_chr.1 h1
    obtain ⟨w, e2, _, c2, _⟩ := run_group_plain (by decide) h2
    obtain ⟨b', _, e3, c3⟩ := mem_run_chr.1 he
    simp only at e1
    rw [hnil] at e3
    rw [e2, e3] at e1
    simp only [List.cons.injEq] at e1
    obtain ⟨h2, h3⟩ := List.append_inj' e1.2 rfl
    subst h2
    simp [submatches, hgroups, hnil, c3, c2, c1, List.range, List.range.loop, List.lookup]

/-- One value of `pattern2` written between two quote characters. -/
theorem itemRe_matches_quoted (cls : Char → Bool) (v : Str) (a b : Char)
    (ha : isQuote a = true) (hb : isQuote b = true) (hv : ∀ c ∈ v, cls c = true) :
    Matches (itemRe cls) (a :: (v ++ [b])) := by
  have hre : itemRe cls = Re.seq opsRe.opt (Re.seq (Re.chr isQuote).opt
      (Re.seq (Re.seq (Re.lit '$').opt (Re.chr cls).star) (Re.chr isQuote).opt)) := rfl
  rw [hre]
  have h := Matches.seq (Matches.opt_none opsRe)
    (Matches.seq (Matches.opt_some (Matches.chr (a := a) ha))
      (Matches.seq (Matches.seq (Matches.opt_none (Re.lit '$')) (Matches.star_all v hv))
        (Matches.opt_some (Matches.chr (a := b) hb))))
  simpa using h

/-- One value of `pattern2` that opens with a quote character. -/
theorem itemRe_matches_open (cls : Char → Bool) (v : Str) (a : Char)
    (ha : isQuote a = true) (hv : ∀ c ∈ v, cls c = true) :
    Matches (itemRe cls) (a :: v) := by
  have hre : itemRe cls = Re.seq opsRe.opt (Re.seq (Re.chr isQuote).opt
      (Re.seq (Re.seq (Re.lit '$').opt (Re.chr cls).star) (Re.chr isQuote).opt)) := rfl
  rw [hre]
  have h := Matches.seq (Matches.opt_none opsRe)
    (Matches.seq (Matches.opt_some (Matches.chr (a := a) ha))
      (Matches.seq (Matches.seq (Matches.opt_none (Re.lit '$')) (Matches.star_all v hv))
        (Matches.opt_none (Re.chr isQuote))))
  simpa using h

/-- One value of `pattern2` that closes with a quote character. -/
theorem itemRe_matches_close (cls : Char → Bool) (v : Str) (b : Char)
    (hb : isQuote b = true) (hv : ∀ c ∈ v, cls c = true) :
    Matches (itemRe cls) (v ++ [b]) := by
  have hre : itemRe cls = Re.seq opsRe.opt (Re.seq (Re.chr isQuote).opt
      (Re.seq (Re.seq (Re.lit '$').opt (Re.chr cls).star) (Re.chr isQuote).opt)) := rfl
  rw [hre]
  have h := Matches.seq (Matches.opt_none opsRe)
    (Matches.seq (Matches.opt_none (Re.chr isQuote))
      (Matches.seq (Matches.seq (Matches.opt_none (Re.lit '$')) (Matches.star_all v hv))
        (Matches.opt_some (Matches.chr (a := b) hb))))
  simpa using h

theorem valCls_rawCls (L : Lib) {c : Char} (h : valCls L c = true) : rawCls L c = true := by
  rcases (valCls_iff L c).1 h with h | h
  · exact (rawCls_iff L c).2 (Or.inl h)
  · exact (rawCls_iff L c).2 (Or.inr (Or.inr h))

theorem valCls_plain_char (L : Lib) {c : Char} (h : valCls L c = true) :
    c ≠ ',' ∧ c ≠ quote ∧ c ≠ newline := by
  rcases (valCls_iff L c).1 h with h | h
  · have := valAscii_range h
    refine ⟨?_, ?_, ?_⟩
    · rintro rfl; revert h; decide
    · rintro rfl; revert this; decide
    · rintro rfl; revert this; decide
  · have := L.isHan_ge c h
    refine ⟨?_, ?_, ?_⟩ <;> (rintro rfl; revert this; decide)

theorem quote_rawCls (L : Lib) : rawCls L quote = true :=
  (rawCls_iff L quote).2 (Or.inr (Or.inl (by decide)))

/-- The cascade on an operand no typed pattern matches: the raw-string
fallback. -/
theorem typeValue_raw (L : Lib) (raw v sym : Str) (err : Option GoError)
    (h1 : FindStringSubmatch strRe v = []) (h2 : FindStringSubmatch intRangeRe v = [])
    (h3 : FindStringSubmatch floatRangeRe v = []) (h4 : FindStringSubmatch timeRangeRe v = []) :
    typeValue L raw v ⟨sym, .nil, .nil⟩ err = .ok (⟨defaultEq sym, .str v, .nil⟩, err) := by
  simp [typeValue, h1, h2, h3, h4]

/-- `ParseSearchString2` on the two tokens of `key:'text'`: the loop body runs
once, on the whole text. -/
theorem ParseSearchString2_quoted (L : Lib) {k q : Str} (hk : isFieldName k = true)
    (hq : quote ∉ q) :
    ParseSearchString2 L (k ++ ':' :: quote :: (q ++ [quote])) =
      some (match parsePart L (k ++ ':' :: quote :: (q ++ [quote])) [] with
        | .error e => ([], e)
        | .ok search => (search, none)) := by
  have hne : k ++ ':' :: quote :: (q ++ [quote]) ≠ [] := by simp
  simp only [ParseSearchString2, splitSearchString_quoted hk hq, Option.map_some', parseParts,
    hne, if_false, if_true]

/-- A quoted value made of value characters is read by the value-list rule,
as one equal predicate. -/
theorem parse_quoted_word (L : Lib) (k q : Str) (hk : isFieldName k = true)
    (hv : ∀ c ∈ q, valCls L c = true) :
    ParseSearchString2 L (k ++ ':' :: quote :: (q ++ [quote])) =
      some ([(k, [⟨SearchSymbolEq, .str q, .nil⟩])], none) := by
  have hq : quote ∉ q := fun h => (valCls_plain_char L (hv _ h)).2.1 rfl
  have hcomma : ',' ∉ quote :: (q ++ [quote]) := by
    intro h
    simp only [List.mem_cons, List.mem_append, List.not_mem_nil, or_false] at h
    rcases h with h | h | h
    · revert h; decide
    · exact (valCls_plain_char L (hv _ h)).1 rfl
    · revert h; decide
  have hm : Matches (valuesRe L) (quote :: (q ++ [quote])) := by
    simpa using valuesRe_matches L _ [] (itemRe_matches_quoted (valCls L) q quote quote
      (by decide) (by decide) hv) (by simp)
  have hraw : ∀ c ∈ quote :: (q ++ [quote]), rawCls L c = true := by
    intro c h
    simp only [List.mem_cons, List.mem_append, List.not_mem_nil, or_false] at h
    rcases h with rfl | h | rfl
    · exact quote_rawCls L
    · exact valCls_rawCls L (hv c h)
    · exact quote_rawCls L
  have hstr := strRe_find q quote quote (by decide) (by decide)
    (fun c hc => (valCls_plain_char L (hv c hc)).2.2)
  have hval : parseRawValue L (quote :: (q ++ [quote])) none =
      .ok (⟨SearchSymbolEq, .str q, .nil⟩, none) := by
    have := parseRawValue_eq L [] (quote :: (q ++ [quote])) (by decide) hraw none
    simp only [List.nil_append] at this
    rw [this]
    have hd : defaultEq [] = SearchSymbolEq := by decide
    simp [typeValue, hstr, hd]
  rw [ParseSearchString2_quoted L hk hq, parsePart_values L k _ hk hm, Split_not_mem hcomma]
  simp [parseRawValues, hval, mapSet]

/-- A quoted value with a comma between value characters is read by the
value-list rule, which is tried first and splits it at the comma. -/
theorem parse_quoted_comma (L : Lib) :
    ParseSearchString2 L "name:'a,b'".toList =
      some ([("name".toList, [⟨SearchSymbolEq, .str "'a".toList, .nil⟩,
        ⟨SearchSymbolEq, .str "b'".toList, .nil⟩])], none) := by
  have hk : isFieldName "name".toList = true := by decide
  have hq : quote ∉ "a,b".toList := by decide
  have ha : ∀ c ∈ "a".toList, valCls L c = true :=
    fun c hc => valAscii_valCls L (by revert c; decide)
  have hb : ∀ c ∈ "b".toList, valCls2 c = true := by decide
  have hm : Matches (valuesRe L) "'a,b'".toList := by
    have := valuesRe_matches L "'a".toList ["b'".toList]
      (itemRe_matches_open (valCls L) "a".toList quote (by decide) ha)
      (fun y hy => by
        rw [List.mem_singleton] at hy
        subst hy
        exact itemRe_matches_close valCls2 "b".toList quote (by decide) hb)
    exact this
  have hs : Split "'a,b'".toList ',' = ["'a".toList, "b'".toList] := by decide
  have hd : defaultEq [] = SearchSymbolEq := by decide
  have h1 : parseRawValue L "'a".toList none =
      .ok (⟨SearchSymbolEq, .str "'a".toList, .nil⟩, none) := by
    have := parseRawValue_eq L [] "'a".toList (by decide)
      (fun c hc => by
        have : c = quote ∨ c = 'a' := by simpa using hc
        rcases this with rfl | rfl
        · exact quote_rawCls L
        · exact valAscii_rawCls L (by decide)) none
    simp only [List.nil_append] at this
    rw [this, typeValue_raw L _ _ _ none (by decide) (by decide) (by decide) (by decide), hd]
  have h2 : parseRawValue L "b'".toList none =
      .ok (⟨SearchSymbolEq, .str "b'".toList, .nil⟩, none) := by
    have := parseRawValue_eq L [] "b'".toList (by decide)
      (fun c hc => by
        have : c = 'b' ∨ c = quote := by simpa using hc
        rcases this with rfl | rfl
        · exact valAscii_rawCls L (by decide)
        · exact quote_rawCls L) none
    simp only [List.nil_append] at this
    rw [this, typeValue_raw L _ _ _ none (by decide) (by decide) (by decide) (by decide), hd]
  have e : "name:'a,b'".toList = "name".toList ++ ':' :: quote :: ("a,b".toList ++ [quote]) := by
    decide
  have e' : quote :: ("a,b".toList ++ [quote]) = "'a,b'".toList := by decide
  rw [e, ParseSearchString2_quoted L hk hq, e', parsePart_values L _ _ hk hm, hs]
  simp only [parseRawValues, h1, h2]
  rfl

/-- A quoted value with a character the value-list rule does not admit is
read by the quoted rule, as one equal predicate. -/
theorem parse_quoted_other (L : Lib) (k q : Str) (c : Char) (hk : isFieldName k = true)
    (hq : quote ∉ q) (hnl : newline ∉ q) (hc : c ∈ q) (hcv : noValueChar c = true) :
    ParseSearchString2 L (k ++ ':' :: quote :: (q ++ [quote])) =
      some ([(k, [⟨SearchSymbolEq, .str q, .nil⟩])], none) := by
  simp only [noValueChar, Bool.and_eq_true, decide_eq_true_eq, Bool.not_eq_true'] at hcv
  have h2 : FindStringSubmatch (re2 L) (k ++ ':' :: quote :: (q ++ [quote])) = [] :=
    re2_no_match L (c := c) (by simp [hc]) hcv.1 hcv.2
  have h1 : MatchString (re1 L) (k ++ ':' :: quote :: (q ++ [quote])) = false :=
    re1_no_colon L (by simp)
  have h4 := re4_find k q quote quote hk (by decide) (by decide)
    (fun c hc e => hnl (e ▸ hc))
  rw [ParseSearchString2_quoted L hk hq]
  simp [parsePart, h2, h1, h4, mapSet]

/-- C20, as amended: the value-list rule is tried first, then the bare key,
then the quoted value.  For every field name `k`: a quoted interior `q` made of
value characters only (letters, digits, Han, `_ . - : + *`) yields a single
equal predicate with value `q`, by the value-list rule; an interior without
quote and line break that holds a character the value-list rule does not admit
yields a single equal predicate with value `q`, by the quoted rule; and
`name:'a,b'`, whose comma stands between value characters, is split by the
value-list rule into two equal predicates with values `'a` and `b'`. -/
theorem C20_quoted_value_rules (L : Lib) (k q : Str) (hk : isFieldName k = true) :
    ((∀ c ∈ q, valCls L c = true) →
      ParseSearchString2 L (k ++ ":".toList ++ [quote] ++ q ++ [quote]) =
        some ([(k, [⟨SearchSymbolEq, .str q, .nil⟩])], none)) ∧
    (quote ∉ q → newline ∉ q → (∃ c ∈ q, noValueChar c = true) →
      ParseSearchString2 L (k ++ ":".toList ++ [quote] ++ q ++ [quote]) =
        some ([(k, [⟨SearchSymbolEq, .str q, .nil⟩])], none)) ∧
    ParseSearchString2 L "name:'a,b'".toList =
      some ([("name".toList, [⟨SearchSymbolEq, .str "'a".toList, .nil⟩,
        ⟨SearchSymbolEq, .str "b'".toList, .nil⟩])], none) := by
  have e : k ++ ":".toList ++ [quote] ++ q ++ [quote] = k ++ ':' :: quote :: (q ++ [quote]) := by
    simp
  rw [e]
  refine ⟨fun hv => parse_quoted_word L k q hk hv, ?_, parse_quoted_comma L⟩
  rintro hq hnl ⟨c, hc, hcv⟩
  exact parse_quoted_other L k q c hk hq hnl hc hcv

/-- C20, as amended, at `name:'John'` and `name:'a/b,c'`. -/
theorem C20_quoted_value_rules_witness :
    (isFieldName "name".toList = true ∧ (∀ L : Lib, ∀ c ∈ "John".toList, valCls L c = true) ∧
      quote ∉ "a/b,c".toList ∧ newline ∉ "a/b,c".toList ∧
      ∃ c ∈ "a/b,c".toList, noValueChar c = true) ∧
    ∀ L : Lib,
      ParseSearchString2 L "name:'John'".toList =
        some ([("name".toList, [⟨SearchSymbolEq, .str "John".toList, .nil⟩])], none) ∧
      ParseSearchString2 L "name:'a/b,c'".toList =
        some ([("name".toList, [⟨SearchSymbolEq, .str "a/b,c".toList, .nil⟩])], none) := by
  have hk : isFieldName "name".toList = true := by decide
  have hv : ∀ L : Lib, ∀ c ∈ "John".toList, valCls L c = true :=
    fun L c hc => valAscii_valCls L (by revert c; decide)
  have h1 : quote ∉ "a/b,c".toList := by decide
  have h2 : newline ∉ "a/b,c".toList := by decide
  have h3 : ∃ c ∈ "a/b,c".toList, noValueChar c = true := ⟨'/', by decide, by decide⟩
  refine ⟨⟨hk, hv, h1, h2, h3⟩, fun L => ⟨?_, ?_⟩⟩
  · exact (C20_quoted_value_rules L "name".toList "John".toList hk).1 (hv L)
  · exact (C20_quoted_value_rules L "name".toList "a/b,c".toList hk).2.1 h1 h2 h3

/-- C20 as stated fails: `name:'a,b'` does not yield a single equal predicate
with value `a,b`. -/
theorem C20_counterexample :
    ¬ ∃ (L : Lib) (m : SearchData),
      ParseSearchString2 L "name:'a,b'".toList = some (m, none) ∧
      mapGet m "name".toList = some [⟨SearchSymbolEq, .str "a,b".toList, .nil⟩] := by
  rintro ⟨L, m, hp, hm⟩
  rw [parse_quoted_comma L] at hp
  cases hp
  have := congrArg (Option.map List.length) hm
  revert this
  decide

/-! ### Decimal rendering of integers -/

theorem digitChar_value (m : Nat) (h : m < 10) : (Nat.digitChar m).toNat - 48 = m := by
  interval_cases m <;> rfl

theorem digitChar_isDigit (m : Nat) (h : m < 10) : isDigit (Nat.digitChar m) = true := by
  interval_cases m <;> rfl

theorem toDigitsCore_value :
    ∀ (fuel n : Nat) (ds : Str), n < fuel →
      (Nat.toDigitsCore 10 fuel n ds).foldl (fun n c => n * 10 + (c.toNat - 48)) 0 =
        ds.foldl (fun n c => n * 10 + (c.toNat - 48)) n := by
  intro fuel
  induction fuel with
  | zero => intro n ds h; omega
  | succ fuel ih =>
    intro n ds h
    have hd := digitChar_value (n % 10) (Nat.mod_lt _ (by decide))
    by_cases h0 : n / 10 = 0
    · have hn : n % 10 = n := Nat.mod_eq_of_lt (by omega)
      rw [hn] at hd
      simp only [Nat.toDigitsCore, h0, if_true, List.foldl_cons, Nat.zero_mul, Nat.zero_add, hn,
        hd]
    · simp only [Nat.toDigitsCore, h0, if_false]
      rw [ih (n / 10) _ (by omega), List.foldl_cons, hd]
      congr 1
      omega

theorem toDigitsCore_digits :
    ∀ (fuel n : Nat) (ds : Str), (∀ c ∈ ds, isDigit c = true) →
      ∀ c ∈ Nat.toDigitsCore 10 fuel n ds, isDigit c = true := by
  intro fuel
  induction fuel with
  | zero => intro n ds h; exact h
  | succ fuel ih =>
    intro n ds h
    have hd := digitChar_isDigit (n % 10) (Nat.mod_lt _ (by decide))
    have hds : ∀ c ∈ Nat.digitChar (n % 10) :: ds, isDigit c = true := by
      intro c hc
      rcases List.mem_cons.1 hc with rfl | hc
      · exact hd
      · exact h c hc
    by_cases h0 : n / 10 = 0
    · simp only [Nat.toDigitsCore, h0, if_true]
      exact hds
    · simp only [Nat.toDigitsCore, h0, if_false]
      exact ih _ _ hds

theorem toDigitsCore_ne_nil :
    ∀ (fuel n : Nat) (ds : Str), ds ≠ [] → Nat.toDigitsCore 10 fuel n ds ≠ [] := by
  intro fuel
  induction fuel with
  | zero => intro n ds h; exact h
  | succ fuel ih =>
    intro n ds h
    by_cases h0 : n / 10 = 0
    · simp [Nat.toDigitsCore, h0]
    · simp only [Nat.toDigitsCore, h0, if_false]
      exact ih _ _ (by simp)

/-- The decimal text of a natural number is a run of digits. -/
theorem toDigits_isDigits (x : Nat) : isDigits (Nat.toDigits 10 x) = true := by
  refine isDigits_iff.2 ⟨?_, toDigitsCore_digits _ _ [] (by simp)⟩
  unfold Nat.toDigits
  by_cases h0 : x / 10 = 0
  · simp [Nat.toDigitsCore, h0]
  · simp only [Nat.toDigitsCore, h0, if_false]
    exact toDigitsCore_ne_nil _ _ _ (by simp)

/-- The decimal text of a natural number denotes it. -/
theorem decimal_toDigits (x : Nat) : decimal (Nat.toDigits 10 x) = x := by
  unfold decimal Nat.toDigits
  rw [toDigitsCore_value (x + 1) x [] (by omega)]
  rfl

theorem formatInt_nat (x : Nat) : formatInt (x : Int) = Nat.toDigits 10 x := by
  have : ¬ ((x : Int) < 0) := by omega
  simp [formatInt, this]

/-! ### `String` on a map with one predicate -/

theorem String_single (L : Lib) (k : Str) (v : SearchValue)
    (hv : v.Symbol ≠ SearchSymbolSearch) :
    SearchData.String L [(k, [v])] = k ++ ":".toList ++ SearchValue.String L v := by
  simp [SearchData.String, stringEntry, stringVal, hv, Join]

theorem symbolText_op {op : Str} (hop : op ∈ opPrefixes) :
    symbolText (defaultEq op) = op ∧ defaultEq op ≠ SearchSymbolRange ∧
      defaultEq op ≠ SearchSymbolSearch := by
  simp only [opPrefixes, List.mem_cons, List.mem_singleton, List.not_mem_nil, or_false] at hop
  rcases hop with rfl | rfl | rfl | rfl | rfl | rfl <;> decide

/-- The rendering of a map with one integer predicate. -/
theorem String_int (L : Lib) (k op : Str) (hop : op ∈ opPrefixes) (x : Nat) :
    SearchData.String L [(k, [⟨defaultEq op, .int64 (x : Int), .nil⟩])] =
      k ++ ':' :: (op ++ Nat.toDigits 10 x) := by
  obtain ⟨h1, h2, h3⟩ := symbolText_op hop
  rw [String_single L k _ h3]
  simp [SearchValue.String, h2, h1, Sprint, formatInt_nat]

/-- The rendering of a map with one string predicate. -/
theorem String_str (L : Lib) (k op : Str) (hop : op ∈ opPrefixes) (q : Str) :
    SearchData.String L [(k, [⟨defaultEq op, .str q, .nil⟩])] =
      k ++ ':' :: (op ++ quote :: (q ++ [quote])) := by
  obtain ⟨h1, h2, h3⟩ := symbolText_op hop
  rw [String_single L k _ h3]
  simp [SearchValue.String, h2, h1]

/-! ### Tokens that end in a quoted span -/

/-- The tokens of `a'text'` for a text `a` without white space and quotes: the
whole text, then an empty one. -/
theorem splitSearchString_span (a q : Str) (ha : ∀ c ∈ a, isSpace c = false ∧ c ≠ quote)
    (hq : quote ∉ q) :
    splitSearchString (a ++ quote :: (q ++ [quote])) =
      some [a ++ quote :: (q ++ [quote]), []] := by
  have hqs : isSpace quote = false := by decide
  have hasp : ' ' ∉ a := fun hm => by have := (ha _ hm).1; revert this; decide
  have haq : quote ∉ a := fun hm => (ha _ hm).2 rfl
  have ht : TrimSpace (a ++ quote :: (q ++ [quote])) = a ++ quote :: (q ++ [quote]) := by
    rw [TrimSpace_stop _ _ _ hqs, trimRight_concat q quote hqs,
      dropWhile_self isSpace a (fun c hc => (ha c (List.mem_of_mem_head? hc)).1)]
  rw [splitSearchString_scan _ (by rw [ht]; simp), ht]
  have e : a ++ quote :: (q ++ [quote]) = a ++ quote :: (q ++ quote :: []) := rfl
  have hlen : (a ++ quote :: (q ++ [quote])).length + 1 =
      ((a ++ quote :: (q ++ [quote])).length - 1 + 1) + 1 := by
    have : 0 < (a ++ quote :: (q ++ [quote])).length := by simp
    omega
  rw [hlen]
  conv => lhs; rw [e]
  rw [scan_quote a q [] _ hasp haq hq, scan_end [] _ (by simp) (by simp), ht]
  rfl

/-- `ParseSearchString2` on the two tokens of `a'text'`: the loop body runs
once, on the whole text. -/
theorem ParseSearchString2_span (L : Lib) (a q : Str)
    (ha : ∀ c ∈ a, isSpace c = false ∧ c ≠ quote) (hq : quote ∉ q) :
    ParseSearchString2 L (a ++ quote :: (q ++ [quote])) =
      some (match parsePart L (a ++ quote :: (q ++ [quote])) [] with
        | .error e => ([], e)
        | .ok search => (search, none)) := by
  have hne : a ++ quote :: (q ++ [quote]) ≠ [] := by simp
  simp only [ParseSearchString2, splitSearchString_span a q ha hq, Option.map_some', parseParts,
    hne, if_false, if_true]

/-- One value of `pattern2`: an operator prefix, then a text between two quote
characters. -/
theorem itemRe_matches_op_quoted (cls : Char → Bool) (op v : Str) (a b : Char)
    (hop : op ∈ opPrefixes) (ha : isQuote a = true) (hb : isQuote b = true)
    (hv : ∀ c ∈ v, cls c = true) : Matches (itemRe cls) (op ++ a :: (v ++ [b])) := by
  have hre : itemRe cls = Re.seq opsRe.opt (Re.seq (Re.chr isQuote).opt
      (Re.seq (Re.seq (Re.lit '$').opt (Re.chr cls).star) (Re.chr isQuote).opt)) := rfl
  rw [hre]
  have hop' : Matches opsRe.opt op := by
    by_cases hne : op = []
    · subst hne; exact Matches.opt_none _
    · exact Matches.opt_some (opsRe_matches hop hne)
  have h := Matches.seq hop'
    (Matches.seq (Matches.opt_some (Matches.chr (a := a) ha))
      (Matches.seq (Matches.seq (Matches.opt_none (Re.lit '$')) (Matches.star_all v hv))
        (Matches.opt_some (Matches.chr (a := b) hb))))
  simpa using h

/-- A quoted value made of value characters, after an operator prefix: one
predicate with the operator of the prefix and the interior as string value. -/
theorem parse_op_quoted_word (L : Lib) (k op q : Str) (hk : isFieldName k = true)
    (hop : op ∈ opPrefixes) (hv : ∀ c ∈ q, valCls L c = true) :
    ParseSearchString2 L (k ++ ':' :: (op ++ quote :: (q ++ [quote]))) =
      some ([(k, [⟨defaultEq op, .str q, .nil⟩])], none) := by
  have hq : quote ∉ q := fun h => (valCls_plain_char L (hv _ h)).2.1 rfl
  have hcomma : ',' ∉ op ++ quote :: (q ++ [quote]) := by
    intro h
    simp only [List.mem_cons, List.mem_append, List.not_mem_nil, or_false] at h
    rcases h with h | h | h | h
    · have := opPrefixes_opChar hop _ h; revert this; decide
    · revert h; decide
    · exact (valCls_plain_char L (hv _ h)).1 rfl
    · revert h; decide
  have hm : Matches (valuesRe L) (op ++ quote :: (q ++ [quote])) := by
    simpa using valuesRe_matches L _ [] (itemRe_matches_op_quoted (valCls L) op q quote quote
      hop (by decide) (by decide) hv) (by simp)
  have hraw : ∀ c ∈ quote :: (q ++ [quote]), rawCls L c = true := by
    intro c h
    simp only [List.mem_cons, List.mem_append, List.not_mem_nil, or_false] at h
    rcases h with rfl | h | rfl
    · exact quote_rawCls L
    · exact valCls_rawCls L (hv c h)
    · exact quote_rawCls L
  have hstr := strRe_find q quote quote (by decide) (by decide)
    (fun c hc => (valCls_plain_char L (hv c hc)).2.2)
  have hval : parseRawValue L (op ++ quote :: (q ++ [quote])) none =
      .ok (⟨defaultEq op, .str q, .nil⟩, none) := by
    rw [parseRawValue_eq L op (quote :: (q ++ [quote])) hop hraw none]
    simp [typeValue, hstr]
  have ha : ∀ c ∈ k ++ ':' :: op, isSpace c = false ∧ c ≠ quote := by
    intro c hc
    simp only [List.mem_append, List.mem_cons] at hc
    rcases hc with hc | rfl | hc
    · exact isFieldName_token hk c hc
    · decide
    · exact isOpChar_token (opPrefixes_opChar hop c hc)
  have e : k ++ ':' :: (op ++ quote :: (q ++ [quote])) =
      (k ++ ':' :: op) ++ quote :: (q ++ [quote]) := by simp
  rw [e, ParseSearchString2_span L _ q ha hq, ← e, parsePart_values L k _ hk hm,
    Split_not_mem hcomma]
  simp [parseRawValues, hval, mapSet]

/-- A word of letters after an operator prefix: one predicate with the
operator of the prefix and the word as string value. -/
theorem parse_op_word (L : Lib) (k op w : Str) (hk : isFieldName k = true)
    (hop : op ∈ opPrefixes) (hw : ∀ c ∈ w, isLetter c = true) :
    ParseSearchString2 L (k ++ ':' :: (op ++ w)) =
      some ([(k, [⟨defaultEq op, .str w, .nil⟩])], none) := by
  have hcomma : ',' ∉ w := fun h => by
    have := hw _ h; revert this; decide
  rw [ParseSearchString2_single L k op w hk hop (fun c hc => isLetter_valAscii (hw c hc)) hcomma,
    typeValue_word L _ w op hw none]

/-! ### Rendering and reading again -/

theorem roundTrips_int (L : Lib) (k op : Str) (x : Nat) (hk : isFieldName k = true)
    (hop : op ∈ opPrefixes) (hx : x < 2 ^ 63) :
    roundTrips L [(k, [⟨defaultEq op, .int64 (x : Int), .nil⟩])] := by
  unfold roundTrips
  rw [String_int L k op hop x, ParseSearchString2_op_int L k op _ hk hop (toDigits_isDigits x)
    (by rw [decimal_toDigits]; exact hx), decimal_toDigits]

theorem roundTrips_word (L : Lib) (k op q : Str) (hk : isFieldName k = true)
    (hop : op ∈ opPrefixes) (hv : ∀ c ∈ q, valCls L c = true) :
    roundTrips L [(k, [⟨defaultEq op, .str q, .nil⟩])] := by
  unfold roundTrips
  rw [String_str L k op hop q, parse_op_quoted_word L k op q hk hop hv]

theorem roundTrips_other (L : Lib) (k q : Str) (c : Char) (hk : isFieldName k = true)
    (hq : quote ∉ q) (hnl : newline ∉ q) (hc : c ∈ q) (hcv : noValueChar c = true) :
    roundTrips L [(k, [⟨SearchSymbolEq, .str q, .nil⟩])] := by
  unfold roundTrips
  have h := String_str L k [] (by decide) q
  have hd : defaultEq [] = SearchSymbolEq := by decide
  rw [hd] at h
  rw [h]
  exact parse_quoted_other L k q c hk hq hnl hc hcv

/-- A two-sided integer range is read as one range predicate. -/
theorem parse_int_range (L : Lib) (k a b : Str) (hk : isFieldName k = true)
    (ha : isDigits a = true) (hb : isDigits b = true)
    (ha' : decimal a < 2 ^ 63) (hb' : decimal b < 2 ^ 63) :
    ParseSearchString2 L (k ++ ':' :: (a ++ '.' :: '.' :: b)) =
      some ([(k, [⟨SearchSymbolRange, .int64 (decimal a), .int64 (decimal b)⟩])], none) := by
  have hv : ∀ c ∈ a ++ '.' :: '.' :: b, valAscii c = true := by
    intro c hc
    simp only [List.mem_append, List.mem_cons] at hc
    rcases hc with hc | rfl | rfl | hc
    · exact isDigits_valAscii ha c hc
    · decide
    · decide
    · exact isDigits_valAscii hb c hc
  have hcomma : ',' ∉ a ++ '.' :: '.' :: b := by
    intro hc
    simp only [List.mem_append, List.mem_cons] at hc
    rcases hc with hc | hc | hc | hc
    · exact isDigits_no_comma ha hc
    · revert hc; decide
    · revert hc; decide
    · exact isDigits_no_comma hb hc
  have h := ParseSearchString2_single L k [] _ hk (by decide) hv hcomma
  simp only [List.nil_append] at h
  rw [h]
  have ht := typeValue_int_range L (a ++ '.' :: '.' :: b) a b (isDigits_intEnd ha)
    (isDigits_intEnd hb) (fun _ => ha') (fun _ => hb')
  have hnone : SearchSymbolNone = ([] : Str) := rfl
  rw [hnone] at ht
  rw [ht, intEndValue_digits ha, intEndValue_digits hb]

/-- The range of `age:18..30` is rendered `age:18:30`, which is read as the
string `18:30`. -/
theorem range_rendering (L : Lib) :
    ParseSearchString2 L "age:18..30".toList =
      some ([("age".toList, [⟨SearchSymbolRange, .int64 18, .int64 30⟩])], none) ∧
    SearchData.String L [("age".toList, [⟨SearchSymbolRange, .int64 18, .int64 30⟩])] =
      "age:18:30".toList ∧
    ParseSearchString2 L "age:18:30".toList =
      some ([("age".toList, [⟨SearchSymbolEq, .str "18:30".toList, .nil⟩])], none) := by
  refine ⟨?_, rfl, ?_⟩
  · exact parse_int_range L "age".toList "18".toList "30".toList (by decide) (by decide)
      (by decide) (by decide) (by decide)
  · exact ParseSearchString2_raw L "age".toList "18:30".toList (by decide) (by decide)
      (by decide) (by decide) (by decide) (by decide) (by decide)

/-- C17, as amended: for every field name `k` and operator prefix `op` (none,
`!=`, `>`, `>=`, `<`, `<=`), the single-value tokens `k:op n` for a decimal
literal `n` fitting a signed 64-bit integer, `k:op w` for a word of letters and
`k:op'q'` for a quoted text of value characters, and the token `k:'q'` for a
quoted text without quote and line break that the quoted rule reads, are
accepted by `ParseSearchString2`, and reading the `String()` rendering of the
resulting mapping returns the same mapping: same key, same operator, same
typed value. -/
theorem C17_round_trip (L : Lib) (k op : Str) (hk : isFieldName k = true)
    (hop : op ∈ opPrefixes) :
    (∀ n : Str, isDigits n = true → decimal n < 2 ^ 63 →
      ParseSearchString2 L (k ++ ":".toList ++ op ++ n) =
        some ([(k, [⟨defaultEq op, .int64 (decimal n), .nil⟩])], none) ∧
      roundTrips L [(k, [⟨defaultEq op, .int64 (decimal n), .nil⟩])]) ∧
    (∀ w : Str, (∀ c ∈ w, isLetter c = true) →
      ParseSearchString2 L (k ++ ":".toList ++ op ++ w) =
        some ([(k, [⟨defaultEq op, .str w, .nil⟩])], none) ∧
      roundTrips L [(k, [⟨defaultEq op, .str w, .nil⟩])]) ∧
    (∀ q : Str, (∀ c ∈ q, valCls L c = true) →
      ParseSearchString2 L (k ++ ":".toList ++ op ++ [quote] ++ q ++ [quote]) =
        some ([(k, [⟨defaultEq op, .str q, .nil⟩])], none) ∧
      roundTrips L [(k, [⟨defaultEq op, .str q, .nil⟩])]) ∧
    (∀ q : Str, quote ∉ q → newline ∉ q → (∃ c ∈ q, noValueChar c = true) →
      ParseSearchString2 L (k ++ ":".toList ++ [quote] ++ q ++ [quote]) =
        some ([(k, [⟨SearchSymbolEq, .str q, .nil⟩])], none) ∧
      roundTrips L [(k, [⟨SearchSymbolEq, .str q, .nil⟩])]) := by
  refine ⟨?_, ?_, ?_, ?_⟩
  · intro n hn hb
    have e : k ++ ":".toList ++ op ++ n = k ++ ':' :: (op ++ n) := by simp
    rw [e]
    exact ⟨ParseSearchString2_op_int L k op n hk hop hn hb,
      roundTrips_int L k op (decimal n) hk hop hb⟩
  · intro w hw
    have e : k ++ ":".toList ++ op ++ w = k ++ ':' :: (op ++ w) := by simp
    rw [e]
    exact ⟨parse_op_word L k op w hk hop hw,
      roundTrips_word L k op w hk hop
        (fun c hc => valAscii_valCls L (isLetter_valAscii (hw c hc)))⟩
  · intro q hv
    have e : k ++ ":".toList ++ op ++ [quote] ++ q ++ [quote] =
        k ++ ':' :: (op ++ quote :: (q ++ [quote])) := by simp
    rw [e]
    exact ⟨parse_op_quoted_word L k op q hk hop hv, roundTrips_word L k op q hk hop hv⟩
  · rintro q hq hnl ⟨c, hc, hcv⟩
    have e : k ++ ":".toList ++ [quote] ++ q ++ [quote] =
        k ++ ':' :: quote :: (q ++ [quote]) := by simp
    rw [e]
    exact ⟨parse_quoted_other L k q c hk hq hnl hc hcv,
      roundTrips_other L k q c hk hq hnl hc hcv⟩

/-- C17, as amended, at `age:>=007`, whose rendering is `age:>=7`, and at
`name:!=John`, whose rendering is `name:!='John'`. -/
theorem C17_round_trip_witness :
    (isFieldName "age".toList = true ∧ ">=".toList ∈ opPrefixes ∧
      isDigits "007".toList = true ∧ isFieldName "name".toList = true ∧
      "!=".toList ∈ opPrefixes ∧ ∀ c ∈ "John".toList, isLetter c = true) ∧
    ∀ L : Lib,
      (ParseSearchString2 L "age:>=007".toList =
          some ([("age".toList, [⟨SearchSymbolGte, .int64 7, .nil⟩])], none) ∧
        SearchData.String L [("age".toList, [⟨SearchSymbolGte, .int64 7, .nil⟩])] =
          "age:>=7".toList ∧
        roundTrips L [("age".toList, [⟨SearchSymbolGte, .int64 7, .nil⟩])]) ∧
      (ParseSearchString2 L "name:!=John".toList =
          some ([("name".toList, [⟨SearchSymbolNot, .str "John".toList, .nil⟩])], none) ∧
        SearchData.String L [("name".toList, [⟨SearchSymbolNot, .str "John".toList, .nil⟩])] =
          "name:!='John'".toList ∧
        roundTrips L [("name".toList, [⟨SearchSymbolNot, .str "John".toList, .nil⟩])]) := by
  have h1 : isFieldName "age".toList = true := by decide
  have h2 : ">=".toList ∈ opPrefixes := by decide
  have h3 : isDigits "007".toList = true := by decide
  have h4 : isFieldName "name".toList = true := by decide
  have h5 : "!=".toList ∈ opPrefixes := by decide
  have h6 : ∀ c ∈ "John".toList, isLetter c = true := by decide
  refine ⟨⟨h1, h2, h3, h4, h5, h6⟩, fun L => ⟨?_, ?_⟩⟩
  · have h := (C17_round_trip L "age".toList ">=".toList h1 h2).1 "007".toList h3 (by decide)
    exact ⟨h.1, rfl, h.2⟩
  · have h := (C17_round_trip L "name".toList "!=".toList h4 h5).2.1 "John".toList h6
    exact ⟨h.1, rfl, h.2⟩

/-- C17 as stated fails: reading the rendering of the mapping parsed from
`age:18..30` does not return that mapping. -/
theorem C17_counterexample :
    ¬ ∃ (L : Lib) (m : SearchData),
      ParseSearchString2 L "age:18..30".toList = some (m, none) ∧
      ParseSearchString2 L (SearchData.String L m) = some (m, none) := by
  rintro ⟨L, m, hp, hr⟩
  obtain ⟨h1, h2, h3⟩ := range_rendering L
  rw [h1] at hp
  cases hp
  rw [h2, h3] at hr
  have := congrArg (Option.map (fun r => r.1.map (fun e => e.2.map (fun v => v.Symbol)))) hr
  revert this
  decide

/-! ### The depth bound of `SearchDB` -/

theorem nestedOf_some {v : SearchValue} {sub : SearchData} (h : nestedOf v = some sub) :
    v.Value = .searchData sub := by
  obtain ⟨sym, val, val2⟩ := v
  unfold nestedOf at h
  split_ifs at h
  cases val <;> simp at h
  subst h
  rfl

theorem dbVals_ne_none (L : Lib) (self : SearchData → DB → Option DB) (k : Str)
    (vals : List SearchValue) (acc : DBAcc)
    (h : ∀ v ∈ vals, ∀ sub, nestedOf v = some sub → ∀ db, self (rewriteSub L k sub) db ≠ none) :
    dbVals L self k vals acc ≠ none := by
  induction vals generalizing acc with
  | nil => simp [dbVals]
  | cons v vals ih =>
    have hrest := fun w hw => h w (List.mem_cons_of_mem _ hw)
    simp only [dbVals]
    rw [dbVal_eq]
    cases hc : comparisonOf v with
    | some oa => exact ih _ hrest
    | none =>
      cases hn : nestedOf v with
      | none => exact ih _ hrest
      | some sub =>
        simp only
        cases hs : self (rewriteSub L k sub) acc.db with
        | none => exact absurd hs (h v (by simp) sub hn acc.db)
        | some db => exact ih _ hrest

theorem dbEntries_ne_none (L : Lib) (self : SearchData → DB → Option DB)
    (hf : SearchDataHandleFuncMap) (m : SearchData) (db : DB)
    (h : ∀ e ∈ m, ∀ v ∈ e.2, ∀ sub, nestedOf v = some sub →
      ∀ db, self (rewriteSub L e.1 sub) db ≠ none) :
    dbEntries L self hf m db ≠ none := by
  induction m generalizing db with
  | nil => simp [dbEntries]
  | cons e m ih =>
    obtain ⟨k, vals⟩ := e
    have hrest := fun e he => h e (List.mem_cons_of_mem _ he)
    simp only [dbEntries, dbEntry]
    cases lookupHandler hf k with
    | some f =>
      simp only
      split_ifs
      · exact ih _ hrest
      · exact ih _ hrest
    | none =>
      simp only
      cases hv : dbVals L self k vals ⟨db, [], []⟩ with
      | none => exact absurd hv (dbVals_ne_none L self k vals _ (h (k, vals) (by simp)))
      | some acc =>
        simp only
        split_ifs
        · exact ih _ hrest
        · exact ih _ hrest

/-- `SearchDB` returns on every map, every builder and every override map: the
bound on the depth of calls is never hit. -/
theorem SearchDB_total (L : Lib) (m : SearchData) (db : DB) (hf : SearchDataHandleFuncMap) :
    ∃ r, SearchDB L m db hf = some r := by
  have h1 : ∀ (m' : SearchData) (db' : DB), flatValues m' → SearchDBN L 1 m' db' hf ≠ none := by
    intro m' db' hflat
    exact dbEntries_ne_none L _ hf m' db'
      (fun e he v hv sub hn => absurd (nestedOf_some hn) (hflat e he v hv sub))
  have h2 : SearchDBN L 2 m db hf ≠ none :=
    dbEntries_ne_none L _ hf m db
      (fun e _ v _ sub _ db' => h1 _ db' (rewriteSub_flat L e.1 sub))
  cases hs : SearchDBN L 2 m db hf with
  | none => exact absurd hs h2
  | some r => exact ⟨r, hs⟩

/-- The digit loop of `strconv.ParseUint` on digits whose value does not fit
64 bits: the range error. -/
theorem parseUintLoop_overflow (t : Str) (n : Nat) (ht : ∀ c ∈ t, isDigit c = true)
    (hn : n < 2 ^ 64) (hb : 2 ^ 64 ≤ t.foldl (fun n c => n * 10 + (c.toNat - 48)) n) :
    parseUintLoop t n = .error true := by
  induction t generalizing n with
  | nil => simp only [List.foldl_nil] at hb; omega
  | cons c t ih =>
    simp only [List.foldl_cons] at hb
    simp only [parseUintLoop, ht c (by simp), Bool.not_true, Bool.false_eq_true, if_false]
    by_cases h1 : n ≥ 2 ^ 64 / 10 + 1
    · simp only [h1, if_true]
    · simp only [h1, if_false]
      by_cases h2 : n * 10 + (c.toNat - 48) ≥ 2 ^ 64
      · simp only [h2, if_true]
      · simp only [h2, if_false]
        exact ih _ (fun c hc => ht c (by simp [hc])) (by omega) hb

/-- `strconv.ParseInt` on a run of digits of value `2^63` or more: the
out-of-range error. -/
theorem ParseInt_overflow {s : Str} (hs : isDigits s = true) (hb : 2 ^ 63 ≤ decimal s) :
    ParseInt s = .error (.numError "ParseInt".toList s true) := by
  obtain ⟨hne, hd⟩ := isDigits_iff.1 hs
  cases s with
  | nil => exact absurd rfl hne
  | cons c t =>
    have hc := hd c (by simp)
    have hplus : (c == '+') = false := by
      cases h : c == '+' with
      | false => rfl
      | true => rw [beq_iff_eq] at h; subst h; revert hc; decide
    have hminus : (c == '-') = false := by
      cases h : c == '-' with
      | false => rfl
      | true => rw [beq_iff_eq] at h; subst h; revert hc; decide
    by_cases h64 : (c :: t).foldl (fun n c => n * 10 + (c.toNat - 48)) 0 < 2 ^ 64
    · have hloop := parseUintLoop_ok (c :: t) 0 hd h64
      have h63 : (c :: t).foldl (fun n c => n * 10 + (c.toNat - 48)) 0 ≥ 2 ^ 63 := by
        unfold decimal at hb; omega
      simp only [ParseInt, hplus, hminus, Bool.or_self, Bool.false_eq_true, if_false, hloop,
        Bool.not_false, Bool.true_and, decide_eq_true_eq, h63, if_true]
    · have hloop := parseUintLoop_overflow (c :: t) 0 hd (by norm_num) (by omega)
      simp only [ParseInt, hplus, hminus, Bool.or_self, Bool.false_eq_true, if_false, hloop]

/-- The cascade on a run of digits that does not fit a signed 64-bit integer:
the early return of line 271, which wraps `ErrInvalidSearchSyntax`. -/
theorem typeValue_int_overflow (L : Lib) (raw a sym : Str) (ha : isDigits a = true)
    (hb : 2 ^ 63 ≤ decimal a) (err : Option GoError) :
    typeValue L raw a ⟨sym, .nil, .nil⟩ err =
      .error (some (.wrap ErrInvalidSearchSyntax ("parse int error, ".toList ++ raw))) := by
  obtain ⟨hne, hd⟩ := isDigits_iff.1 ha
  obtain ⟨c, r, hcr, hq⟩ := isIntEnd_head (Or.inl ⟨hne, hd⟩) []
  have hstr : FindStringSubmatch strRe a = [] := by
    rw [List.append_nil] at hcr
    rw [hcr]; exact strRe_first hq r
  simp [typeValue, hstr, intRangeRe_find_single a hne hd, intBranch, hne,
    ParseInt_overflow ha hb, Except.map, errors.Wrap]

/-- An endpoint that is a run of digits not fitting a signed 64-bit integer:
the early return of lines 256 and 262, which wraps the error of
`strconv.ParseInt`. -/
theorem endpoint_overflow {a : Str} (ha : isDigits a = true) (hb : 2 ^ 63 ≤ decimal a)
    (msg : Str) (v : Any) (err : Option GoError) :
    endpoint (fun s => (ParseInt s).map Any.int64) a msg v err =
      .error (some (.wrap (.numError "ParseInt".toList a true) msg)) := by
  have hs : ¬ a = "*".toList := isDigits_not_star ha
  have hs2 : ¬ a = ['*'] := isDigits_not_star ha
  simp [endpoint, hs, hs2, ParseInt_overflow ha hb, Except.map, errors.Wrap]

/-- The cascade on an integer range with an endpoint that does not fit a
signed 64-bit integer. -/
theorem typeValue_range_overflow (L : Lib) (raw a b : Str) (ha : isIntEnd a) (hb : isIntEnd b)
    (h : (isDigits a = true ∧ 2 ^ 63 ≤ decimal a) ∨ (isDigits b = true ∧ 2 ^ 63 ≤ decimal b)) :
    typeValue L raw (a ++ '.' :: '.' :: b) ⟨SearchSymbolNone, .nil, .nil⟩ none =
      .error (some (.wrap (.numError "ParseInt".toList (overflowEnd a b) true)
        ("parse int error, ".toList ++ raw))) := by
  obtain ⟨c, r, hcr, hq⟩ := isIntEnd_head ha ('.' :: '.' :: b)
  have hstr : FindStringSubmatch strRe (a ++ '.' :: '.' :: b) = [] := by
    rw [hcr]; exact strRe_first hq r
  have hane : a ≠ [] := by
    rcases ha with ⟨h, _⟩ | rfl
    · exact h
    · simp
  by_cases h1 : isDigits a = true ∧ 2 ^ 63 ≤ decimal a
  · have ho : overflowEnd a b = a := by
      unfold overflowEnd
      rw [if_pos]
      rw [Bool.and_eq_true, decide_eq_true_eq]
      exact h1
    simp [typeValue, hstr, intRangeRe_find_range a b ha hb, intBranch, hane,
      endpoint_overflow h1.1 h1.2, ho]
  · have h2 : isDigits b = true ∧ 2 ^ 63 ≤ decimal b := h.resolve_left h1
    have ho : overflowEnd a b = b := by
      unfold overflowEnd
      rw [if_neg]
      rw [Bool.and_eq_true, decide_eq_true_eq]
      exact h1
    have ha' : a ≠ ['*'] → decimal a < 2 ^ 63 := by
      intro hs
      rcases ha with hd | hd
      · by_contra hh
        exact h1 ⟨isDigits_iff.2 hd, by omega⟩
      · exact absurd hd hs
    simp [typeValue, hstr, intRangeRe_find_range a b ha hb, intBranch, hane,
      endpoint_int ha ha', endpoint_overflow h2.1 h2.2, ho]

/-- An integer range whose endpoints are digits or `*`. -/
theorem parse_int_end_range (L : Lib) (k a b : Str) (hk : isFieldName k = true)
    (ha : isIntEnd a) (hb : isIntEnd b)
    (ha' : a ≠ ['*'] → decimal a < 2 ^ 63) (hb' : b ≠ ['*'] → decimal b < 2 ^ 63) :
    ParseSearchString2 L (k ++ ':' :: (a ++ '.' :: '.' :: b)) =
      some ([(k, [⟨SearchSymbolRange, intEndValue a, intEndValue b⟩])], none) := by
  have hv : ∀ c ∈ a ++ '.' :: '.' :: b, valAscii c = true := by
    intro c hc
    simp only [List.mem_append, List.mem_cons] at hc
    rcases hc with hc | rfl | rfl | hc
    · exact isIntEnd_valAscii ha c hc
    · decide
    · decide
    · exact isIntEnd_valAscii hb c hc
  have hcomma : ',' ∉ a ++ '.' :: '.' :: b := by
    intro hc
    simp only [List.mem_append, List.mem_cons] at hc
    rcases hc with hc | hc | hc | hc
    · exact isIntEnd_no_comma ha hc
    · revert hc; decide
    · revert hc; decide
    · exact isIntEnd_no_comma hb hc
  have h := ParseSearchString2_single L k [] _ hk (by decide) hv hcomma
  simp only [List.nil_append] at h
  rw [h]
  have ht := typeValue_int_range L (a ++ '.' :: '.' :: b) a b ha hb ha' hb'
  have hnone : SearchSymbolNone = ([] : Str) := rfl
  rw [hnone] at ht
  rw [ht]

/-- An integer range with an endpoint that does not fit a signed 64-bit
integer: the error wraps that of `strconv.ParseInt`. -/
theorem parse_range_overflow (L : Lib) (k a b : Str) (hk : isFieldName k = true)
    (ha : isIntEnd a) (hb : isIntEnd b)
    (h : (isDigits a = true ∧ 2 ^ 63 ≤ decimal a) ∨ (isDigits b = true ∧ 2 ^ 63 ≤ decimal b)) :
    ParseSearchString2 L (k ++ ':' :: (a ++ '.' :: '.' :: b)) =
      some ([], some (.wrap (.numError "ParseInt".toList (overflowEnd a b) true)
        ("parse int error, ".toList ++ (a ++ '.' :: '.' :: b)))) := by
  have hv : ∀ c ∈ a ++ '.' :: '.' :: b, valAscii c = true := by
    intro c hc
    simp only [List.mem_append, List.mem_cons] at hc
    rcases hc with hc | rfl | rfl | hc
    · exact isIntEnd_valAscii ha c hc
    · decide
    · decide
    · exact isIntEnd_valAscii hb c hc
  have hcomma : ',' ∉ a ++ '.' :: '.' :: b := by
    intro hc
    simp only [List.mem_append, List.mem_cons] at hc
    rcases hc with hc | hc | hc | hc
    · exact isIntEnd_no_comma ha hc
    · revert hc; decide
    · revert hc; decide
    · exact isIntEnd_no_comma hb hc
  have h' := ParseSearchString2_single L k [] _ hk (by decide) hv hcomma
  simp only [List.nil_append] at h'
  rw [h']
  have ht := typeValue_range_overflow L (a ++ '.' :: '.' :: b) a b ha hb h
  have hnone : SearchSymbolNone = ([] : Str) := rfl
  rw [hnone] at ht
  rw [ht]

/-- A single value of digits that does not fit a signed 64-bit integer, after
any operator prefix: the error wraps `ErrInvalidSearchSyntax`. -/
theorem parse_int_overflow (L : Lib) (k op n : Str) (hk : isFieldName k = true)
    (hop : op ∈ opPrefixes) (hn : isDigits n = true) (hn' : 2 ^ 63 ≤ decimal n) :
    ParseSearchString2 L (k ++ ':' :: (op ++ n)) =
      some ([], some (.wrap ErrInvalidSearchSyntax ("parse int error, ".toList ++ (op ++ n)))) := by
  rw [ParseSearchString2_single L k op n hk hop (isDigits_valAscii hn) (isDigits_no_comma hn),
    typeValue_int_overflow L (op ++ n) n op hn hn' none]

/-- C21, as the code has it: for every field name `k` and every run of digits
`n` that does not fit a signed 64-bit integer, `ParseSearchString2("k:n")` returns
an error that wraps `ErrInvalidSearchSyntax`; for every integer range `k:a..b`
(each endpoint digits or `*`) with an endpoint that does not fit, it returns a
non-nil error that wraps the out-of-range error of `strconv.ParseInt` for that
endpoint under the message `parse int error, a..b`, and the wrap chain of this
error does not reach `ErrInvalidSearchSyntax`. -/
theorem C21_int_overflow (L : Lib) (k n a b : Str) (hk : isFieldName k = true)
    (hn : isDigits n = true) (hn' : 2 ^ 63 ≤ decimal n)
    (ha : isIntEnd a) (hb : isIntEnd b)
    (h : (isDigits a = true ∧ 2 ^ 63 ≤ decimal a) ∨ (isDigits b = true ∧ 2 ^ 63 ≤ decimal b)) :
    (∃ e, ParseSearchString2 L (k ++ ":".toList ++ n) = some ([], some e) ∧
      e = .wrap ErrInvalidSearchSyntax ("parse int error, ".toList ++ n) ∧
      e.IsInvalidSearchSyntax = true) ∧
    ∃ e, ParseSearchString2 L (k ++ ":".toList ++ a ++ "..".toList ++ b) = some ([], some e) ∧
      e = .wrap (.numError "ParseInt".toList (overflowEnd a b) true)
        ("parse int error, ".toList ++ a ++ "..".toList ++ b) ∧
      e.IsInvalidSearchSyntax = false := by
  constructor
  · refine ⟨_, ?_, rfl, rfl⟩
    have := parse_int_overflow L k [] n hk (by decide) hn hn'
    simpa using this
  · refine ⟨_, ?_, rfl, rfl⟩
    have := parse_range_overflow L k a b hk ha hb h
    simpa using this

/-- C21 at `k:99999999999999999999` and `k:1..99999999999999999999`: the
first error wraps `ErrInvalidSearchSyntax`, the second wraps the out-of-range
error of `strconv.ParseInt`. -/
theorem C21_int_overflow_witness :
    (isFieldName "k".toList = true ∧ isDigits "99999999999999999999".toList = true ∧
      2 ^ 63 ≤ decimal "99999999999999999999".toList ∧ isIntEnd "1".toList) ∧
    ∀ L : Lib,
      (∃ e, ParseSearchString2 L "k:99999999999999999999".toList = some ([], some e) ∧
        e = .wrap ErrInvalidSearchSyntax "parse int error, 99999999999999999999".toList ∧
        e.IsInvalidSearchSyntax = true) ∧
      ∃ e, ParseSearchString2 L "k:1..99999999999999999999".toList = some ([], some e) ∧
        e = .wrap (.numError "ParseInt".toList "99999999999999999999".toList true)
          "parse int error, 1..99999999999999999999".toList ∧
        e.IsInvalidSearchSyntax = false := by
  refine ⟨⟨by decide, by decide, by decide, isDigits_intEnd (by decide)⟩, fun L => ?_⟩
  have ho : overflowEnd "1".toList "99999999999999999999".toList =
      "99999999999999999999".toList := by decide
  have h := C21_int_overflow L "k".toList "99999999999999999999".toList "1".toList
    "99999999999999999999".toList (by decide) (by decide) (by decide)
    (isDigits_intEnd (by decide)) (isDigits_intEnd (by decide))
    (Or.inr ⟨by decide, by decide⟩)
  rw [ho] at h
  exact h

/-- C21 fails as stated: for no library does `k:1..99999999999999999999` give
an error whose wrap chain reaches `ErrInvalidSearchSyntax`. -/
theorem C21_counterexample :
    ¬ ∃ (L : Lib) (m : SearchData) (e : GoError),
      ParseSearchString2 L "k:1..99999999999999999999".toList = some (m, some e) ∧
      e.IsInvalidSearchSyntax = true := by
  rintro ⟨L, m, e, h1, h2⟩
  have h := parse_range_overflow L "k".toList "1".toList "99999999999999999999".toList
    (by decide) (isDigits_intEnd (by decide)) (isDigits_intEnd (by decide))
    (Or.inr ⟨by decide, by decide⟩)
  have e0 : "k".toList ++ ':' :: ("1".toList ++ '.' :: '.' :: "99999999999999999999".toList) =
      "k:1..99999999999999999999".toList := by decide
  rw [e0] at h
  rw [h] at h1
  simp only [Option.some.injEq, Prod.mk.injEq] at h1
  obtain ⟨_, h1⟩ := h1
  subst h1
  cases h2

/-- C24: for every field name `k` and every run of digits `b` fitting a signed
64-bit integer, `ParseSearchString2("k:*..b")` succeeds and maps `k` to exactly
one predicate with operator range, value absent and value2 the integer `b`, and
`ParseSearchString2("k:b..*")` succeeds and maps `k` to exactly one predicate
with operator range, value the integer `b` and value2 absent. -/
theorem C24_star_endpoint (L : Lib) (k b : Str) (hk : isFieldName k = true)
    (hb : isDigits b = true) (hb' : decimal b < 2 ^ 63) :
    ParseSearchString2 L (k ++ ":*..".toList ++ b) =
      some ([(k, [⟨SearchSymbolRange, .nil, .int64 (decimal b)⟩])], none) ∧
    ParseSearchString2 L (k ++ ":".toList ++ b ++ "..*".toList) =
      some ([(k, [⟨SearchSymbolRange, .int64 (decimal b), .nil⟩])], none) := by
  have hstar : isIntEnd ['*'] := Or.inr rfl
  have h1 := parse_int_end_range L k ['*'] b hk hstar (isDigits_intEnd hb)
    (fun h => absurd rfl h) (fun _ => hb')
  have h2 := parse_int_end_range L k b ['*'] hk (isDigits_intEnd hb) hstar
    (fun _ => hb') (fun h => absurd rfl h)
  rw [intEndValue_digits hb] at h1 h2
  have hs : intEndValue ['*'] = .nil := rfl
  rw [hs] at h1 h2
  constructor
  · simpa using h1
  · simpa using h2

/-- C24 at `age:*..30` and `age:30..*`. -/
theorem C24_star_endpoint_witness :
    (isFieldName "age".toList = true ∧ isDigits "30".toList = true ∧
      decimal "30".toList < 2 ^ 63) ∧
    ∀ L : Lib,
      ParseSearchString2 L "age:*..30".toList =
        some ([("age".toList, [⟨SearchSymbolRange, .nil, .int64 30⟩])], none) ∧
      ParseSearchString2 L "age:30..*".toList =
        some ([("age".toList, [⟨SearchSymbolRange, .int64 30, .nil⟩])], none) := by
  refine ⟨by decide, fun L => ?_⟩
  have h := C24_star_endpoint L "age".toList "30".toList (by decide) (by decide) (by decide)
  have e1 : decimal "30".toList = 30 := by decide
  rw [e1] at h
  exact h

/-- The string backend on one range predicate: both endpoints are arguments,
absent or not. -/
theorem WhereString_range (L : Lib) (k : Str) (v v2 : Any) :
    WhereString L [(k, [⟨SearchSymbolRange, v, v2⟩])] none =
      some ("(".toList ++ k ++ " BETWEEN ? AND ?".toList ++ ")".toList, [v, v2], none) := by
  have h := WhereStringN_single L 1 k ⟨SearchSymbolRange, v, v2⟩ [] (by
    intro x hx
    rw [List.mem_singleton] at hx
    subst hx
    show SearchSymbolRange ∈ comparisonSymbols
    decide)
  rw [WhereString, h]
  simp [conditionOf, argsOf, comparisonText, Join]
  decide

/-- The mutation backend on one range predicate: one `Where` call with both
endpoints as arguments, absent or not. -/
theorem SearchDB_range (L : Lib) (k : Str) (v v2 : Any) (db : DB) :
    SearchDB L [(k, [⟨SearchSymbolRange, v, v2⟩])] db none =
      some (db ++ [⟨k ++ " BETWEEN ? AND ?".toList, [.val v, .val v2]⟩]) := by
  have e : ∀ self : SearchData → DB → Option DB, dbVal L self k ⟨db, [], []⟩
      ⟨SearchSymbolRange, v, v2⟩ =
      some ⟨db, [k ++ " BETWEEN ? AND ?".toList], [v, v2]⟩ := fun _ => rfl
  simp [SearchDB, SearchDBN, dbEntries, dbEntry, lookupHandler, dbVals, e, DB.Where, Join]

/-- The mutation backend on a field with an override whose fragment is not
empty: one `Where` call whose only argument is the slice of the override's
arguments. -/
theorem SearchDB_override (L : Lib) (k : Str) (vals : List SearchValue)
    (h : List (Str × Option SearchDataHandleFunc)) (f : SearchDataHandleFunc) (db : DB)
    (hk : mapGet h k = some (some f)) (hne : (f vals).1 ≠ []) :
    SearchDB L [(k, vals)] db (some h) = some (db ++ [⟨(f vals).1, [.slice (f vals).2]⟩]) := by
  simp [SearchDB, SearchDBN, dbEntries, dbEntry, lookupHandler_some h k f hk, hne, DB.Where]

theorem parse_age_star_30 (L : Lib) :
    ParseSearchString2 L "age:*..30".toList =
      some ([("age".toList, [⟨SearchSymbolRange, .nil, .int64 30⟩])], none) := by
  have h := parse_int_end_range L "age".toList ['*'] "30".toList (by decide) (Or.inr rfl)
    (isDigits_intEnd (by decide)) (fun h => absurd rfl h) (fun _ => by decide)
  have e : "age".toList ++ ':' :: (['*'] ++ '.' :: '.' :: "30".toList) = "age:*..30".toList := by
    decide
  have e1 : intEndValue ['*'] = .nil := rfl
  have e2 : intEndValue "30".toList = .int64 30 := by
    rw [intEndValue_digits (by decide)]
    have : decimal "30".toList = 30 := by decide
    rw [this]
    rfl
  rw [e, e1, e2] at h
  exact h

/-- C23, as the code has it: for every field `k` and every range predicate with
endpoints `v` and `v2`, absent or not, the string backend compiles the condition
`(k BETWEEN ? AND ?)` and returns both endpoints as arguments in order, an absent
endpoint as a nil argument; the mutation backend issues the one call
`Where("k BETWEEN ? AND ?", v, v2)`. -/
theorem C23_range_passes_both_endpoints (L : Lib) (k : Str) (v v2 : Any) (db : DB) :
    WhereString L [(k, [⟨SearchSymbolRange, v, v2⟩])] none =
      some ("(".toList ++ k ++ " BETWEEN ? AND ?".toList ++ ")".toList, [v, v2], none) ∧
    SearchDB L [(k, [⟨SearchSymbolRange, v, v2⟩])] db none =
      some (db ++ [⟨k ++ " BETWEEN ? AND ?".toList, [.val v, .val v2]⟩]) :=
  ⟨WhereString_range L k v v2, SearchDB_range L k v v2 db⟩

/-- C23 fails as stated: for no library does compiling the predicate parsed
from `age:*..30` return arguments without a nil value. -/
theorem C23_counterexample :
    ¬ ∃ (L : Lib) (m : SearchData) (q : Str) (args : List Any),
      ParseSearchString2 L "age:*..30".toList = some (m, none) ∧
      WhereString L m none = some (q, args, none) ∧ Any.nil ∉ args := by
  rintro ⟨L, m, q, args, h1, h2, h3⟩
  rw [parse_age_star_30 L] at h1
  simp only [Option.some.injEq, Prod.mk.injEq, and_true] at h1
  subst h1
  rw [WhereString_range L] at h2
  simp only [Option.some.injEq, Prod.mk.injEq, and_true] at h2
  obtain ⟨_, h2⟩ := h2
  subst h2
  exact h3 (by simp)

/-- C29 at the mapping `{k: [= 0]}` with an override for `k` returning
`a = ? AND b = ?` and the arguments 1 and 2: the string backend appends the two
arguments 1 and 2, the mutation backend calls `Where` with one argument, the
slice `[1, 2]`. -/
theorem C29_override_args_as_one_slice (L : Lib) :
    WhereString L pairData (some pairOverrides) =
      some ("a = ? AND b = ?".toList, [.int64 1, .int64 2], none) ∧
    SearchDB L pairData [] (some pairOverrides) =
      some [⟨"a = ? AND b = ?".toList, [.slice [.int64 1, .int64 2]]⟩] ∧
    SearchDB L [("n".toList, [⟨SearchSymbolRange, .int64 1, .int64 2⟩])] [] none =
      some [⟨"n BETWEEN ? AND ?".toList, [.val (.int64 1), .val (.int64 2)]⟩] := by
  refine ⟨?_, ?_, ?_⟩
  · have h := whereEntry_handler L (fun sub2 => WhereStringN L 1 sub2 (some pairOverrides))
      (some pairOverrides) "k".toList [⟨SearchSymbolEq, .int64 0, .nil⟩] [] [] pairOverride rfl
    rw [WhereString, WhereStringN_succ, pairData]
    simp only [whereEntries, h]
    rfl
  · exact SearchDB_override L "k".toList _ pairOverrides pairOverride [] rfl (by decide)
  · exact SearchDB_range L "n".toList (.int64 1) (.int64 2) []

theorem mapSet_append {α : Type} (m : List (Str × α)) (k : Str) (v : α) (h : k ∉ keys m) :
    mapSet m k v = m ++ [(k, v)] := by
  induction m with
  | nil => rfl
  | cons e m ih =>
    obtain ⟨k0, v0⟩ := e
    simp only [keys, List.map_cons, List.mem_cons, not_or] at h
    have hk : ¬ k0 = k := fun e => h.1 e.symm
    simp only [mapSet, hk, if_false, List.cons_append]
    rw [ih h.2]

theorem jsonKey_inj {k a b : Str} (h : jsonKey k a = jsonKey k b) : a = b := by
  unfold jsonKey at h
  simp only [List.append_assoc] at h
  have h1 := List.append_cancel_left h
  have h2 := List.append_cancel_left h1
  exact List.append_cancel_right h2

/-- On a map with distinct keys the map of the recursive call lists the
rewritten entries of the non-empty lists in order. -/
theorem rewriteSub_filterMap (L : Lib) (k : Str) (sub : SearchData) (hnd : (keys sub).Nodup) :
    rewriteSub L k sub = sub.filterMap (rewriteEntry L k) := by
  unfold rewriteSub
  have key : ∀ (l : SearchData) (acc : SearchData), (keys l).Nodup →
      (∀ e ∈ l, jsonKey k e.1 ∉ keys acc) →
      l.foldl (fun sub2 e =>
        if e.2.length > 0 then mapSet sub2 (jsonKey k e.1) (e.2.map (stringifyValue L))
        else sub2) acc = acc ++ l.filterMap (rewriteEntry L k) := by
    intro l
    induction l with
    | nil => intro acc _ _; simp
    | cons e l ih =>
      intro acc hl hacc
      simp only [keys, List.map_cons, List.nodup_cons] at hl
      rw [List.foldl_cons]
      by_cases he : e.2.length > 0
      · have hre : rewriteEntry L k e = some (jsonKey k e.1, e.2.map (stringifyValue L)) := by
          simp only [rewriteEntry, he, if_true]
        rw [if_pos he, List.filterMap_cons_some hre,
          mapSet_append _ _ _ (hacc e (by simp))]
        rw [ih _ hl.2 ?_]
        · simp
        · intro e' he' hmem
          simp only [keys, List.map_append, List.map_cons, List.map_nil, List.mem_append,
            List.mem_singleton] at hmem
          rcases hmem with hmem | hmem
          · exact hacc e' (by simp [he']) hmem
          · have := jsonKey_inj hmem
            exact hl.1 (by rw [← this]; exact List.mem_map_of_mem Prod.fst he')
      · have hre : rewriteEntry L k e = none := by
          simp only [rewriteEntry, he, if_false]
        rw [if_neg he, List.filterMap_cons_none hre]
        exact ih _ hl.2 (fun e' he' => hacc e' (by simp [he']))
  simpa using key sub [] hnd (fun _ _ => by simp [keys])

/-- The loop over the map on two maps in a row. -/
theorem whereEntries_append (L : Lib) (self : SearchData → Option WhereResult)
    (hf : SearchDataHandleFuncMap) (m1 m2 : SearchData) (queries : List Str) (args : List Any)
    (queries' : List Str) (args' : List Any)
    (h : whereEntries L self hf m1 queries args = some (.ok (queries', args'))) :
    whereEntries L self hf (m1 ++ m2) queries args = whereEntries L self hf m2 queries' args' := by
  induction m1 generalizing queries args with
  | nil =>
    simp only [whereEntries, Option.some.injEq, Except.ok.injEq, Prod.mk.injEq] at h
    obtain ⟨rfl, rfl⟩ := h
    rfl
  | cons e m1 ih =>
    obtain ⟨k, vals⟩ := e
    simp only [List.cons_append, whereEntries] at h ⊢
    cases hw : whereEntry L self hf k vals queries args with
    | none => rw [hw] at h; cases h
    | some r =>
      cases r with
      | error err => rw [hw] at h; cases h
      | ok qa =>
        obtain ⟨q1, a1⟩ := qa
        rw [hw] at h
        exact ih _ _ h

/-- A call of `WhereString` that returns an error returns the empty clause and
no arguments. -/
theorem WhereStringN_error (L : Lib) (n : Nat) (m : SearchData) (hf : SearchDataHandleFuncMap)
    (q : Str) (a : List Any) (err : GoError)
    (h : WhereStringN L n m hf = some (q, a, some err)) : q = [] ∧ a = [] := by
  cases n with
  | zero => cases h
  | succ n =>
    rw [WhereStringN_succ] at h
    cases hw : whereEntries L (fun sub2 => WhereStringN L n sub2 hf) hf m [] [] with
    | none => rw [hw] at h; cases h
    | some r =>
      cases r with
      | error e =>
        rw [hw] at h
        simp only [Option.some.injEq, Prod.mk.injEq] at h
        exact ⟨h.1.symm, h.2.1.symm⟩
      | ok qa =>
        obtain ⟨q1, a1⟩ := qa
        rw [hw] at h
        simp only at h
        split_ifs at h
        · simp only [Option.some.injEq, Prod.mk.injEq] at h
          exact ⟨h.1.symm, h.2.1.symm⟩
        · simp only [Option.some.injEq, Prod.mk.injEq] at h
          exact absurd h.2.2 (by simp)

/-- The string backend on a nested group without an override of its own: the
result is that of the recursive call on the rewritten map. -/
theorem WhereString_group (L : Lib) (outer : Str) (sub : SearchData) (v2 : Any)
    (hf : SearchDataHandleFuncMap) (ho : lookupHandler hf outer = none) :
    WhereString L [(outer, [⟨SearchSymbolSearch, .searchData sub, v2⟩])] hf =
      WhereStringN L 1 (rewriteSub L outer sub) hf := by
  have e : ∀ acc, whereVal L (fun sub2 => WhereStringN L 1 sub2 hf) outer acc
      ⟨SearchSymbolSearch, .searchData sub, v2⟩ =
      (match WhereStringN L 1 (rewriteSub L outer sub) hf with
      | none => none
      | some (_, _, some err) => some (.error err)
      | some (sub2Query, sub2Args, none) =>
        some (.ok { acc with queries := acc.queries ++ [sub2Query],
                             args := acc.args ++ sub2Args })) := fun _ => rfl
  rw [WhereString, WhereStringN_succ]
  simp only [whereEntries, whereEntry, ho, whereVals, e]
  cases hr : WhereStringN L 1 (rewriteSub L outer sub) hf with
  | none => rfl
  | some r =>
    obtain ⟨q, a, err⟩ := r
    cases err with
    | some err =>
      obtain ⟨rfl, rfl⟩ := WhereStringN_error L 1 _ hf q a err hr
      rfl
    | none => simp [Join]

/-- C30: for every nested group `sub` stored under `outer` (no override under
`outer` itself) and every nested field `inner` of `sub` with a non-empty
predicate list `vals`, when the override map holds the non-nil override `f` under
the rewritten key `outer->>'inner'`: the string backend returns what the
recursive call on the rewritten map returns; that map holds the entry of the
rewritten key with the stringified predicates of `vals`; and the pass of the
recursive call over this entry adds the fragment and the arguments that `f`
returns on the stringified predicates (nothing when the fragment is empty), in
place of the default compilation of these predicates. -/
theorem C30_nested_override (L : Lib) (outer inner : Str) (sub : SearchData)
    (vals : List SearchValue) (h : List (Str × Option SearchDataHandleFunc))
    (f : SearchDataHandleFunc) (hnd : (keys sub).Nodup) (hmem : (inner, vals) ∈ sub)
    (hne : vals ≠ []) (ho : lookupHandler (some h) outer = none)
    (hk : mapGet h (jsonKey outer inner) = some (some f)) :
    WhereString L [(outer, [⟨SearchSymbolSearch, .searchData sub, .nil⟩])] (some h) =
      WhereStringN L 1 (rewriteSub L outer sub) (some h) ∧
    ∃ pre post, rewriteSub L outer sub =
        pre ++ (jsonKey outer inner, vals.map (stringifyValue L)) :: post ∧
      ∀ (self : SearchData → Option WhereResult) (queries : List Str) (args : List Any)
        (queries' : List Str) (args' : List Any),
        whereEntries L self (some h) pre queries args = some (.ok (queries', args')) →
        whereEntries L self (some h) (rewriteSub L outer sub) queries args =
          whereEntries L self (some h) post
            (if (f (vals.map (stringifyValue L))).1 ≠ [] then
              queries' ++ [(f (vals.map (stringifyValue L))).1] else queries')
            (if (f (vals.map (stringifyValue L))).1 ≠ [] then
              args' ++ (f (vals.map (stringifyValue L))).2 else args') := by
  refine ⟨WhereString_group L outer sub .nil (some h) ho, ?_⟩
  have hlen : vals.length > 0 := List.length_pos.2 hne
  have hre : rewriteEntry L outer (inner, vals) =
      some (jsonKey outer inner, vals.map (stringifyValue L)) := by
    simp only [rewriteEntry, hlen, if_true]
  have hin : (jsonKey outer inner, vals.map (stringifyValue L)) ∈ rewriteSub L outer sub := by
    rw [rewriteSub_filterMap L outer sub hnd]
    exact List.mem_filterMap.2 ⟨_, hmem, hre⟩
  obtain ⟨pre, post, hsplit⟩ := List.append_of_mem hin
  refine ⟨pre, post, hsplit, ?_⟩
  intro self queries args queries' args' hpre
  rw [hsplit, whereEntries_append L self (some h) pre _ queries args queries' args' hpre]
  have hw := whereEntry_handler L self (some h) (jsonKey outer inner)
    (vals.map (stringifyValue L)) queries' args' f (lookupHandler_some h _ f hk)
  simp only [whereEntries, hw]
  split_ifs <;> rfl

/-- C30 at `{tags: [search {n: [= 5, = 7]}]}`, the integers 5 and 7 of 64 bits,
with an override under `tags->>'n'` that returns the values it is given: the
clause is the override's fragment and the arguments are the strings `5` and `7`. -/
theorem C30_nested_override_witness :
    ((keys [("n".toList, [(⟨SearchSymbolEq, .int64 5, .nil⟩ : SearchValue),
        ⟨SearchSymbolEq, .int64 7, .nil⟩])]).Nodup ∧
      lookupHandler (some [("tags->>'n'".toList, some echoOverride)]) "tags".toList = none ∧
      mapGet [("tags->>'n'".toList, some echoOverride)] (jsonKey "tags".toList "n".toList) =
        some (some echoOverride)) ∧
    ∀ L : Lib, WhereString L tagsNumbers (some [("tags->>'n'".toList, some echoOverride)]) =
      some ("tags_n IN ?".toList, [.str "5".toList, .str "7".toList], none) := by
  refine ⟨⟨by decide, rfl, rfl⟩, fun L => ?_⟩
  have h := (C30_nested_override L "tags".toList "n".toList
    [("n".toList, [⟨SearchSymbolEq, .int64 5, .nil⟩, ⟨SearchSymbolEq, .int64 7, .nil⟩])]
    [⟨SearchSymbolEq, .int64 5, .nil⟩, ⟨SearchSymbolEq, .int64 7, .nil⟩]
    [("tags->>'n'".toList, some echoOverride)] echoOverride (by decide) (by simp) (by simp)
    rfl rfl).1
  rw [tagsNumbers, h]
  rfl

/-- A text without a quote character does not match `pattern4`. -/
theorem re4_needs_quote {s : Str} (h : ∀ c ∈ s, isQuote c = false) :
    FindStringSubmatch re4 s = [] := by
  have hre : re4 = Re.seq Re.bot (Re.seq (Re.seq (Re.group 1 keyRe) (Re.seq (Re.lit ':')
      (Re.seq (Re.chr isQuote) (Re.seq (Re.group 2 (Re.chr isAnyNoNL).star) (Re.chr isQuote)))))
      Re.eot) := rfl
  rw [hre]
  refine find_none ?_
  intro e he
  obtain ⟨he, _⟩ := mem_run_anchored.1 he
  obtain ⟨m1, h1, he⟩ := mem_run_seq.1 he
  obtain ⟨m2, h2, he⟩ := mem_run_seq.1 he
  obtain ⟨m3, h3, _⟩ := mem_run_seq.1 he
  obtain ⟨w1, e1, _⟩ := run_consumed _ _ _ _ h1
  obtain ⟨e2, _⟩ := mem_run_lit.1 h2
  obtain ⟨c, hc, e3, _⟩ := mem_run_chr.1 h3
  simp only at e1
  have hmem : c ∈ s := by
    rw [e1, e2, e3]
    simp
  rw [h c hmem] at hc
  cases hc

/-- A text with a character `pattern1` cannot consume does not match it. -/
theorem re1_not_admitted (L : Lib) {s : Str} {c : Char} (hc : c ∈ s)
    (ha : (re1 L).admits c = false) : MatchString (re1 L) s = false := by
  have hre : re1 L = Re.seq Re.bot (Re.seq (Re.group 1 (Re.seq (Re.lit '$').opt
      (Re.chr (bareCls L)).plus)) Re.eot) := rfl
  have : FindStringSubmatch (re1 L) s = [] := by
    rw [hre] at ha ⊢
    refine no_match_of_admits hc ?_
    simpa [Re.admits] using ha
  simp [MatchString, this]

/-- A text with a character `pattern2` cannot consume does not match it. -/
theorem re2_not_admitted (L : Lib) {s : Str} {c : Char} (hc : c ∈ s)
    (ha : (re2 L).admits c = false) : FindStringSubmatch (re2 L) s = [] := by
  have hre : re2 L = Re.seq Re.bot (Re.seq (Re.seq (Re.group 1 keyRe) (Re.seq (Re.lit ':')
      (Re.group 2 (valuesRe L)))) Re.eot) := rfl
  rw [hre] at ha ⊢
  refine no_match_of_admits hc ?_
  simpa [Re.admits] using ha

/-- A character below the Han range and outside the alphabet of `pattern2` is
consumed by neither `pattern1` nor `pattern2`. -/
theorem noValueChar_unadmitted (L : Lib) {c : Char} (h : noValueChar c = true) :
    unadmitted L c = true := by
  simp only [noValueChar, Bool.and_eq_true, decide_eq_true_eq, Bool.not_eq_true'] at h
  obtain ⟨hlt, h⟩ := h
  have hre2 : re2 L = Re.seq Re.bot (Re.seq (Re.seq (Re.group 1 keyRe) (Re.seq (Re.lit ':')
      (Re.group 2 (valuesRe L)))) Re.eot) := rfl
  have h2 : (re2 L).admits c = false := by
    cases ha : (re2 L).admits c with
    | false => rfl
    | true =>
      rw [hre2] at ha
      have ha' : (Re.seq (Re.group 1 keyRe) (Re.seq (Re.lit ':')
          (Re.group 2 (valuesRe L)))).admits c = true := by simpa [Re.admits] using ha
      have := re2_admits_ascii L hlt ha'
      simp only [Bool.or_eq_false_iff, beq_eq_false_iff_ne, ne_eq] at h
      obtain ⟨⟨⟨⟨⟨⟨a1, a2⟩, a3⟩, a4⟩, a5⟩, a6⟩, a7⟩ := h
      rcases this with h | h | h | h | h | h | h
      · rw [a1] at h; cases h
      · exact absurd h a2
      · rw [a3] at h; cases h
      · rw [a4] at h; cases h
      · exact absurd h a5
      · rw [a6] at h; cases h
      · exact absurd h a7
  have h1 : (re1 L).admits c = false := by
    have hh := not_han_of_lt L c hlt
    simp only [Bool.or_eq_false_iff, beq_eq_false_iff_ne, ne_eq] at h
    obtain ⟨⟨⟨⟨⟨⟨a1, a2⟩, a3⟩, a4⟩, a5⟩, a6⟩, a7⟩ := h
    have hk : keyCls c = false := by
      cases hk : keyCls c with
      | false => rfl
      | true =>
        have : keyRe.admits c = true := by
          simp [keyRe, Re.cat, Re.admits, Re.opt, Re.plus, Re.lit, hk]
        rw [a1] at this; cases this
    have hb : bareCls L c = false := by
      cases hb : bareCls L c with
      | false => rfl
      | true =>
        rcases (bareCls_iff L c).1 hb with hb | hb
        · rw [hk] at hb; cases hb
        · rw [hh] at hb; cases hb
    simp [re1, Re.cat, Re.admits, Re.opt, Re.plus, Re.lit, hb, a5]
  simp [unadmitted, h1, h2]

/-- A token without white space and quote characters that holds a character
neither `pattern1` nor `pattern2` can consume: the error of line 359. -/
theorem parse_unadmitted (L : Lib) (t : Str)
    (hs : ∀ c ∈ t, isSpace c = false ∧ isQuote c = false)
    (hc : ∃ c ∈ t, unadmitted L c = true) :
    ParseSearchString2 L t = some ([], some (.wrap ErrInvalidSearchSyntax t)) := by
  obtain ⟨c, hmem, hu⟩ := hc
  simp only [unadmitted, Bool.not_eq_true', Bool.or_eq_false_iff] at hu
  have hne : t ≠ [] := List.ne_nil_of_mem hmem
  have hq : ∀ c ∈ t, isSpace c = false ∧ c ≠ quote := by
    intro d hd
    refine ⟨(hs d hd).1, ?_⟩
    rintro rfl
    have := (hs _ hd).2
    revert this; decide
  rw [ParseSearchString2_token L hne hq,
    parsePart_no_rule L t [] (re2_not_admitted L hmem hu.2) (re1_not_admitted L hmem hu.1)
      (re4_needs_quote (fun d hd => (hs d hd).2))]

/-- C28: for every token `t` without white space and without a quote character
that holds at least one character neither the bare-key pattern nor the
value-list pattern can consume, `ParseSearchString2(t)` returns an error that
wraps `ErrInvalidSearchSyntax` and whose message is `t` followed by
`: invalid search syntax`. -/
theorem C28_unadmitted_token (L : Lib) (t : Str)
    (hs : ∀ c ∈ t, isSpace c = false ∧ isQuote c = false)
    (hc : ∃ c ∈ t, unadmitted L c = true) :
    ∃ e, ParseSearchString2 L t = some ([], some e) ∧ e.IsInvalidSearchSyntax = true ∧
      e.Error = t ++ ": invalid search syntax".toList := by
  refine ⟨_, parse_unadmitted L t hs hc, rfl, ?_⟩
  show t ++ ": ".toList ++ "invalid search syntax".toList = t ++ ": invalid search syntax".toList
  rw [List.append_assoc]
  rfl

/-- C28 at the token `a@b#c/d`. -/
theorem C28_unadmitted_token_witness :
    (∀ c ∈ "a@b#c/d".toList, isSpace c = false ∧ isQuote c = false) ∧
    ∀ L : Lib, (∃ c ∈ "a@b#c/d".toList, unadmitted L c = true) ∧
      ∃ e, ParseSearchString2 L "a@b#c/d".toList = some ([], some e) ∧
        e.IsInvalidSearchSyntax = true ∧
        e.Error = "a@b#c/d: invalid search syntax".toList := by
  have hs : ∀ c ∈ "a@b#c/d".toList, isSpace c = false ∧ isQuote c = false := by decide
  have hc : ∀ L : Lib, ∃ c ∈ "a@b#c/d".toList, unadmitted L c = true :=
    fun L => ⟨'@', by decide, noValueChar_unadmitted L (by decide)⟩
  exact ⟨hs, fun L => ⟨hc L, C28_unadmitted_token L _ hs (hc L)⟩⟩

theorem intBranch_value2 {rawValue : Str} {subs3 : List Str} {value v : SearchValue}
    {err e : Option GoError} (h : intBranch rawValue subs3 value err = .ok (v, e)) :
    v.Symbol = SearchSymbolRange ∨ v.Value2 = value.Value2 := by
  unfold intBranch at h
  simp only at h
  split_ifs at h
  · split at h
    · cases h
    · split at h
      · cases h
      · cases h; exact Or.inl rfl
  · split at h
    · cases h; exact Or.inr rfl
    · cases h

theorem floatBranch_value2 {L : Lib} {rawValue : Str} {subs3 : List Str} {value v : SearchValue}
    {err e : Option GoError} (h : floatBranch L rawValue subs3 value err = .ok (v, e)) :
    v.Symbol = SearchSymbolRange ∨ v.Value2 = value.Value2 := by
  unfold floatBranch at h
  simp only at h
  split_ifs at h
  · split at h
    · cases h
    · split at h
      · cases h
      · cases h; exact Or.inl rfl
  · split at h
    · cases h; exact Or.inr rfl
    · cases h

theorem timeBranch_value2 {L : Lib} {rawValue : Str} {subs3 : List Str} {value v : SearchValue}
    {err e : Option GoError} (h : timeBranch L rawValue subs3 value err = .ok (v, e)) :
    v.Symbol = SearchSymbolRange ∨ v.Value2 = value.Value2 := by
  unfold timeBranch at h
  simp only at h
  split_ifs at h
  · split at h
    · cases h
    · split at h
      · cases h
      · cases h; exact Or.inl rfl
  · split at h
    · cases h; exact Or.inr rfl
    · cases h

theorem typeValue_value2 {L : Lib} {rawValue operand : Str} {value v : SearchValue}
    {err e : Option GoError} (h : typeValue L rawValue operand value err = .ok (v, e)) :
    v.Symbol = SearchSymbolRange ∨ v.Value2 = value.Value2 := by
  unfold typeValue at h
  simp only at h
  split_ifs at h
  · cases h; exact Or.inr rfl
  · exact intBranch_value2 h
  · exact floatBranch_value2 h
  · exact timeBranch_value2 h
  · cases h; exact Or.inr rfl

theorem parseRawValue_value2 {L : Lib} {rawValue : Str} {v : SearchValue}
    {err e : Option GoError} (h : parseRawValue L rawValue err = .ok (v, e)) :
    v.Value2 ≠ .nil → v.Symbol = SearchSymbolRange := by
  unfold parseRawValue at h
  simp only at h
  split_ifs at h
  cases hs : symbolOf ((FindStringSubmatch (re3 L) rawValue).getD 1 []) with
  | none => rw [hs] at h; cases h
  | some sym =>
    rw [hs] at h
    intro hv
    rcases typeValue_value2 h with h1 | h1
    · exact h1
    · exact absurd h1 hv

theorem parseRawValues_value2 (L : Lib) (raws : List Str) (values vs : List SearchValue)
    (err : Option GoError) (h : parseRawValues L raws values err = .ok vs)
    (hv : ∀ v ∈ values, v.Value2 ≠ .nil → v.Symbol = SearchSymbolRange) :
    ∀ v ∈ vs, v.Value2 ≠ .nil → v.Symbol = SearchSymbolRange := by
  induction raws generalizing values err with
  | nil =>
    simp only [parseRawValues, Except.ok.injEq] at h
    subst h
    exact hv
  | cons raw raws ih =>
    simp only [parseRawValues] at h
    cases hp : parseRawValue L raw err with
    | error e => rw [hp] at h; cases h
    | ok r =>
      obtain ⟨v, e⟩ := r
      rw [hp] at h
      refine ih _ _ h ?_
      intro w hw
      rcases List.mem_append.1 hw with hw | hw
      · exact hv w hw
      · rw [List.mem_singleton] at hw
        subst hw
        exact parseRawValue_value2 hp

theorem resultEntry_mapSet (L : Lib) (search : SearchData) (k : Str) (vals : List SearchValue)
    (hs : ∀ e ∈ search, resultEntry L e) (hk : resultEntry L (k, vals)) :
    ∀ e ∈ mapSet search k vals, resultEntry L e := by
  intro e he
  rcases mem_mapSet _ _ _ _ he with he | he
  · exact hs e he
  · subst he; exact hk

theorem parsePart_result (L : Lib) (part : Str) (search search' : SearchData)
    (h : parsePart L part search = .ok search') (hs : ∀ e ∈ search, resultEntry L e) :
    ∀ e ∈ search', resultEntry L e := by
  unfold parsePart at h
  simp only at h
  split_ifs at h with h1 h2 h3
  · cases hv : parseRawValues L (Split ((FindStringSubmatch (re2 L) part).getD 2 []) ',') [] none
        with
    | error e => rw [hv] at h; cases h
    | ok values =>
      rw [hv] at h
      simp only at h
      split_ifs at h with h5
      · cases h
        refine resultEntry_mapSet L _ _ _ hs ⟨?_, ?_⟩
        · intro hnil
          simp only at hnil
          rw [hnil] at h5
          simp at h5
        · intro v hmem
          exact ⟨parseRawValues_symbol L _ [] values none hv (by simp) v hmem,
            parseRawValues_value2 L _ [] values none hv (by simp) v hmem⟩
      · cases h; exact hs
  · cases h
    exact resultEntry_mapSet L _ _ _ hs ⟨fun _ => h2, by simp⟩
  · cases h
    refine resultEntry_mapSet L _ _ _ hs ⟨by simp, ?_⟩
    intro v hv
    rw [List.mem_singleton] at hv
    subst hv
    exact ⟨by show SearchSymbolEq ∈ comparisonSymbols; decide, fun h => absurd rfl h⟩

theorem parseParts_result (L : Lib) (parts : List Str) (search : SearchData)
    (hs : ∀ e ∈ search, resultEntry L e) :
    ∀ e ∈ (parseParts L parts search).1, resultEntry L e := by
  induction parts generalizing search with
  | nil => exact hs
  | cons part parts ih =>
    simp only [parseParts]
    split_ifs with h
    · exact ih _ hs
    · cases hp : parsePart L part search with
      | error e => exact hs
      | ok search' => exact ih _ (parsePart_result L part search search' hp hs)

/-- C27: every mapping `ParseSearchString2` returns satisfies, entry by entry:
a key with an empty predicate list is a bare key (the list is the nil list of
line 348, the other rules store non-empty lists); every predicate has an
operator among equal, not-equal, greater, greater-or-equal, less, less-or-equal
and range; and a predicate with a value2 has the operator range. -/
theorem C27_result_invariants (L : Lib) (text : Str) (f : SearchData)
    (h : ParseSearchString2 L text = some (f, none)) :
    ∀ k vals, (k, vals) ∈ f →
      (vals = [] → MatchString (re1 L) k = true) ∧
      ∀ v ∈ vals, v.Symbol ∈ comparisonSymbols ∧ v.Symbol ≠ SearchSymbolNone ∧
        v.Symbol ≠ SearchSymbolSearch ∧ (v.Value2 ≠ .nil → v.Symbol = SearchSymbolRange) := by
  unfold ParseSearchString2 at h
  cases hs : splitSearchString text with
  | none => rw [hs] at h; cases h
  | some parts =>
    rw [hs] at h
    simp only [Option.map_some', Option.some.injEq] at h
    have hr := parseParts_result L parts [] (by simp)
    rw [h] at hr
    intro k vals hmem
    obtain ⟨h1, h2⟩ := hr (k, vals) hmem
    refine ⟨h1, fun v hv => ?_⟩
    obtain ⟨h3, h4⟩ := h2 v hv
    refine ⟨h3, ?_, ?_, h4⟩
    · intro hn
      rw [hn] at h3
      revert h3
      decide
    · intro hn
      rw [hn] at h3
      revert h3
      decide

/-- A match at the head of the text: `FindStringSubmatch` returns it. -/
theorem find_ne_nil {r : Re} {s : Str} (hex : ∃ e, e ∈ run s.length r (s, [])) :
    FindStringSubmatch r s ≠ [] := by
  obtain ⟨e0, he0⟩ := hex
  cases hrun : run s.length r (s, []) with
  | nil => rw [hrun] at he0; simp at he0
  | cons e rest =>
    cases s with
    | nil => simp [FindStringSubmatch, findFrom, hrun, submatches] at hrun ⊢
    | cons a t => simp [FindStringSubmatch, findFrom, hrun, submatches] at hrun ⊢

/-- A field name matches `pattern1`. -/
theorem re1_match (L : Lib) {k : Str} (hk : isFieldName k = true) :
    MatchString (re1 L) k = true := by
  have hre : re1 L = Re.seq Re.bot (Re.seq (Re.group 1 (Re.seq (Re.lit '$').opt
      (Re.chr (bareCls L)).plus)) Re.eot) := rfl
  have hbare : ∀ w : Str, (∀ c ∈ w, keyCls c = true) → ∀ c ∈ w, bareCls L c = true :=
    fun w hw c hc => (bareCls_iff L c).2 (Or.inl (hw c hc))
  have hm : Matches (Re.seq (Re.lit '$').opt (Re.chr (bareCls L)).plus) k := by
    cases k with
    | nil => simp [isFieldName] at hk
    | cons a t =>
      simp only [isFieldName] at hk
      by_cases ha : a = '$'
      · subst ha
        simp only [beq_self_eq_true, if_true, Bool.and_eq_true, List.all_eq_true,
          Bool.not_eq_true', List.isEmpty_eq_false] at hk
        exact Matches.seq (u := ['$']) (Matches.opt_some (Matches.lit '$'))
          (Matches.plus_all (by simpa using hk.1) (hbare t hk.2))
      · have : (a == '$') = false := by simpa using ha
        simp only [this, Bool.false_eq_true, if_false, List.all_eq_true] at hk
        simpa using Matches.seq (Matches.opt_none (Re.lit '$'))
          (Matches.plus_all (w := a :: t) (by simp) (hbare _ hk))
  have hne : FindStringSubmatch (re1 L) k ≠ [] := by
    rw [hre]
    refine find_ne_nil ⟨([], [(1, k)]), mem_run_anchored.2 ⟨?_, rfl⟩⟩
    simpa using run_group_of_matches hm k.length 1 [] []
  cases hf : FindStringSubmatch (re1 L) k with
  | nil => exact absurd hf hne
  | cons a t => simp [MatchString, hf]

/-- A text without a colon does not match `pattern2`. -/
theorem re2_needs_colon (L : Lib) {s : Str} (h : ':' ∉ s) :
    FindStringSubmatch (re2 L) s = [] := by
  have hre : re2 L = Re.seq Re.bot (Re.seq (Re.seq (Re.group 1 keyRe) (Re.seq (Re.lit ':')
      (Re.group 2 (valuesRe L)))) Re.eot) := rfl
  rw [hre]
  refine find_none ?_
  intro e he
  obtain ⟨he, _⟩ := mem_run_anchored.1 he
  obtain ⟨m1, h1, he⟩ := mem_run_seq.1 he
  obtain ⟨m2, h2, _⟩ := mem_run_seq.1 he
  obtain ⟨w1, e1, _⟩ := run_consumed _ _ _ _ h1
  obtain ⟨e2, _⟩ := mem_run_lit.1 h2
  simp only at e1
  exact h (by rw [e1, e2]; simp)

/-- The loop body on a bare key: the key is stored with the nil list. -/
theorem parsePart_bare (L : Lib) (k : Str) (search : SearchData) (hk : isFieldName k = true) :
    parsePart L k search = .ok (mapSet search k []) := by
  have hc : ':' ∉ k := isFieldName_not_mem hk (by decide) (by decide)
  simp [parsePart, re2_needs_colon L hc, re1_match L hk]

/-- The loop body changes the map by at most one assignment, which does not
depend on the map. -/
theorem parsePart_frame (L : Lib) (part : Str) (search : SearchData) :
    parsePart L part search =
      (match parsePart L part [] with
      | .error e => .error e
      | .ok [] => .ok search
      | .ok (e :: _) => .ok (mapSet search e.1 e.2)) := by
  unfold parsePart
  simp only
  split_ifs with h1 h2 h3
  · cases hv : parseRawValues L (Split ((FindStringSubmatch (re2 L) part).getD 2 []) ',') [] none
        with
    | error e => rfl
    | ok values =>
      simp only
      split_ifs <;> rfl
  · rfl
  · rfl
  · rfl

/-- The loop body on a token that `ParseSearchString2` reads alone to a
non-empty map. -/
theorem parsePart_of_parse (L : Lib) {s : Str} (hne : s ≠ [])
    (hs : ∀ c ∈ s, isSpace c = false ∧ c ≠ quote) (e : Str × List SearchValue)
    (h : ParseSearchString2 L s = some ([e], none)) (search : SearchData) :
    parsePart L s search = .ok (mapSet search e.1 e.2) := by
  rw [ParseSearchString2_token L hne hs] at h
  rw [parsePart_frame]
  cases hp : parsePart L s [] with
  | error err =>
    rw [hp] at h
    simp at h
  | ok m =>
    rw [hp] at h
    simp only [Option.some.injEq, Prod.mk.injEq, and_true] at h
    subst h
    rfl

theorem foldable_no_dot {k : Str} (h : '.' ∉ k) : foldable k = false := by
  simp [foldable, Split_not_mem h]

theorem dottedUnfoldable_spec {k : Str} (h : dottedUnfoldable k = true) :
    foldable k = false ∧ '.' ∈ k := by
  have hmem : '.' ∈ k := by
    apply List.count_pos_iff.1
    simp only [dottedUnfoldable, Bool.or_eq_true, Bool.and_eq_true, decide_eq_true_eq] at h
    rcases h with h | ⟨h, _⟩ <;> omega
  refine ⟨?_, hmem⟩
  cases hf : foldable k with
  | false => rfl
  | true =>
    exfalso
    obtain ⟨o, i, rfl, _, ho, hi, hod, hid⟩ := (foldable_iff k).1 hf
    have hc : (o ++ '.' :: i).count '.' = 1 := by
      simp [List.count_append, count_not_mem hod, count_not_mem hid]
    simp only [dottedUnfoldable, hc, Bool.or_eq_true, Bool.and_eq_true, decide_eq_true_eq,
      beq_iff_eq] at h
    rcases h with h | ⟨_, h | h⟩
    · omega
    · cases o with
      | nil => exact ho rfl
      | cons a o' =>
        simp only [List.cons_append, List.head?_cons, Option.some.injEq] at h
        exact hod (by simp [h])
    · rcases List.eq_nil_or_concat i with h' | ⟨i', b, h'⟩
      · exact hi h'
      · rw [List.concat_eq_append] at h'
        subst h'
        have e : o ++ '.' :: (i' ++ [b]) = (o ++ '.' :: i') ++ [b] := by simp
        rw [e, List.getLast?_append] at h
        have hb : b = '.' := by simpa [Option.or] using h
        exact hid (by simp [hb])

/-- One pass of the first loop, seen from a flat key. -/
theorem foldEntry_flat_get (st : SearchData × List (Str × SearchData))
    (e : Str × List SearchValue) (k : Str) (hk : foldable k = false) :
    mapGet (foldEntry st e).1 k = if e.1 = k then some e.2 else mapGet st.1 k := by
  by_cases he : e.1 = k
  · have hf : foldable e.1 = false := by rw [he]; exact hk
    rw [foldEntry_not_foldable st e hf, if_pos he, he]
    exact mapGet_mapSet_self _ _ _
  · rw [if_neg he]
    cases hf : foldable e.1 with
    | false =>
      rw [foldEntry_not_foldable st e hf]
      exact mapGet_mapSet_ne _ _ (fun h => he h.symm)
    | true =>
      obtain ⟨o, i, hoi, _, ho, hi, hod, hid⟩ := (foldable_iff _).1 hf
      obtain ⟨k0, vals⟩ := e
      simp only at hoi
      subst hoi
      rw [foldEntry_foldable st o i vals ho hi hod hid]

theorem foldl_foldEntry_flat_frame (f : SearchData) (st : SearchData × List (Str × SearchData))
    (k : Str) (hk : foldable k = false) (hne : k ∉ keys f) :
    mapGet (f.foldl foldEntry st).1 k = mapGet st.1 k := by
  induction f generalizing st with
  | nil => rfl
  | cons e f ih =>
    simp only [keys, List.map_cons, List.mem_cons, not_or] at hne
    rw [List.foldl_cons, ih _ hne.2, foldEntry_flat_get st e k hk,
      if_neg (fun h => hne.1 h.symm)]

/-- After the first loop a key that does not pass the test of line 75 holds
in the new flat map the list it had. -/
theorem foldl_foldEntry_flat_get (f : SearchData) (st : SearchData × List (Str × SearchData))
    (k : Str) (vals : List SearchValue) (hk : foldable k = false) (hnd : (keys f).Nodup)
    (hget : mapGet f k = some vals) : mapGet (f.foldl foldEntry st).1 k = some vals := by
  induction f generalizing st with
  | nil => simp [mapGet, List.lookup] at hget
  | cons e f ih =>
    obtain ⟨k0, v0⟩ := e
    simp only [keys, List.map_cons, List.nodup_cons] at hnd
    rw [mapGet_cons] at hget
    rw [List.foldl_cons]
    by_cases h : k = k0
    · subst h
      simp only [if_true, Option.some.injEq] at hget
      subst hget
      rw [foldl_foldEntry_flat_frame f _ k hk hnd.1, foldEntry_flat_get st _ k hk]
      simp
    · simp only [h, if_false] at hget
      exact ih _ hnd.2 hget

theorem foldl_foldEntry_flat_mem (f : SearchData) (st : SearchData × List (Str × SearchData)) :
    ∀ e ∈ (f.foldl foldEntry st).1, e ∈ st.1 ∨ e ∈ f := by
  induction f generalizing st with
  | nil => intro e he; exact Or.inl he
  | cons e0 f ih =>
    intro e he
    rw [List.foldl_cons] at he
    rcases ih _ e he with h | h
    · unfold foldEntry at h
      simp only at h
      split_ifs at h
      · exact Or.inl h
      · rcases mem_mapSet _ _ _ _ h with h | h
        · exact Or.inl h
        · exact Or.inr (by simp [h])
    · exact Or.inr (by simp [h])

/-- Every group of the first loop stands under the outer name of a key of the
flat map that passes the test of line 75. -/
theorem foldl_foldEntry_group_outer (f : SearchData)
    (st : SearchData × List (Str × SearchData)) :
    ∀ o ∈ keys (f.foldl foldEntry st).2,
      o ∈ keys st.2 ∨ ∃ i, i ≠ [] ∧ '.' ∉ i ∧ o ++ '.' :: i ∈ keys f := by
  induction f generalizing st with
  | nil => intro o ho; exact Or.inl ho
  | cons e f ih =>
    intro o ho
    rw [List.foldl_cons] at ho
    rcases ih _ o ho with h | ⟨i, h1, h2, h3⟩
    · cases hf : foldable e.1 with
      | false =>
        rw [foldEntry_not_foldable st e hf] at h
        exact Or.inl h
      | true =>
        obtain ⟨o', i', hoi, _, ho', hi', hod', hid'⟩ := (foldable_iff _).1 hf
        obtain ⟨k0, vals⟩ := e
        simp only at hoi
        subst hoi
        rw [foldEntry_foldable st o' i' vals ho' hi' hod' hid'] at h
        rcases (mem_keys_mapSet _ _ _ _).1 h with h | h
        · subst h
          exact Or.inr ⟨i', hi', hid', by simp [keys]⟩
        · exact Or.inl h
    · exact Or.inr ⟨i, h1, h2, by
        simp only [keys, List.map_cons, List.mem_cons]
        exact Or.inr h3⟩

/-- Every nested field of a group of the first loop spells, with the outer
name, a key that passes the test of line 75. -/
theorem foldl_foldEntry_group_fields (f : SearchData)
    (st : SearchData × List (Str × SearchData))
    (hst : ∀ g ∈ st.2, ∀ i ∈ keys g.2, foldable (g.1 ++ '.' :: i) = true) :
    ∀ g ∈ (f.foldl foldEntry st).2, ∀ i ∈ keys g.2, foldable (g.1 ++ '.' :: i) = true := by
  induction f generalizing st with
  | nil => exact hst
  | cons e f ih =>
    rw [List.foldl_cons]
    refine ih _ ?_
    cases hf : foldable e.1 with
    | false =>
      rw [foldEntry_not_foldable st e hf]
      exact hst
    | true =>
      obtain ⟨o', i', hoi, _, ho', hi', hod', hid'⟩ := (foldable_iff _).1 hf
      obtain ⟨k0, vals⟩ := e
      simp only at hoi
      subst hoi
      rw [foldEntry_foldable st o' i' vals ho' hi' hod' hid']
      intro g hg i hi
      rcases mem_mapSet _ _ _ _ hg with hg | hg
      · exact hst g hg i hi
      · subst hg
        simp only at hi ⊢
        rcases (mem_keys_mapSet _ _ _ _).1 hi with hi | hi
        · subst hi
          exact hf
        · cases hm : mapGet st.2 o' with
          | none => rw [hm] at hi; simp [keys] at hi
          | some sub =>
            rw [hm] at hi
            exact hst _ (mapGet_mem _ _ _ hm) i hi

theorem foldl_nestEntry_mem (subs : List (Str × SearchData)) (s2 : SearchData) :
    ∀ e ∈ subs.foldl nestEntry s2,
      e ∈ s2 ∨ ∃ g ∈ subs, e = (g.1, [⟨SearchSymbolSearch, .searchData g.2, .nil⟩]) := by
  induction subs generalizing s2 with
  | nil => intro e he; exact Or.inl he
  | cons g subs ih =>
    intro e he
    rw [List.foldl_cons] at he
    rcases ih _ e he with h | ⟨g', hg', h⟩
    · rcases mem_mapSet _ _ _ _ h with h | h
      · exact Or.inl h
      · exact Or.inr ⟨g, by simp, h⟩
    · exact Or.inr ⟨g', by simp [hg'], h⟩

/-- The folder keeps a key that does not pass the test of line 75 and is not
the outer name of a key that passes it. -/
theorem foldSearch_flat (f : SearchData) (hnd : (keys f).Nodup) (k : Str)
    (vals : List SearchValue) (hk : foldable k = false)
    (hout : ∀ i, i ≠ [] → '.' ∉ i → k ++ '.' :: i ∉ keys f)
    (hget : mapGet f k = some vals) : mapGet (foldSearch f) k = some vals := by
  unfold foldSearch
  simp only
  rw [foldl_nestEntry_frame]
  · exact foldl_foldEntry_flat_get f ([], []) k vals hk hnd hget
  · intro hmem
    rcases foldl_foldEntry_group_outer f ([], []) k hmem with h | ⟨i, h1, h2, h3⟩
    · simp [keys] at h
    · exact hout i h1 h2 h3

/-- Every nested-search predicate of a fold of comparison predicates is a
group whose nested fields spell, with its key, keys that pass the test of
line 75. -/
theorem foldSearch_groups (f : SearchData) (hf : ∀ e ∈ f, parsedEntry e) (o : Str)
    (sub : SearchData) (v2 : Any)
    (hget : mapGet (foldSearch f) o = some [⟨SearchSymbolSearch, .searchData sub, v2⟩]) :
    ∀ i ∈ keys sub, foldable (o ++ '.' :: i) = true := by
  have hmem := mapGet_mem _ _ _ hget
  unfold foldSearch at hmem
  simp only at hmem
  rcases foldl_nestEntry_mem _ _ _ hmem with h | ⟨g, hg, h⟩
  · exfalso
    rcases foldl_foldEntry_flat_mem f ([], []) _ h with h | h
    · simp at h
    · have hs : SearchSymbolSearch ∈ comparisonSymbols :=
        (hf _ h).2 ⟨SearchSymbolSearch, .searchData sub, v2⟩ (by simp)
      revert hs
      decide
  · simp only [Prod.mk.injEq, List.cons.injEq, SearchValueOf.mk.injEq, Any.searchData.injEq,
      true_and, and_true] at h
    obtain ⟨h1, h2, _⟩ := h
    subst h1 h2
    exact foldl_foldEntry_group_fields f ([], []) (by simp) g hg

theorem ParseSearchString2_parts (L : Lib) (text : Str) (parts : List Str)
    (h : splitSearchString text = some parts) :
    ParseSearchString2 L text = some (parseParts L parts []) := by
  simp [ParseSearchString2, h]

/-- The loop over the tokens, at a token that `ParseSearchString2` reads alone
to one entry. -/
theorem parseParts_cons (L : Lib) {s : Str} (rest : List Str) (search : SearchData)
    (hne : s ≠ []) (hs : ∀ c ∈ s, isSpace c = false ∧ c ≠ quote) (e : Str × List SearchValue)
    (h : ParseSearchString2 L s = some ([e], none)) :
    parseParts L (s :: rest) search = parseParts L rest (mapSet search e.1 e.2) := by
  simp only [parseParts, hne, if_false, parsePart_of_parse L hne hs e h search]

/-- The loop over the tokens, at a bare key. -/
theorem parseParts_bare (L : Lib) {k : Str} (rest : List Str) (search : SearchData)
    (hk : isFieldName k = true) :
    parseParts L (k :: rest) search = parseParts L rest (mapSet search k []) := by
  have hne : k ≠ [] := by
    rintro rfl
    simp [isFieldName] at hk
  simp only [parseParts, hne, if_false, parsePart_bare L k search hk]

theorem parse_word (L : Lib) (k w : Str) (hk : isFieldName k = true)
    (hw : ∀ c ∈ w, isLetter c = true) :
    ParseSearchString2 L (k ++ ':' :: w) = some ([(k, [⟨SearchSymbolEq, .str w, .nil⟩])], none) := by
  obtain ⟨h1, h2, h3, h4⟩ := word_untyped hw
  refine ParseSearchString2_raw L k w hk ?_ ?_ h1 h2 h3 h4
  · intro c hc
    have := hw c hc
    simp only [isLetter, Bool.or_eq_true] at this
    simp only [valAscii, Bool.or_eq_true]
    tauto
  · intro hc
    have := hw _ hc
    revert this
    decide

theorem parse_int (L : Lib) (k n : Str) (hk : isFieldName k = true) (hn : isDigits n = true)
    (hn' : decimal n < 2 ^ 63) :
    ParseSearchString2 L (k ++ ':' :: n) =
      some ([(k, [⟨SearchSymbolEq, .int64 (decimal n), .nil⟩])], none) := by
  have h := ParseSearchString2_op_int L k [] n hk (by decide) hn hn'
  simpa using h

theorem parse_tags_x (L : Lib) :
    ParseSearchString2 L "tags:x".toList =
      some ([("tags".toList, [⟨SearchSymbolEq, .str "x".toList, .nil⟩])], none) :=
  parse_word L "tags".toList "x".toList (by decide) (by decide)

theorem parse_tags_color (L : Lib) :
    ParseSearchString2 L "tags.color:red".toList =
      some ([("tags.color".toList, [⟨SearchSymbolEq, .str "red".toList, .nil⟩])], none) :=
  parse_word L "tags.color".toList "red".toList (by decide) (by decide)

theorem parse_age_18 (L : Lib) :
    ParseSearchString2 L "age:18".toList =
      some ([("age".toList, [⟨SearchSymbolEq, .int64 18, .nil⟩])], none) :=
  parse_int L "age".toList "18".toList (by decide) (by decide) (by decide)

/-- The flat mapping of `tags:x tags.color:red`. -/
theorem parse_tags_x_color (L : Lib) :
    ParseSearchString2 L "tags:x tags.color:red".toList =
      some ([("tags".toList, [⟨SearchSymbolEq, .str "x".toList, .nil⟩]),
        ("tags.color".toList, [⟨SearchSymbolEq, .str "red".toList, .nil⟩])], none) := by
  rw [ParseSearchString2_parts L _ ["tags:x".toList, "tags.color:red".toList] (by decide),
    parseParts_cons L _ _ (by decide) (by decide) _ (parse_tags_x L),
    parseParts_cons L _ _ (by decide) (by decide) _ (parse_tags_color L)]
  rfl

/-- The flat mapping of `age:18 tags.color:red`. -/
theorem parse_age_color (L : Lib) :
    ParseSearchString2 L "age:18 tags.color:red".toList =
      some ([("age".toList, [⟨SearchSymbolEq, .int64 18, .nil⟩]),
        ("tags.color".toList, [⟨SearchSymbolEq, .str "red".toList, .nil⟩])], none) := by
  rw [ParseSearchString2_parts L _ ["age:18".toList, "tags.color:red".toList] (by decide),
    parseParts_cons L _ _ (by decide) (by decide) _ (parse_age_18 L),
    parseParts_cons L _ _ (by decide) (by decide) _ (parse_tags_color L)]
  rfl

/-- The flat mapping of `a.b.c:1 .a:2 a.:3`. -/
theorem parse_dotted_keys (L : Lib) :
    ParseSearchString2 L "a.b.c:1 .a:2 a.:3".toList =
      some ([("a.b.c".toList, [⟨SearchSymbolEq, .int64 1, .nil⟩]),
        (".a".toList, [⟨SearchSymbolEq, .int64 2, .nil⟩]),
        ("a.".toList, [⟨SearchSymbolEq, .int64 3, .nil⟩])], none) := by
  have p1 : ParseSearchString2 L "a.b.c:1".toList =
      some ([("a.b.c".toList, [⟨SearchSymbolEq, .int64 1, .nil⟩])], none) :=
    parse_int L "a.b.c".toList "1".toList (by decide) (by decide) (by decide)
  have p2 : ParseSearchString2 L ".a:2".toList =
      some ([(".a".toList, [⟨SearchSymbolEq, .int64 2, .nil⟩])], none) :=
    parse_int L ".a".toList "2".toList (by decide) (by decide) (by decide)
  have p3 : ParseSearchString2 L "a.:3".toList =
      some ([("a.".toList, [⟨SearchSymbolEq, .int64 3, .nil⟩])], none) :=
    parse_int L "a.".toList "3".toList (by decide) (by decide) (by decide)
  rw [ParseSearchString2_parts L _ ["a.b.c:1".toList, ".a:2".toList, "a.:3".toList] (by decide),
    parseParts_cons L _ _ (by decide) (by decide) _ p1,
    parseParts_cons L _ _ (by decide) (by decide) _ p2,
    parseParts_cons L _ _ (by decide) (by decide) _ p3]
  rfl

/-- C25, as the code has it: for every query that `ParseSearchString2` parses to
the flat mapping `f`, every key `k` of `f` without a dot that is not the outer
name of a dotted key `k.i` of `f` (`i` not empty and without a dot) is present in
the result of `ParseSearchString` with exactly the predicate list it has in `f`. -/
theorem C25_flat_keys_kept (L : Lib) (text : Str) (f : SearchData)
    (hf : ParseSearchString2 L text = some (f, none)) (k : Str) (vals : List SearchValue)
    (hk : '.' ∉ k) (hget : mapGet f k = some vals)
    (hout : ∀ i, i ≠ [] → '.' ∉ i → k ++ '.' :: i ∉ keys f) :
    ∃ g, ParseSearchString L text = some (g, none) ∧ mapGet g k = some vals := by
  refine ⟨foldSearch f, by simp [ParseSearchString, hf], ?_⟩
  exact foldSearch_flat f (ParseSearchString2_nodup L text f none hf) k vals
    (foldable_no_dot hk) hout hget

/-- C25, as amended, at `age:18 tags.color:red` and the key `age`. -/
theorem C25_flat_keys_kept_witness :
    ('.' ∉ "age".toList ∧
      ∀ i : Str, i ≠ [] → '.' ∉ i → "age".toList ++ '.' :: i ∉
        keys [("age".toList, [(⟨SearchSymbolEq, .int64 18, .nil⟩ : SearchValue)]),
          ("tags.color".toList, [⟨SearchSymbolEq, .str "red".toList, .nil⟩])]) ∧
    ∀ L : Lib,
      ParseSearchString2 L "age:18 tags.color:red".toList =
        some ([("age".toList, [⟨SearchSymbolEq, .int64 18, .nil⟩]),
          ("tags.color".toList, [⟨SearchSymbolEq, .str "red".toList, .nil⟩])], none) ∧
      ∃ g, ParseSearchString L "age:18 tags.color:red".toList = some (g, none) ∧
        mapGet g "age".toList = some [⟨SearchSymbolEq, .int64 18, .nil⟩] := by
  have hout : ∀ i : Str, i ≠ [] → '.' ∉ i → "age".toList ++ '.' :: i ∉
      keys [("age".toList, [(⟨SearchSymbolEq, .int64 18, .nil⟩ : SearchValue)]),
        ("tags.color".toList, [⟨SearchSymbolEq, .str "red".toList, .nil⟩])] := by
    intro i _ _ h
    simp [keys] at h
  refine ⟨⟨by decide, hout⟩, fun L => ⟨parse_age_color L, ?_⟩⟩
  exact C25_flat_keys_kept L _ _ (parse_age_color L) "age".toList _ (by decide) rfl hout

/-- C25 fails as stated: in `tags:x tags.color:red` the key `tags` has no dot,
and the result of `ParseSearchString` does not hold under `tags` the list of the
flat mapping. -/
theorem C25_counterexample :
    ¬ ∀ (L : Lib) (f g : SearchData) (k : Str) (vals : List SearchValue),
      ParseSearchString2 L "tags:x tags.color:red".toList = some (f, none) →
      ParseSearchString L "tags:x tags.color:red".toList = some (g, none) →
      '.' ∉ k → mapGet f k = some vals → mapGet g k = some vals := by
  intro h
  obtain ⟨L⟩ := Lib_nonempty
  have hg : ParseSearchString L "tags:x tags.color:red".toList =
      some ([("tags".toList, [⟨SearchSymbolSearch,
        .searchData [("color".toList, [⟨SearchSymbolEq, .str "red".toList, .nil⟩])], .nil⟩])],
        none) := by
    rw [ParseSearchString, parse_tags_x_color L]
    rfl
  have := h L _ _ "tags".toList [⟨SearchSymbolEq, .str "x".toList, .nil⟩]
    (parse_tags_x_color L) hg (by decide) rfl
  have hs := congrArg (fun r => r.map (fun l => l.map (fun v => v.Symbol))) this
  revert hs
  decide

/-- C26: for every query that `ParseSearchString2` parses to the flat mapping
`f` and every key `k` of `f` with two or more dots, or with one dot and an empty
side, the result of `ParseSearchString` holds under `k` exactly the predicate
list `k` has in `f`, and no nested-search group of the result has an outer name
and a nested field that spell `k`. -/
theorem C26_fold_one_level (L : Lib) (text : Str) (f : SearchData)
    (hf : ParseSearchString2 L text = some (f, none)) (k : Str) (vals : List SearchValue)
    (hk : dottedUnfoldable k = true) (hget : mapGet f k = some vals) :
    ∃ g, ParseSearchString L text = some (g, none) ∧ mapGet g k = some vals ∧
      ∀ o sub v2, mapGet g o = some [⟨SearchSymbolSearch, .searchData sub, v2⟩] →
        ∀ i ∈ keys sub, o ++ '.' :: i ≠ k := by
  obtain ⟨hfold, hdot⟩ := dottedUnfoldable_spec hk
  refine ⟨foldSearch f, by simp [ParseSearchString, hf], ?_, ?_⟩
  · have hgk := foldl_foldEntry_group_keys f ([], []) ⟨by simp [keys], by simp [keys]⟩
    unfold foldSearch
    simp only
    rw [foldl_nestEntry_frame _ _ _ (fun hmem => hgk.2 k hmem hdot)]
    exact foldl_foldEntry_flat_get f ([], []) k vals hfold
      (ParseSearchString2_nodup L text f none hf) hget
  · intro o sub v2 hg i hi heq
    have := foldSearch_groups f (ParseSearchString2_parsed L text f none hf) o sub v2 hg i hi
    rw [heq, hfold] at this
    cases this

/-- C26 at `a.b.c:1 .a:2 a.:3`: the three keys stay flat with their lists. -/
theorem C26_fold_one_level_witness :
    (dottedUnfoldable "a.b.c".toList = true ∧ dottedUnfoldable ".a".toList = true ∧
      dottedUnfoldable "a.".toList = true) ∧
    ∀ L : Lib,
      ParseSearchString2 L "a.b.c:1 .a:2 a.:3".toList =
        some ([("a.b.c".toList, [⟨SearchSymbolEq, .int64 1, .nil⟩]),
          (".a".toList, [⟨SearchSymbolEq, .int64 2, .nil⟩]),
          ("a.".toList, [⟨SearchSymbolEq, .int64 3, .nil⟩])], none) ∧
      ∃ g, ParseSearchString L "a.b.c:1 .a:2 a.:3".toList = some (g, none) ∧
        mapGet g "a.b.c".toList = some [⟨SearchSymbolEq, .int64 1, .nil⟩] ∧
        mapGet g ".a".toList = some [⟨SearchSymbolEq, .int64 2, .nil⟩] ∧
        mapGet g "a.".toList = some [⟨SearchSymbolEq, .int64 3, .nil⟩] := by
  refine ⟨by decide, fun L => ⟨parse_dotted_keys L, ?_⟩⟩
  obtain ⟨g, hg, h1, _⟩ := C26_fold_one_level L _ _ (parse_dotted_keys L) "a.b.c".toList _
    (by decide) rfl
  obtain ⟨g2, hg2, h2, _⟩ := C26_fold_one_level L _ _ (parse_dotted_keys L) ".a".toList _
    (by decide) rfl
  obtain ⟨g3, hg3, h3, _⟩ := C26_fold_one_level L _ _ (parse_dotted_keys L) "a.".toList _
    (by decide) rfl
  rw [hg] at hg2 hg3
  cases hg2
  cases hg3
  exact ⟨g, hg, h1, h2, h3⟩

/-- The flat mapping of `name age:18..30`. -/
theorem parse_name_age_range (L : Lib) :
    ParseSearchString2 L "name age:18..30".toList =
      some ([("name".toList, []),
        ("age".toList, [⟨SearchSymbolRange, .int64 18, .int64 30⟩])], none) := by
  have p : ParseSearchString2 L "age:18..30".toList =
      some ([("age".toList, [⟨SearchSymbolRange, .int64 18, .int64 30⟩])], none) := by
    have h := parse_int_range L "age".toList "18".toList "30".toList (by decide) (by decide)
      (by decide) (by decide) (by decide)
    have e1 : decimal "18".toList = 18 := by decide
    have e2 : decimal "30".toList = 30 := by decide
    rw [e1, e2] at h
    exact h
  rw [ParseSearchString2_parts L _ ["name".toList, "age:18..30".toList] (by decide),
    parseParts_bare L _ _ (by decide),
    parseParts_cons L _ _ (by decide) (by decide) _ p]
  rfl

/-- C27 at `name age:18..30`: the bare key `name` has the empty list, the
predicate of `age` has the operator range and both values. -/
theorem C27_result_invariants_witness :
    (∀ L : Lib, ParseSearchString2 L "name age:18..30".toList =
      some ([("name".toList, []),
        ("age".toList, [⟨SearchSymbolRange, .int64 18, .int64 30⟩])], none)) ∧
    ∀ L : Lib, ∀ k vals, (k, vals) ∈ [("name".toList, ([] : List SearchValue)),
        ("age".toList, [⟨SearchSymbolRange, .int64 18, .int64 30⟩])] →
      (vals = [] → MatchString (re1 L) k = true) ∧
      ∀ v ∈ vals, v.Symbol ∈ comparisonSymbols ∧ v.Symbol ≠ SearchSymbolNone ∧
        v.Symbol ≠ SearchSymbolSearch ∧ (v.Value2 ≠ .nil → v.Symbol = SearchSymbolRange) :=
  ⟨parse_name_age_range, fun L => C27_result_invariants L _ _ (parse_name_age_range L)⟩

/-- The flat mapping of `age:18 name`. -/
theorem parse_age_name (L : Lib) :
    ParseSearchString2 L "age:18 name".toList =
      some ([("age".toList, [⟨SearchSymbolEq, .int64 18, .nil⟩]), ("name".toList, [])],
        none) := by
  rw [ParseSearchString2_parts L _ ["age:18".toList, "name".toList] (by decide),
    parseParts_cons L _ _ (by decide) (by decide) _ (parse_age_18 L),
    parseParts_bare L _ _ (by decide)]
  rfl

/-- The flat mapping of `age:18 tags.color`. -/
theorem parse_age_bare_dotted (L : Lib) :
    ParseSearchString2 L "age:18 tags.color".toList =
      some ([("age".toList, [⟨SearchSymbolEq, .int64 18, .nil⟩]), ("tags.color".toList, [])],
        none) := by
  rw [ParseSearchString2_parts L _ ["age:18".toList, "tags.color".toList] (by decide),
    parseParts_cons L _ _ (by decide) (by decide) _ (parse_age_18 L),
    parseParts_bare L _ _ (by decide)]
  rfl

/-- C22 at `age:18` with the bare keys `name` and `tags.color`: with `name`
added the string backend returns the clause and the argument of `age:18`; with
the dotted `tags.color` added, `ParseSearchString` folds the bare key into the
group `{tags: [search {color: nil}]}`, the recursive call of the string backend
on the empty rewritten map returns `no valid search conditions`, and the whole
call returns that error and no clause, while the mutation backend on the same
mapping issues the one call `Where("age = ?", 18)`. -/
theorem C22_dotted_bare_key (L : Lib) :
    (ParseSearchString L "age:18".toList =
        some ([("age".toList, [⟨SearchSymbolEq, .int64 18, .nil⟩])], none) ∧
      WhereString L [("age".toList, [⟨SearchSymbolEq, .int64 18, .nil⟩])] none =
        some ("(age = ?)".toList, [.int64 18], none)) ∧
    (ParseSearchString L "age:18 name".toList =
        some ([("age".toList, [⟨SearchSymbolEq, .int64 18, .nil⟩]), ("name".toList, [])],
          none) ∧
      WhereString L [("age".toList, [⟨SearchSymbolEq, .int64 18, .nil⟩]), ("name".toList, [])]
        none = some ("(age = ?)".toList, [.int64 18], none)) ∧
    (ParseSearchString L "age:18 tags.color".toList =
        some ([("age".toList, [⟨SearchSymbolEq, .int64 18, .nil⟩]),
          ("tags".toList, [⟨SearchSymbolSearch, .searchData [("color".toList, [])], .nil⟩])],
          none) ∧
      WhereString L [("age".toList, [⟨SearchSymbolEq, .int64 18, .nil⟩]),
          ("tags".toList, [⟨SearchSymbolSearch, .searchData [("color".toList, [])], .nil⟩])]
        none = some ([], [], some errNoConditions) ∧
      SearchDB L [("age".toList, [⟨SearchSymbolEq, .int64 18, .nil⟩]),
          ("tags".toList, [⟨SearchSymbolSearch, .searchData [("color".toList, [])], .nil⟩])]
        [] none = some [⟨"age = ?".toList, [.val (.int64 18)]⟩]) := by
  refine ⟨⟨?_, rfl⟩, ⟨?_, rfl⟩, ⟨?_, rfl, rfl⟩⟩
  · rw [ParseSearchString, parse_age_18 L]
    rfl
  · rw [ParseSearchString, parse_age_name L]
    rfl
  · rw [ParseSearchString, parse_age_bare_dotted L]
    rfl

theorem wrapInt_id {x : Int} (h1 : -(2 ^ 63) ≤ x) (h2 : x < 2 ^ 63) : wrapInt x = x := by
  unfold wrapInt
  rw [Int.emod_eq_of_lt (by omega) (by omega)]
  omega

/-- The number of pages is the ceiling of `total / pageSize`. -/
theorem totalPage_ceil (total pageSize : Int) (hp : 0 < pageSize) :
    ((total + pageSize - 1) / pageSize - 1) * pageSize < total ∧
      total ≤ (total + pageSize - 1) / pageSize * pageSize := by
  have h1 := Int.ediv_mul_le (total + pageSize - 1) (ne_of_gt hp)
  have h2 := Int.lt_ediv_add_one_mul_self (total + pageSize - 1) hp
  constructor
  · nlinarith
  · nlinarith

theorem totalPage_eq (total pageSize : Int) (hp : 0 < pageSize) (ht : 0 ≤ total)
    (hsum : total + pageSize < 2 ^ 63) :
    quoInt (wrapInt (wrapInt (total + pageSize) - 1)) pageSize =
      (total + pageSize - 1) / pageSize := by
  have hq := totalPage_ceil total pageSize hp
  have hq0 : 0 ≤ (total + pageSize - 1) / pageSize := Int.ediv_nonneg (by omega) (by omega)
  have hqle : (total + pageSize - 1) / pageSize ≤ total + pageSize - 1 :=
    Int.ediv_le_self _ (by omega)
  rw [wrapInt_id (by omega) hsum, wrapInt_id (by omega) (by omega), quoInt,
    Int.tdiv_eq_ediv (by omega) (by omega), wrapInt_id (by omega) (by omega)]

theorem pageUsed_bounds (total page pageSize : Int) (hp : 0 < pageSize) (ht : 0 ≤ total) :
    1 ≤ pageUsed total page pageSize ∧
      pageUsed total page pageSize ≤ max 1 ((total + pageSize - 1) / pageSize) ∧
      0 ≤ (pageUsed total page pageSize - 1) * pageSize ∧
      (pageUsed total page pageSize - 1) * pageSize ≤ total ∧
      (0 < total → (pageUsed total page pageSize - 1) * pageSize < total) := by
  obtain ⟨h1, h2⟩ := totalPage_ceil total pageSize hp
  have hq0 : 0 ≤ (total + pageSize - 1) / pageSize := Int.ediv_nonneg (by omega) (by omega)
  have hu1 : 1 ≤ pageUsed total page pageSize := le_max_left _ _
  have hu2 : pageUsed total page pageSize ≤ max 1 ((total + pageSize - 1) / pageSize) :=
    max_le_max (le_refl _) (min_le_right _ _)
  have hoff : 0 ≤ (pageUsed total page pageSize - 1) * pageSize :=
    Int.mul_nonneg (by omega) (by omega)
  have hle : (0 < total → (pageUsed total page pageSize - 1) * pageSize < total) ∧
      (pageUsed total page pageSize - 1) * pageSize ≤ total := by
    rcases le_or_lt ((total + pageSize - 1) / pageSize) 1 with hq | hq
    · have : pageUsed total page pageSize = 1 := by
        have := max_eq_left hq
        rw [this] at hu2
        omega
      rw [this]
      constructor
      · intro h; omega
      · omega
    · have : pageUsed total page pageSize ≤ (total + pageSize - 1) / pageSize := by
        rw [max_eq_right (le_of_lt hq)] at hu2
        exact hu2
      have hmul : (pageUsed total page pageSize - 1) * pageSize ≤
          ((total + pageSize - 1) / pageSize - 1) * pageSize :=
        Int.mul_le_mul_of_nonneg_right (by omega) (by omega)
      constructor
      · intro _; omega
      · omega
  exact ⟨hu1, hu2, hoff, hle.2, hle.1⟩

/-- The page of the two blocks is `pageUsed`. -/
theorem clamp_eq (page q : Int) :
    (if (if page > q then q else page) < 1 then 1 else (if page > q then q else page)) =
      max 1 (min page q) := by
  by_cases h1 : page > q
  · rw [if_pos h1, min_eq_right (le_of_lt h1)]
    by_cases h2 : q < 1
    · rw [if_pos h2, max_eq_left (le_of_lt h2)]
    · rw [if_neg h2, max_eq_right (by omega)]
  · rw [if_neg h1, min_eq_left (by omega)]
    by_cases h2 : page < 1
    · rw [if_pos h2, max_eq_left (le_of_lt h2)]
    · rw [if_neg h2, max_eq_right (by omega)]

theorem offset_eq (total page pageSize : Int) (hp : 0 < pageSize) (ht : 0 ≤ total)
    (hsum : total + pageSize < 2 ^ 63) :
    wrapInt (wrapInt (pageUsed total page pageSize - 1) * pageSize) =
      (pageUsed total page pageSize - 1) * pageSize := by
  obtain ⟨h1, h2, h3, h4, _⟩ := pageUsed_bounds total page pageSize hp ht
  have hq := totalPage_ceil total pageSize hp
  have hqle : (total + pageSize - 1) / pageSize ≤ total + pageSize - 1 :=
    Int.ediv_le_self _ (by omega)
  have hu : pageUsed total page pageSize ≤ 2 ^ 63 - 1 := by
    rcases le_max_iff.1 (le_trans h2 (le_refl _)) with h | h <;> omega
  have hin : wrapInt (pageUsed total page pageSize - 1) = pageUsed total page pageSize - 1 :=
    wrapInt_id (by omega) (by omega)
  rw [hin, wrapInt_id (by omega) (by omega)]

/-- The paging block of the query-builder helper, on inputs without overflow. -/
theorem paging_db (total page pageSize : Int) (hp : 0 < pageSize) (ht : 0 ≤ total)
    (hsum : total + pageSize < 2 ^ 63) :
    appendToListParamsToDBWithHandlers_paging total page pageSize =
      some ⟨(pageUsed total page pageSize - 1) * pageSize, pageSize⟩ := by
  simp only [appendToListParamsToDBWithHandlers_paging, gt_iff_lt, hp, if_true,
    totalPage_eq total pageSize hp ht hsum]
  have e := clamp_eq page ((total + pageSize - 1) / pageSize)
  simp only [gt_iff_lt] at e
  rw [e]
  have := offset_eq total page pageSize hp ht hsum
  unfold pageUsed at this
  rw [this]
  rfl

/-- The paging block of the string helper, on inputs without overflow. -/
theorem paging_string (w : Str) (total page pageSize : Int) (hp : 0 < pageSize)
    (ht : 0 ≤ total) (hsum : total + pageSize < 2 ^ 63) :
    getListParamsToStringWithHandlers_paging w total page pageSize =
      w ++ " offset ".toList ++ formatInt ((pageUsed total page pageSize - 1) * pageSize) ++
        " limit ".toList ++ formatInt pageSize := by
  simp only [getListParamsToStringWithHandlers_paging, gt_iff_lt, hp, if_true,
    totalPage_eq total pageSize hp ht hsum]
  have e := clamp_eq page ((total + pageSize - 1) / pageSize)
  simp only [gt_iff_lt] at e
  rw [e]
  have := offset_eq total page pageSize hp ht hsum
  unfold pageUsed at this
  rw [this]
  rfl

/-- C33: for every `pageSize > 0`, every `total >= 0` with `total + pageSize`
below `2^63`, and every requested `page`, both list helpers use the same page
`p` (the requested page cut down to the number of pages and raised to 1): the
query-builder helper calls `Offset((p - 1) * pageSize)` and `Limit(pageSize)`,
the string helper appends ` offset (p - 1) * pageSize limit pageSize`; `p`
satisfies `1 <= p <= max(1, n)` where `n = (total + pageSize - 1) / pageSize` is
the ceiling of `total / pageSize`; the offset is not negative, and it is below
`total` when `total > 0`. -/
theorem C33_page_clamping (w : Str) (total page pageSize : Int) (hp : 0 < pageSize)
    (ht : 0 ≤ total) (hsum : total + pageSize < 2 ^ 63) :
    appendToListParamsToDBWithHandlers_paging total page pageSize =
        some ⟨(pageUsed total page pageSize - 1) * pageSize, pageSize⟩ ∧
    getListParamsToStringWithHandlers_paging w total page pageSize =
        w ++ " offset ".toList ++ formatInt ((pageUsed total page pageSize - 1) * pageSize) ++
          " limit ".toList ++ formatInt pageSize ∧
    1 ≤ pageUsed total page pageSize ∧
    pageUsed total page pageSize ≤ max 1 ((total + pageSize - 1) / pageSize) ∧
    (((total + pageSize - 1) / pageSize - 1) * pageSize < total ∧
      total ≤ (total + pageSize - 1) / pageSize * pageSize) ∧
    0 ≤ (pageUsed total page pageSize - 1) * pageSize ∧
    (0 < total → (pageUsed total page pageSize - 1) * pageSize < total) := by
  obtain ⟨h1, h2, h3, _, h5⟩ := pageUsed_bounds total page pageSize hp ht
  exact ⟨paging_db total page pageSize hp ht hsum, paging_string w total page pageSize hp ht hsum,
    h1, h2, totalPage_ceil total pageSize hp, h3, h5⟩

/-- C33 at 25 rows in pages of 10: the requested page 7 becomes page 3, the
requested page -4 becomes page 1. -/
theorem C33_page_clamping_witness :
    ((0 : Int) < 10 ∧ (0 : Int) ≤ 25 ∧ (25 : Int) + 10 < 2 ^ 63) ∧
    appendToListParamsToDBWithHandlers_paging 25 7 10 = some ⟨20, 10⟩ ∧
    getListParamsToStringWithHandlers_paging "a = ?".toList 25 7 10 =
      "a = ? offset 20 limit 10".toList ∧
    appendToListParamsToDBWithHandlers_paging 25 (-4) 10 = some ⟨0, 10⟩ ∧
    getListParamsToStringWithHandlers_paging "a = ?".toList 25 (-4) 10 =
      "a = ? offset 0 limit 10".toList := by
  have h := C33_page_clamping "a = ?".toList 25 7 10 (by decide) (by decide) (by decide)
  have h' := C33_page_clamping "a = ?".toList 25 (-4) 10 (by decide) (by decide) (by decide)
  have e : pageUsed 25 7 10 = 3 := by decide
  have e' : pageUsed 25 (-4) 10 = 1 := by decide
  rw [e] at h
  rw [e'] at h'
  refine ⟨by decide, h.1, ?_, h'.1, ?_⟩
  · rw [h.2.1]; decide
  · rw [h'.2.1]; decide

/-- The loop of `splitSearchString` makes the pass `splitPass` and goes on
from the position that pass returns. -/
theorem splitLoop_pass (text : Str) (fuel start : Nat) (parts : List Str) :
    splitLoop text (fuel + 1) start parts =
      (match (splitPass text start).next with
      | none => some (parts ++ (splitPass text start).token.toList)
      | some s => splitLoop text fuel s (parts ++ (splitPass text start).token.toList)) := by
  cases hs : Index (text.drop start) ' ' with
  | none =>
    cases hq : Index (text.drop start) quote with
    | none => simp [splitLoop, splitPass, hs, hq]
    | some qi =>
      cases hn : Index (text.drop (start + qi + 1)) quote with
      | none => simp [splitLoop, splitPass, hs, hq, hn]
      | some nq => simp [splitLoop, splitPass, hs, hq, hn]
  | some si =>
    cases hq : Index (text.drop start) quote with
    | none => simp [splitLoop, splitPass, hs, hq]
    | some qi =>
      by_cases hlt : si < qi
      · simp [splitLoop, splitPass, hs, hq, hlt]
      · cases hn : Index (text.drop (start + qi + 1)) quote with
        | none => simp [splitLoop, splitPass, hs, hq, hn, hlt]
        | some nq => simp [splitLoop, splitPass, hs, hq, hn, hlt]

/-- A pass from a position within the text evaluates slice expressions within
bounds only, and when the loop goes on the new position is greater and still
within the text. -/
theorem splitPass_bounds (text : Str) (start : Nat) (h : start ≤ text.length) :
    (∀ b ∈ (splitPass text start).slices, b.1 ≤ b.2 ∧ b.2 ≤ text.length) ∧
      ∀ s, (splitPass text start).next = some s → start < s ∧ s ≤ text.length := by
  have hlen : (text.drop start).length = text.length - start := by simp
  have hspace : ∀ si, Index (text.drop start) ' ' = some si → start + si + 1 ≤ text.length := by
    intro si hsi
    have := Index_lt hsi
    omega
  have hquote : ∀ qi, Index (text.drop start) quote = some qi →
      start + qi + 1 ≤ text.length := by
    intro qi hqi
    have := Index_lt hqi
    omega
  have hnext : ∀ qi nq, Index (text.drop start) quote = some qi →
      Index (text.drop (start + qi + 1)) quote = some nq →
      start + qi + nq + 2 ≤ text.length := by
    intro qi nq hqi hnq
    have h1 := Index_lt hqi
    have h2 := Index_lt hnq
    have : (text.drop (start + qi + 1)).length = text.length - (start + qi + 1) := by simp
    omega
  cases hs : Index (text.drop start) ' ' with
  | none =>
    cases hq : Index (text.drop start) quote with
    | none =>
      simp only [splitPass, hs, hq]
      refine ⟨?_, fun s hs' => by cases hs'⟩
      intro b hb
      simp only [List.mem_cons, List.mem_singleton, List.not_mem_nil, or_false, or_self] at hb
      subst hb
      exact ⟨h, le_refl _⟩
    | some qi =>
      have hq1 := hquote qi hq
      cases hn : Index (text.drop (start + qi + 1)) quote with
      | none =>
        simp only [splitPass, hs, hq, hn]
        refine ⟨?_, fun s hs' => by cases hs'⟩
        intro b hb
        simp only [List.mem_cons, List.mem_singleton, List.not_mem_nil, or_false] at hb
        rcases hb with rfl | rfl | rfl
        · exact ⟨h, le_refl _⟩
        · exact ⟨h, le_refl _⟩
        · exact ⟨hq1, le_refl _⟩
      | some nq =>
        have hq2 := hnext qi nq hq hn
        simp only [splitPass, hs, hq, hn]
        refine ⟨?_, ?_⟩
        · intro b hb
          simp only [List.mem_cons, List.mem_singleton, List.not_mem_nil, or_false] at hb
          rcases hb with rfl | rfl | rfl | rfl
          · exact ⟨h, le_refl _⟩
          · exact ⟨h, le_refl _⟩
          · exact ⟨hq1, le_refl _⟩
          · exact ⟨by simp only; omega, by simp only; omega⟩
        · intro s hs'
          simp only [Option.some.injEq] at hs'
          omega
  | some si =>
    have hs1 := hspace si hs
    have onSpace : (∀ b ∈ [(start, text.length), (start, text.length), (start, start + si)],
        b.1 ≤ b.2 ∧ b.2 ≤ text.length) ∧
        ∀ s, some (start + si + 1) = some s → start < s ∧ s ≤ text.length := by
      refine ⟨?_, ?_⟩
      · intro b hb
        simp only [List.mem_cons, List.mem_singleton, List.not_mem_nil, or_false] at hb
        rcases hb with rfl | rfl | rfl
        · exact ⟨h, le_refl _⟩
        · exact ⟨h, le_refl _⟩
        · exact ⟨by simp only; omega, by simp only; omega⟩
      · intro s hs'
        simp only [Option.some.injEq] at hs'
        omega
    cases hq : Index (text.drop start) quote with
    | none =>
      simp only [splitPass, hs, hq]
      exact onSpace
    | some qi =>
      have hq1 := hquote qi hq
      by_cases hlt : si < qi
      · simp only [splitPass, hs, hq, hlt, if_true]
        exact onSpace
      · cases hn : Index (text.drop (start + qi + 1)) quote with
        | none =>
          simp only [splitPass, hs, hq, hn, hlt, if_false]
          refine ⟨?_, fun s hs' => by cases hs'⟩
          intro b hb
          simp only [List.mem_cons, List.mem_singleton, List.not_mem_nil, or_false] at hb
          rcases hb with rfl | rfl | rfl
          · exact ⟨h, le_refl _⟩
          · exact ⟨h, le_refl _⟩
          · exact ⟨hq1, le_refl _⟩
        | some nq =>
          have hq2 := hnext qi nq hq hn
          simp only [splitPass, hs, hq, hn, hlt, if_false]
          refine ⟨?_, ?_⟩
          · intro b hb
            simp only [List.mem_cons, List.mem_singleton, List.not_mem_nil, or_false] at hb
            rcases hb with rfl | rfl | rfl | rfl
            · exact ⟨h, le_refl _⟩
            · exact ⟨h, le_refl _⟩
            · exact ⟨hq1, le_refl _⟩
            · exact ⟨by simp only; omega, by simp only; omega⟩
          · intro s hs'
            simp only [Option.some.injEq] at hs'
            omega

/-- The scan positions of a run from a position within the text increase
strictly and stay within the text. -/
theorem scanPositions_bounds (text : Str) :
    ∀ (fuel start : Nat), start ≤ text.length →
      List.Chain' (· < ·) (scanPositions text fuel start) ∧
        (∀ p ∈ scanPositions text fuel start, start ≤ p ∧ p ≤ text.length) := by
  intro fuel
  induction fuel with
  | zero => intro start _; simp [scanPositions]
  | succ fuel ih =>
    intro start h
    obtain ⟨_, hstep⟩ := splitPass_bounds text start h
    cases hn : (splitPass text start).next with
    | none =>
      simp only [scanPositions, hn]
      refine ⟨List.chain'_singleton _, ?_⟩
      intro p hp
      rw [List.mem_singleton] at hp
      subst hp
      exact ⟨le_refl _, h⟩
    | some s =>
      obtain ⟨h1, h2⟩ := hstep s hn
      obtain ⟨hc, hb⟩ := ih s h2
      simp only [scanPositions, hn]
      refine ⟨List.chain'_cons'.2 ⟨?_, hc⟩, ?_⟩
      · intro y hy
        have := (hb y (List.mem_of_mem_head? hy)).1
        omega
      · intro p hp
        rcases List.mem_cons.1 hp with rfl | hp
        · exact ⟨le_refl _, h⟩
        · have := hb p hp
          omega

/-- C32: `splitSearchString` returns on every text (its loop ends within the
bound of one pass per character of the trimmed text, plus one); the loop makes
the pass `splitPass` at each scan position and goes on from the position the
pass returns; and for the trimmed text, a pass from a position within the text
evaluates only slice expressions `text[lo:hi]` with `lo <= hi <= len(text)`,
and when the loop does not stop the new position is strictly greater and not
beyond `len(text)`; so the positions of every run from 0 increase strictly and
stay within the text. -/
theorem C32_split_terminates (text : Str) :
    (∃ parts, splitSearchString text = some parts) ∧
    (∀ (fuel start : Nat) (parts : List Str),
      splitLoop (TrimSpace text) (fuel + 1) start parts =
        (match (splitPass (TrimSpace text) start).next with
        | none => some (parts ++ (splitPass (TrimSpace text) start).token.toList)
        | some s =>
          splitLoop (TrimSpace text) fuel s
            (parts ++ (splitPass (TrimSpace text) start).token.toList))) ∧
    (∀ start : Nat, start ≤ (TrimSpace text).length →
      (∀ b ∈ (splitPass (TrimSpace text) start).slices,
        b.1 ≤ b.2 ∧ b.2 ≤ (TrimSpace text).length) ∧
      ∀ s, (splitPass (TrimSpace text) start).next = some s →
        start < s ∧ s ≤ (TrimSpace text).length) ∧
    (∀ fuel : Nat, List.Chain' (· < ·) (scanPositions (TrimSpace text) fuel 0) ∧
      ∀ p ∈ scanPositions (TrimSpace text) fuel 0, p ≤ (TrimSpace text).length) := by
  refine ⟨splitSearchString_total text, fun fuel start parts => splitLoop_pass _ fuel start parts,
    fun start h => splitPass_bounds _ start h, fun fuel => ?_⟩
  obtain ⟨h1, h2⟩ := scanPositions_bounds (TrimSpace text) fuel 0 (Nat.zero_le _)
  exact ⟨h1, fun p hp => (h2 p hp).2⟩

/-- C32 at ` a 'b c' d `: the trimmed text has 9 characters, the tokens are
`a`, `'b c'`, the empty token and `d`, and the passes start at 0, 2, 7 and 8. -/
theorem C32_split_terminates_witness :
    TrimSpace " a 'b c' d ".toList = "a 'b c' d".toList ∧
    splitSearchString " a 'b c' d ".toList =
      some ["a".toList, "'b c'".toList, [], "d".toList] ∧
    scanPositions (TrimSpace " a 'b c' d ".toList) 10 0 = [0, 2, 7, 8] ∧
    (∃ parts, splitSearchString " a 'b c' d ".toList = some parts) ∧
    List.Chain' (· < ·) (scanPositions (TrimSpace " a 'b c' d ".toList) 10 0) ∧
    ∀ p ∈ scanPositions (TrimSpace " a 'b c' d ".toList) 10 0,
      p ≤ (TrimSpace " a 'b c' d ".toList).length := by
  obtain ⟨h1, _, _, h4⟩ := C32_split_terminates " a 'b c' d ".toList
  exact ⟨by decide, by decide, by decide, h1, (h4 10).1, (h4 10).2⟩

theorem plain_no_space {s : Str} (hs : ∀ c ∈ s, isSpace c = false ∧ c ≠ quote) :
    ' ' ∉ s ∧ quote ∉ s :=
  ⟨fun hm => by have := (hs _ hm).1; revert this; decide, fun hm => (hs _ hm).2 rfl⟩

theorem TrimSpace_plain {s : Str} (hs : ∀ c ∈ s, isSpace c = false ∧ c ≠ quote) :
    TrimSpace s = s :=
  TrimSpace_eq (fun c hc => (hs c (List.mem_of_mem_head? hc)).1)
    (fun c hc => (hs c (List.mem_of_mem_getLast? hc)).1)

theorem TrimSpace_span (a q : Str) (ha : ∀ c ∈ a, isSpace c = false ∧ c ≠ quote) :
    TrimSpace (a ++ quote :: (q ++ [quote])) = a ++ quote :: (q ++ [quote]) := by
  have hqs : isSpace quote = false := by decide
  rw [TrimSpace_stop _ _ _ hqs, trimRight_concat q quote hqs,
    dropWhile_self isSpace a (fun c hc => (ha c (List.mem_of_mem_head? hc)).1)]

/-- A token has no white space at its head and at its end. -/
theorem isToken_ends {s : Str} (h : isToken s) :
    (∀ c ∈ s.head?, isSpace c = false) ∧ (∀ c ∈ s.getLast?, isSpace c = false) := by
  obtain ⟨_, hs | ⟨a, q, rfl, ha, _⟩⟩ := h
  · exact ⟨fun c hc => (hs c (List.mem_of_mem_head? hc)).1,
      fun c hc => (hs c (List.mem_of_mem_getLast? hc)).1⟩
  · constructor
    · intro c hc
      cases a with
      | nil =>
        simp only [List.nil_append, List.head?_cons, Option.mem_def, Option.some.injEq] at hc
        subst hc
        decide
      | cons x a' =>
        simp only [List.cons_append, List.head?_cons, Option.mem_def, Option.some.injEq] at hc
        subst hc
        exact (ha _ (by simp)).1
    · intro c hc
      have e : a ++ quote :: (q ++ [quote]) = (a ++ quote :: q) ++ [quote] := by simp
      rw [e, List.getLast?_append] at hc
      have hq : c = quote := by simpa [Option.or] using hc.symm
      subst hq
      decide

theorem scan_plain_space {s : Str} (hs : ∀ c ∈ s, isSpace c = false ∧ c ≠ quote) (rest : Str)
    (fuel : Nat) : scan (s ++ ' ' :: rest) (fuel + 1) = (scan rest fuel).map (s :: ·) := by
  obtain ⟨h1, h2⟩ := plain_no_space hs
  rw [scan_space s rest fuel h1 h2, TrimSpace_plain hs]

theorem scan_span_space (a q : Str) (ha : ∀ c ∈ a, isSpace c = false ∧ c ≠ quote)
    (hq : quote ∉ q) (rest : Str) (fuel : Nat) :
    scan (a ++ quote :: (q ++ [quote]) ++ ' ' :: rest) (fuel + 2) =
      (scan rest fuel).map (fun ts => (a ++ quote :: (q ++ [quote])) :: [] :: ts) := by
  obtain ⟨h1, h2⟩ := plain_no_space ha
  have e : a ++ quote :: (q ++ [quote]) ++ ' ' :: rest =
      a ++ quote :: (q ++ quote :: (' ' :: rest)) := by simp
  have e2 : scan (' ' :: rest) (fuel + 1) = (scan rest fuel).map (TrimSpace [] :: ·) :=
    scan_space [] rest fuel (by simp) (by simp)
  rw [e, scan_quote a q (' ' :: rest) (fuel + 1) h1 h2 hq, TrimSpace_span a q ha, e2]
  cases scan rest fuel with
  | none => rfl
  | some r => rfl

theorem scan_plain_end {s : Str} (hs : ∀ c ∈ s, isSpace c = false ∧ c ≠ quote) (fuel : Nat) :
    scan s (fuel + 1) = some [s] := by
  obtain ⟨h1, h2⟩ := plain_no_space hs
  rw [scan_end s fuel h1 h2, TrimSpace_plain hs]

theorem scan_span_end (a q : Str) (ha : ∀ c ∈ a, isSpace c = false ∧ c ≠ quote)
    (hq : quote ∉ q) (fuel : Nat) :
    scan (a ++ quote :: (q ++ [quote])) (fuel + 2) = some [a ++ quote :: (q ++ [quote]), []] := by
  obtain ⟨h1, h2⟩ := plain_no_space ha
  have e : a ++ quote :: (q ++ [quote]) = a ++ quote :: (q ++ quote :: []) := rfl
  have e2 : scan [] (fuel + 1) = some [TrimSpace []] := scan_end [] fuel (by simp) (by simp)
  rw [e, scan_quote a q [] (fuel + 1) h1 h2 hq, e2]
  have e3 := TrimSpace_span a q ha
  rw [e] at e3
  rw [e3]
  rfl

/-- The tokens of two tokens written with one space between them: the two
tokens, with an empty token after each quoted span. -/
theorem splitSearchString_two {s t : Str} (hs : isToken s) (ht : isToken t) :
    ∃ parts, splitSearchString (s ++ ' ' :: t) = some parts ∧
      parts.filter (fun p => decide (p ≠ [])) = [s, t] := by
  have htrim : TrimSpace (s ++ ' ' :: t) = s ++ ' ' :: t := by
    refine TrimSpace_eq ?_ ?_
    · intro c hc
      have hne := hs.1
      cases s with
      | nil => exact absurd rfl hne
      | cons x s' =>
        simp only [List.cons_append, List.head?_cons, Option.mem_def, Option.some.injEq] at hc
        exact (isToken_ends hs).1 c (by simpa using hc)
    · intro c hc
      have hne := ht.1
      have e : s ++ ' ' :: t = (s ++ [' ']) ++ t := by simp
      rw [e, List.getLast?_append] at hc
      cases hl : t.getLast? with
      | none =>
        rw [List.getLast?_eq_none_iff] at hl
        exact absurd hl hne
      | some d =>
        rw [hl] at hc
        simp only [Option.or, Option.mem_def, Option.some.injEq] at hc
        subst hc
        exact (isToken_ends ht).2 d hl
  have hsne : decide (s ≠ []) = true := by simpa using hs.1
  have htne : decide (t ≠ []) = true := by simpa using ht.1
  have hslen : 0 < s.length := List.length_pos.2 hs.1
  have htlen : 0 < t.length := List.length_pos.2 ht.1
  rw [splitSearchString_scan _ (by rw [htrim]; simp), htrim]
  obtain ⟨_, hs' | ⟨a, q, rfl, ha, hq⟩⟩ := hs
  · obtain ⟨_, ht' | ⟨a2, q2, rfl, ha2, hq2⟩⟩ := ht
    · obtain ⟨f, hf⟩ : ∃ f, (s ++ ' ' :: t).length = f + 1 :=
        ⟨(s ++ ' ' :: t).length - 1, by simp; omega⟩
      rw [scan_plain_space hs' t, hf, scan_plain_end ht' f]
      exact ⟨_, rfl, by simp [List.filter, hsne, htne]⟩
    · obtain ⟨f, hf⟩ : ∃ f, (s ++ ' ' :: (a2 ++ quote :: (q2 ++ [quote]))).length = f + 2 :=
        ⟨(s ++ ' ' :: (a2 ++ quote :: (q2 ++ [quote]))).length - 2, by simp; omega⟩
      rw [scan_plain_space hs' _, hf, scan_span_end a2 q2 ha2 hq2 f]
      exact ⟨_, rfl, by simp [List.filter, hsne, htne]⟩
  · obtain ⟨_, ht' | ⟨a2, q2, rfl, ha2, hq2⟩⟩ := ht
    · obtain ⟨f, hf⟩ : ∃ f, (a ++ quote :: (q ++ [quote]) ++ ' ' :: t).length + 1 = f + 1 + 2 :=
        ⟨(a ++ quote :: (q ++ [quote]) ++ ' ' :: t).length - 2, by simp; omega⟩
      rw [hf, scan_span_space a q ha hq t (f + 1), scan_plain_end ht' f]
      exact ⟨_, rfl, by simp [List.filter, hsne, htne]⟩
    · obtain ⟨f, hf⟩ : ∃ f, (a ++ quote :: (q ++ [quote]) ++ ' ' ::
          (a2 ++ quote :: (q2 ++ [quote]))).length + 1 = f + 2 + 2 :=
        ⟨(a ++ quote :: (q ++ [quote]) ++ ' ' :: (a2 ++ quote :: (q2 ++ [quote]))).length - 3,
          by simp; omega⟩
      rw [hf, scan_span_space a q ha hq _ (f + 2), scan_span_end a2 q2 ha2 hq2 f]
      exact ⟨_, rfl, by simp [List.filter, hsne, htne]⟩

/-- The loop over the tokens skips the empty tokens. -/
theorem parseParts_filter (L : Lib) (parts : List Str) (search : SearchData) :
    parseParts L parts search =
      parseParts L (parts.filter (fun p => decide (p ≠ []))) search := by
  induction parts generalizing search with
  | nil => rfl
  | cons p parts ih =>
    by_cases hp : p = []
    · subst hp
      simp only [parseParts, if_true, List.filter, ne_eq, not_true_eq_false, decide_False]
      exact ih search
    · have hd : decide (p ≠ []) = true := by simpa using hp
      simp only [parseParts, hp, if_false, List.filter, hd]
      cases parsePart L p search with
      | error e => rfl
      | ok search' => exact ih search'

/-- `ParseSearchString2` on a token: the loop body runs once, on the token. -/
theorem ParseSearchString2_isToken (L : Lib) {s : Str} (h : isToken s) :
    ParseSearchString2 L s =
      some (match parsePart L s [] with
        | .error e => ([], e)
        | .ok search => (search, none)) := by
  obtain ⟨hne, hs | ⟨a, q, rfl, ha, hq⟩⟩ := h
  · exact ParseSearchString2_token L hne hs
  · exact ParseSearchString2_span L a q ha hq

/-- The loop body on a token that `ParseSearchString2` reads alone to one
entry. -/
theorem parsePart_of_token (L : Lib) {s : Str} (hs : isToken s) (e : Str × List SearchValue)
    (h : ParseSearchString2 L s = some ([e], none)) (search : SearchData) :
    parsePart L s search = .ok (mapSet search e.1 e.2) := by
  rw [ParseSearchString2_isToken L hs] at h
  rw [parsePart_frame]
  cases hp : parsePart L s [] with
  | error err =>
    rw [hp] at h
    simp at h
  | ok m =>
    rw [hp] at h
    simp only [Option.some.injEq, Prod.mk.injEq, and_true] at h
    subst h
    rfl

theorem isFieldName_isToken {k : Str} (hk : isFieldName k = true) : isToken k :=
  ⟨isFieldName_ne_nil hk, Or.inl (isFieldName_token hk)⟩

/-- Two tokens for one field name: the map holds what the second token
assigns. -/
theorem parse_two_tokens (L : Lib) {s t : Str} (hs : isToken s) (ht : isToken t)
    (k : Str) (pu pv : List SearchValue)
    (hpu : parsePart L s [] = .ok [(k, pu)])
    (hpv : ∀ search, parsePart L t search = .ok (mapSet search k pv)) :
    ParseSearchString2 L (s ++ ' ' :: t) = some ([(k, pv)], none) := by
  obtain ⟨parts, hsplit, hfilter⟩ := splitSearchString_two hs ht
  rw [ParseSearchString2_parts L _ parts hsplit, parseParts_filter, hfilter]
  simp only [parseParts, hs.1, ht.1, if_false, hpu, hpv]
  simp [mapSet]

/-- C31: for every field name `k` and tokens `k:u`, `k:v` that
`ParseSearchString2` reads, each alone, to the predicates `pu` and `pv` of `k`,
`ParseSearchString2("k:u k:v")` maps `k` to exactly `pv` and holds no other
key, and `ParseSearchString2("k:u k")` maps `k` to the empty (nil) list and
holds no other key: the predicates of `k:u` are dropped. -/
theorem C31_last_token_wins (L : Lib) (k u v : Str) (pu pv : List SearchValue)
    (hk : isFieldName k = true)
    (hu : isToken (k ++ ':' :: u)) (hv : isToken (k ++ ':' :: v))
    (hpu : ParseSearchString2 L (k ++ ':' :: u) = some ([(k, pu)], none))
    (hpv : ParseSearchString2 L (k ++ ':' :: v) = some ([(k, pv)], none)) :
    ParseSearchString2 L ((k ++ ':' :: u) ++ ' ' :: (k ++ ':' :: v)) =
      some ([(k, pv)], none) ∧
    ParseSearchString2 L ((k ++ ':' :: u) ++ ' ' :: k) = some ([(k, [])], none) := by
  have h1 : parsePart L (k ++ ':' :: u) [] = .ok [(k, pu)] :=
    parsePart_of_token L hu (k, pu) hpu []
  constructor
  · exact parse_two_tokens L hu hv k pu pv h1
      (fun search => parsePart_of_token L hv (k, pv) hpv search)
  · exact parse_two_tokens L hu (isFieldName_isToken hk) k pu [] h1
      (fun search => parsePart_bare L k search hk)

/-- C31 at `age:18 age:30`, `age:18 age` and, with a quoted first token,
`tag:'a' tag:b`. -/
theorem C31_last_token_wins_witness :
    (isFieldName "age".toList = true ∧ isToken "age:18".toList ∧ isToken "age:30".toList ∧
      isFieldName "tag".toList = true ∧ isToken "tag:'a'".toList ∧ isToken "tag:b".toList) ∧
    ∀ L : Lib,
      (ParseSearchString2 L "age:18".toList =
          some ([("age".toList, [⟨SearchSymbolEq, .int64 18, .nil⟩])], none) ∧
        ParseSearchString2 L "age:18 age:30".toList =
          some ([("age".toList, [⟨SearchSymbolEq, .int64 30, .nil⟩])], none) ∧
        ParseSearchString2 L "age:18 age".toList = some ([("age".toList, [])], none)) ∧
      (ParseSearchString2 L "tag:'a'".toList =
          some ([("tag".toList, [⟨SearchSymbolEq, .str "a".toList, .nil⟩])], none) ∧
        ParseSearchString2 L "tag:'a' tag:b".toList =
          some ([("tag".toList, [⟨SearchSymbolEq, .str "b".toList, .nil⟩])], none) ∧
        ParseSearchString2 L "tag:'a' tag".toList = some ([("tag".toList, [])], none)) := by
  have t1 : isToken "age:18".toList := ⟨by decide, Or.inl (by decide)⟩
  have t2 : isToken "age:30".toList := ⟨by decide, Or.inl (by decide)⟩
  have t3 : isToken "tag:'a'".toList :=
    ⟨by decide, Or.inr ⟨"tag:".toList, "a".toList, by decide, by decide, by decide⟩⟩
  have t4 : isToken "tag:b".toList := ⟨by decide, Or.inl (by decide)⟩
  refine ⟨⟨by decide, t1, t2, by decide, t3, t4⟩, fun L => ⟨?_, ?_⟩⟩
  · have p2 : ParseSearchString2 L "age:30".toList =
        some ([("age".toList, [⟨SearchSymbolEq, .int64 30, .nil⟩])], none) :=
      parse_int L "age".toList "30".toList (by decide) (by decide) (by decide)
    have h := C31_last_token_wins L "age".toList "18".toList "30".toList _ _ (by decide) t1 t2
      (parse_age_18 L) p2
    exact ⟨parse_age_18 L, h.1, h.2⟩
  · have p1 : ParseSearchString2 L "tag:'a'".toList =
        some ([("tag".toList, [⟨SearchSymbolEq, .str "a".toList, .nil⟩])], none) :=
      parse_quoted_word L "tag".toList "a".toList (by decide)
        (fun c hc => valAscii_valCls L (by revert c hc; decide))
    have p2 : ParseSearchString2 L "tag:b".toList =
        some ([("tag".toList, [⟨SearchSymbolEq, .str "b".toList, .nil⟩])], none) :=
      parse_word L "tag".toList "b".toList (by decide) (by decide)
    have h := C31_last_token_wins L "tag".toList "'a'".toList "b".toList _ _ (by decide) t3 t4
      p1 p2
    exact ⟨p1, h.1, h.2⟩

theorem SameCalls.rfl (x : Option DB) : SameCalls x x := by
  cases x with
  | none => trivial
  | some a => exact List.Perm.refl a

theorem SameCalls.trans {x y z : Option DB} (h1 : SameCalls x y) (h2 : SameCalls y z) :
    SameCalls x z := by
  cases x <;> cases y <;> cases z <;> simp only [SameCalls] at h1 h2 ⊢
  exact h1.trans h2

theorem SameCalls.map_append {x y : Option DB} (h : SameCalls x y) {d d' : DB}
    (hd : d.Perm d') : SameCalls (x.map (d ++ ·)) (y.map (d' ++ ·)) := by
  cases x <;> cases y <;> simp only [SameCalls, Option.map_none', Option.map_some'] at h ⊢
  exact hd.append h

/-- The loop over `vals` adds the calls of the recursive calls after those the
builder holds. -/
theorem dbVals_appends (L : Lib) (self : SearchData → DB → Option DB) (hself : Appends self)
    (k : Str) (vals : List SearchValue) :
    ∀ (db : DB) (sc : List Str) (sa : List Any),
      dbVals L self k vals ⟨db, sc, sa⟩ =
        (dbVals L self k vals ⟨[], sc, sa⟩).map
          (fun acc => ⟨db ++ acc.db, acc.subConditions, acc.subArgs⟩) := by
  induction vals with
  | nil => intro db sc sa; simp [dbVals]
  | cons v vals ih =>
    intro db sc sa
    simp only [dbVals]
    rw [dbVal_eq, dbVal_eq]
    cases hc : comparisonOf v with
    | some oa => exact ih db _ _
    | none =>
      cases hn : nestedOf v with
      | none => exact ih db sc sa
      | some sub =>
        simp only
        rw [hself (rewriteSub L k sub) db]
        cases hs : self (rewriteSub L k sub) [] with
        | none => rfl
        | some c =>
          simp only [Option.map_some']
          rw [ih (db ++ c) sc sa, ih c sc sa]
          cases dbVals L self k vals ⟨[], sc, sa⟩ with
          | none => rfl
          | some acc => simp [List.append_assoc]

/-- One pass of the loop over the map adds its calls after those the builder
holds. -/
theorem dbEntry_appends (L : Lib) (self : SearchData → DB → Option DB) (hself : Appends self)
    (hf : SearchDataHandleFuncMap) (k : Str) (vals : List SearchValue) (db : DB) :
    dbEntry L self hf k vals db = (dbEntry L self hf k vals []).map (db ++ ·) := by
  simp only [dbEntry]
  cases lookupHandler hf k with
  | some f =>
    simp only
    split_ifs
    · simp [DB.Where]
    · simp
  | none =>
    simp only
    rw [dbVals_appends L self hself k vals db [] []]
    cases dbVals L self k vals ⟨[], [], []⟩ with
    | none => rfl
    | some acc =>
      simp only [Option.map_some']
      split_ifs
      · simp [DB.Where]
      · simp

theorem dbEntries_cons (L : Lib) (self : SearchData → DB → Option DB)
    (hf : SearchDataHandleFuncMap) (e : Str × List SearchValue) (m : SearchData) (db : DB) :
    dbEntries L self hf (e :: m) db =
      (match dbEntry L self hf e.1 e.2 db with
      | none => none
      | some db => dbEntries L self hf m db) := by
  obtain ⟨k, vals⟩ := e
  rfl

/-- The loop over the map adds its calls after those the builder holds. -/
theorem dbEntries_appends (L : Lib) (self : SearchData → DB → Option DB) (hself : Appends self)
    (hf : SearchDataHandleFuncMap) (m : SearchData) :
    ∀ db : DB, dbEntries L self hf m db = (dbEntries L self hf m []).map (db ++ ·) := by
  induction m with
  | nil => intro db; simp [dbEntries]
  | cons e m ih =>
    intro db
    rw [dbEntries_cons, dbEntries_cons, dbEntry_appends L self hself hf e.1 e.2 db]
    cases dbEntry L self hf e.1 e.2 [] with
    | none => rfl
    | some c =>
      simp only [Option.map_some']
      rw [ih (db ++ c), ih c]
      cases dbEntries L self hf m [] with
      | none => rfl
      | some r => simp [List.append_assoc]

theorem SearchDBN_appends (L : Lib) (hf : SearchDataHandleFuncMap) (n : Nat) :
    Appends (fun sub db => SearchDBN L n sub db hf) := by
  induction n with
  | zero => intro sub db; rfl
  | succ n ih =>
    intro sub db
    exact dbEntries_appends L _ ih hf sub db

/-- The loop over the map, started on builders that hold the same calls. -/
theorem dbEntries_mono (L : Lib) (self : SearchData → DB → Option DB) (hself : Appends self)
    (hf : SearchDataHandleFuncMap) (m : SearchData) {d d' : DB} (hd : d.Perm d') :
    SameCalls (dbEntries L self hf m d) (dbEntries L self hf m d') := by
  rw [dbEntries_appends L self hself hf m d, dbEntries_appends L self hself hf m d']
  exact (SameCalls.rfl _).map_append hd

/-- The loop over the map on two visiting orders: the same calls, in another
order. -/
theorem dbEntries_perm (L : Lib) (self : SearchData → DB → Option DB) (hself : Appends self)
    (hf : SearchDataHandleFuncMap) {m m' : SearchData} (hp : m.Perm m') :
    ∀ db : DB, SameCalls (dbEntries L self hf m db) (dbEntries L self hf m' db) := by
  induction hp with
  | nil => intro db; exact SameCalls.rfl _
  | cons x _ ih =>
    intro db
    rw [dbEntries_cons, dbEntries_cons]
    cases dbEntry L self hf x.1 x.2 db with
    | none => trivial
    | some d => exact ih d
  | swap x y l =>
    intro db
    rw [dbEntries_cons, dbEntries_cons L self hf x,
      dbEntry_appends L self hself hf y.1 y.2 db, dbEntry_appends L self hself hf x.1 x.2 db]
    cases hy : dbEntry L self hf y.1 y.2 [] with
    | none =>
      simp only [Option.map_none']
      cases hx : dbEntry L self hf x.1 x.2 [] with
      | none => trivial
      | some cx =>
        simp only [Option.map_some']
        rw [dbEntries_cons, dbEntry_appends L self hself hf y.1 y.2 (db ++ cx), hy]
        trivial
    | some cy =>
      simp only [Option.map_some']
      rw [dbEntries_cons, dbEntry_appends L self hself hf x.1 x.2 (db ++ cy)]
      cases hx : dbEntry L self hf x.1 x.2 [] with
      | none => trivial
      | some cx =>
        simp only [Option.map_some']
        rw [dbEntries_cons, dbEntry_appends L self hself hf y.1 y.2 (db ++ cx), hy]
        simp only [Option.map_some']
        refine dbEntries_mono L self hself hf l ?_
        rw [List.append_assoc, List.append_assoc]
        exact List.Perm.append_left db List.perm_append_comm
  | trans _ _ ih1 ih2 => intro db; exact (ih1 db).trans (ih2 db)

theorem sameAcc_refl (x : Option DBAcc) : SameAcc x x := by
  cases x with
  | none => trivial
  | some a => exact ⟨List.Perm.refl _, rfl, rfl⟩

/-- The loop over `vals`, started on builders that hold the same calls. -/
theorem dbVals_mono (L : Lib) (self : SearchData → DB → Option DB) (hself : Appends self)
    (k : Str) (vals : List SearchValue) {d d' : DB} (hd : d.Perm d') (sc : List Str)
    (sa : List Any) :
    SameAcc (dbVals L self k vals ⟨d, sc, sa⟩) (dbVals L self k vals ⟨d', sc, sa⟩) := by
  rw [dbVals_appends L self hself k vals d, dbVals_appends L self hself k vals d']
  cases dbVals L self k vals ⟨[], sc, sa⟩ with
  | none => trivial
  | some acc => exact ⟨hd.append_right _, rfl, rfl⟩

/-- The loop over `vals` when the nested map of one nested-search predicate is
visited in another order. -/
theorem dbVals_nested (L : Lib) (self : SearchData → DB → Option DB) (hself : Appends self)
    (k : Str) (vs ws : List SearchValue) (sub sub' : SearchData) (v2 : Any)
    (hsub : SameCalls (self (rewriteSub L k sub) []) (self (rewriteSub L k sub') [])) :
    ∀ acc : DBAcc,
      SameAcc (dbVals L self k (vs ++ ⟨SearchSymbolSearch, .searchData sub, v2⟩ :: ws) acc)
        (dbVals L self k (vs ++ ⟨SearchSymbolSearch, .searchData sub', v2⟩ :: ws) acc) := by
  induction vs with
  | nil =>
    intro acc
    obtain ⟨d, sc, sa⟩ := acc
    have e : ∀ s : SearchData, dbVal L self k ⟨d, sc, sa⟩ ⟨SearchSymbolSearch, .searchData s, v2⟩ =
        (match self (rewriteSub L k s) d with
        | none => none
        | some db => some ⟨db, sc, sa⟩) := fun _ => rfl
    simp only [List.nil_append, dbVals, e]
    rw [hself (rewriteSub L k sub) d, hself (rewriteSub L k sub') d]
    cases h1 : self (rewriteSub L k sub) [] with
    | none =>
      cases h2 : self (rewriteSub L k sub') [] with
      | none => trivial
      | some c' => rw [h1, h2] at hsub; exact hsub.elim
    | some c =>
      cases h2 : self (rewriteSub L k sub') [] with
      | none => rw [h1, h2] at hsub; exact hsub.elim
      | some c' =>
        rw [h1, h2] at hsub
        simp only [Option.map_some']
        exact dbVals_mono L self hself k ws (List.Perm.append_left d hsub) sc sa
  | cons u vs ih =>
    intro acc
    simp only [List.cons_append, dbVals]
    cases dbVal L self k acc u with
    | none => trivial
    | some acc1 => exact ih acc1

/-- One pass of the loop over the map, without overrides, when the nested map
of one nested-search predicate is visited in another order. -/
theorem dbEntry_nested (L : Lib) (self : SearchData → DB → Option DB) (hself : Appends self)
    (k : Str) (vs ws : List SearchValue) (sub sub' : SearchData) (v2 : Any)
    (hsub : SameCalls (self (rewriteSub L k sub) []) (self (rewriteSub L k sub') []))
    (db : DB) :
    SameCalls
      (dbEntry L self none k (vs ++ ⟨SearchSymbolSearch, .searchData sub, v2⟩ :: ws) db)
      (dbEntry L self none k (vs ++ ⟨SearchSymbolSearch, .searchData sub', v2⟩ :: ws) db) := by
  have h := dbVals_nested L self hself k vs ws sub sub' v2 hsub ⟨db, [], []⟩
  have hl : lookupHandler none k = none := rfl
  simp only [dbEntry, hl]
  cases h1 : dbVals L self k (vs ++ ⟨SearchSymbolSearch, .searchData sub, v2⟩ :: ws)
      ⟨db, [], []⟩ with
  | none =>
    cases h2 : dbVals L self k (vs ++ ⟨SearchSymbolSearch, .searchData sub', v2⟩ :: ws)
        ⟨db, [], []⟩ with
    | none => trivial
    | some b => rw [h1, h2] at h; exact h.elim
  | some a =>
    cases h2 : dbVals L self k (vs ++ ⟨SearchSymbolSearch, .searchData sub', v2⟩ :: ws)
        ⟨db, [], []⟩ with
    | none => rw [h1, h2] at h; exact h.elim
    | some b =>
      rw [h1, h2] at h
      obtain ⟨hp, hc, ha⟩ := h
      simp only
      rw [hc, ha]
      split_ifs
      · exact hp.append_right _
      · exact hp

/-- The loop over the map, without overrides, when the nested map of one
nested-search predicate is visited in another order. -/
theorem dbEntries_nested (L : Lib) (self : SearchData → DB → Option DB) (hself : Appends self)
    (pre post : SearchData) (k : Str) (vs ws : List SearchValue) (sub sub' : SearchData)
    (v2 : Any)
    (hsub : SameCalls (self (rewriteSub L k sub) []) (self (rewriteSub L k sub') [])) :
    ∀ db : DB, SameCalls
      (dbEntries L self none
        (pre ++ (k, vs ++ ⟨SearchSymbolSearch, .searchData sub, v2⟩ :: ws) :: post) db)
      (dbEntries L self none
        (pre ++ (k, vs ++ ⟨SearchSymbolSearch, .searchData sub', v2⟩ :: ws) :: post) db) := by
  induction pre with
  | nil =>
    intro db
    have h := dbEntry_nested L self hself k vs ws sub sub' v2 hsub db
    simp only [List.nil_append]
    rw [dbEntries_cons, dbEntries_cons]
    simp only
    cases h1 : dbEntry L self none k (vs ++ ⟨SearchSymbolSearch, .searchData sub, v2⟩ :: ws)
        db with
    | none =>
      cases h2 : dbEntry L self none k
          (vs ++ ⟨SearchSymbolSearch, .searchData sub', v2⟩ :: ws) db with
      | none => trivial
      | some b => rw [h1, h2] at h; exact h.elim
    | some a =>
      cases h2 : dbEntry L self none k
          (vs ++ ⟨SearchSymbolSearch, .searchData sub', v2⟩ :: ws) db with
      | none => rw [h1, h2] at h; exact h.elim
      | some b =>
        rw [h1, h2] at h
        exact dbEntries_mono L self hself none post h
  | cons e pre ih =>
    intro db
    simp only [List.cons_append]
    rw [dbEntries_cons, dbEntries_cons]
    cases dbEntry L self none e.1 e.2 db with
    | none => trivial
    | some d => exact ih d

/-- The map of the recursive call on two visiting orders of a nested map. -/
theorem rewriteSub_perm (L : Lib) (k : Str) {sub sub' : SearchData} (hp : sub.Perm sub')
    (hnd : (keys sub).Nodup) : (rewriteSub L k sub).Perm (rewriteSub L k sub') := by
  have hnd' : (keys sub').Nodup := (List.Perm.nodup_iff (hp.map Prod.fst)).1 hnd
  rw [rewriteSub_filterMap L k sub hnd, rewriteSub_filterMap L k sub' hnd']
  exact hp.filterMap _

/-- The mutation backend without overrides on two visiting orders of one map:
the same calls, in another order. -/
theorem SearchDB_reordered (L : Lib) {m m' : SearchData} (h : Reordered m m') :
    ∀ db : DB, SameCalls (SearchDB L m db none) (SearchDB L m' db none) := by
  induction h with
  | refl m => intro db; exact SameCalls.rfl _
  | perm hp =>
    intro db
    exact dbEntries_perm L _ (SearchDBN_appends L none 1) none hp db
  | nested pre post k vs ws sub sub' v2 hp hnd =>
    intro db
    refine dbEntries_nested L _ (SearchDBN_appends L none 1) pre post k vs ws sub sub' v2 ?_ db
    exact dbEntries_perm L _ (SearchDBN_appends L none 0) none (rewriteSub_perm L k hp hnd) []
  | trans _ _ ih1 ih2 => intro db; exact (ih1 db).trans (ih2 db)

theorem SearchDB_appends (L : Lib) (m : SearchData) (db : DB) :
    SearchDB L m db none = (SearchDB L m [] none).map (db ++ ·) :=
  SearchDBN_appends L none 2 m db

/-- The list `backendsReordered` is `backendsData` in another visiting order. -/
theorem backends_reordered : Reordered backendsData backendsReordered :=
  Reordered.trans
    (Reordered.nested [] [("age".toList,
        [⟨SearchSymbolGt, .int64 3, .nil⟩, ⟨SearchSymbolLt, .int64 9, .nil⟩])]
      "tags".toList [] [⟨SearchSymbolEq, .int64 3, .nil⟩]
      [("color".toList, [⟨SearchSymbolEq, .str "red".toList, .nil⟩]),
        ("n".toList, [⟨SearchSymbolRange, .int64 1, .int64 2⟩])]
      [("n".toList, [⟨SearchSymbolRange, .int64 1, .int64 2⟩]),
        ("color".toList, [⟨SearchSymbolEq, .str "red".toList, .nil⟩])]
      .nil (List.Perm.swap _ _ _) (by decide))
    (Reordered.perm (List.Perm.swap _ _ _))

/-- C11, as the code has it: modelling the query builder as the list of
`Where(condition, args...)` calls it has received, for every predicate mapping,
nested groups included, and no overrides: whenever `WhereString(m, nil)`
succeeds with `(clause, args)` having visited the mapping in the order `m`,
`SearchDB(m, nil)` visiting it in that same order returns on every builder, the
conditions of the calls it adds, each wrapped in parentheses and joined with
` AND ` in the order added, are `clause`, and the concatenation of their
arguments is `args`; visiting the mapping in any other order `m'` (the top
level or a nested map ranged in another order) it returns too and adds the
same calls in another order. -/
theorem C11_backends_agree (L : Lib) (m m' : SearchData) (clause : Str) (args : List Any)
    (h : WhereString L m none = some (clause, args, none)) (hr : Reordered m m') (db : DB) :
    ∃ calls calls', SearchDB L m db none = some (db ++ calls) ∧
      Join (renderCalls calls) " AND ".toList = clause ∧
      callArgs calls = args.map Arg.val ∧
      SearchDB L m' db none = some (db ++ calls') ∧ calls.Perm calls' := by
  obtain ⟨calls, h1, -, h2, h3⟩ := SearchDBN_agree L 2 m clause args h db
  replace h1 : SearchDB L m db none = some (db ++ calls) := h1
  have hs := SearchDB_reordered L hr db
  rw [h1, SearchDB_appends L m' db] at hs
  cases h' : SearchDB L m' [] none with
  | none => rw [h'] at hs; exact hs.elim
  | some c' =>
    rw [h'] at hs
    refine ⟨calls, c', h1, h2, h3, ?_, (List.perm_append_left_iff db).1 hs⟩
    rw [SearchDB_appends L m' db, h']
    rfl

/-- C11 at a mapping with a nested group of two fields and two flat fields, the
second visit taking the fields and the nested map in the other order. -/
theorem C11_backends_agree_witness :
    ((∀ L : Lib, WhereString L backendsData none = some (backendsClause, backendsArgs, none)) ∧
      Reordered backendsData backendsReordered) ∧
    ∀ L : Lib, ∃ calls calls', SearchDB L backendsData [] none = some ([] ++ calls) ∧
      Join (renderCalls calls) " AND ".toList = backendsClause ∧
      callArgs calls = backendsArgs.map Arg.val ∧
      SearchDB L backendsReordered [] none = some ([] ++ calls') ∧ calls.Perm calls' :=
  ⟨⟨backends_example, backends_reordered⟩, fun L =>
    C11_backends_agree L backendsData backendsReordered backendsClause backendsArgs
      (backends_example L) backends_reordered []⟩

/-- The clause `WhereString` builds for `name:x age:>3` visited `name` first. -/
theorem nameAge_clause (L : Lib) :
    WhereString L nameAgeData none =
      some ("(name = ?) AND (age > ?)".toList, [.str "x".toList, .int64 3], none) := by rfl

/-- The calls `SearchDB` adds for `name:x age:>3` visited `age` first. -/
theorem ageName_calls (L : Lib) :
    SearchDB L ageNameData [] none =
      some [⟨"age > ?".toList, [.val (.int64 3)]⟩,
        ⟨"name = ?".toList, [.val (.str "x".toList)]⟩] := by rfl

/-- C11 fails as stated: the two functions range over the mapping
independently, so for `name:x age:>3` `WhereString` may visit `name` first and
build `(name = ?) AND (age > ?)` while `SearchDB` visits `age` first and adds
`age > ?` then `name = ?`, whose join in the order added is
`(age > ?) AND (name = ?)`. -/
theorem C11_counterexample :
    ¬ ∀ (L : Lib) (m m' : SearchData) (clause : Str) (args : List Any) (calls : DB),
      m.Perm m' → WhereString L m none = some (clause, args, none) →
      SearchDB L m' [] none = some calls →
      Join (renderCalls calls) " AND ".toList = clause := by
  intro h
  obtain ⟨L⟩ := Lib_nonempty
  have h1 := h L nameAgeData ageNameData _ _ _ (List.Perm.swap _ _ _)
    (nameAge_clause L) (ageName_calls L)
  revert h1
  decide

end Search
